import Mathlib

/-!
# PlugBackupUI: the backup engine (`BackupWorker`) as a shallow embedding

The worker of `src/backupworker.cpp` is translated function by function.
Everything the C++ code obtains from outside the worker (the state of the
destination volume, the stop and pause flags written by the controller
thread, the outcome of each filesystem primitive, clocks) is read from an
environment `Env` of tapes; the worker's own mutable state and the
filesystem live in `World` and are threaded explicitly.  Loops that wait on
the environment take fuel and return `none` when it runs out.
-/

namespace PlugBackup

/-! ## Strings and paths (models of the Qt path helpers the worker calls) -/

/-- Test `QString::startsWith`. -/
def startsWith (s p : String) : Bool := p.data.isPrefixOf s.data

/-- Test `QString::endsWith` (case-sensitive). -/
def endsWith (s p : String) : Bool := p.data.reverse.isPrefixOf s.data.reverse

/-- Substring test on character lists. -/
def infixOf (p : List Char) : List Char → Bool
  | [] => p.isEmpty
  | c :: cs => p.isPrefixOf (c :: cs) || infixOf p cs

/-- Test `QString::contains`. -/
def containsStr (s p : String) : Bool := infixOf p.data s.data

/-- Split a character list at every `/`, keeping empty components. -/
def splitSlash : List Char → List (List Char)
  | [] => [[]]
  | c :: cs =>
    if c = '/' then [] :: splitSlash cs
    else match splitSlash cs with
      | [] => [[c]]
      | h :: t => (c :: h) :: t

/-- Join components with `/`. -/
def joinSlash : List (List Char) → List Char
  | [] => []
  | [a] => a
  | a :: b :: t => a ++ '/' :: joinSlash (b :: t)

/-- One step of `QDir::cleanPath`: the stack of kept components is held newest first. -/
def cleanStep (absolute : Bool) (stack : List (List Char)) (comp : List Char) : List (List Char) :=
  if comp = [] ∨ comp = ['.'] then stack
  else if comp = ['.', '.'] then
    match stack with
    | [] => if absolute then [] else [comp]
    | top :: rest => if top = ['.', '.'] then comp :: stack else rest
  else comp :: stack

/-- Model of `QDir::cleanPath` for forward-slash paths: empty and `.` components are dropped,
`..` cancels the component before it, a relative path that cancels to nothing is `.`. -/
def cleanPath (p : String) : String :=
  if p.data = [] then "" else
  let absolute := p.data.head? = some '/'
  let kept := ((splitSlash p.data).foldl (cleanStep absolute) []).reverse
  if absolute then ⟨'/' :: joinSlash kept⟩
  else if kept = [] then "." else ⟨joinSlash kept⟩

/-- Test `QDir::isAbsolutePath` (forward-slash paths). -/
def isAbsolutePath (p : String) : Bool := p.data.head? = some '/'

/-- Value of `QDir(dir).absolutePath()`: a relative `dir` is resolved against the working directory. -/
def absolutePath (cwd dir : String) : String :=
  if isAbsolutePath dir then cleanPath dir else cleanPath (cwd ++ "/" ++ dir)

/-- Value of `QDir(dir).absoluteFilePath(name)`: an absolute `name` is returned as it is, an empty one
gives the directory, otherwise the name is appended (it is not cleaned). -/
def absoluteFilePath (cwd dir name : String) : String :=
  if isAbsolutePath name then name
  else
    let d := absolutePath cwd dir
    if name.data = [] then d
    else if endsWith d "/" then d ++ name else d ++ "/" ++ name

/-- Characters after the last `/` (all of them when there is none). -/
def afterLastSlash (l : List Char) : List Char :=
  (l.reverse.takeWhile (fun c => c ≠ '/')).reverse

/-- Value of `QFileInfo(p).fileName()`. -/
def fileName (p : String) : String := ⟨afterLastSlash p.data⟩

/-- Value of `QFileInfo(p).path()`: what precedes the last `/`; `.` when there is none, `/` for a file in the root. -/
def filePathDir (p : String) : String :=
  let r := p.data.reverse.dropWhile (fun c => c ≠ '/')
  match r with
  | [] => "."
  | [_] => "/"
  | _ :: rest => ⟨rest.reverse⟩

/-- Value of `QFileInfo(p).completeBaseName()`: the file name up to, not including, its last `.`. -/
def completeBaseName (p : String) : String :=
  let n := afterLastSlash p.data
  if n.contains '.' then ⟨(n.reverse.dropWhile (fun c => c ≠ '.')).reverse.dropLast⟩ else ⟨n⟩

/-- Value of `QDir(root).relativeFilePath(abs)` for an `abs` below `root`. -/
def relativeFilePath (root abs : String) : String :=
  let r := if endsWith root "/" then root.data else root.data ++ ['/']
  if r.isPrefixOf abs.data then ⟨abs.data.drop r.length⟩ else abs

/-- Test `QString::endsWith(suffix, Qt::CaseInsensitive)` for ASCII suffixes. -/
def endsWithCI (s p : String) : Bool :=
  (p.data.map Char.toLower).reverse.isPrefixOf (s.data.map Char.toLower).reverse

/-- Index found by `QString::lastIndexOf(marker)`: the last position at which `marker` starts. -/
def lastIndexOf (marker : List Char) : List Char → Option Nat
  | [] => if marker.isEmpty then some 0 else none
  | c :: cs =>
    match lastIndexOf marker cs with
    | some i => some (i + 1)
    | none => if marker.isPrefixOf (c :: cs) then some 0 else none

/-! ## Data model -/

/-- Record `BackupWorker::Options`. -/
structure Options where
  srcDir : String
  dstDir : String
  verifyAfterWrite : Bool
  maxRetries : Int
  ignoreGlobs : List String
  filesWhitelist : List String
  speedLimitBps : Int
  keepVersionsOnChange : Bool
  keepDeletedInVault : Bool
  retentionDays : Int
  nsName : String

/-- What one `QStorageInfo(dstDir)` reports. -/
structure DevObs where
  valid : Bool
  ready : Bool
  readOnly : Bool
  device : String
deriving DecidableEq

/-- A regular file: its bytes and its modification time in seconds since the epoch. -/
structure FileData where
  content : List Nat
  mtime : Int
deriving DecidableEq

/-- The filesystem: regular files by absolute path (the first entry of a path counts) and the
directories created by `mkpath`. -/
structure FS where
  files : List (String × FileData)
  dirs : List String

/-- The file stored at a path. -/
def FS.get (fs : FS) (p : String) : Option FileData :=
  (fs.files.find? (fun e => decide (e.1 = p))).map (fun e => e.2)

/-- The filesystem without the file at `p`. -/
def FS.erase (fs : FS) (p : String) : FS :=
  { fs with files := fs.files.filter (fun e => decide (e.1 ≠ p)) }

/-- The filesystem with `d` stored at `p`. -/
def FS.put (fs : FS) (p : String) (d : FileData) : FS :=
  { fs with files := (p, d) :: fs.files.filter (fun e => decide (e.1 ≠ p)) }

/-- Test `QFileInfo(p).isFile()`. -/
def FS.isFile (fs : FS) (p : String) : Bool := (fs.get p).isSome

/-- Test `QDir(p).exists()`: the directory was created, or a file lies below it. -/
def FS.dirExists (fs : FS) (p : String) : Bool :=
  fs.dirs.contains p || fs.files.any (fun e => startsWith e.1 (p ++ "/"))

/-- Test `QFile::exists(p)`: a file or a directory. -/
def FS.pathExists (fs : FS) (p : String) : Bool := fs.isFile p || fs.dirExists p

/-- The path `q`, one that starts with `root ++ "/"`, has a hidden component below `root`: one
whose name starts with a dot (the rule of Unix; the hidden attribute of Windows is not
modelled). -/
def hiddenBelow (root q : String) : Bool :=
  (splitSlash (q.data.drop (root.data.length + 1))).any (fun c => decide (c.head? = some '.'))

/-- Paths a `QDirIterator(root, QDir::Files, Subdirectories)` yields: every regular file below
`root`, once, that is not hidden and lies in no hidden directory below `root`: without
`QDir::Hidden` among its filters the iterator neither yields a hidden file nor enters a hidden
directory. -/
def FS.filesUnder (fs : FS) (root : String) : List String :=
  ((fs.files.map (fun e => e.1)).filter
    (fun q => startsWith q (root ++ "/") && !hiddenBelow root q)).dedup

/-- Signals of `BackupWorker` that the trace records.  `speedUpdated`, `etaUpdated` and
`stateChanged` carry display values only and are not recorded. -/
inductive Event where
  | progressUpdated (bytesDone bytesTotal : Nat)
  | finished (ok : Bool) (summary : String)
  | fileStarted (rel : String) (size : Nat)
  | fileFinished (rel : String) (ok : Bool) (err : String)
  | versionCreated (rel versionFilePath metaPath : String)
  | deletedStashed (rel deletedFilePath metaPath : String)
  | deviceOffline (phaseHint : String)
  | deviceOnline
deriving DecidableEq

/-- A filesystem primitive that can fail, with its arguments. -/
inductive IoOp where
  | remove (p : String)
  | rename (src dst : String)
  | copy (src dst : String)
  | mkpath (p : String)
  | openRead (p : String)
  | openWrite (p : String)
  | write (p : String)
  | setFileTime (p : String)
deriving DecidableEq

/-- Everything the worker reads from outside itself.  Each tape is indexed by the number of
earlier readings of the same kind, kept in `World`. -/
structure Env where
  /-- Working directory of the process, against which relative directories resolve. -/
  cwd : String
  /-- What the n-th `QStorageInfo(dstDir)` reports. -/
  dev : Nat → DevObs
  /-- Call `requestStop()`: loads of `m_stop` numbered `k` and later read 1. -/
  stopAt : Option Nat
  /-- Value of the n-th load of `m_pause`. -/
  pause : Nat → Bool
  /-- Call `requestInterruption()` on the thread, as `stopAt`. -/
  interruptAt : Option Nat
  /-- Whether the n-th fallible filesystem primitive succeeds, given what it is asked to do. -/
  ioOk : Nat → IoOp → Bool
  /-- The n-th `QFile::read`: `none` is an error (-1), `some k` delivers at most `k + 1` bytes. -/
  read : Nat → Option Nat
  /-- The n-th reading of the UTC clock, in milliseconds since the epoch. -/
  nowMs : Nat → Int
  /-- The n-th reading of a `QElapsedTimer`, in milliseconds. -/
  elapsedMs : Nat → Int
  /-- Format `toString("yyyyMMdd-HHmmss")` of a UTC time in milliseconds. -/
  fmtTs : Int → String
  /-- Parse `QDateTime::fromString(s, "yyyyMMdd-HHmmss")` read as UTC, in milliseconds; `none` is an invalid date. -/
  parseTs : String → Option Int
  /-- SHA-256 of a byte string. -/
  sha256 : List Nat → List Nat
  /-- Lowercase hex of the SHA-1 of the UTF-8 bytes of a string. -/
  sha1Hex : String → String
  /-- Test `QDir::match(globs, name)`. -/
  globMatch : List String → String → Bool
  /-- Order in which a `QSet<QString>` holding these elements is iterated. -/
  setOrder : List String → List String
  /-- Bytes of `QJsonDocument(obj).toJson(Compact)` for an object of string fields. -/
  toJson : List (String × String) → List Nat
  /-- Object read by `QJsonDocument::fromJson`, `none` when the bytes are no object. -/
  fromJson : List Nat → Option (List (String × String))
  /-- Major version of Qt the worker is built against. -/
  qtMajor : Nat

/-- The worker's mutable members, the filesystem, the trace of emitted signals and the tape positions. -/
structure World where
  fs : FS
  /-- Signals emitted so far, oldest first. -/
  events : List Event
  /-- Member `m_expectedDevice`. -/
  expectedDevice : String
  /-- Member `m_offlineSignaled`. -/
  offlineSignaled : Bool
  /-- Member `m_totalBytes`. -/
  totalBytes : Nat
  /-- Number of calls of `copyOneFile` so far (instrumentation, not in the source). -/
  copyCalls : Nat
  /-- Durations of the `QThread::msleep` calls so far, oldest first (instrumentation). -/
  sleeps : List Int
  /-- Every call of `isDestReadySameDevice` so far, oldest first: what the volume reported and
  what the method returned (instrumentation). -/
  gateLog : List (DevObs × Bool)
  /-- Every call of `moveFileRobust` so far, oldest first: source, target and what it returned
  (instrumentation). -/
  moveLog : List (String × String × Bool)
  devN : Nat
  stopN : Nat
  pauseN : Nat
  intrN : Nat
  ioN : Nat
  readN : Nat
  clockN : Nat
  timerN : Nat

/-- A computation of the worker: it may run out of fuel (`none`) or return a value and the next world. -/
def M (α : Type) : Type := World → Option (α × World)

instance : Monad M where
  pure a := fun w => some (a, w)
  bind m f := fun w =>
    match m w with
    | none => none
    | some (a, w1) => f a w1

/-! ## Tapes and filesystem primitives -/

section Primitives
variable (env : Env)

/-- A loop that has used up its fuel. -/
def outOfFuel {α : Type} : M α := fun _ => none

/-- Read the member `m_offlineSignaled`. -/
def getOfflineSignaled : M Bool := fun w => some (w.offlineSignaled, w)

/-- Assign the member `m_offlineSignaled`. -/
def setOfflineSignaled (b : Bool) : M Unit := fun w => some ((), { w with offlineSignaled := b })

/-- Assign the member `m_expectedDevice`. -/
def setExpectedDevice (fp : String) : M Unit := fun w => some ((), { w with expectedDevice := fp })

/-- Read the member `m_totalBytes`. -/
def getTotalBytes : M Nat := fun w => some (w.totalBytes, w)

/-- Assign the member `m_totalBytes`. -/
def setTotalBytes (n : Nat) : M Unit := fun w => some ((), { w with totalBytes := n })

/-- Count a call of `copyOneFile` (instrumentation). -/
def countCopyCall : M Unit := fun w => some ((), { w with copyCalls := w.copyCalls + 1 })

/-- Record a call of `moveFileRobust` and what it returned (instrumentation). -/
def logMove (src dst : String) (moved : Bool) : M Unit := fun w =>
  some ((), { w with moveLog := w.moveLog ++ [(src, dst, moved)] })

/-- Emit a signal: it is appended to the trace. -/
def emit (e : Event) : M Unit := fun w =>
  some ((), { w with events := w.events ++ [e] })

/-- Call `QThread::msleep(ms)`: only its duration is recorded. -/
def msleep (ms : Int) : M Unit := fun w =>
  some ((), { w with sleeps := w.sleeps ++ [ms] })

/-- Load `m_stop.loadAcquire()`. -/
def loadStop : M Bool := fun w =>
  some ((match env.stopAt with
         | none => false
         | some k => decide (k ≤ w.stopN)),
        { w with stopN := w.stopN + 1 })

/-- Load `m_pause.loadAcquire()`. -/
def loadPause : M Bool := fun w =>
  some (env.pause w.pauseN, { w with pauseN := w.pauseN + 1 })

/-- Test `QThread::currentThread()->isInterruptionRequested()`. -/
def isInterruptionRequested : M Bool := fun w =>
  some ((match env.interruptAt with
         | none => false
         | some k => decide (k ≤ w.intrN)),
        { w with intrN := w.intrN + 1 })

/-- Construct `QStorageInfo st(m_opt.dstDir)`. -/
def storageInfo : M DevObs := fun w =>
  some (env.dev w.devN, { w with devN := w.devN + 1 })

/-- Read the UTC clock (`QDateTime::currentDateTimeUtc()`), in milliseconds. -/
def currentMs : M Int := fun w =>
  some (env.nowMs w.clockN, { w with clockN := w.clockN + 1 })

/-- Read a `QElapsedTimer` (`elapsed()`), in milliseconds. -/
def timerElapsed : M Int := fun w =>
  some (env.elapsedMs w.timerN, { w with timerN := w.timerN + 1 })

/-- Ask the environment whether the next fallible primitive succeeds. -/
def ioAttempt (op : IoOp) : M Bool := fun w =>
  some (env.ioOk w.ioN op, { w with ioN := w.ioN + 1 })

/-- Read the filesystem without changing it. -/
def readFs {α : Type} (f : FS → α) : M α := fun w => some (f w.fs, w)

/-- Change the filesystem. -/
def modifyFs (f : FS → FS) : M Unit := fun w => some ((), { w with fs := f w.fs })

/-- Call `QFile::remove(p)`: true when the file existed and was removed. -/
def qRemove (p : String) : M Bool := do
  let ok ← ioAttempt env (IoOp.remove p)
  let there ← readFs (fun fs => fs.isFile p)
  if there && ok then
    modifyFs (fun fs => fs.erase p)
    pure true
  else pure false

/-- Call `QFile::rename(src, dst)`: it fails when `src` is no file or `dst` exists; on success the
file, contents and modification time, is at `dst` and no longer at `src`. -/
def qRename (src dst : String) : M Bool := do
  let ok ← ioAttempt env (IoOp.rename src dst)
  let d ← readFs (fun fs => fs.get src)
  let taken ← readFs (fun fs => fs.pathExists dst)
  match d with
  | none => pure false
  | some fd =>
    if !taken && ok then
      modifyFs (fun fs => (fs.erase src).put dst fd)
      pure true
    else pure false

/-- Call `QFile::copy(src, dst)`: it fails when `src` is no file or `dst` exists; on success `dst`
is a new file with the bytes of `src`. -/
def qCopy (src dst : String) : M Bool := do
  let ok ← ioAttempt env (IoOp.copy src dst)
  let d ← readFs (fun fs => fs.get src)
  let taken ← readFs (fun fs => fs.pathExists dst)
  match d with
  | none => pure false
  | some fd =>
    if !taken && ok then
      let now ← currentMs env
      modifyFs (fun fs => fs.put dst { content := fd.content, mtime := now / 1000 })
      pure true
    else pure false

/-- Call `QDir().mkpath(p)`: true when the directory exists afterwards. -/
def qMkpath (p : String) : M Bool := do
  let ok ← ioAttempt env (IoOp.mkpath p)
  let isF ← readFs (fun fs => fs.isFile p)
  let isD ← readFs (fun fs => fs.dirExists p)
  if isD then pure true
  else if !isF && ok then
    modifyFs (fun fs => { fs with dirs := p :: fs.dirs })
    pure true
  else pure false

/-- Open a file read-only: its bytes, or `none` when it cannot be opened. -/
def qOpenRead (p : String) : M (Option (List Nat)) := do
  let ok ← ioAttempt env (IoOp.openRead p)
  let d ← readFs (fun fs => fs.get p)
  match d with
  | none => pure none
  | some fd => if ok then pure (some fd.content) else pure none

/-- Open a file write-only: it is created or truncated to empty.  False when it cannot be opened. -/
def qOpenWrite (p : String) : M Bool := do
  let ok ← ioAttempt env (IoOp.openWrite p)
  let isD ← readFs (fun fs => fs.dirExists p)
  if !isD && ok then
    let now ← currentMs env
    modifyFs (fun fs => fs.put p { content := [], mtime := now / 1000 })
    pure true
  else pure false

/-- Call `write(data)` on the file opened at `p`: on success the bytes are appended. -/
def qWrite (p : String) (data : List Nat) : M Bool := do
  let ok ← ioAttempt env (IoOp.write p)
  let d ← readFs (fun fs => fs.get p)
  match d with
  | none => pure false
  | some fd =>
    if ok then
      modifyFs (fun fs => fs.put p { fd with content := fd.content ++ data })
      pure true
    else pure false

/-- Size of the read buffer, `BUF = 1 << 20`. -/
def BUF : Nat := 1 <<< 20

/-- Outcome of one `read(buf, BUF)` on a file of which `rest` is unread: `none` when the call
returns 0 (end of file) or -1 (error), else the chunk delivered and what is still unread. -/
def readChunk (outcome : Option Nat) (rest : List Nat) : Option (List Nat × List Nat) :=
  match outcome with
  | none => none
  | some cap =>
    let n := min (min BUF (cap + 1)) rest.length
    if n = 0 then none else some (rest.take n, rest.drop n)

/-- Call `in.read(buf, BUF)` on a file of which `rest` is unread. -/
def qRead (rest : List Nat) : M (Option (List Nat × List Nat)) := fun w =>
  some (readChunk (env.read w.readN) rest, { w with readN := w.readN + 1 })

end Primitives

/-! ## The worker (`src/backupworker.cpp`) -/

section Worker
variable (env : Env) (opt : Options)

/-- Function `cleanRel`. -/
def cleanRel (rel : String) : String := cleanPath rel

/-- Function `shortHash`: the first 8 hex characters of the SHA-1. -/
def shortHash (s : String) : String := ⟨(env.sha1Hex s).data.take 8⟩

/-- Method `nsPrefix` with the member `m_cachedNs` made explicit: the value returned and the
cache after the call. -/
def nsPrefixCached (cachedNs : String) : String × String :=
  if opt.nsName ≠ "" then (opt.nsName, cachedNs)
  else if cachedNs ≠ "" then (cachedNs, cachedNs)
  else
    let base := completeBaseName opt.srcDir
    let abs := absolutePath env.cwd opt.srcDir
    let v := base ++ "_" ++ shortHash env abs
    (v, v)

/-- Method `nsPrefix` on a worker whose cache is still empty.  The cache is written by this
method only and then holds this very value, so every call of a run returns it. -/
def nsPrefix : String := (nsPrefixCached env opt "").1

/-- Method `nsSubRoot`. -/
def nsSubRoot : String := absoluteFilePath env.cwd opt.dstDir (nsPrefix env opt)

/-- Method `dstAbsPath`. -/
def dstAbsPath (rel : String) : String :=
  absoluteFilePath env.cwd (nsSubRoot env opt) (cleanRel rel)

/-- Path `QDir(m_opt.srcDir).absoluteFilePath(rel)` of a source file. -/
def srcAbsPath (rel : String) : String := absoluteFilePath env.cwd opt.srcDir rel

/-- Method `shouldSkip`. -/
def shouldSkip (rel : String) : Bool :=
  if rel = "" then true
  else if opt.ignoreGlobs ≠ [] ∧ env.globMatch opt.ignoreGlobs rel = true then true
  else false

/-- Method `listAllFiles`: the regular files below the source directory, relative to it and
cleaned.  (The case-insensitive sort is not modelled: the list is only used as a set.) -/
def listAllFiles (fs : FS) : List String :=
  (fs.filesUnder (absolutePath env.cwd opt.srcDir)).map
    (fun q => cleanRel (relativeFilePath (absolutePath env.cwd opt.srcDir) q))

/-- Method `metaRoot`. -/
def metaRoot : String := absoluteFilePath env.cwd opt.dstDir ".plugbackup_meta"

/-- Method `versionsRoot`. -/
def versionsRoot : String := absoluteFilePath env.cwd (metaRoot env opt) "versions"

/-- Method `deletedRoot`. -/
def deletedRoot : String := absoluteFilePath env.cwd (metaRoot env opt) "deleted"

/-- Method `versionFilePath`. -/
def versionFilePath (rel0 ts : String) : String :=
  let rel := cleanRel rel0
  let baseDir := filePathDir rel
  let name := fileName rel
  let dirPath := absoluteFilePath env.cwd (versionsRoot env opt) (nsPrefix env opt ++ "/" ++ baseDir)
  let fileOut := name ++ ".v" ++ ts
  absoluteFilePath env.cwd dirPath fileOut

/-- Method `deletedFilePath`. -/
def deletedFilePath (rel0 ts : String) : String :=
  let rel := cleanRel rel0
  let baseDir := filePathDir rel
  let name := fileName rel
  let dirPath := absoluteFilePath env.cwd (deletedRoot env opt) (nsPrefix env opt ++ "/" ++ baseDir)
  let fileOut := name ++ ".d" ++ ts
  absoluteFilePath env.cwd dirPath fileOut

/-- Read loop `while ((n = f.read(buf, BUF)) > 0)` of `fileHashSha256`: the bytes fed to the digest.
The first argument bounds the number of reads; `fileHashSha256` passes one more than the length of
the file, which is never used up since a read that delivers nothing ends the loop. -/
def hashLoop : Nat → List Nat → List Nat → M (List Nat)
  | 0, _, acc => pure acc
  | fuel + 1, rest, acc => do
    match ← qRead env rest with
    | none => pure acc
    | some (chunk, rest1) => hashLoop fuel rest1 (acc ++ chunk)

/-- Method `fileHashSha256`: the empty digest when the file cannot be opened. -/
def fileHashSha256 (path : String) : M (List Nat) := do
  match ← qOpenRead env path with
  | none => pure []
  | some bytes =>
    let fed ← hashLoop env (bytes.length + 1) bytes []
    pure (env.sha256 fed)

/-- Method `ensureDir`. -/
def ensureDir (dirPath : String) : M Bool := qMkpath env dirPath

/-- Lines 107 to 109 of `moveFileRobust`: rename, or else copy and delete the source. -/
def renameOrCopy (src dst : String) : M Bool := do
  if ← qRename env src dst then pure true
  else if ← qCopy env src dst then
    let _ ← qRemove env src
    pure true
  else pure false

/-- Method `moveFileRobust`. -/
def moveFileRobust (src dst : String) : M Bool := do
  if ← readFs (fun fs => fs.pathExists dst) then
    let _ ← qRemove env dst
  let moved ← renameOrCopy env src dst
  logMove src dst moved
  pure moved

/-- Method `tsNow`. -/
def tsNow : M String := do
  let t ← currentMs env
  pure (env.fmtTs t)

/-- The object `writeMetaJson` serialises. -/
def metaObject (payloadPath rel kind ts : String) : List (String × String) :=
  [("kind", kind), ("ts", ts), ("srcRoot", opt.srcDir), ("dstRoot", opt.dstDir),
   ("namespace", nsPrefix env opt), ("rel", rel),
   ("origAbs", srcAbsPath env opt rel), ("payload", payloadPath)]

/-- Method `writeMetaJson`: the sidecar is written only if it can be opened; its path is returned
in either case. -/
def writeMetaJson (payloadPath rel kind ts : String) : M String := do
  let metaPath := payloadPath ++ ".json"
  if ← qOpenWrite env metaPath then
    let _ ← qWrite env metaPath (env.toJson (metaObject env opt payloadPath rel kind ts))
    pure metaPath
  else pure metaPath

/-- The test of `isDestReadySameDevice` on one observation of the volume. -/
def gate (expectedDevice : String) (st : DevObs) : Bool :=
  if !st.valid || !st.ready || st.readOnly then false
  else if expectedDevice ≠ "" ∧ st.device ≠ expectedDevice then false
  else true

/-- Method `isDestReadySameDevice`. -/
def isDestReadySameDevice : M Bool := fun w =>
  match storageInfo env w with
  | none => none
  | some (st, w1) =>
    some (gate w1.expectedDevice st,
          { w1 with gateLog := w1.gateLog ++ [(st, gate w1.expectedDevice st)] })

/-- Loop `while (!isDestReadySameDevice() && !m_stop && !isInterruptionRequested()) msleep(200)`. -/
def waitLoop : Nat → M Unit
  | 0 => outOfFuel
  | fuel + 1 => do
    if ← isDestReadySameDevice env then pure ()
    else if ← loadStop env then pure ()
    else if ← isInterruptionRequested env then pure ()
    else
      msleep 200
      waitLoop fuel

/-- Method `waitUntilDestReadyOrStopped`. -/
def waitUntilDestReadyOrStopped (fuel : Nat) (phaseHint : String) : M Unit := do
  if ← loadStop env then pure ()
  else
    let r ← isDestReadySameDevice env
    let sig ← getOfflineSignaled
    if !r && !sig then
      setOfflineSignaled true
      emit (Event.deviceOffline phaseHint)
    waitLoop env fuel
    let sig1 ← getOfflineSignaled
    if sig1 then
      if ← isDestReadySameDevice env then
        setOfflineSignaled false
        emit Event.deviceOnline

/-- Loop `while (m_pause && !m_stop) msleep(50)`. -/
def pauseLoop : Nat → M Unit
  | 0 => outOfFuel
  | fuel + 1 => do
    if ← loadPause env then
      if ← loadStop env then pure ()
      else
        msleep 50
        pauseLoop fuel
    else pure ()

/-- Method `likelySameByStat`. -/
def likelySameByStat (fs : FS) (srcAbs dstAbs : String) : Bool :=
  match fs.get srcAbs, fs.get dstAbs with
  | some s, some d =>
    if s.content.length ≠ d.content.length then false
    else decide ((s.mtime - d.mtime).natAbs ≤ 2)
  | _, _ => false

/-- Lines 220 to 224 of `maybeStashExistingVersion`: the fast path, true when the payload is
found identical to the source. -/
def fastEqual (srcPath dstPath : String) : M Bool := do
  if ← readFs (fun fs => likelySameByStat fs srcPath dstPath) then
    let hashDst ← fileHashSha256 env dstPath
    let hashSrc ← fileHashSha256 env srcPath
    pure (decide (hashDst ≠ [] ∧ hashDst = hashSrc))
  else pure false

/-- Lines 226 to 238 of `maybeStashExistingVersion`: move the payload into the vault. -/
def archiveVersion (rel dstPath : String) : M Bool := do
  let ts ← tsNow env
  let outPath := versionFilePath env opt rel ts
  let _ ← ensureDir env (filePathDir outPath)
  if !(← isDestReadySameDevice env) then pure true
  else if ← moveFileRobust env dstPath outPath then
    let metaPath ← writeMetaJson env opt outPath rel "version" ts
    emit (Event.versionCreated rel outPath metaPath)
    pure true
  else pure false

/-- Method `maybeStashExistingVersion`. -/
def maybeStashExistingVersion (rel0 : String) : M Bool := do
  if !opt.keepVersionsOnChange then pure true
  else
    let rel := cleanRel rel0
    if !(← isDestReadySameDevice env) then pure true
    else
      let dstPath := dstAbsPath env opt rel
      if !(← readFs (fun fs => fs.pathExists dstPath)) then pure true
      else
        let srcPath := srcAbsPath env opt rel
        if ← fastEqual env srcPath dstPath then pure false
        else archiveVersion env opt rel dstPath

/-- Statement `if (!isDestReadySameDevice()) { waitUntilDestReadyOrStopped(hint); if (m_stop) return; }`
of `handleDeletions` and `sweepRetention`: true when the caller returns. -/
def readyOrWait (fuel : Nat) (hint : String) : M Bool := do
  if ← isDestReadySameDevice env then pure false
  else
    waitUntilDestReadyOrStopped env fuel hint
    loadStop env

/-- Body of the loop of `handleDeletions` over the files the iterator yields. -/
def handleDeletionsLoop (fuel : Nat) (srcSet : List String) (rootNs : String) : List String → M Unit
  | [] => pure ()
  | abs :: more => do
    if ← loadStop env then pure ()
    else if containsStr abs "/.plugbackup_meta/" || containsStr abs "\\.plugbackup_meta\\" then
      handleDeletionsLoop fuel srcSet rootNs more
    else if ← readyOrWait env fuel "处理删除项" then pure ()
    else
      let rel := cleanRel (relativeFilePath rootNs abs)
      if srcSet.contains rel then handleDeletionsLoop fuel srcSet rootNs more
      else
        let ts ← tsNow env
        let outPath := deletedFilePath env opt rel ts
        let _ ← ensureDir env (filePathDir outPath)
        if ← readyOrWait env fuel "处理删除项" then pure ()
        else
          if ← moveFileRobust env abs outPath then
            let metaPath ← writeMetaJson env opt outPath rel "deleted" ts
            emit (Event.deletedStashed rel outPath metaPath)
          handleDeletionsLoop fuel srcSet rootNs more

/-- Method `handleDeletions`. -/
def handleDeletions (fuel : Nat) (srcSet : List String) : M Unit := do
  if !opt.keepDeletedInVault then pure ()
  else if ← readyOrWait env fuel "处理删除项" then pure ()
  else
    let rootNs := nsSubRoot env opt
    if !(← readFs (fun fs => fs.dirExists rootNs)) then pure ()
    else
      let listing ← readFs (fun fs => fs.filesUnder rootNs)
      handleDeletionsLoop env opt fuel srcSet rootNs listing

/-- Lambda `sweepDir` of `sweepRetention`, over the files the iterator yields. -/
def sweepDirLoop (cutoff : Int) (marker : String) : List String → M Unit
  | [] => pure ()
  | file :: more => do
    if endsWithCI file ".json" then sweepDirLoop cutoff marker more
    else
      let name := fileName file
      match lastIndexOf marker.data name.data with
      | none => sweepDirLoop cutoff marker more
      | some pos =>
        let tsStr : String := ⟨name.data.drop (pos + 2)⟩
        match env.parseTs tsStr with
        | none => sweepDirLoop cutoff marker more
        | some ts =>
          if ts < cutoff then
            let _ ← qRemove env file
            let _ ← qRemove env (file ++ ".json")
          sweepDirLoop cutoff marker more

/-- Lambda `sweepDir` of `sweepRetention`. -/
def sweepDir (cutoff : Int) (root marker : String) : M Unit := do
  let base := absoluteFilePath env.cwd root (nsPrefix env opt)
  if !(← readFs (fun fs => fs.dirExists base)) then pure ()
  else
    let listing ← readFs (fun fs => fs.filesUnder base)
    sweepDirLoop env cutoff marker listing

/-- Method `sweepRetention`. -/
def sweepRetention (fuel : Nat) : M Unit := do
  let days := max 0 opt.retentionDays
  if days = 0 then pure ()
  else if ← readyOrWait env fuel "清理旧版本" then pure ()
  else
    let now ← currentMs env
    let cutoff := now - days * 86400000
    sweepDir env opt cutoff (versionsRoot env opt) ".v"
    sweepDir env opt cutoff (deletedRoot env opt) ".d"

/-- Loop `while (m_pause && !m_stop && !isInterruptionRequested()) msleep(50)` of `copyOneFile`. -/
def copyPauseLoop : Nat → M Unit
  | 0 => outOfFuel
  | fuel + 1 => do
    if ← loadPause env then
      if ← loadStop env then pure ()
      else if ← isInterruptionRequested env then pure ()
      else
        msleep 50
        copyPauseLoop fuel
    else pure ()

/-- Statement `m_stop.loadAcquire() || isInterruptionRequested()`. -/
def stopOrInterrupted : M Bool := do
  if ← loadStop env then pure true
  else isInterruptionRequested env

/-- Streaming loop `while ((n = in.read(buf, BUF)) > 0)` of `copyOneFile`, writing to `part`.
`rest` is the unread part of the source, `n` bounds the number of reads (one more than the
length of the source is never used up, a read that delivers nothing ends the loop).  The result is
`none` when the loop ran to its end, `some false` when the function returns false from inside it;
with it come `*bytesDone` and `sentInWindow`. -/
def copyChunks (fuel : Nat) (part : String) :
    Nat → List Nat → Nat → Int → M (Option Bool × Nat)
  | 0, _, _, _ => outOfFuel
  | n + 1, rest, bytesDone, sentInWindow => do
    match ← qRead env rest with
    | none => pure (none, bytesDone)
    | some (chunk, rest1) =>
      if ← stopOrInterrupted env then
        let _ ← qRemove env part
        pure (some false, bytesDone)
      else
        copyPauseLoop env fuel
        if !(← isDestReadySameDevice env) then
          let _ ← qRemove env part
          pure (some false, bytesDone)
        else
          let sent ←
            (do
              if opt.speedLimitBps > 0 then
                let budgetWindow := (opt.speedLimitBps * 100) / 1000
                if sentInWindow + chunk.length > budgetWindow then
                  let elapsed ← timerElapsed env
                  if elapsed < 100 then msleep (100 - elapsed)
                  pure 0
                else pure sentInWindow
              else pure sentInWindow : M Int)
          if !(← qWrite env part chunk) then
            let _ ← qRemove env part
            pure (some false, bytesDone)
          else
            copyChunks fuel part n rest1 (bytesDone + chunk.length)
              (if opt.speedLimitBps > 0 then sent + chunk.length else sent)

/-- Method `copyOneFile`: the result and the new value of `*bytesDone`. -/
def copyOneFile (fuel : Nat) (rel0 : String) (bytesDone : Nat) : M (Bool × Nat) := do
  countCopyCall
  let rel := cleanRel rel0
  let srcPath := srcAbsPath env opt rel
  let dstPath := dstAbsPath env opt rel
  if !(← isDestReadySameDevice env) then pure (false, bytesDone)
  else if !(← ensureDir env (filePathDir dstPath)) then pure (false, bytesDone)
  else if !(← isDestReadySameDevice env) then pure (false, bytesDone)
  else
    match ← qOpenRead env srcPath with
    | none => pure (false, bytesDone)
    | some bytes =>
      if !(← qOpenWrite env (dstPath ++ ".part")) then pure (false, bytesDone)
      else
        match ← copyChunks env opt fuel (dstPath ++ ".part") (bytes.length + 1) bytes bytesDone 0 with
        | (some r, bd) => pure (r, bd)
        | (none, bd) =>
          let _ ← qRemove env dstPath
          if !(← qRename env (dstPath ++ ".part") dstPath) then
            let _ ← qRemove env (dstPath ++ ".part")
            pure (false, bd)
          else
            if env.qtMajor ≥ 6 then
              if ← ioAttempt env (IoOp.setFileTime dstPath) then
                modifyFs (fun fs =>
                  match fs.get srcPath, fs.get dstPath with
                  | some s, some d => fs.put dstPath { d with mtime := s.mtime }
                  | _, _ => fs)
            pure (true, bd)

/-- Retry loop `for (int i = 0; i < m_opt.maxRetries; ++i)` of `verifyFile`. -/
def verifyRetry (a : List Nat) (dstPath : String) : Nat → Int → M Bool
  | 0, _ => pure false
  | n + 1, delay => do
    msleep delay
    if !(← isDestReadySameDevice env) then pure false
    else
      let b ← fileHashSha256 env dstPath
      if b ≠ [] ∧ a = b then pure true
      else verifyRetry a dstPath n (min (delay * 2) 30000)

/-- Method `verifyFile`. -/
def verifyFile (rel0 : String) : M Bool := do
  let rel := cleanRel rel0
  let srcPath := srcAbsPath env opt rel
  let dstPath := dstAbsPath env opt rel
  if !(← isDestReadySameDevice env) then pure false
  else
    let a ← fileHashSha256 env srcPath
    let b ← fileHashSha256 env dstPath
    if a = [] ∨ b = [] then pure false
    else if a = b then pure true
    else verifyRetry env a dstPath opt.maxRetries.toNat 1000

/-- Throttled progress block of `run` (`speed.onProgress(bytesDone); if (ticker.elapsed() > 200) ...`):
of the signals it emits only `progressUpdated` is recorded. -/
def progressTick (bytesDone : Nat) : M Unit := do
  let e ← timerElapsed env
  if e > 200 then
    let total ← getTotalBytes
    emit (Event.progressUpdated bytesDone total)

/-- Loop `for (;;)` of `run` around `copyOneFile`: the values of `bytesDone` and `allOk` when it
is left. -/
def copyRetryLoop (fuel : Nat) (rel : String) : Nat → Nat → Bool → M (Nat × Bool)
  | 0, _, _ => outOfFuel
  | n + 1, bytesDone, allOk => do
    if ← loadStop env then pure (bytesDone, allOk)
    else
      pauseLoop env fuel
      if !(← isDestReadySameDevice env) then
        waitUntilDestReadyOrStopped env fuel "复制"
        if ← loadStop env then pure (bytesDone, allOk)
        else copyRetryLoop fuel rel n bytesDone allOk
      else
        let (ok, bd) ← copyOneFile env opt fuel rel bytesDone
        if !ok then
          if !(← isDestReadySameDevice env) then
            waitUntilDestReadyOrStopped env fuel "复制重试"
            if ← loadStop env then pure (bd, allOk)
            else copyRetryLoop fuel rel n bd allOk
          else
            emit (Event.fileFinished rel false "复制失败")
            pure (bd, false)
        else if opt.verifyAfterWrite then
          if !(← verifyFile env opt rel) then
            if !(← isDestReadySameDevice env) then
              waitUntilDestReadyOrStopped env fuel "校验重试"
              if ← loadStop env then pure (bd, allOk)
              else copyRetryLoop fuel rel n bd allOk
            else
              emit (Event.fileFinished rel false "校验失败")
              pure (bd, false)
          else
            emit (Event.fileFinished rel true "")
            pure (bd, allOk)
        else
          emit (Event.fileFinished rel true "")
          pure (bd, allOk)

/-- Lines 378 to 381 of `run`: true when the payload is there and found identical to the source. -/
def identicalCheck (srcPath dstPath : String) : M Bool := do
  if ← readFs (fun fs => fs.pathExists dstPath && likelySameByStat fs srcPath dstPath) then
    let a ← fileHashSha256 env srcPath
    let b ← fileHashSha256 env dstPath
    pure (decide (a ≠ [] ∧ a = b))
  else pure false

/-- How one iteration of the loop over the source files ends. -/
inductive Step where
  | next
  | brk
deriving DecidableEq

/-- Body of the loop `for (const QString& rel : srcSet)` of `run`. -/
def processFile (fuel : Nat) (rel : String) (bytesDone : Nat) (allOk : Bool) :
    M (Step × Nat × Bool) := do
  if ← loadStop env then pure (Step.brk, bytesDone, allOk)
  else
    pauseLoop env fuel
    let srcPath := srcAbsPath env opt rel
    match ← readFs (fun fs => fs.get srcPath) with
    | none => pure (Step.next, bytesDone, allOk)
    | some fiSrc =>
      emit (Event.fileStarted rel fiSrc.content.length)
      waitUntilDestReadyOrStopped env fuel "准备复制"
      if ← loadStop env then pure (Step.brk, bytesDone, allOk)
      else
        let copyAndTick : M (Step × Nat × Bool) := do
          let (bd, ok) ← copyRetryLoop env opt fuel rel fuel bytesDone allOk
          progressTick env bd
          pure (Step.next, bd, ok)
        if ← readFs (fun fs => fs.pathExists (dstAbsPath env opt rel)) then
          let r ← maybeStashExistingVersion env opt rel
          let stashed : Option Bool ←
            (do
              if !(← isDestReadySameDevice env) then
                waitUntilDestReadyOrStopped env fuel "版本化"
                if ← loadStop env then pure none
                else
                  let r1 ← maybeStashExistingVersion env opt rel
                  pure (some r1)
              else pure (some r) : M (Option Bool))
          match stashed with
          | none => pure (Step.brk, bytesDone, allOk)
          | some false =>
            emit (Event.fileFinished rel false "版本归档失败")
            pure (Step.next, bytesDone, false)
          | some true =>
            let dstPath := dstAbsPath env opt rel
            if ← identicalCheck env srcPath dstPath then
              emit (Event.fileFinished rel true "")
              progressTick env (bytesDone + fiSrc.content.length)
              pure (Step.next, bytesDone + fiSrc.content.length, allOk)
            else copyAndTick
        else copyAndTick

/-- Loop `for (const QString& rel : srcSet)` of `run`. -/
def fileLoop (fuel : Nat) : List String → Nat → Bool → M (Nat × Bool)
  | [], bytesDone, allOk => pure (bytesDone, allOk)
  | rel :: more, bytesDone, allOk => do
    match ← processFile env opt fuel rel bytesDone allOk with
    | (Step.brk, bd, ok) => pure (bd, ok)
    | (Step.next, bd, ok) => fileLoop fuel more bd ok

/-- The set `srcSet` of `run`, in the order the loops iterate it. -/
def srcSetOf (fs : FS) : List String :=
  let relsAll := if opt.filesWhitelist = [] then listAllFiles env opt fs else opt.filesWhitelist
  env.setOrder (((relsAll.map cleanRel).filter (fun r => !shouldSkip env opt r)).dedup)

/-- Size `fi.size()` of a source file that `exists() && isFile()`, 0 otherwise. -/
def srcSize (fs : FS) (rel : String) : Nat :=
  match fs.get (srcAbsPath env opt rel) with
  | some d => d.content.length
  | none => 0

/-- Method `run`. -/
def run (fuel : Nat) : M Unit := do
  let st ← storageInfo env
  setExpectedDevice (if st.valid && st.ready then st.device else "")
  waitUntilDestReadyOrStopped env fuel "启动"
  if ← loadStop env then emit (Event.finished false "已取消")
  else
    let srcSet ← readFs (fun fs => srcSetOf env opt fs)
    let total ← readFs (fun fs => (srcSet.map (srcSize env opt fs)).sum)
    setTotalBytes total
    emit (Event.progressUpdated 0 total)
    let (_, allOk) ← fileLoop env opt fuel srcSet 0 true
    if !(← loadStop env) then
      waitUntilDestReadyOrStopped env fuel "处理删除项"
      if !(← loadStop env) then handleDeletions env opt fuel srcSet
    if !(← loadStop env) then
      waitUntilDestReadyOrStopped env fuel "清理旧版本"
      if !(← loadStop env) then sweepRetention env opt fuel
    emit (Event.progressUpdated total total)
    emit (Event.finished allOk (if allOk then "完成" else "部分失败"))

end Worker

/-! ## Restoring from the vault (`src/mainwindow.cpp`) -/

section Restore
variable (env : Env)

/-- Value `o.value(key).toString()` of a JSON object: empty when the key is absent. -/
def jsonString (o : List (String × String)) (key : String) : String :=
  match o.find? (fun e => decide (e.1 = key)) with
  | some e => e.2
  | none => ""

/-- Function `readOrigAbsFromMeta`: `(origAbs, rel, srcRoot)` when it returns true. -/
def readOrigAbsFromMeta (metaPath : String) : M (Option (String × String × String)) := do
  match ← qOpenRead env metaPath with
  | none => pure none
  | some bytes =>
    match env.fromJson bytes with
    | none => pure none
    | some o =>
      let orig := jsonString o "origAbs"
      if orig = "" then pure none
      else pure (some (orig, jsonString o "rel", jsonString o "srcRoot"))

/-- Function `copyFileWithDirs`. -/
def copyFileWithDirs (src dst : String) : M Bool := do
  let _ ← qMkpath env (filePathDir dst)
  if ← readFs (fun fs => fs.pathExists dst) then
    let _ ← qRemove env dst
  qCopy env src dst

/-- Slot `MainWindow::onRestoreSelectedVersion` for the selected item's payload and sidecar paths;
`confirmed` is the answer to the question box.  True when the payload was copied back. -/
def onRestoreSelectedVersion (payload metaPath : String) (confirmed : Bool) : M Bool := do
  if payload = "" ∨ metaPath = "" then pure false
  else
    match ← readOrigAbsFromMeta env metaPath with
    | none => pure false
    | some (origAbs, _, _) =>
      if !confirmed then pure false
      else copyFileWithDirs env payload origAbs

end Restore

/-! ## The speed estimator (`src/SpeedAverager.h`) -/

/-- Structure `SpeedAverager::Point`: a reading of the timer in milliseconds and the bytes done
by then. -/
structure Point where
  t : Int
  bytes : Int
deriving DecidableEq

/-- Class `SpeedAverager`: the window in milliseconds and the deque of samples, oldest first.
The readings of `m_timer` are arguments of the methods. -/
structure SpeedAverager where
  windowMs : Int
  points : List Point

/-- Loop `while (!m_points.empty() && (t - m_points.front().t) > m_windowMs) m_points.pop_front()`. -/
def popOld (windowMs t : Int) : List Point → List Point
  | [] => []
  | p :: ps => if t - p.t > windowMs then popOld windowMs t ps else p :: ps

/-- Method `SpeedAverager::onProgress`, with `t` the reading `m_timer.elapsed()`. -/
def SpeedAverager.onProgress (s : SpeedAverager) (t bytesDone : Int) : SpeedAverager :=
  { s with points := popOld s.windowMs t (s.points ++ [{ t := t, bytes := bytesDone }]) }

/-- Method `SpeedAverager::reset`. -/
def SpeedAverager.reset (s : SpeedAverager) : SpeedAverager := { s with points := [] }

/-- Method `SpeedAverager::avgBytesPerSec`.  Its value is a `double`, given here as the rational
number it stands for; `rnd` is the rounding of a real number to the nearest `double`, and every
operation of the code on `double`s is the exact operation followed by `rnd`: the conversion of
the difference of the two 64-bit time stamps, its division by the `double` 1000.0, the
comparison with the `double` nearest to 0.01, the conversions of the two byte counts, their
difference and the division by `dt`. -/
def SpeedAverager.avgBytesPerSec (rnd : ℚ → ℚ) (s : SpeedAverager) : ℚ :=
  match s.points with
  | [] => 0
  | [_] => 0
  | a :: q :: rest =>
    let b := (q :: rest).getLast (List.cons_ne_nil q rest)
    let dt : ℚ := rnd (rnd ((b.t - a.t : Int) : ℚ) / 1000)
    if dt ≤ rnd (1 / 100) then 0
    else rnd (rnd (rnd (b.bytes : ℚ) - rnd (a.bytes : ℚ)) / dt)

/-! ## Start-up validation (`src/mainwindow.cpp`) -/

/-- Test `a.compare(b, Qt::CaseInsensitive) == 0`, for the letters of ASCII. -/
def equalsCI (a b : String) : Bool :=
  decide (a.data.map Char.toLower = b.data.map Char.toLower)

/-- Test `s.startsWith(p, Qt::CaseInsensitive)`, for the letters of ASCII. -/
def startsWithCI (s p : String) : Bool :=
  (p.data.map Char.toLower).isPrefixOf (s.data.map Char.toLower)

/-- An item of the list of sources: its text and whether it is checked. -/
structure SourceItem where
  text : String
  checked : Bool

/-- Method `MainWindow::isWritableDir`; `writable` tells of a path whether it is an existing,
writable directory. -/
def isWritableDir (writable : String → Bool) (path : String) : Bool :=
  if path = "" then false else writable path

/-- Method `MainWindow::isSubPath`; `sep` is the value of `QDir::separator()`, the native
separator of the platform (`/`, on Windows `\`), while `absolutePath()` always separates with
`/`. -/
def isSubPath (sep : Char) (cwd parent child : String) : Bool :=
  if parent = "" ∨ child = "" then false
  else startsWithCI (absolutePath cwd child) (absolutePath cwd parent ++ String.singleton sep)

/-- Method `MainWindow::anySourceInsideAnother`: the first pair it finds. -/
def anySourceInsideAnother (sep : Char) (cwd : String) (items : List SourceItem) :
    Option (String × String) :=
  let srcs := items.map (fun it => cleanPath it.text)
  (List.range srcs.length).findSome? (fun i =>
    (List.range srcs.length).findSome? (fun j =>
      if i ≠ j ∧ isSubPath sep cwd (srcs.getD i "") (srcs.getD j "") = true
      then some (srcs.getD i "", srcs.getD j "") else none))

/-- Loop `for (const auto &s : enabled)` of `onValidate`: the error it leaves, empty when it finds
none. -/
def destCheck (sep : Char) (cwd dest : String) : List String → String
  | [] => ""
  | s :: more =>
    if equalsCI s dest then "目标目录与源目录相同：" ++ dest
    else if isSubPath sep cwd s dest then "目标目录在源目录内：\n源：" ++ s ++ "\n目标：" ++ dest
    else destCheck sep cwd dest more

/-- Slot `MainWindow::onValidate`: the text of the error (empty when there is none) and whether
the start button is enabled. -/
def onValidate (sep : Char) (cwd : String) (writable : String → Bool) (items : List SourceItem)
    (destText : String) : String × Bool :=
  let enabled := (items.filter (fun it => it.checked)).map (fun it => cleanPath it.text)
  let dest := cleanPath destText
  let err :=
    if enabled = [] then "请至少选择一个源目录。"
    else if dest = "" then "请选择备份目标目录（移动硬盘上的文件夹）。"
    else if !isWritableDir writable dest then "目标目录不可写或不存在（可能未插入移动硬盘）。"
    else
      match anySourceInsideAnother sep cwd items with
      | some (a, b) => "源目录互为包含：\n" ++ a ++ "\n包含了\n" ++ b
      | none => destCheck sep cwd dest enabled
  (err, decide (err = ""))

/-! ## Smart mode (`src/mainwindow.cpp`) -/

/-- The fields `m_smartPaused`, `m_smartBusyCount` and `m_smartIdleCount` of the main window. -/
structure SmartState where
  smartPaused : Bool
  busyCount : Nat
  idleCount : Nat
deriving DecidableEq

/-- The values of the three fields at construction. -/
def SmartState.init : SmartState := { smartPaused := false, busyCount := 0, idleCount := 0 }

/-- What a tick invokes: nothing, `pauseAllTasks(true)` or `resumeAllTasks(true)`. -/
inductive SmartCall where
  | nothing
  | pauseAll
  | resumeAll
deriving DecidableEq

/-- Method `MainWindow::pauseAllTasks`, on the fields of smart mode. -/
def pauseAllTasks (fromSmart : Bool) (s : SmartState) : SmartState :=
  if fromSmart then { s with smartPaused := true } else s

/-- Method `MainWindow::resumeAllTasks`, on the fields of smart mode. -/
def resumeAllTasks (fromSmart : Bool) (s : SmartState) : SmartState :=
  if fromSmart then { s with smartPaused := false } else s

/-- The lower threshold `std::max(hi - 10, 10)` of `onSmartTick`. -/
def smartLo (hi : Int) : Int := max (hi - 10) 10

/-- Slot `MainWindow::onSmartTick`: `checked` is the state of the check box, `running` the field
`m_backupRunning`, `hi` the value of the spin box and `cpu` the sample, which is taken only when
both guards pass.  The result is the new state and the call the tick makes. -/
def onSmartTick (checked running : Bool) (hi : Int) (cpu : ℚ) (s : SmartState) :
    SmartState × SmartCall :=
  if !checked then (s, SmartCall.nothing)
  else if !running then (s, SmartCall.nothing)
  else
    let lo := smartLo hi
    let s1 : SmartState :=
      if (hi : ℚ) ≤ cpu then { s with busyCount := s.busyCount + 1, idleCount := 0 }
      else if cpu ≤ (lo : ℚ) then { s with idleCount := s.idleCount + 1, busyCount := 0 }
      else s
    if !s1.smartPaused && decide (2 ≤ s1.busyCount) then (pauseAllTasks true s1, SmartCall.pauseAll)
    else if s1.smartPaused && decide (2 ≤ s1.idleCount) then
      (resumeAllTasks true s1, SmartCall.resumeAll)
    else (s1, SmartCall.nothing)

/-! ## Vocabulary of the statements -/

/-- The device passes the gate at every observation. -/
def AlwaysReady (env : Env) (fp : String) : Prop := ∀ n, gate fp (env.dev n) = true

/-- A filesystem obtained from `fs` by removing files and storing files at `p` only. -/
def FS.Within (fs1 fs : FS) (p : String) : Prop :=
  fs1.dirs = fs.dirs ∧ ∀ e ∈ fs1.files, e.1 = p ∨ e ∈ fs.files

/-- From `w` to `w1` the fingerprint is unchanged and every new entry of the gate log is the
verdict of `gate` under that fingerprint. -/
def GateStep (w w1 : World) : Prop :=
  w1.expectedDevice = w.expectedDevice ∧
    ∃ log, w1.gateLog = w.gateLog ++ log ∧ ∀ e ∈ log, e.2 = gate w.expectedDevice e.1

/-- Every finished execution of `m` is a `GateStep`. -/
def Keeps {α : Type} (m : M α) : Prop := ∀ w a w1, m w = some (a, w1) → GateStep w w1

/-- Every finished execution of `m` leaves the files at the paths outside `P` as they were. -/
def Frames {α : Type} (P : String → Prop) (m : M α) : Prop :=
  ∀ w a w1, m w = some (a, w1) → ∀ q, ¬ P q → w1.fs.get q = w.fs.get q

/-- The relative path `handleDeletions` computes for a file it found below `dst/ns`. -/
def deletionRel (env : Env) (opt : Options) (abs : String) : String :=
  cleanRel (relativeFilePath (nsSubRoot env opt) abs)

/-- The guard of `handleDeletions` on a path with a `.plugbackup_meta` component. -/
def inMetaTree (abs : String) : Bool :=
  containsStr abs "/.plugbackup_meta/" || containsStr abs "\\.plugbackup_meta\\"

/-- The files of a listing that `handleDeletions` hands to `moveFileRobust`. -/
def tombstoneCandidates (env : Env) (opt : Options) (srcSet listing : List String) : List String :=
  listing.filter (fun abs => !inMetaTree abs && !srcSet.contains (deletionRel env opt abs))

/-- The signal that follows a call of `moveFileRobust` in `handleDeletions`: none when it failed. -/
def stashSignal (env : Env) (opt : Options) (e : String × String × Bool) : Option Event :=
  if e.2.2 then some (Event.deletedStashed (deletionRel env opt e.1) e.2.1 (e.2.1 ++ ".json"))
  else none

/-- The calls `e` and `f` of `moveFileRobust` (source, target, result) stay apart: the source of
`e` is not the target or the sidecar of `f`, and the target of `e` is not the source, the target
or the sidecar of `f`. -/
def Apart (e f : String × String × Bool) : Prop :=
  e.1 ≠ f.2.1 ∧ e.1 ≠ f.2.1 ++ ".json" ∧
    e.2.1 ≠ f.1 ∧ e.2.1 ≠ f.2.1 ∧ e.2.1 ≠ f.2.1 ++ ".json"

/-- What the call `e` of `moveFileRobust`, one that returned true, has done between the
filesystems `fs` and `fs1`: the target holds the bytes the source had, and the source is gone
when it is neither the target nor its sidecar and its removal is let through. -/
def MovedTo (env : Env) (fs fs1 : FS) (e : String × String × Bool) : Prop :=
  ∃ d d1, fs.get e.1 = some d ∧ fs1.get e.2.1 = some d1 ∧ d1.content = d.content ∧
    (e.1 ≠ e.2.1 → e.1 ≠ e.2.1 ++ ".json" → (∀ n, env.ioOk n (IoOp.remove e.1) = true) →
      fs1.get e.1 = none)

/-! ## Relations along a run -/

/-- Every finished execution of `m` is a step of the relation `R`. -/
def Steps {α : Type} (R : World → World → Prop) (m : M α) : Prop :=
  ∀ w a w1, m w = some (a, w1) → R w w1

/-- A relation between worlds that composes along a run and holds of every step that leaves the
files, the trace, the member `m_offlineSignaled` and the two call logs alone: it does not look at
the tape positions, the sleeps, the gate log, `m_totalBytes` or the fingerprint. -/
structure TapeBlind (R : World → World → Prop) : Prop where
  refl : ∀ w, R w w
  trans : ∀ w w1 w2, R w w1 → R w1 w2 → R w w2
  tape : ∀ w w1, w1.fs = w.fs → w1.events = w.events →
    w1.offlineSignaled = w.offlineSignaled → w1.copyCalls = w.copyCalls →
    w1.moveLog = w.moveLog → R w w1

/-- A relation that looks at the trace and at the member `m_offlineSignaled` only. -/
structure TraceOnly (R : World → World → Prop) : Prop where
  refl : ∀ w, R w w
  trans : ∀ w w1 w2, R w w1 → R w1 w2 → R w w2
  hidden : ∀ w w1, w1.events = w.events → w1.offlineSignaled = w.offlineSignaled → R w w1

/-- A relation that the wait and the signals of the vault and of progress respect: every function
of the worker below the copy loop is then a step of it. -/
structure MidRel (env : Env) (R : World → World → Prop) : Prop where
  base : TraceOnly R
  wait : ∀ fuel hint, Steps R (waitUntilDestReadyOrStopped env fuel hint)
  versionCreated : ∀ rel p q, Steps R (emit (Event.versionCreated rel p q))
  deletedStashed : ∀ rel p q, Steps R (emit (Event.deletedStashed rel p q))
  progressUpdated : ∀ a b, Steps R (emit (Event.progressUpdated a b))

/-- A relation that every signal of the per-file loop respects as well: `run` is a step of it. -/
structure TopRel (env : Env) (R : World → World → Prop) : Prop where
  mid : MidRel env R
  fileStarted : ∀ rel n, Steps R (emit (Event.fileStarted rel n))
  fileFinished : ∀ rel ok err, Steps R (emit (Event.fileFinished rel ok err))
  finished : ∀ ok s, Steps R (emit (Event.finished ok s))

/-! ## Vocabulary of the device signals -/

/-- The member `m_offlineSignaled` after a signal is emitted while it holds `flag`, if the signal
may be emitted then: `deviceOffline` only while it is false, `deviceOnline` only while it is
true; the other signals leave it alone. -/
def devStep (flag : Bool) (e : Event) : Option Bool :=
  match e with
  | Event.deviceOffline _ => if flag then none else some true
  | Event.deviceOnline => if flag then some false else none
  | _ => some flag

/-- The member `m_offlineSignaled` after a sequence of signals, if each may be emitted in turn. -/
def devTrace : Bool → List Event → Option Bool
  | flag, [] => some flag
  | flag, e :: es =>
    match devStep flag e with
    | none => none
    | some f => devTrace f es

/-- From `w` to `w1` signals were appended to the trace, each device signal was emitted in a
state of `m_offlineSignaled` that allows it, and the member ends as the signals leave it. -/
def DeviceStep (w w1 : World) : Prop :=
  ∃ evs, w1.events = w.events ++ evs ∧ devTrace w.offlineSignaled evs = some w1.offlineSignaled

/-- The device signals of a trace, oldest first: true for `deviceOffline`, false for `deviceOnline`. -/
def deviceKinds (evs : List Event) : List Bool :=
  evs.filterMap (fun e => match e with
    | Event.deviceOffline _ => some true
    | Event.deviceOnline => some false
    | _ => none)

/-- The list is `b, !b, b, ...`. -/
def alternatesFrom : Bool → List Bool → Bool
  | _, [] => true
  | b, x :: xs => x == b && alternatesFrom (!b) xs

/-- Whether the last device signal of a trace is `deviceOffline`; false when there is none. -/
def lastIsOffline (evs : List Event) : Bool := (deviceKinds evs).getLast?.getD false

/-- The device signals of the trace strictly alternate, the first is `deviceOffline`, and
`m_offlineSignaled` says whether the last one is `deviceOffline`. -/
def DeviceInv (w : World) : Prop :=
  alternatesFrom true (deviceKinds w.events) = true ∧ w.offlineSignaled = lastIsOffline w.events

/-! ## Vocabulary of the per-file results -/

/-- The signal is a `fileFinished` with `ok = false`. -/
def isFailure (e : Event) : Bool :=
  match e with
  | Event.fileFinished _ false _ => true
  | _ => false

/-- Some signal of the list is a `fileFinished` with `ok = false`. -/
def hasFailure (evs : List Event) : Bool := evs.any isFailure

/-- The signal is a `finished`. -/
def isFinished (e : Event) : Bool :=
  match e with
  | Event.finished _ _ => true
  | _ => false

/-- From `w` to `w1` signals were appended to the trace, none of them a failed `fileFinished`
or a `finished`. -/
def NoFail (w w1 : World) : Prop :=
  ∃ evs, w1.events = w.events ++ evs ∧ hasFailure evs = false ∧ evs.any isFinished = false

/-- From `w` to `w1` signals were appended to the trace, no `finished` among them, and the flag
`allOk`, which held `allOk` at `w`, holds `ok` at `w1`: it is true exactly if it was true and no
failed `fileFinished` was appended. -/
def OkStep (allOk ok : Bool) (w w1 : World) : Prop :=
  ∃ evs, w1.events = w.events ++ evs ∧ ok = (allOk && !hasFailure evs) ∧
    evs.any isFinished = false

/-- Every finished execution of `m`, entered with `allOk` holding `b`, is an `OkStep` to the
value `post` reads off what `m` returns. -/
def OkSteps {α : Type} (b : Bool) (post : α → Bool) (m : M α) : Prop :=
  ∀ w a w1, m w = some (a, w1) → OkStep b (post a) w w1

/-- Every finished execution of `m` returns a value with the property `P`. -/
def Returns {α : Type} (P : α → Prop) (m : M α) : Prop :=
  ∀ w a w1, m w = some (a, w1) → P a

/-! ## Vocabulary of the identical-file check -/

/-- The signal is a `versionCreated`. -/
def isVersionCreated (e : Event) : Bool :=
  match e with
  | Event.versionCreated _ _ _ => true
  | _ => false

/-- From `w` to `w1` no file and no directory changed, `copyOneFile` and `moveFileRobust` were
not called, and the signals appended to the trace hold no `versionCreated`. -/
def IdleStep (w w1 : World) : Prop :=
  w1.fs = w.fs ∧ w1.copyCalls = w.copyCalls ∧ w1.moveLog = w.moveLog ∧
    ∃ evs, w1.events = w.events ++ evs ∧ ∀ e ∈ evs, isVersionCreated e = false

/-- The two files exist, have the same size, modification times at most 2 s apart, and the same
non-empty SHA-256. -/
def IdenticalAt (env : Env) (fs : FS) (srcPath dstPath : String) : Prop :=
  ∃ s d, fs.get srcPath = some s ∧ fs.get dstPath = some d ∧
    s.content.length = d.content.length ∧ (s.mtime - d.mtime).natAbs ≤ 2 ∧
    env.sha256 s.content = env.sha256 d.content ∧ env.sha256 s.content ≠ []

/-! ## Vocabulary of normalized paths -/

/-- A path component: not empty, without `/`, and neither `.` nor `..`. -/
def PlainComp (c : List Char) : Prop := c ≠ [] ∧ '/' ∉ c ∧ c ≠ ['.'] ∧ c ≠ ['.', '.']

/-- The absolute path with the given components: `/c1/c2/.../cn`, and `/` when there is none. -/
def absString (cs : List (List Char)) : String := ⟨'/' :: joinSlash cs⟩

/-- The relative path with the given components: `c1/c2/.../cn`. -/
def relString (cs : List (List Char)) : String := ⟨joinSlash cs⟩

/-- The component is neither empty nor `.`: `QDir::cleanPath` keeps it, `..` apart. -/
def keptComp (c : List Char) : Bool := decide (c ≠ [] ∧ c ≠ ['.'])

instance (c : List Char) : Decidable (PlainComp c) := by
  unfold PlainComp
  infer_instance

/-- Components joined with `/`, each followed by `/`, in front of `rest`. -/
def joinTail : List (List Char) → List Char → List Char
  | [], rest => rest
  | a :: t, rest => a ++ '/' :: joinTail t rest

/-- The paths a worker writes for the relative path `rel` with the timestamp `ts`: the
destination file and its `.part` sibling, the version and the tombstone, and their sidecars. -/
def writtenPaths (env : Env) (opt : Options) (rel ts : String) : List String :=
  [dstAbsPath env opt rel, dstAbsPath env opt rel ++ ".part",
   versionFilePath env opt rel ts, versionFilePath env opt rel ts ++ ".json",
   deletedFilePath env opt rel ts, deletedFilePath env opt rel ts ++ ".json"]

/-! ## Vocabulary of the retention sweep -/

/-- The text after the last `marker` in the name of `file`, the marker being two characters
long; `none` when the name holds no marker. -/
def stampText (marker file : String) : Option String :=
  match lastIndexOf marker.data (fileName file).data with
  | none => none
  | some pos => some ⟨(fileName file).data.drop (pos + 2)⟩

/-- An expired payload: a file that is no `.json`, the text after the last marker of whose name
parses to a time earlier than `cutoff`. -/
def expired (env : Env) (cutoff : Int) (marker file : String) : Bool :=
  !endsWithCI file ".json" &&
    match stampText marker file with
    | none => false
    | some s =>
      match env.parseTs s with
      | none => false
      | some t => decide (t < cutoff)

/-- The expired payloads of a listing, each followed by its sidecar. -/
def sweptPaths (env : Env) (cutoff : Int) (marker : String) : List String → List String
  | [] => []
  | p :: more =>
    if expired env cutoff marker p then p :: (p ++ ".json") :: sweptPaths env cutoff marker more
    else sweptPaths env cutoff marker more

/-- The path `p` is a regular file of `fs` below the directory `base` that is not hidden and lies
in no hidden directory below `base`: no component of `p` below `base` starts with a dot. -/
@[reducible] def VisibleBelow (fs : FS) (base p : String) : Prop :=
  fs.get p ≠ none ∧ startsWith p (base ++ "/") = true ∧ hiddenBelow base p = false

/-- The file `p` of `fs` is an expired version, visible below `versions/<ns>`, or an expired
tombstone, visible below `deleted/<ns>`. -/
def ExpiredIn (env : Env) (opt : Options) (fs : FS) (cutoff : Int) (p : String) : Prop :=
  (VisibleBelow fs (absoluteFilePath env.cwd (versionsRoot env opt) (nsPrefix env opt)) p ∧
    expired env cutoff ".v" p = true) ∨
  (VisibleBelow fs (absoluteFilePath env.cwd (deletedRoot env opt) (nsPrefix env opt)) p ∧
    expired env cutoff ".d" p = true)

/-! ## Vocabulary of the verification -/

/-- The delay before the `k`-th retry of a verification: `min(1000·2^k, 30000)` ms. -/
def backoff (k : Nat) : Int := min (1000 * 2 ^ k) 30000

/-- The update `delay = qMin(delay * 2, 30000)`. -/
def nextDelay (d : Int) : Int := min (d * 2) 30000

/-- A destination digest `b` passes against the source digest `a`: it is not empty and equal. -/
def digestsMatch (a b : List Nat) : Bool := decide (b ≠ [] ∧ a = b)

/-- What a loop of retries that saw the destination digests `bs` returns: `r` is true when the
last digest passed and none before it did, and false when all `n` retries were made and no digest
passed. -/
def RetryOutcome (a : List Nat) (n : Nat) (bs : List (List Nat)) (r : Bool) : Prop :=
  (r = true → ∃ pre b, bs = pre ++ [b] ∧ digestsMatch a b = true ∧
    ∀ x ∈ pre, digestsMatch a x = false) ∧
  (r = false → bs.length = n ∧ ∀ x ∈ bs, digestsMatch a x = false)

/-- The world right after a check of the volume that passed: one more observation of the device
is used up and logged. -/
def afterGate (env : Env) (w : World) : World :=
  { w with devN := w.devN + 1, gateLog := w.gateLog ++ [(env.dev w.devN, true)] }

/-- The world right after `QThread::msleep(d)`. -/
def afterSleep (d : Int) (w : World) : World := { w with sleeps := w.sleeps ++ [d] }

/-- The retries of `verifyFile` that start in the world `w` with the delay `d`: `bs` are the
digests that the calls of `fileHashSha256` on the destination returned, one call per retry, each
made in the world that the retry before it left, after the sleep and the check of the volume;
`w1` is the world after the last of them. -/
def RetryRun (env : Env) (dst : String) : Int → World → List (List Nat) → World → Prop
  | _, w, [], w1 => w1 = w
  | d, w, b :: bs, w1 =>
    ∃ wm, fileHashSha256 env dst (afterGate env (afterSleep d w)) = some (b, wm) ∧
      RetryRun env dst (nextDelay d) wm bs w1

/-- The file at `path` cannot be opened: it does not exist, or no attempt to open it succeeds.
Its digest is then the empty one.  A file that opens and whose reads fail is not meant. -/
def CannotOpen (env : Env) (fs : FS) (path : String) : Prop :=
  fs.get path = none ∨ ∀ n, env.ioOk n (IoOp.openRead path) = false

/-! ## Vocabulary of the speed estimator -/

/-- The estimator after the calls `onProgress` for the samples of the list, in order. -/
def feed (s : SpeedAverager) (samples : List Point) : SpeedAverager :=
  samples.foldl (fun s p => s.onProgress p.t p.bytes) s

/-- The average as the formula with the floor of 10 ms on the time gives it,
`(bytes_last − bytes_head) / max(0.01, (t_last − t_head)/1000)`, in the arithmetic of `double`
that `avgBytesPerSec` computes in. -/
def clampedAverage (rnd : ℚ → ℚ) (head last : Point) : ℚ :=
  rnd (rnd (rnd (last.bytes : ℚ) - rnd (head.bytes : ℚ)) /
    max (rnd (1 / 100)) (rnd (rnd ((last.t - head.t : Int) : ℚ) / 1000)))

/-- What the statements ask of the rounding to `double`: it is monotone, the integers 10 and 11
are `double`s, and the `double`s nearest to 0.01 and to 0.011 are not the same. -/
def RoundsLikeDouble (rnd : ℚ → ℚ) : Prop :=
  Monotone rnd ∧ rnd 10 = 10 ∧ rnd 11 = 11 ∧ rnd (1 / 100) < rnd (11 / 1000)

/-! ## Vocabulary of smart mode -/

/-- The state after the samples of a list were fed, one per tick, to `onSmartTick` with the
threshold `hi`, from the state at construction. -/
def smartAfter (hi : Int) (samples : List ℚ) : SmartState :=
  samples.foldl (fun s cpu => (onSmartTick true true hi cpu s).1) SmartState.init

/-- The call made by the tick that takes the sample `cpu` after the samples of `before`. -/
def smartCallAt (hi : Int) (before : List ℚ) (cpu : ℚ) : SmartCall :=
  (onSmartTick true true hi cpu (smartAfter hi before)).2

/-- A sample of the middle band: below `hi` and above `lo`; it is not counted. -/
def InMiddleBand (hi : Int) (cpu : ℚ) : Prop := cpu < (hi : ℚ) ∧ (smartLo hi : ℚ) < cpu

/-- The last sample of `samples` outside the middle band satisfies `P`. -/
def LastCounted (hi : Int) (P : ℚ → Prop) (samples : List ℚ) : Prop :=
  ∃ (front : List ℚ) (b : ℚ) (mid : List ℚ), samples = front ++ b :: mid ∧ P b ∧
    ¬ InMiddleBand hi b ∧ ∀ m ∈ mid, InMiddleBand hi m

/-- What holds of the state after the samples of `before`: the counters are not both positive and
count at most the samples, two counted busy samples leave the tasks paused and two counted idle
ones leave them running, and a positive counter tells the kind of the last counted sample. -/
def SmartInv (hi : Int) (before : List ℚ) (s : SmartState) : Prop :=
  (s.busyCount = 0 ∨ s.idleCount = 0) ∧
  (2 ≤ s.busyCount → s.smartPaused = true) ∧
  (2 ≤ s.idleCount → s.smartPaused = false) ∧
  (1 ≤ s.busyCount → LastCounted hi (fun b => (hi : ℚ) ≤ b) before) ∧
  (1 ≤ s.idleCount → LastCounted hi (fun b => b < (hi : ℚ) ∧ b ≤ (smartLo hi : ℚ)) before) ∧
  s.busyCount ≤ before.length ∧ s.idleCount ≤ before.length

/-! ## Vocabulary of the per-file signals -/

/-- The file whose iteration is open (`none` between two iterations) after the signal `e` is
emitted while `cur` says so, if the signal may be emitted then: `fileStarted` only between two
iterations, `fileFinished` only for the file of the open iteration, which it closes, and
`versionCreated` only in an open iteration, for the cleaned path of its file; the other signals
may come at any time. -/
def fileStep (cur : Option String) (e : Event) : Option (Option String) :=
  match e, cur with
  | Event.fileStarted rel _, none => some (some rel)
  | Event.fileStarted _ _, some _ => none
  | Event.fileFinished rel _ _, some r => if rel = r then some none else none
  | Event.fileFinished _ _ _, none => none
  | Event.versionCreated rel _ _, some r => if rel = cleanRel r then some (some r) else none
  | Event.versionCreated _ _ _, none => none
  | _, cur => some cur

/-- The open iteration after the signals of a list, if each of them may be emitted when it is. -/
def fileTrace : Option String → List Event → Option (Option String)
  | cur, [] => some cur
  | cur, e :: es =>
    match fileStep cur e with
    | none => none
    | some next => fileTrace next es

/-- From `w` to `w1` signals were appended to the trace that may be emitted in this order when
the open iteration is `cur` at `w`, and they leave the open iteration `next`. -/
def FileStep (cur next : Option String) (w w1 : World) : Prop :=
  ∃ evs, w1.events = w.events ++ evs ∧ fileTrace cur evs = some next

/-- Every finished execution of `m`, entered with the open iteration `cur`, is a `FileStep` to
the open iteration `post` reads off what `m` returns. -/
def FileSteps {α : Type} (cur : Option String) (post : α → Option String) (m : M α) : Prop :=
  ∀ w a w1, m w = some (a, w1) → FileStep cur (post a) w w1

/-- From `w` to `w1` signals were appended to the trace, each of which may be emitted when the
open iteration is `cur` and leaves it open or closed as it was. -/
def Stays (cur : Option String) (w w1 : World) : Prop :=
  ∃ evs, w1.events = w.events ++ evs ∧ ∀ e ∈ evs, fileStep cur e = some cur

/-- The signal is a `fileStarted` or a `fileFinished`. -/
def isStartOrFinish (e : Event) : Bool :=
  match e with
  | Event.fileStarted _ _ => true
  | Event.fileFinished _ _ _ => true
  | _ => false

/-- The two signals of the iteration of a file: its start with the size, its end with the
result. -/
def filePair (p : String × Nat × Bool × String) : List Event :=
  [Event.fileStarted p.1 p.2.1, Event.fileFinished p.1 p.2.2.1 p.2.2.2]

/-- The last `fileStarted` or `fileFinished` of the list is a `fileStarted` of `rel`. -/
def StartedBefore (rel : String) (before : List Event) : Prop :=
  ∃ front size mid, before = front ++ Event.fileStarted rel size :: mid ∧
    ∀ e ∈ mid, isStartOrFinish e = false

/-- The first `fileStarted` or `fileFinished` of the list is a `fileFinished` of `rel`. -/
def FinishedAfter (rel : String) (after : List Event) : Prop :=
  ∃ mid ok err rest, after = mid ++ Event.fileFinished rel ok err :: rest ∧
    ∀ e ∈ mid, isStartOrFinish e = false

/-! ## Vocabulary of the per-file loop -/

/-- The per-file loop as a chain of calls: each file of the list, in its order, gets its call of
`processFile`, entered with the world, the byte count and the flag the call before it left, and
every call answers `Step.next`; the last call leaves `bytesDone1`, `allOk1` and `w1`. -/
def Iterates (env : Env) (opt : Options) (fuel : Nat) :
    List String → Nat → Bool → World → Nat → Bool → World → Prop
  | [], bytesDone, allOk, w, bytesDone1, allOk1, w1 =>
    bytesDone1 = bytesDone ∧ allOk1 = allOk ∧ w1 = w
  | rel :: more, bytesDone, allOk, w, bytesDone1, allOk1, w1 =>
    ∃ bd ok wm, processFile env opt fuel rel bytesDone allOk w = some ((Step.next, bd, ok), wm) ∧
      Iterates env opt fuel more bd ok wm bytesDone1 allOk1 w1

/-! ## Vocabulary of the start-up validation -/

/-- The directory `child` lies inside the directory `parent`: both are absolute normalized paths,
`parent` is not the root directory, and the components of `child` are those of `parent`
followed by at least one more. -/
def LiesInside (parent child : String) : Prop :=
  ∃ cs ds : List (List Char), cs ≠ [] ∧ ds ≠ [] ∧ (∀ c ∈ cs ++ ds, PlainComp c) ∧
    parent = absString cs ∧ child = absString (cs ++ ds)

/-! ## Vocabulary of the phases of a run -/

/-- Lines 310 to 322 of `run`, before the scan: the fingerprint, the wait for the volume and the
load of `m_stop`; true when `run` reports the cancellation and returns. -/
def runStart (env : Env) (fuel : Nat) : M Bool := do
  let st ← storageInfo env
  setExpectedDevice (if st.valid && st.ready then st.device else "")
  waitUntilDestReadyOrStopped env fuel "启动"
  loadStop env

/-- Lines 325 to 339 of `run`, the scan: the set of the source files, the total of their sizes
and the first `progressUpdated`. -/
def runScan (env : Env) (opt : Options) : M (List String × Nat) := do
  let srcSet ← readFs (fun fs => srcSetOf env opt fs)
  let total ← readFs (fun fs => (srcSet.map (srcSize env opt fs)).sum)
  setTotalBytes total
  emit (Event.progressUpdated 0 total)
  pure (srcSet, total)

/-- Lines 457 to 470 of `run`, after the loop over the files: the deletion pass, the sweep and
the two last signals. -/
def runEnd (env : Env) (opt : Options) (fuel : Nat) (srcSet : List String) (total : Nat)
    (allOk : Bool) : M Unit := do
  if !(← loadStop env) then
    waitUntilDestReadyOrStopped env fuel "处理删除项"
    if !(← loadStop env) then handleDeletions env opt fuel srcSet
  if !(← loadStop env) then
    waitUntilDestReadyOrStopped env fuel "清理旧版本"
    if !(← loadStop env) then sweepRetention env opt fuel
  emit (Event.progressUpdated total total)
  emit (Event.finished allOk (if allOk then "完成" else "部分失败"))

/-! ## Concrete scenarios -/

namespace Demo

/-- A mounted, writable volume with device identifier `A`. -/
def devA : DevObs := { valid := true, ready := true, readOnly := false, device := "A" }

/-- A mounted, writable volume with device identifier `B`. -/
def devB : DevObs := { valid := true, ready := true, readOnly := false, device := "B" }

/-- No volume at the mount point. -/
def devOff : DevObs := { valid := false, ready := false, readOnly := false, device := "" }

/-- A tape that plays `l` and then `d` for ever. -/
def tape {α : Type} (l : List α) (d : α) : Nat → α := fun n => l.getD n d

/-- Toy serialisation of a string: its length, then its characters. -/
def encStr (s : String) : List Nat := s.data.length :: s.data.map Char.toNat

/-- Inverse of `encStr` on the front of a byte list. -/
def decStr : List Nat → Option (String × List Nat)
  | [] => none
  | n :: rest =>
    if rest.length < n then none
    else some (⟨(rest.take n).map Char.ofNat⟩, rest.drop n)

/-- Toy serialisation of an object of string fields. -/
def encObj : List (String × String) → List Nat
  | [] => [0]
  | (k, v) :: t => 1 :: (encStr k ++ (encStr v ++ encObj t))

/-- Inverse of `encObj`. -/
def decObj : Nat → List Nat → Option (List (String × String))
  | 0, _ => none
  | _ + 1, [] => none
  | _ + 1, 0 :: rest => if rest = [] then some [] else none
  | fuel + 1, (_ + 1) :: rest =>
    match decStr rest with
    | none => none
    | some (k, r1) =>
      match decStr r1 with
      | none => none
      | some (v, r2) =>
        match decObj fuel r2 with
        | none => none
        | some t => some ((k, v) :: t)

/-- An environment in which the volume `A` is always there, nobody cancels or pauses, every
primitive succeeds and every timer reads 0. -/
def env : Env where
  cwd := "/"
  dev := fun _ => devA
  stopAt := none
  pause := fun _ => false
  interruptAt := none
  ioOk := fun _ _ => true
  read := fun _ => some BUF
  nowMs := fun n => 1000 * n
  elapsedMs := fun _ => 0
  fmtTs := fun _ => "20250101-000000"
  parseTs := fun _ => none
  sha256 := fun l => 32 :: l
  sha1Hex := fun _ => "0123456789abcdef0123456789abcdef01234567"
  globMatch := fun _ _ => false
  setOrder := fun l => l
  toJson := encObj
  fromJson := fun l => decObj (l.length + 1) l
  qtMajor := 6

/-- Options of a worker backing up `/src` to `/dst` under the namespace `ns`, without verification. -/
def opt : Options where
  srcDir := "/src"
  dstDir := "/dst"
  verifyAfterWrite := false
  maxRetries := 3
  ignoreGlobs := []
  filesWhitelist := []
  speedLimitBps := 0
  keepVersionsOnChange := true
  keepDeletedInVault := true
  retentionDays := 7
  nsName := "ns"

/-- A fresh worker on the given files. -/
def world (files : List (String × FileData)) : World where
  fs := { files := files, dirs := [] }
  events := []
  expectedDevice := ""
  offlineSignaled := false
  totalBytes := 0
  copyCalls := 0
  sleeps := []
  gateLog := []
  moveLog := []
  devN := 0
  stopN := 0
  pauseN := 0
  intrN := 0
  ioN := 0
  readN := 0
  clockN := 0
  timerN := 0

/-- The trace of a finished computation. -/
def eventsOf {α : Type} (r : Option (α × World)) : Option (List Event) := r.map (fun x => x.2.events)

/-- The bytes at a path after a finished computation. -/
def bytesAt {α : Type} (r : Option (α × World)) (p : String) : Option (Option (List Nat)) :=
  r.map (fun x => (x.2.fs.get p).map (fun d => d.content))

/-- The files of the filesystem after a finished computation, with their bytes. -/
def filesOf {α : Type} (r : Option (α × World)) : Option (List (String × List Nat)) :=
  r.map (fun x => x.2.fs.files.map (fun e => (e.1, e.2.content)))

/-- What a finished computation returned. -/
def resultOf {α : Type} (r : Option (α × World)) : Option α := r.map (fun x => x.1)

/-- One source file and an empty destination. -/
def filesNew : List (String × FileData) :=
  [("/src/a.txt", { content := [7], mtime := 50 })]

/-- A source file that changed since it was backed up. -/
def filesChanged : List (String × FileData) :=
  [("/src/a.txt", { content := [9, 9], mtime := 50 }),
   ("/dst/ns/a.txt", { content := [1, 2, 3], mtime := 5 })]

/-- A source file identical to its backup. -/
def filesSame : List (String × FileData) :=
  [("/src/a.txt", { content := [1, 2, 3], mtime := 5 }),
   ("/dst/ns/a.txt", { content := [1, 2, 3], mtime := 5 })]

/-- Two source files, both backed up and unchanged. -/
def filesTwo : List (String × FileData) :=
  [("/src/a.txt", { content := [1], mtime := 5 }),
   ("/src/b.txt", { content := [2], mtime := 5 }),
   ("/dst/ns/a.txt", { content := [1], mtime := 5 }),
   ("/dst/ns/b.txt", { content := [2], mtime := 5 })]

/-- A namespace subtree holding a file below a directory named `.plugbackup_meta`, a file that
is gone from the source and one that is still there. -/
def filesNsMeta : List (String × FileData) :=
  [("/dst/ns/x/.plugbackup_meta/y", { content := [1], mtime := 5 }),
   ("/dst/ns/gone.txt", { content := [2], mtime := 5 }),
   ("/dst/ns/keep.txt", { content := [3], mtime := 5 })]

/-- A source file of four bytes and an empty destination. -/
def filesFour : List (String × FileData) :=
  [("/src/a.txt", { content := [7, 8, 9, 10], mtime := 50 })]

/-- The options of a retry of `a.txt` alone: a whitelist, and no versions. -/
def optWhitelist : Options :=
  { opt with filesWhitelist := ["a.txt"], keepVersionsOnChange := false }

/-- The fingerprint the worker holds after a finished computation. -/
def fingerprintOf {α : Type} (r : Option (α × World)) : Option String :=
  r.map (fun x => x.2.expectedDevice)

/-- The calls of `isDestReadySameDevice` of a finished computation: the device identifier seen
and the answer. -/
def gateOf {α : Type} (r : Option (α × World)) : Option (List (String × Bool)) :=
  r.map (fun x => x.2.gateLog.map (fun e => (e.1.device, e.2)))

/-- The calls of `moveFileRobust` of a finished computation. -/
def movesOf {α : Type} (r : Option (α × World)) : Option (List (String × String × Bool)) :=
  r.map (fun x => x.2.moveLog)

/-- Every primitive succeeds but the one named. -/
def okExcept (bad : IoOp) : Nat → IoOp → Bool := fun _ op => decide (op ≠ bad)

/-- Every primitive succeeds but a rename or a copy of the file at `p`. -/
def okUnlessMoving (p : String) : Nat → IoOp → Bool := fun _ op =>
  match op with
  | IoOp.rename src _ => decide (src ≠ p)
  | IoOp.copy src _ => decide (src ≠ p)
  | _ => true

/-- The controller calls `requestStop()` so that the third load of `m_stop`, the one at the top of
the first per-file iteration, is the first to see it. -/
def envCancel : Env := { env with stopAt := some 2 }

/-- The volume is away at the observations number 5, 6 and 7 (counting the one at the start of
`run` as number 0): line 212 of the first version step, line 365 and line 177 of the wait that
follows; and again at number 10, line 212 of the retried version step. -/
def envFlapTwice : Env :=
  { env with dev := tape [devA, devA, devA, devA, devA, devOff, devOff, devOff, devA, devA, devOff] devA }

/-- The volume is away at one observation only, number 6: line 229 of the version step. -/
def envFlapOnce : Env :=
  { env with dev := tape [devA, devA, devA, devA, devA, devA, devOff] devA }

/-- Renaming the finished `.part` file over the destination fails. -/
def envRenameFails : Env :=
  { env with ioOk := okExcept (IoOp.rename "/dst/ns/a.txt.part" "/dst/ns/a.txt") }

/-- The first read delivers two bytes, the second reports an error. -/
def envReadError : Env := { env with read := tape [some 1, none] (some BUF) }

/-- The sidecar of the version cannot be opened for writing. -/
def envSidecarFails : Env :=
  { env with ioOk := okExcept (IoOp.openWrite "/dst/.plugbackup_meta/versions/ns/a.txt.v20250101-000000.json") }

/-- No volume when `run` starts and at the first check; then the volume `A` for three observations;
from then on the volume `B`. -/
def envSwapped : Env := { env with dev := tape [devOff, devOff, devA, devA, devA] devB }

/-- Moving the existing payload fails: neither the rename nor the copy of it goes through. -/
def envMoveFails : Env := { env with ioOk := okUnlessMoving "/dst/ns/a.txt" }

/-- The source file is read two bytes at a time and the progress timer has always run more than
200 ms.  The volume is away at the observations number 9, 10 and 11: the check inside the
streaming loop of `copyOneFile` before the second chunk is written, line 413 and line 177 of the
wait that follows. -/
def envFlapMidCopy : Env :=
  { env with dev := tape [devA, devA, devA, devA, devA, devA, devA, devA, devA, devOff, devOff, devOff] devA,
             read := fun _ => some 1,
             elapsedMs := fun _ => 300 }

/-- The progress timer has always run more than 200 ms, and the volume is away at the observations
number 9, 10 and 11: with the file read in one chunk these are the first check of `verifyFile`,
line 428 and line 177 of the wait that follows. -/
def envFlapAtVerify : Env :=
  { env with dev := tape [devA, devA, devA, devA, devA, devA, devA, devA, devA, devOff, devOff, devOff] devA,
             elapsedMs := fun _ => 300 }

/-- The options of the scenarios with verification after write switched on. -/
def optVerify : Options := { opt with verifyAfterWrite := true }

/-- The first arguments of the `progressUpdated` signals of a trace, oldest first. -/
def progressOf (evs : List Event) : List Nat :=
  evs.filterMap (fun e => match e with
    | Event.progressUpdated done _ => some done
    | _ => none)

/-- A worker on the source directory `/data/my.photos`, with no namespace override. -/
def optDotted : Options := { opt with srcDir := "/data/my.photos", nsName := "" }

/-- No volume at the mount point, at any observation. -/
def envAway : Env := { env with dev := fun _ => devOff }

/-- One source file, and a `.part` file of it left behind in the destination. -/
def filesStalePart : List (String × FileData) :=
  [("/src/a.txt", { content := [7], mtime := 50 }),
   ("/dst/ns/a.txt.part", { content := [5], mtime := 5 })]

/-- The options of a worker whose namespace override is an absolute path. -/
def optNsAbsolute : Options := { opt with nsName := "/x" }

/-- The options of a second worker on the same destination, under the namespace `other`. -/
def optOther : Options := { opt with nsName := "other" }

/-- The options of a third worker on the same destination, whose namespace override `ns/other`
lies below the namespace of the first. -/
def optNested : Options := { opt with nsName := "ns/other" }

/-- The number written by a list of decimal digits. -/
def digitsVal (l : List Char) : Option Nat :=
  if l.all Char.isDigit then some (l.foldl (fun n c => 10 * n + (c.toNat - 48)) 0) else none

/-- Days of a month of the Gregorian calendar. -/
def daysInMonth (y m : Nat) : Nat :=
  if m = 2 then (if y % 4 = 0 ∧ (y % 100 ≠ 0 ∨ y % 400 = 0) then 29 else 28)
  else if m = 4 ∨ m = 6 ∨ m = 9 ∨ m = 11 then 30 else 31

/-- Days from 1970-01-01 to the given date of the Gregorian calendar. -/
def daysFromCivil (y m d : Nat) : Int :=
  let y1 := if m ≤ 2 then y - 1 else y
  let era := y1 / 400
  let yoe := y1 - era * 400
  let mp := (m + 9) % 12
  let doy := (153 * mp + 2) / 5 + d - 1
  let doe := yoe * 365 + yoe / 4 - yoe / 100 + doy
  ((era * 146097 + doe : Nat) : Int) - 719468

/-- A parser of `yyyyMMdd-HHmmss`, read as UTC, in milliseconds since the epoch. -/
def parseStamp (s : String) : Option Int :=
  match s.data with
  | [y1, y2, y3, y4, m1, m2, d1, d2, '-', h1, h2, n1, n2, s1, s2] =>
    match digitsVal [y1, y2, y3, y4], digitsVal [m1, m2], digitsVal [d1, d2],
        digitsVal [h1, h2], digitsVal [n1, n2], digitsVal [s1, s2] with
    | some y, some m, some d, some h, some n, some sec =>
      if 1 ≤ y ∧ 1 ≤ m ∧ m ≤ 12 ∧ 1 ≤ d ∧ d ≤ daysInMonth y m ∧ h < 24 ∧ n < 60 ∧ sec < 60 then
        some ((daysFromCivil y m d * 86400 + ((h * 3600 + n * 60 + sec : Nat) : Int)) * 1000)
      else none
    | _, _, _, _, _, _ => none
  | _ => none

/-- The environment `env` with a clock that reads 2025-01-11 00:00:00 UTC and a parser of
timestamps. -/
def envSweep : Env := { env with nowMs := fun _ => 1736553600000, parseTs := parseStamp }

/-- A vault holding, under the namespace `ns`: a version of 2025-01-01 and one of 2025-01-10 with
their sidecars, a file with a timestamp that is no date, a file without marker, and a
tombstone of 2025-01-01 with its sidecar. -/
def filesVault : List (String × FileData) :=
  [("/dst/.plugbackup_meta/versions/ns/a.txt.v20250101-000000", { content := [1], mtime := 5 }),
   ("/dst/.plugbackup_meta/versions/ns/a.txt.v20250101-000000.json", { content := [2], mtime := 5 }),
   ("/dst/.plugbackup_meta/versions/ns/a.txt.v20250110-000000", { content := [3], mtime := 5 }),
   ("/dst/.plugbackup_meta/versions/ns/a.txt.v20250110-000000.json", { content := [4], mtime := 5 }),
   ("/dst/.plugbackup_meta/versions/ns/sub/b.txt.v20251340-000000", { content := [5], mtime := 5 }),
   ("/dst/.plugbackup_meta/versions/ns/readme", { content := [6], mtime := 5 }),
   ("/dst/.plugbackup_meta/deleted/ns/c.txt.d20250101-000000", { content := [7], mtime := 5 }),
   ("/dst/.plugbackup_meta/deleted/ns/c.txt.d20250101-000000.json", { content := [8], mtime := 5 }),
   ("/dst/ns/a.txt", { content := [9], mtime := 5 })]

/-- A destination in which a directory stands where the sidecar of the payload `/dst/x.v1` would
be written: a file lies below `/dst/x.v1.json`. -/
def filesSidecarDir : List (String × FileData) :=
  [("/dst/x.v1", { content := [1], mtime := 5 }),
   ("/dst/x.v1.json/inner", { content := [2], mtime := 5 })]

/-- The sleeps of a finished computation, in milliseconds. -/
def sleepsOf {α : Type} (r : Option (α × World)) : Option (List Int) := r.map (fun x => x.2.sleeps)

/-- The number of readings of an elapsed timer in a finished computation. -/
def timerReadsOf {α : Type} (r : Option (α × World)) : Option Nat := r.map (fun x => x.2.timerN)

/-- A source file and a payload with other bytes of the same length. -/
def filesDiffer : List (String × FileData) :=
  [("/src/a.txt", { content := [7], mtime := 50 }),
   ("/dst/ns/a.txt", { content := [5], mtime := 50 })]

/-- A source file and a payload with the same bytes. -/
def filesCopied : List (String × FileData) :=
  [("/src/a.txt", { content := [7], mtime := 50 }),
   ("/dst/ns/a.txt", { content := [7], mtime := 50 })]

/-- The second file that is opened cannot be opened; every later open succeeds. -/
def envSecondOpenFails : Env := { env with ioOk := fun n _ => decide (n ≠ 1) }

/-- The third read fails: with a source of one chunk (one read for the bytes, one for the end)
it is the first read of the destination. -/
def envThirdReadFails : Env := { env with read := tape [some BUF, some BUF, none] (some BUF) }

/-- The options of a copy limited to 10 bytes per second: the budget of a window of 100 ms is
one byte. -/
def optSlow : Options := { opt with speedLimitBps := 10 }

/-- Every read fails: `read` returns -1 on every call. -/
def envReadsFail : Env := { env with read := fun _ => none }

/-- The options without versions. -/
def optPlain : Options := { opt with keepVersionsOnChange := false }

/-- Number of binary digits of `n`; the first argument bounds the recursion. -/
def bitLen : Nat → Nat → Nat
  | 0, _ => 0
  | fuel + 1, n => if n = 0 then 0 else bitLen fuel (n / 2) + 1

/-- The exponent `e` with `2^e ≤ q < 2^(e+1)`, for a positive `q`. -/
def floorLog2 (q : ℚ) : Int :=
  if (2 : ℚ) ^ ((bitLen q.num.natAbs q.num.natAbs : Int) - (bitLen q.den q.den : Int)) ≤ q
  then (bitLen q.num.natAbs q.num.natAbs : Int) - (bitLen q.den q.den : Int)
  else (bitLen q.num.natAbs q.num.natAbs : Int) - (bitLen q.den q.den : Int) - 1

/-- The integer nearest to `x`, the even one of the two when `x` lies half-way. -/
def roundHalfEven (x : ℚ) : Int :=
  if x - ⌊x⌋ < 1 / 2 then ⌊x⌋
  else if 1 / 2 < x - ⌊x⌋ then ⌊x⌋ + 1
  else if ⌊x⌋ % 2 = 0 then ⌊x⌋ else ⌊x⌋ + 1

/-- The `double` nearest to a positive `q`: a significand of 53 binary digits, ties to even. -/
def roundPos (q : ℚ) : ℚ :=
  (roundHalfEven (q / 2 ^ (floorLog2 q - 52)) : ℚ) * 2 ^ (floorLog2 q - 52)

/-- The `double` nearest to `q` (IEEE 754 binary64, round to nearest, ties to even), the range
of the exponent taken as unbounded. -/
def roundDouble (q : ℚ) : ℚ :=
  if q = 0 then 0 else if 0 < q then roundPos q else -roundPos (-q)

/-- A vault holding, under the namespace `ns`, three payloads of 2025-01-01: a version whose name
starts with a dot, with its sidecar, a tombstone below a directory whose name starts with a
dot, and a version with no dot at the start of a name. -/
def filesVaultHidden : List (String × FileData) :=
  [("/dst/.plugbackup_meta/versions/ns/.profile.v20250101-000000", { content := [1], mtime := 5 }),
   ("/dst/.plugbackup_meta/versions/ns/.profile.v20250101-000000.json", { content := [2], mtime := 5 }),
   ("/dst/.plugbackup_meta/deleted/ns/.config/app.ini.d20250101-000000", { content := [3], mtime := 5 }),
   ("/dst/.plugbackup_meta/versions/ns/a.txt.v20250101-000000", { content := [4], mtime := 5 })]

/-- A hidden source file that changed since it was backed up. -/
def filesHiddenChanged : List (String × FileData) :=
  [("/src/.profile", { content := [9, 9], mtime := 50 }),
   ("/dst/ns/.profile", { content := [1, 2, 3], mtime := 5 })]

/-- A namespace subtree holding two files that are gone from the source, one of them in a
subdirectory, a file whose name starts with a dot, a file whose name holds the backslash form of
the metadata directory, and a file that is still in the source. -/
def filesNsGone : List (String × FileData) :=
  [("/dst/ns/gone.txt", { content := [2], mtime := 5 }),
   ("/dst/ns/.profile", { content := [4], mtime := 5 }),
   ("/dst/ns/sub/old.txt", { content := [6], mtime := 5 }),
   ("/dst/ns/x\\.plugbackup_meta\\z", { content := [5], mtime := 5 }),
   ("/dst/ns/keep.txt", { content := [3], mtime := 5 })]

end Demo

/-! ## Theorems -/


/-! ### The monad -/

@[simp] theorem pure_apply {α : Type} (a : α) (w : World) : (pure a : M α) w = some (a, w) := rfl

@[simp] theorem bind_apply {α β : Type} (m : M α) (f : α → M β) (w : World) :
    (m >>= f) w = match m w with
      | none => none
      | some (a, w1) => f a w1 := rfl

theorem ite_apply_M {α : Type} (c : Prop) [Decidable c] (a b : M α) (w : World) :
    (if c then a else b) w = if c then a w else b w := by
  split <;> rfl

section
variable (env : Env)

@[simp] theorem emit_apply (e : Event) (w : World) :
    emit e w = some ((), { w with events := w.events ++ [e] }) := rfl

@[simp] theorem msleep_apply (ms : Int) (w : World) :
    msleep ms w = some ((), { w with sleeps := w.sleeps ++ [ms] }) := rfl

@[simp] theorem loadPause_apply (w : World) :
    loadPause env w = some (env.pause w.pauseN, { w with pauseN := w.pauseN + 1 }) := rfl

@[simp] theorem storageInfo_apply (w : World) :
    storageInfo env w = some (env.dev w.devN, { w with devN := w.devN + 1 }) := rfl

@[simp] theorem currentMs_apply (w : World) :
    currentMs env w = some (env.nowMs w.clockN, { w with clockN := w.clockN + 1 }) := rfl

@[simp] theorem timerElapsed_apply (w : World) :
    timerElapsed env w = some (env.elapsedMs w.timerN, { w with timerN := w.timerN + 1 }) := rfl

@[simp] theorem ioAttempt_apply (op : IoOp) (w : World) :
    ioAttempt env op w = some (env.ioOk w.ioN op, { w with ioN := w.ioN + 1 }) := rfl

@[simp] theorem qRead_apply (rest : List Nat) (w : World) :
    qRead env rest w =
      some (readChunk (env.read w.readN) rest, { w with readN := w.readN + 1 }) := rfl

@[simp] theorem getOfflineSignaled_apply (w : World) :
    getOfflineSignaled w = some (w.offlineSignaled, w) := rfl

@[simp] theorem setOfflineSignaled_apply (b : Bool) (w : World) :
    setOfflineSignaled b w = some ((), { w with offlineSignaled := b }) := rfl

@[simp] theorem setExpectedDevice_apply (fp : String) (w : World) :
    setExpectedDevice fp w = some ((), { w with expectedDevice := fp }) := rfl

@[simp] theorem getTotalBytes_apply (w : World) : getTotalBytes w = some (w.totalBytes, w) := rfl

@[simp] theorem setTotalBytes_apply (n : Nat) (w : World) :
    setTotalBytes n w = some ((), { w with totalBytes := n }) := rfl

@[simp] theorem countCopyCall_apply (w : World) :
    countCopyCall w = some ((), { w with copyCalls := w.copyCalls + 1 }) := rfl

@[simp] theorem logMove_apply (src dst : String) (moved : Bool) (w : World) :
    logMove src dst moved w =
      some ((), { w with moveLog := w.moveLog ++ [(src, dst, moved)] }) := rfl

@[simp] theorem readFs_apply {α : Type} (f : FS → α) (w : World) :
    readFs f w = some (f w.fs, w) := rfl

@[simp] theorem modifyFs_apply (f : FS → FS) (w : World) :
    modifyFs f w = some ((), { w with fs := f w.fs }) := rfl

end

/-! ### The filesystem -/

theorem find_filter_ne (l : List (String × FileData)) {p q : String} (h : q ≠ p) :
    (l.filter (fun e => decide (e.1 ≠ p))).find? (fun e => decide (e.1 = q)) =
      l.find? (fun e => decide (e.1 = q)) := by
  rw [List.find?_filter]
  congr 1
  funext e
  by_cases hq : e.1 = q
  · have hp : ¬ e.1 = p := fun hp => h (hq ▸ hp)
    simp [hq, h]
  · simp [hq]

theorem find_filter_self (l : List (String × FileData)) (p : String) :
    (l.filter (fun e => decide (e.1 ≠ p))).find? (fun e => decide (e.1 = p)) = none := by
  rw [List.find?_filter]
  simp

theorem FS.get_erase_ne (fs : FS) {p q : String} (h : q ≠ p) : (fs.erase p).get q = fs.get q := by
  unfold FS.get FS.erase
  rw [find_filter_ne fs.files h]

theorem FS.get_erase_self (fs : FS) (p : String) : (fs.erase p).get p = none := by
  unfold FS.get FS.erase
  rw [find_filter_self]
  rfl

theorem FS.get_put_self (fs : FS) (p : String) (d : FileData) : (fs.put p d).get p = some d := by
  simp [FS.get, FS.put, List.find?]

theorem FS.get_put_ne (fs : FS) {p q : String} (d : FileData) (h : q ≠ p) :
    (fs.put p d).get q = fs.get q := by
  have hpq : ¬ p = q := fun e => h e.symm
  unfold FS.get FS.put
  rw [List.find?_cons_of_neg _ (by simpa using hpq), find_filter_ne fs.files h]

theorem FS.get_setDirs (fs : FS) (ds : List String) (p : String) :
    ({ fs with dirs := ds } : FS).get p = fs.get p := rfl


/-! ### Paths -/

theorem takeWhile_append_stop {α : Type} (p : α → Bool) (a : List α) (c : α) (b : List α)
    (hc : p c = false) : (a ++ c :: b).takeWhile p = a.takeWhile p := by
  induction a with
  | nil => simp [List.takeWhile, hc]
  | cons h t ih =>
    cases hh : p h <;> simp [List.takeWhile, hh, ih]

theorem takeWhile_all {α : Type} (p : α → Bool) (a : List α) (h : ∀ x ∈ a, p x = true) :
    a.takeWhile p = a := by
  induction a with
  | nil => rfl
  | cons x t ih =>
    have hx : p x = true := h x (List.mem_cons_self x t)
    have ht : ∀ y ∈ t, p y = true := fun y hy => h y (List.mem_cons_of_mem x hy)
    simp [List.takeWhile, hx, ih ht]

theorem afterLastSlash_append_slash (x y : List Char) :
    afterLastSlash (x ++ '/' :: y) = afterLastSlash y := by
  unfold afterLastSlash
  have : (x ++ '/' :: y).reverse = y.reverse ++ '/' :: x.reverse := by simp
  rw [this, takeWhile_append_stop _ _ _ _ (by simp)]

theorem afterLastSlash_of_no_slash (y : List Char) (h : '/' ∉ y) : afterLastSlash y = y := by
  unfold afterLastSlash
  rw [takeWhile_all, List.reverse_reverse]
  intro c hc
  have : c ≠ '/' := fun e => h (e ▸ (List.mem_reverse.mp hc))
  simpa using this

theorem no_slash_afterLastSlash (l : List Char) : '/' ∉ afterLastSlash l := by
  unfold afterLastSlash
  intro h
  have h1 := List.mem_reverse.mp h
  have h2 := List.mem_takeWhile_imp h1
  simp at h2

theorem endsWith_slash_data {d : String} (h : endsWith d "/" = true) :
    ∃ x, d.data = x ++ ['/'] := by
  unfold endsWith at h
  cases hr : d.data.reverse with
  | nil => rw [hr] at h; simp [List.isPrefixOf] at h
  | cons c t =>
    rw [hr] at h
    have hc : c = '/' := by
      simp [List.isPrefixOf] at h
      exact h.symm
    refine ⟨t.reverse, ?_⟩
    have := congrArg List.reverse hr
    simpa [hc] using this

/-- The last component of `QDir(dir).absoluteFilePath(name)` is that of `name`. -/
theorem afterLastSlash_absoluteFilePath (cwd dir name : String) (hne : name.data ≠ []) :
    afterLastSlash (absoluteFilePath cwd dir name).data = afterLastSlash name.data := by
  unfold absoluteFilePath
  by_cases habs : isAbsolutePath name = true
  · simp [habs]
  · simp only [habs, if_false, Bool.false_eq_true, hne]
    by_cases he : endsWith (absolutePath cwd dir) "/" = true
    · obtain ⟨x, hx⟩ := endsWith_slash_data he
      simp only [he, if_true, String.data_append, hx]
      rw [List.append_assoc]
      exact afterLastSlash_append_slash x name.data
    · simp only [he, if_false, Bool.false_eq_true, String.data_append]
      rw [List.append_assoc]
      exact afterLastSlash_append_slash _ name.data

/-- A version file is never the payload it is taken from. -/
theorem versionFilePath_ne_dstAbsPath (env : Env) (opt : Options) (rel ts : String)
    (hrel : rel ≠ "") (hclean : cleanRel rel = rel) (hts : '/' ∉ ts.data) :
    versionFilePath env opt rel ts ≠ dstAbsPath env opt rel := by
  intro h
  have h1 := congrArg (fun s => (afterLastSlash s.data).length) h
  have hreld : rel.data ≠ [] := fun e => hrel (by cases rel; simp_all)
  simp only [versionFilePath, dstAbsPath, hclean] at h1
  rw [afterLastSlash_absoluteFilePath _ _ _ (by simp [fileName]),
      afterLastSlash_absoluteFilePath _ _ _ hreld] at h1
  rw [afterLastSlash_of_no_slash] at h1
  · simp [fileName] at h1
  · simp only [String.data_append, fileName, List.mem_append, not_or]
    exact ⟨⟨no_slash_afterLastSlash _, by decide⟩, hts⟩


section
variable (env : Env) (opt : Options)

/-! ### Steps whose outcome the hypotheses fix -/

theorem loadStop_none (h : env.stopAt = none) (w : World) :
    loadStop env w = some (false, { w with stopN := w.stopN + 1 }) := by
  simp [loadStop, h]

theorem pauseLoop_none (h : ∀ n, env.pause n = false) (fuel : Nat) (w : World) :
    pauseLoop env (fuel + 1) w = some ((), { w with pauseN := w.pauseN + 1 }) := by
  simp [pauseLoop, loadPause, h]

theorem isDestReady_ready (w : World) (h : AlwaysReady env w.expectedDevice) :
    isDestReadySameDevice env w =
      some (true, { w with devN := w.devN + 1, gateLog := w.gateLog ++ [(env.dev w.devN, true)] }) := by
  simp [isDestReadySameDevice, storageInfo, h w.devN]

theorem hashLoop_frame (fuel : Nat) : ∀ (rest acc : List Nat) (w : World),
    ∃ fed r, hashLoop env fuel rest acc w = some (fed, { w with readN := r }) := by
  induction fuel with
  | zero => intro rest acc w; exact ⟨acc, w.readN, rfl⟩
  | succ n ih =>
    intro rest acc w
    unfold hashLoop
    simp only [bind_apply, qRead_apply]
    cases hr : readChunk (env.read w.readN) rest with
    | none => exact ⟨acc, w.readN + 1, rfl⟩
    | some cr =>
      obtain ⟨fed, r, h⟩ := ih cr.2 (acc ++ cr.1) { w with readN := w.readN + 1 }
      exact ⟨fed, r, by simpa using h⟩

theorem fileHashSha256_frame (p : String) (w : World) :
    ∃ h r, fileHashSha256 env p w = some (h, { w with ioN := w.ioN + 1, readN := r }) := by
  unfold fileHashSha256 qOpenRead
  simp only [bind_apply, ioAttempt_apply, readFs_apply]
  cases hg : w.fs.get p with
  | none => exact ⟨[], w.readN, rfl⟩
  | some fd =>
    cases hok : env.ioOk w.ioN (IoOp.openRead p) with
    | false => exact ⟨[], w.readN, by simp⟩
    | true =>
      obtain ⟨fed, r, h⟩ := hashLoop_frame env (fd.content.length + 1) fd.content []
        { w with ioN := w.ioN + 1 }
      exact ⟨env.sha256 fed, r, by simp [h]⟩

theorem ensureDir_frame (p : String) (w : World) :
    ∃ b ds, ensureDir env p w =
        some (b, { w with ioN := w.ioN + 1, fs := { w.fs with dirs := ds } }) ∧
      ∀ d ∈ ds, d = p ∨ d ∈ w.fs.dirs := by
  unfold ensureDir qMkpath
  simp only [bind_apply, ioAttempt_apply, readFs_apply]
  by_cases hd : w.fs.dirExists p = true
  · exact ⟨true, w.fs.dirs, by simp [hd], fun d hd => Or.inr hd⟩
  · by_cases hc : (!w.fs.isFile p && env.ioOk w.ioN (IoOp.mkpath p)) = true
    · refine ⟨true, p :: w.fs.dirs, by simp [hd, hc], fun d hd => ?_⟩
      rcases List.mem_cons.mp hd with h | h
      · exact Or.inl h
      · exact Or.inr h
    · exact ⟨false, w.fs.dirs, by simp [hd, hc], fun d hd => Or.inr hd⟩

end
section
variable (env : Env) (opt : Options)

/-! ### Filesystem primitives in closed form -/

theorem qRemove_apply (p : String) (w : World) :
    qRemove env p w =
      some (w.fs.isFile p && env.ioOk w.ioN (IoOp.remove p),
        { w with ioN := w.ioN + 1,
                 fs := if (w.fs.isFile p && env.ioOk w.ioN (IoOp.remove p)) = true
                       then w.fs.erase p else w.fs }) := by
  unfold qRemove
  by_cases h : (w.fs.isFile p && env.ioOk w.ioN (IoOp.remove p)) = true
  · simp only [bind_apply, ioAttempt_apply, readFs_apply, h, if_true]
    simp at h
    simp [h]
  · simp only [bind_apply, ioAttempt_apply, readFs_apply, h, if_false]
    simp at h
    simp [h]

theorem qRename_apply (src dst : String) (w : World) :
    qRename env src dst w =
      match w.fs.get src with
      | none => some (false, { w with ioN := w.ioN + 1 })
      | some fd =>
        if (!w.fs.pathExists dst && env.ioOk w.ioN (IoOp.rename src dst)) = true then
          some (true, { w with ioN := w.ioN + 1, fs := (w.fs.erase src).put dst fd })
        else some (false, { w with ioN := w.ioN + 1 }) := by
  unfold qRename
  simp only [bind_apply, ioAttempt_apply, readFs_apply]
  cases hg : w.fs.get src with
  | none => rfl
  | some fd =>
    by_cases h : (!w.fs.pathExists dst && env.ioOk w.ioN (IoOp.rename src dst)) = true
    · simp only [h, if_true]; rfl
    · simp only [h, if_false]; rfl

theorem qCopy_apply (src dst : String) (w : World) :
    qCopy env src dst w =
      match w.fs.get src with
      | none => some (false, { w with ioN := w.ioN + 1 })
      | some fd =>
        if (!w.fs.pathExists dst && env.ioOk w.ioN (IoOp.copy src dst)) = true then
          some (true, { w with ioN := w.ioN + 1, clockN := w.clockN + 1,
                               fs := w.fs.put dst { content := fd.content,
                                                    mtime := env.nowMs w.clockN / 1000 } })
        else some (false, { w with ioN := w.ioN + 1 }) := by
  unfold qCopy
  simp only [bind_apply, ioAttempt_apply, readFs_apply]
  cases hg : w.fs.get src with
  | none => rfl
  | some fd =>
    by_cases h : (!w.fs.pathExists dst && env.ioOk w.ioN (IoOp.copy src dst)) = true
    · simp only [h, if_true]; rfl
    · simp only [h, if_false]; rfl

theorem qOpenWrite_apply (p : String) (w : World) :
    qOpenWrite env p w =
      if (!w.fs.dirExists p && env.ioOk w.ioN (IoOp.openWrite p)) = true then
        some (true, { w with ioN := w.ioN + 1, clockN := w.clockN + 1,
                             fs := w.fs.put p { content := [], mtime := env.nowMs w.clockN / 1000 } })
      else some (false, { w with ioN := w.ioN + 1 }) := by
  unfold qOpenWrite
  simp only [bind_apply, ioAttempt_apply, readFs_apply]
  by_cases h : (!w.fs.dirExists p && env.ioOk w.ioN (IoOp.openWrite p)) = true
  · simp only [h, if_true]; rfl
  · simp only [h, if_false]; rfl

theorem qWrite_apply (p : String) (data : List Nat) (w : World) :
    qWrite env p data w =
      match w.fs.get p with
      | none => some (false, { w with ioN := w.ioN + 1 })
      | some fd =>
        if env.ioOk w.ioN (IoOp.write p) = true then
          some (true, { w with ioN := w.ioN + 1,
                               fs := w.fs.put p { fd with content := fd.content ++ data } })
        else some (false, { w with ioN := w.ioN + 1 }) := by
  unfold qWrite
  simp only [bind_apply, ioAttempt_apply, readFs_apply]
  cases hg : w.fs.get p with
  | none => rfl
  | some fd =>
    by_cases h : env.ioOk w.ioN (IoOp.write p) = true
    · simp only [h, if_true]; rfl
    · simp only [h, if_false]; rfl

theorem qOpenRead_apply (p : String) (w : World) :
    qOpenRead env p w =
      some ((match w.fs.get p with
             | none => none
             | some fd => if env.ioOk w.ioN (IoOp.openRead p) = true then some fd.content else none),
            { w with ioN := w.ioN + 1 }) := by
  unfold qOpenRead
  simp only [bind_apply, ioAttempt_apply, readFs_apply]
  cases hg : w.fs.get p with
  | none => rfl
  | some fd =>
    by_cases h : env.ioOk w.ioN (IoOp.openRead p) = true
    · simp only [h, if_true]; rfl
    · simp only [h, if_false]; rfl

end
section
variable (env : Env) (opt : Options)

theorem pathExists_false_get {fs : FS} {p : String} (h : fs.pathExists p = false) :
    fs.get p = none := by
  unfold FS.pathExists FS.isFile at h
  cases hg : fs.get p with
  | none => rfl
  | some d => simp [hg] at h

theorem FS.within_refl (fs : FS) (p : String) : FS.Within fs fs p :=
  ⟨rfl, fun _ he => Or.inr he⟩

theorem FS.within_erase (fs : FS) (q p : String) : FS.Within (fs.erase q) fs p :=
  ⟨rfl, fun _ he => Or.inr (List.mem_filter.mp he).1⟩

theorem FS.within_put (fs : FS) (p : String) (d : FileData) : FS.Within (fs.put p d) fs p := by
  refine ⟨rfl, fun e he => ?_⟩
  rcases List.mem_cons.mp he with h | h
  · exact Or.inl (by rw [h])
  · exact Or.inr (List.mem_filter.mp h).1

theorem FS.within_trans {fs2 fs1 fs : FS} {p : String} (h2 : FS.Within fs2 fs1 p)
    (h1 : FS.Within fs1 fs p) : FS.Within fs2 fs p :=
  ⟨h2.1.trans h1.1, fun e he => (h2.2 e he).elim Or.inl (h1.2 e)⟩

/-- What `renameOrCopy` does: when it returns true the target holds the bytes of the source; when
it returns false the filesystem is as before. -/
theorem renameOrCopy_spec (src dst : String) (w : World) :
    ∃ r fs1 i c, renameOrCopy env src dst w =
        some (r, { w with fs := fs1, ioN := i, clockN := c }) ∧
      (r = true → ∃ d d1, w.fs.get src = some d ∧ fs1.get dst = some d1 ∧ d1.content = d.content) ∧
      (r = false → fs1 = w.fs) ∧
      ((∀ n, env.ioOk n (IoOp.rename src dst) = false ∧ env.ioOk n (IoOp.copy src dst) = false) →
        r = false) ∧
      FS.Within fs1 w.fs dst := by
  unfold renameOrCopy
  simp only [bind_apply, qRename_apply, qCopy_apply, qRemove_apply, pure_apply, ite_apply_M]
  cases hg : w.fs.get src with
  | none =>
    refine ⟨false, w.fs, w.ioN + 1 + 1, w.clockN, ?_, ?_, ?_, ?_, FS.within_refl _ _⟩
    · simp [hg]
    · simp
    · simp
    · simp
  | some fd =>
    by_cases hr : (!w.fs.pathExists dst && env.ioOk w.ioN (IoOp.rename src dst)) = true
    · refine ⟨true, (w.fs.erase src).put dst fd, w.ioN + 1, w.clockN, ?_, ?_, ?_, ?_,
        FS.within_trans (FS.within_put _ _ _) (FS.within_erase _ _ _)⟩
      · simp [hg, hr]
      · intro _; exact ⟨fd, fd, rfl, FS.get_put_self _ _ _, rfl⟩
      · simp
      · intro h; simp [(h w.ioN).1] at hr
    · by_cases hc : (!w.fs.pathExists dst && env.ioOk (w.ioN + 1) (IoOp.copy src dst)) = true
      · have hex : w.fs.pathExists dst = false := by
          cases hp : w.fs.pathExists dst
          · rfl
          · simp [hp] at hc
        have hne : dst ≠ src := by
          intro e
          have := pathExists_false_get hex
          rw [e, hg] at this
          cases this
        refine ⟨true,
          (if ((w.fs.put dst { content := fd.content, mtime := env.nowMs w.clockN / 1000 }).isFile src &&
                env.ioOk (w.ioN + 1 + 1) (IoOp.remove src)) = true
           then (w.fs.put dst { content := fd.content, mtime := env.nowMs w.clockN / 1000 }).erase src
           else w.fs.put dst { content := fd.content, mtime := env.nowMs w.clockN / 1000 }),
          w.ioN + 1 + 1 + 1, w.clockN + 1, ?_, ?_, ?_, ?_, ?_⟩
        · simp [hg, hr, hc]
        · intro _
          refine ⟨fd, { content := fd.content, mtime := env.nowMs w.clockN / 1000 }, rfl, ?_, rfl⟩
          split
          · rw [FS.get_erase_ne _ hne, FS.get_put_self]
          · rw [FS.get_put_self]
        · simp
        · intro h; simp [(h (w.ioN + 1)).2] at hc
        · split
          · exact FS.within_trans (FS.within_erase _ _ _) (FS.within_put _ _ _)
          · exact FS.within_put _ _ _
      · refine ⟨false, w.fs, w.ioN + 1 + 1, w.clockN, ?_, ?_, ?_, ?_, FS.within_refl _ _⟩
        · simp [hg, hr, hc]
        · simp
        · simp
        · simp

end
section
variable (env : Env) (opt : Options)

/-- What `moveFileRobust` does: it touches only the filesystem, the primitive and clock tapes and
its log; when it returns true the target holds the bytes the source had; when it returns false
the source is as before. -/
theorem moveFileRobust_spec (src dst : String) (w : World) :
    ∃ r fs1 i c, moveFileRobust env src dst w =
        some (r, { w with fs := fs1, ioN := i, clockN := c,
                          moveLog := w.moveLog ++ [(src, dst, r)] }) ∧
      (r = true → ∃ d d1, w.fs.get src = some d ∧ fs1.get dst = some d1 ∧ d1.content = d.content) ∧
      (r = false → src ≠ dst → fs1.get src = w.fs.get src) ∧
      ((∀ n, env.ioOk n (IoOp.rename src dst) = false ∧ env.ioOk n (IoOp.copy src dst) = false) →
        r = false) ∧
      FS.Within fs1 w.fs dst := by
  -- the state after the optional removal of the target
  have pre : ∃ fs0 i0, (fs0 = w.fs ∨ fs0 = w.fs.erase dst) ∧
      ∀ a w1, renameOrCopy env src dst { w with fs := fs0, ioN := i0 } = some (a, w1) →
        moveFileRobust env src dst w =
          some (a, { w1 with moveLog := w1.moveLog ++ [(src, dst, a)] }) := by
    unfold moveFileRobust
    simp only [bind_apply, readFs_apply, qRemove_apply, pure_apply, ite_apply_M]
    by_cases ht : w.fs.pathExists dst = true
    · by_cases hrm : (w.fs.isFile dst && env.ioOk w.ioN (IoOp.remove dst)) = true
      · exact ⟨w.fs.erase dst, w.ioN + 1, Or.inr rfl, fun a w1 h => by simp [ht, hrm, h]⟩
      · exact ⟨w.fs, w.ioN + 1, Or.inl rfl, fun a w1 h => by simp [ht, hrm, h]⟩
    · refine ⟨w.fs, w.ioN, Or.inl rfl, fun a w1 h => ?_⟩
      have h' : renameOrCopy env src dst w = some (a, w1) := h
      simp [ht, h']
  obtain ⟨fs0, i0, hfs0, hmove⟩ := pre
  obtain ⟨r, fs1, i, c, hcore, htrue, hfalse, hfail, hin⟩ :=
    renameOrCopy_spec env src dst { w with fs := fs0, ioN := i0 }
  have hin0 : FS.Within fs0 w.fs dst := by
    rcases hfs0 with h0 | h0
    · rw [h0]; exact FS.within_refl _ _
    · rw [h0]; exact FS.within_erase _ _ _
  refine ⟨r, fs1, i, c, ?_, ?_, ?_, hfail, FS.within_trans hin hin0⟩
  · rw [hmove _ _ hcore]
  · intro hr
    obtain ⟨d, d1, hd, hd1, hc⟩ := htrue hr
    refine ⟨d, d1, ?_, hd1, hc⟩
    rcases hfs0 with h0 | h0
    · simpa [h0] using hd
    · have hd' : (w.fs.erase dst).get src = some d := by simpa [h0] using hd
      by_cases e : src = dst
      · rw [e, FS.get_erase_self] at hd'; cases hd'
      · rwa [FS.get_erase_ne _ e] at hd'
  · intro hr hne
    have h1 : fs1 = fs0 := by simpa using hfalse hr
    rw [h1]
    rcases hfs0 with h0 | h0
    · rw [h0]
    · rw [h0, FS.get_erase_ne _ hne]

end
section
variable (env : Env) (opt : Options)

theorem isDestReady_apply (w : World) :
    isDestReadySameDevice env w =
      some (gate w.expectedDevice (env.dev w.devN),
        { w with devN := w.devN + 1,
                 gateLog := w.gateLog ++ [(env.dev w.devN, gate w.expectedDevice (env.dev w.devN))] }) :=
  rfl

theorem tsNow_apply (w : World) :
    tsNow env w = some (env.fmtTs (env.nowMs w.clockN), { w with clockN := w.clockN + 1 }) := rfl

theorem fastEqual_frame (srcPath dstPath : String) (w : World) :
    ∃ b i r, fastEqual env srcPath dstPath w = some (b, { w with ioN := i, readN := r }) := by
  unfold fastEqual
  simp only [bind_apply, readFs_apply]
  by_cases hl : likelySameByStat w.fs srcPath dstPath = true
  · obtain ⟨h1, r1, e1⟩ := fileHashSha256_frame env dstPath w
    obtain ⟨h2, r2, e2⟩ := fileHashSha256_frame env srcPath { w with ioN := w.ioN + 1, readN := r1 }
    dsimp only at e2
    exact ⟨decide (h1 ≠ [] ∧ h1 = h2), w.ioN + 1 + 1, r2, by simp [hl, e1, e2]⟩
  · exact ⟨false, w.ioN, w.readN, by simp [hl]⟩

theorem identicalCheck_frame (srcPath dstPath : String) (w : World) :
    ∃ b i r, identicalCheck env srcPath dstPath w = some (b, { w with ioN := i, readN := r }) := by
  unfold identicalCheck
  simp only [bind_apply, readFs_apply]
  by_cases hl : (w.fs.pathExists dstPath && likelySameByStat w.fs srcPath dstPath) = true
  · obtain ⟨h1, r1, e1⟩ := fileHashSha256_frame env srcPath w
    obtain ⟨h2, r2, e2⟩ := fileHashSha256_frame env dstPath { w with ioN := w.ioN + 1, readN := r1 }
    dsimp only at e2
    exact ⟨decide (h1 ≠ [] ∧ h1 = h2), w.ioN + 1 + 1, r2, by simp [hl, e1, e2]⟩
  · exact ⟨false, w.ioN, w.readN, by simp [hl]⟩

theorem append_json_ne (p : String) : p ++ ".json" ≠ p := by
  intro h
  have := congrArg String.length h
  simp at this
  exact absurd this (by decide)

/-- What `writeMetaJson` does: it returns the sidecar path and touches no other file; when the
sidecar can be opened and written it holds the serialised object. -/
theorem writeMetaJson_spec (payloadPath rel kind ts : String) (w : World) :
    ∃ fs1 i c, writeMetaJson env opt payloadPath rel kind ts w =
        some (payloadPath ++ ".json", { w with fs := fs1, ioN := i, clockN := c }) ∧
      (∀ q, q ≠ payloadPath ++ ".json" → fs1.get q = w.fs.get q) ∧
      (w.fs.dirExists (payloadPath ++ ".json") = false →
        (∀ n, env.ioOk n (IoOp.openWrite (payloadPath ++ ".json")) = true ∧
              env.ioOk n (IoOp.write (payloadPath ++ ".json")) = true) →
        ∃ d, fs1.get (payloadPath ++ ".json") = some d ∧
          d.content = env.toJson (metaObject env opt payloadPath rel kind ts)) := by
  unfold writeMetaJson
  simp only [bind_apply, qOpenWrite_apply, qWrite_apply, pure_apply, ite_apply_M]
  by_cases ho : (!w.fs.dirExists (payloadPath ++ ".json") &&
      env.ioOk w.ioN (IoOp.openWrite (payloadPath ++ ".json"))) = true
  · by_cases hw : env.ioOk (w.ioN + 1) (IoOp.write (payloadPath ++ ".json")) = true
    · refine ⟨(w.fs.put (payloadPath ++ ".json")
          { content := [], mtime := env.nowMs w.clockN / 1000 }).put (payloadPath ++ ".json")
          { content := [] ++ env.toJson (metaObject env opt payloadPath rel kind ts),
            mtime := env.nowMs w.clockN / 1000 }, w.ioN + 1 + 1, w.clockN + 1, ?_, ?_, ?_⟩
      · simp [ho, hw, FS.get_put_self]
      · intro q hq
        rw [FS.get_put_ne _ _ hq, FS.get_put_ne _ _ hq]
      · intro _ _
        exact ⟨_, FS.get_put_self _ _ _, by simp⟩
    · refine ⟨w.fs.put (payloadPath ++ ".json")
          { content := [], mtime := env.nowMs w.clockN / 1000 }, w.ioN + 1 + 1, w.clockN + 1, ?_, ?_, ?_⟩
      · simp [ho, hw, FS.get_put_self]
      · intro q hq
        rw [FS.get_put_ne _ _ hq]
      · intro _ h
        exact absurd (h (w.ioN + 1)).2 hw
  · refine ⟨w.fs, w.ioN + 1, w.clockN, ?_, ?_, ?_⟩
    · simp [ho]
    · intro q _; rfl
    · intro hd h
      simp [hd, (h w.ioN).1] at ho

end
section
variable (env : Env) (opt : Options)

theorem isPrefixOf_length_le {l1 l2 : List Char} (h : l1.isPrefixOf l2 = true) :
    l1.length ≤ l2.length :=
  (List.isPrefixOf_iff_prefix.mp h).length_le

theorem length_filePathDir_le (p : String) :
    (filePathDir p).data.length ≤ max 1 p.data.length := by
  unfold filePathDir
  have hle : (p.data.reverse.dropWhile (fun c => decide (c ≠ '/'))).length ≤ p.data.length := by
    have := (List.dropWhile_sublist (fun c => decide (c ≠ '/')) (l := p.data.reverse)).length_le
    simpa using this
  cases hr : p.data.reverse.dropWhile (fun c => decide (c ≠ '/')) with
  | nil => exact le_max_left _ _
  | cons a t =>
    cases t with
    | nil => exact le_max_left _ _
    | cons b u =>
      rw [hr] at hle
      simp only [List.length_cons] at hle
      simp only [List.length_reverse, List.length_cons]
      omega

/-- The directory of a path is not the path's sidecar. -/
theorem filePathDir_ne_json (p : String) : filePathDir p ≠ p ++ ".json" := by
  intro h
  have h1 := length_filePathDir_le p
  rw [h, Nat.max_def] at h1
  simp only [String.data_append, List.length_append] at h1
  have h5 : (".json" : String).data.length = 5 := by decide
  rw [h5] at h1
  split at h1 <;> omega

/-- A path does not lie below its own sidecar. -/
theorem not_startsWith_json (p : String) : startsWith p (p ++ ".json" ++ "/") = false := by
  cases h : startsWith p (p ++ ".json" ++ "/") with
  | false => rfl
  | true =>
    have h1 := isPrefixOf_length_le h
    simp only [String.data_append, List.length_append] at h1
    have h5 : (".json" : String).data.length = 5 := by decide
    rw [h5] at h1
    omega

/-- No directory appears at `p` when only the directory `extraDir` is created and files are
stored at `extraFile` only, neither of which makes `p` a directory. -/
theorem dirExists_false_of_within (fs fs1 : FS) (p extraDir extraFile : String)
    (hd : ∀ d ∈ fs1.dirs, d = extraDir ∨ d ∈ fs.dirs)
    (hf : ∀ e ∈ fs1.files, e.1 = extraFile ∨ e ∈ fs.files)
    (h0 : fs.dirExists p = false) (h1 : extraDir ≠ p)
    (h2 : startsWith extraFile (p ++ "/") = false) : fs1.dirExists p = false := by
  unfold FS.dirExists at h0 ⊢
  simp only [Bool.or_eq_false_iff] at h0 ⊢
  obtain ⟨h0d, h0f⟩ := h0
  constructor
  · cases hc : fs1.dirs.contains p with
    | false => rfl
    | true =>
      have hm : p ∈ fs1.dirs := by simpa using hc
      rcases hd p hm with e | e
      · exact absurd e.symm h1
      · have : fs.dirs.contains p = true := by simpa using e
        rw [this] at h0d; cases h0d
  · cases hc : fs1.files.any (fun e => startsWith e.1 (p ++ "/")) with
    | false => rfl
    | true =>
      obtain ⟨e, he, hs⟩ := List.any_eq_true.mp hc
      rcases hf e he with h | h
      · rw [h, h2] at hs; cases hs
      · have : fs.files.any (fun e => startsWith e.1 (p ++ "/")) = true :=
          List.any_eq_true.mpr ⟨e, h, hs⟩
        rw [this] at h0f; cases h0f

end
section
variable (env : Env) (opt : Options)

/-- What the archive step does: either it emits nothing, or it emits one `versionCreated` whose
payload holds the bytes the destination had and whose sidecar, when it can be written, holds the
serialised object. -/
theorem archiveVersion_spec (rel dst : String) (w : World) :
    ∃ r w1, archiveVersion env opt rel dst w = some (r, w1) ∧
      (w1.events = w.events ∨
        (w1.events = w.events ++
            [Event.versionCreated rel (versionFilePath env opt rel (env.fmtTs (env.nowMs w.clockN)))
              (versionFilePath env opt rel (env.fmtTs (env.nowMs w.clockN)) ++ ".json")] ∧
          ∃ d d1, w.fs.get dst = some d ∧
            w1.fs.get (versionFilePath env opt rel (env.fmtTs (env.nowMs w.clockN))) = some d1 ∧
            d1.content = d.content ∧
            (w.fs.dirExists (versionFilePath env opt rel (env.fmtTs (env.nowMs w.clockN)) ++ ".json") = false →
              (∀ n, env.ioOk n (IoOp.openWrite
                      (versionFilePath env opt rel (env.fmtTs (env.nowMs w.clockN)) ++ ".json")) = true ∧
                    env.ioOk n (IoOp.write
                      (versionFilePath env opt rel (env.fmtTs (env.nowMs w.clockN)) ++ ".json")) = true) →
              ∃ s, w1.fs.get (versionFilePath env opt rel (env.fmtTs (env.nowMs w.clockN)) ++ ".json") = some s ∧
                s.content = env.toJson (metaObject env opt
                  (versionFilePath env opt rel (env.fmtTs (env.nowMs w.clockN))) rel "version"
                  (env.fmtTs (env.nowMs w.clockN)))))) := by
  generalize hts : env.fmtTs (env.nowMs w.clockN) = ts
  generalize hout : versionFilePath env opt rel ts = out
  unfold archiveVersion
  simp only [bind_apply, tsNow_apply, hts, hout]
  obtain ⟨b, ds, he, hds⟩ := ensureDir_frame env (filePathDir out) { w with clockN := w.clockN + 1 }
  dsimp only at he hds
  simp only [he, isDestReady_apply, bind_apply, pure_apply, ite_apply_M]
  by_cases hg : gate w.expectedDevice (env.dev w.devN) = true
  · obtain ⟨r, fs1, i, c, hm, htrue, _, _, hin⟩ := moveFileRobust_spec env dst out
      { w with clockN := w.clockN + 1, ioN := w.ioN + 1, fs := { w.fs with dirs := ds },
               devN := w.devN + 1, gateLog := w.gateLog ++ [(env.dev w.devN, true)] }
    dsimp only at hm htrue hin
    cases r with
    | false =>
      simp only [hg, hm, Bool.not_true, Bool.false_eq_true, if_false, pure_apply, ite_apply_M, bind_apply]
      exact ⟨_, _, rfl, Or.inl rfl⟩
    | true =>
      obtain ⟨d, d1, hd, hd1, hc⟩ := htrue rfl
      obtain ⟨fs2, i2, c2, hw, hother, hside⟩ := writeMetaJson_spec env opt out rel "version" ts
        { w with clockN := c, ioN := i, fs := fs1,
                 devN := w.devN + 1, gateLog := w.gateLog ++ [(env.dev w.devN, true)],
                 moveLog := w.moveLog ++ [(dst, out, true)] }
      dsimp only at hw hother hside
      simp only [hg, hm, hw, Bool.not_true, Bool.false_eq_true, if_false, if_true, pure_apply,
        ite_apply_M, bind_apply, emit_apply]
      refine ⟨_, _, rfl, Or.inr ⟨rfl, d, d1, hd, ?_, hc, ?_⟩⟩
      · show fs2.get out = some d1
        rw [hother out (append_json_ne out).symm]; exact hd1
      · intro hnodir hio
        refine hside ?_ hio
        exact dirExists_false_of_within w.fs fs1 (out ++ ".json") (filePathDir out) out
          (by rw [hin.1]; exact hds) hin.2 hnodir (filePathDir_ne_json out) (not_startsWith_json out)
  · simp only [hg, Bool.not_false, if_true, pure_apply, ite_apply_M, bind_apply]
    exact ⟨_, _, rfl, Or.inl rfl⟩

end
section
variable (env : Env) (opt : Options)

/-- With the device ready and no stop request the wait returns at once; it emits `deviceOnline`
when an offline episode was open. -/
theorem wait_ready (hs : env.stopAt = none) (fuel : Nat) (hint : String) (w : World)
    (h : AlwaysReady env w.expectedDevice) :
    ∃ dn g, waitUntilDestReadyOrStopped env (fuel + 1) hint w =
      some ((), { w with stopN := w.stopN + 1, devN := dn, gateLog := g,
                         events := w.events ++ (if w.offlineSignaled = true then [Event.deviceOnline] else []),
                         offlineSignaled := false }) := by
  unfold waitUntilDestReadyOrStopped waitLoop
  simp only [bind_apply, loadStop_none env hs, isDestReady_apply, pure_apply, ite_apply_M]
  cases hsig : w.offlineSignaled
  · simp [h (w.devN), h (w.devN + 1), hsig]
  · simp [h (w.devN), h (w.devN + 1), h (w.devN + 1 + 1), hsig]

/-- The archive step when the payload cannot be moved: it returns false and the payload stays. -/
theorem archiveVersion_fails (rel dst : String) (w : World)
    (hready : AlwaysReady env w.expectedDevice)
    (hmove : ∀ n q, env.ioOk n (IoOp.rename dst q) = false ∧ env.ioOk n (IoOp.copy dst q) = false)
    (hne : ∀ t, versionFilePath env opt rel (env.fmtTs t) ≠ dst) :
    ∃ fs1 i c g m, archiveVersion env opt rel dst w =
        some (false, { w with fs := fs1, ioN := i, clockN := c, devN := w.devN + 1,
                              gateLog := g, moveLog := m }) ∧
      fs1.get dst = w.fs.get dst := by
  unfold archiveVersion
  simp only [bind_apply, tsNow_apply]
  obtain ⟨b, ds, he, _⟩ := ensureDir_frame env
    (filePathDir (versionFilePath env opt rel (env.fmtTs (env.nowMs w.clockN))))
    { w with clockN := w.clockN + 1 }
  dsimp only at he
  obtain ⟨r, fs1, i, c, hm, _, hfalse, hfail, _⟩ := moveFileRobust_spec env dst
      (versionFilePath env opt rel (env.fmtTs (env.nowMs w.clockN)))
      { w with clockN := w.clockN + 1, ioN := w.ioN + 1, fs := { w.fs with dirs := ds },
               devN := w.devN + 1, gateLog := w.gateLog ++ [(env.dev w.devN, true)] }
  dsimp only at hm hfalse
  have hr : r = false := hfail (fun n => hmove n _)
  subst hr
  simp only [he, isDestReady_apply, hready w.devN, hm, bind_apply, pure_apply, ite_apply_M,
    Bool.not_true, Bool.false_eq_true, if_false]
  exact ⟨_, _, _, _, _, rfl, hfalse rfl (hne _).symm⟩

/-- The version step on an existing payload that cannot be moved, device ready: it returns false,
emits nothing, copies nothing and leaves the payload in place. -/
theorem maybeStash_fails (rel : String) (w : World) (d : FileData)
    (hkeep : opt.keepVersionsOnChange = true) (hclean : cleanRel rel = rel)
    (hready : AlwaysReady env w.expectedDevice)
    (hdst : w.fs.get (dstAbsPath env opt rel) = some d)
    (hmove : ∀ n q, env.ioOk n (IoOp.rename (dstAbsPath env opt rel) q) = false ∧
                    env.ioOk n (IoOp.copy (dstAbsPath env opt rel) q) = false)
    (hne : ∀ t, versionFilePath env opt rel (env.fmtTs t) ≠ dstAbsPath env opt rel) :
    ∃ fs1 i c r dn g m, maybeStashExistingVersion env opt rel w =
        some (false, { w with fs := fs1, ioN := i, clockN := c, readN := r, devN := dn,
                              gateLog := g, moveLog := m }) ∧
      fs1.get (dstAbsPath env opt rel) = some d := by
  have hex : w.fs.pathExists (dstAbsPath env opt rel) = true := by
    simp [FS.pathExists, FS.isFile, hdst]
  unfold maybeStashExistingVersion
  simp only [hkeep, hclean, bind_apply, pure_apply, ite_apply_M, isDestReady_apply, hready w.devN,
    readFs_apply, hex, Bool.not_true, Bool.false_eq_true, if_false]
  obtain ⟨b, i, r, hf⟩ := fastEqual_frame env (srcAbsPath env opt rel) (dstAbsPath env opt rel)
    { w with devN := w.devN + 1, gateLog := w.gateLog ++ [(env.dev w.devN, true)] }
  dsimp only at hf
  simp only [hf]
  cases b with
  | true =>
    simp only [if_true, pure_apply]
    exact ⟨_, _, _, _, _, _, _, rfl, hdst⟩
  | false =>
    obtain ⟨fs1, i1, c1, g1, m1, ha, hget⟩ := archiveVersion_fails env opt rel (dstAbsPath env opt rel)
      { w with devN := w.devN + 1, gateLog := w.gateLog ++ [(env.dev w.devN, true)],
               ioN := i, readN := r } hready hmove hne
    dsimp only at ha hget
    simp only [Bool.false_eq_true, if_false, ha]
    exact ⟨_, _, _, _, _, _, _, rfl, hget.trans hdst⟩

end
section
variable (env : Env) (opt : Options)

/-- C4: keep-versions is on, the source file and its payload exist, the device is ready at every
observation, nobody cancels or pauses, and the payload can be neither renamed nor copied.  Then the
iteration for this file ends with `fileFinished(rel, false, "版本归档失败")` (version archive
failed), the run-level ok flag is cleared, `copyOneFile` is not called, `bytesDone` is unchanged
and the payload is at its path with its prior contents. -/
theorem processFile_archive_failure (fuel : Nat) (rel : String) (bytesDone : Nat) (allOk : Bool)
    (w : World) (s d : FileData)
    (hkeep : opt.keepVersionsOnChange = true)
    (hrel : rel ≠ "") (hclean : cleanRel rel = rel)
    (hts : ∀ t, '/' ∉ (env.fmtTs t).data)
    (hstop : env.stopAt = none) (hpause : ∀ n, env.pause n = false)
    (hready : AlwaysReady env w.expectedDevice)
    (hsrc : w.fs.get (srcAbsPath env opt rel) = some s)
    (hdst : w.fs.get (dstAbsPath env opt rel) = some d)
    (hmove : ∀ n q, env.ioOk n (IoOp.rename (dstAbsPath env opt rel) q) = false ∧
                    env.ioOk n (IoOp.copy (dstAbsPath env opt rel) q) = false) :
    ∃ w1, processFile env opt (fuel + 1) rel bytesDone allOk w = some ((Step.next, bytesDone, false), w1) ∧
      w1.events = w.events ++ [Event.fileStarted rel s.content.length] ++
        (if w.offlineSignaled = true then [Event.deviceOnline] else []) ++
        [Event.fileFinished rel false "版本归档失败"] ∧
      w1.copyCalls = w.copyCalls ∧
      w1.fs.get (dstAbsPath env opt rel) = some d := by
  have hne : ∀ t, versionFilePath env opt rel (env.fmtTs t) ≠ dstAbsPath env opt rel :=
    fun t => versionFilePath_ne_dstAbsPath env opt rel _ hrel hclean (hts t)
  have hex : w.fs.pathExists (dstAbsPath env opt rel) = true := by
    simp [FS.pathExists, FS.isFile, hdst]
  unfold processFile
  simp only [bind_apply, pure_apply, ite_apply_M, loadStop_none env hstop, pauseLoop_none env hpause,
    readFs_apply, hsrc, emit_apply, Bool.false_eq_true, if_false]
  obtain ⟨dn, g, hw⟩ := wait_ready env hstop fuel "准备复制"
    { w with stopN := w.stopN + 1, pauseN := w.pauseN + 1,
             events := w.events ++ [Event.fileStarted rel s.content.length] } hready
  dsimp only at hw
  simp only [hw, loadStop_none env hstop, Bool.false_eq_true, if_false, hex, if_true]
  obtain ⟨fs1, i, c, r, dn1, g1, m1, hm, hget⟩ := maybeStash_fails env opt rel
    { w with stopN := w.stopN + 1 + 1 + 1, pauseN := w.pauseN + 1, devN := dn, gateLog := g,
             events := w.events ++ [Event.fileStarted rel s.content.length] ++
               (if w.offlineSignaled = true then [Event.deviceOnline] else []),
             offlineSignaled := false } d hkeep hclean hready hdst hmove hne
  dsimp only at hm hget
  simp only [hm, bind_apply, pure_apply, ite_apply_M, isDestReady_apply, hready dn1, Bool.not_true,
    Bool.false_eq_true, if_false, emit_apply]
  exact ⟨_, rfl, rfl, rfl, hget⟩

end

/-- C4, witness: the changed file of the scenario, whose payload can be neither renamed nor
copied. -/
theorem processFile_archive_failure_witness :
    ∃ w1, processFile Demo.envMoveFails Demo.opt (4 + 1) "a.txt" 0 true
          (Demo.world Demo.filesChanged) = some ((Step.next, 0, false), w1) ∧
      w1.events = [] ++ [Event.fileStarted "a.txt" 2] ++ [] ++
        [Event.fileFinished "a.txt" false "版本归档失败"] ∧
      w1.copyCalls = 0 ∧
      w1.fs.get "/dst/ns/a.txt" = some { content := [1, 2, 3], mtime := 5 } :=
  processFile_archive_failure Demo.envMoveFails Demo.opt 4 "a.txt" 0 true
    (Demo.world Demo.filesChanged) { content := [9, 9], mtime := 50 } { content := [1, 2, 3], mtime := 5 }
    rfl (by decide) (by decide) (fun _ => by show '/' ∉ ("20250101-000000" : String).data; decide)
    rfl (fun _ => rfl) (fun _ => rfl) (by decide) (by decide) (fun _ _ => ⟨rfl, rfl⟩)

/-! ### The version step and the restore -/

section
variable (env : Env) (opt : Options)

/-- What the version step does: either it emits nothing, or it emits one `versionCreated` for the
cleaned path, whose payload holds the bytes the destination had and whose sidecar, when it can be
written, holds the serialised object. -/
theorem maybeStash_spec (rel0 : String) (w : World) :
    ∃ r w1, maybeStashExistingVersion env opt rel0 w = some (r, w1) ∧
      (w1.events = w.events ∨
        ∃ ts, w1.events = w.events ++
            [Event.versionCreated (cleanRel rel0) (versionFilePath env opt (cleanRel rel0) ts)
              (versionFilePath env opt (cleanRel rel0) ts ++ ".json")] ∧
          ∃ d d1, w.fs.get (dstAbsPath env opt (cleanRel rel0)) = some d ∧
            w1.fs.get (versionFilePath env opt (cleanRel rel0) ts) = some d1 ∧
            d1.content = d.content ∧
            (w.fs.dirExists (versionFilePath env opt (cleanRel rel0) ts ++ ".json") = false →
              (∀ n, env.ioOk n (IoOp.openWrite (versionFilePath env opt (cleanRel rel0) ts ++ ".json")) = true ∧
                    env.ioOk n (IoOp.write (versionFilePath env opt (cleanRel rel0) ts ++ ".json")) = true) →
              ∃ s, w1.fs.get (versionFilePath env opt (cleanRel rel0) ts ++ ".json") = some s ∧
                s.content = env.toJson (metaObject env opt
                  (versionFilePath env opt (cleanRel rel0) ts) (cleanRel rel0) "version" ts))) := by
  unfold maybeStashExistingVersion
  by_cases hkeep : opt.keepVersionsOnChange = true
  · simp only [hkeep, bind_apply, pure_apply, ite_apply_M, isDestReady_apply, readFs_apply,
      Bool.not_true, Bool.false_eq_true, if_false]
    by_cases hg : gate w.expectedDevice (env.dev w.devN) = true
    · by_cases hex : w.fs.pathExists (dstAbsPath env opt (cleanRel rel0)) = true
      · obtain ⟨b, i, r, hf⟩ := fastEqual_frame env (srcAbsPath env opt (cleanRel rel0))
          (dstAbsPath env opt (cleanRel rel0))
          { w with devN := w.devN + 1, gateLog := w.gateLog ++ [(env.dev w.devN, true)] }
        dsimp only at hf
        simp only [hg, hex, hf, Bool.not_true, Bool.false_eq_true, if_false]
        cases b with
        | true =>
          simp only [if_true, pure_apply]
          exact ⟨_, _, rfl, Or.inl rfl⟩
        | false =>
          obtain ⟨r1, w1, ha, hev⟩ := archiveVersion_spec env opt (cleanRel rel0)
            (dstAbsPath env opt (cleanRel rel0))
            { w with devN := w.devN + 1, gateLog := w.gateLog ++ [(env.dev w.devN, true)],
                     ioN := i, readN := r }
          dsimp only at ha hev
          simp only [Bool.false_eq_true, if_false, ha]
          refine ⟨_, _, rfl, ?_⟩
          rcases hev with h | h
          · exact Or.inl h
          · exact Or.inr ⟨_, h⟩
      · simp only [hg, hex, Bool.not_true, Bool.not_false, Bool.false_eq_true, if_false, if_true]
        exact ⟨_, _, rfl, Or.inl rfl⟩
    · simp only [hg, Bool.not_false, if_true]
      exact ⟨_, _, rfl, Or.inl rfl⟩
  · simp only [hkeep, Bool.not_false, if_true, pure_apply, ite_apply_M]
    exact ⟨_, _, rfl, Or.inl rfl⟩

theorem jsonString_origAbs (payloadPath rel kind ts : String) :
    jsonString (metaObject env opt payloadPath rel kind ts) "origAbs" = srcAbsPath env opt rel := by
  rfl

theorem qCopy_spec (src dst : String) (w : World) (d1 : FileData)
    (h : w.fs.get src = some d1 ∨ w.fs.get src = none) :
    ∃ ok w2, qCopy env src dst w = some (ok, w2) ∧
      (ok = true → ∃ x, w2.fs.get dst = some x ∧ x.content = d1.content) := by
  rw [qCopy_apply]
  rcases h with h | h
  · rw [h]
    by_cases hc : (!w.fs.pathExists dst && env.ioOk w.ioN (IoOp.copy src dst)) = true
    · simp only [hc, if_true]
      exact ⟨_, _, rfl, fun _ => ⟨_, FS.get_put_self _ _ _, rfl⟩⟩
    · simp only [hc, if_false]
      exact ⟨_, _, rfl, fun h => by cases h⟩
  · rw [h]
    exact ⟨_, _, rfl, fun h => by cases h⟩

/-- What `copyFileWithDirs` does when it returns true: the target holds the bytes of the source. -/
theorem copyFileWithDirs_spec (src dst : String) (w : World) (d1 : FileData)
    (hsrc : w.fs.get src = some d1) :
    ∃ ok w2, copyFileWithDirs env src dst w = some (ok, w2) ∧
      (ok = true → ∃ x, w2.fs.get dst = some x ∧ x.content = d1.content) := by
  unfold copyFileWithDirs
  obtain ⟨b, ds, he, _⟩ := ensureDir_frame env (filePathDir dst) w
  unfold ensureDir at he
  simp only [bind_apply, he, readFs_apply, qRemove_apply, pure_apply, ite_apply_M]
  by_cases hex : ({ w.fs with dirs := ds } : FS).pathExists dst = true
  · simp only [hex, if_true]
    apply qCopy_spec
    dsimp only
    split
    · by_cases e : src = dst
      · right; rw [e]; exact FS.get_erase_self _ _
      · left; rw [FS.get_erase_ne _ e]; exact hsrc
    · exact Or.inl hsrc
  · simp only [hex, if_false]
    apply qCopy_spec
    exact Or.inl hsrc

/-- What the restore slot does when it copies the payload back: the file named by the sidecar's
`origAbs` holds the bytes of the payload. -/
theorem onRestoreSelectedVersion_spec (payload metaPath : String) (w : World) (d1 s : FileData)
    (obj : List (String × String))
    (hpay : w.fs.get payload = some d1) (hmeta : w.fs.get metaPath = some s)
    (hjson : env.fromJson s.content = some obj) :
    ∃ ok w2, onRestoreSelectedVersion env payload metaPath true w = some (ok, w2) ∧
      (ok = true → ∃ x, w2.fs.get (jsonString obj "origAbs") = some x ∧ x.content = d1.content) := by
  unfold onRestoreSelectedVersion readOrigAbsFromMeta
  by_cases he : payload = "" ∨ metaPath = ""
  · simp only [he, if_true, pure_apply, ite_apply_M]
    exact ⟨_, _, rfl, fun h => by cases h⟩
  · simp only [he, if_false, bind_apply, qOpenRead_apply, hmeta, pure_apply, ite_apply_M]
    by_cases hok : env.ioOk w.ioN (IoOp.openRead metaPath) = true
    · simp only [hok, if_true, hjson]
      by_cases ho : jsonString obj "origAbs" = ""
      · simp only [ho, if_true, pure_apply]
        exact ⟨_, _, rfl, fun h => by cases h⟩
      · simp only [ho, if_false, pure_apply, Bool.not_true, Bool.false_eq_true]
        exact copyFileWithDirs_spec env payload _ _ d1 hpay
    · simp only [hok, if_false, pure_apply, Bool.false_eq_true]
      exact ⟨_, _, rfl, fun h => by cases h⟩

end

/-! ### The toy serialisation of the scenarios round-trips -/

theorem Demo.decStr_encStr (s : String) (rest : List Nat) :
    Demo.decStr (Demo.encStr s ++ rest) = some (s, rest) := by
  unfold Demo.encStr Demo.decStr
  simp only [List.cons_append]
  have hlen : ¬ (List.map Char.toNat s.data ++ rest).length < s.data.length := by
    simp
  rw [if_neg hlen]
  have ht : (List.map Char.toNat s.data ++ rest).take s.data.length = List.map Char.toNat s.data := by
    rw [List.take_append_of_le_length (by simp)]
    simp
  have hd : (List.map Char.toNat s.data ++ rest).drop s.data.length = rest := by
    rw [List.drop_append_of_le_length (by simp)]
    simp
  rw [ht, hd]
  have hm : List.map Char.ofNat (List.map Char.toNat s.data) = s.data := by
    rw [List.map_map]
    conv => rhs; rw [← List.map_id s.data]
    apply List.map_congr_left
    intro c _
    simp [Char.ofNat_toNat]
  rw [hm]

theorem Demo.decObj_encObj (o : List (String × String)) :
    ∀ fuel, o.length < fuel → Demo.decObj fuel (Demo.encObj o) = some o := by
  induction o with
  | nil =>
    intro fuel h
    cases fuel with
    | zero => cases h
    | succ n => simp [Demo.encObj, Demo.decObj]
  | cons e t ih =>
    intro fuel h
    cases fuel with
    | zero => cases h
    | succ n =>
      obtain ⟨k, v⟩ := e
      have hn : t.length < n := by simpa using h
      simp only [Demo.encObj, Demo.decObj]
      rw [Demo.decStr_encStr]
      simp only
      rw [Demo.decStr_encStr]
      simp only
      rw [ih n hn]

theorem Demo.length_encObj (o : List (String × String)) : o.length < (Demo.encObj o).length := by
  induction o with
  | nil => simp [Demo.encObj]
  | cons e t ih =>
    obtain ⟨k, v⟩ := e
    simp only [Demo.encObj, List.length_cons, List.length_append]
    omega

theorem Demo.codec_roundtrip (o : List (String × String)) :
    Demo.env.fromJson (Demo.env.toJson o) = some o :=
  Demo.decObj_encObj o _ (Nat.lt_succ_of_lt (Demo.length_encObj o))

section
variable (env : Env) (opt : Options)

/-- C9 as amended: the version step returns, and for every `versionCreated(rel, payload, meta)` it
emits, `rel` is the cleaned path, `meta` is `payload + ".json"`, and the file at `payload` holds
exactly the bytes the destination payload held before the step.  When moreover the sidecar can be
written (no directory at its path, its open and its write succeed) and the JSON codec round-trips,
the sidecar's `origAbs` is `srcRoot/rel`, and a restore that copies the payload back leaves at
`origAbs` a file with the SHA-256 of the bytes the version was made of. -/
theorem versionCreated_payload_and_restore (rel0 : String) (w : World)
    (hcodec : ∀ o, env.fromJson (env.toJson o) = some o) :
    ∃ r w1 evs, maybeStashExistingVersion env opt rel0 w = some (r, w1) ∧
      w1.events = w.events ++ evs ∧
      ∀ rel payload metaPath, Event.versionCreated rel payload metaPath ∈ evs →
        rel = cleanRel rel0 ∧ metaPath = payload ++ ".json" ∧
        ∃ d d1, w.fs.get (dstAbsPath env opt rel) = some d ∧
          w1.fs.get payload = some d1 ∧ d1.content = d.content ∧
          (w.fs.dirExists metaPath = false →
            (∀ n, env.ioOk n (IoOp.openWrite metaPath) = true ∧
                  env.ioOk n (IoOp.write metaPath) = true) →
            ∃ s obj, w1.fs.get metaPath = some s ∧ env.fromJson s.content = some obj ∧
              jsonString obj "origAbs" = srcAbsPath env opt rel ∧
              ∃ ok w2, onRestoreSelectedVersion env payload metaPath true w1 = some (ok, w2) ∧
                (ok = true → ∃ x, w2.fs.get (srcAbsPath env opt rel) = some x ∧
                  env.sha256 x.content = env.sha256 d.content)) := by
  obtain ⟨r, w1, hrun, hev⟩ := maybeStash_spec env opt rel0 w
  rcases hev with hev | ⟨ts, hev, d, d1, hd, hd1, hc, hside⟩
  · exact ⟨r, w1, [], hrun, by simp [hev], fun _ _ _ h => by cases h⟩
  · refine ⟨r, w1, _, hrun, hev, ?_⟩
    intro rel payload metaPath hmem
    simp only [List.mem_singleton, Event.versionCreated.injEq] at hmem
    obtain ⟨h1, h2, h3⟩ := hmem
    subst h1 h2 h3
    refine ⟨rfl, rfl, d, d1, hd, hd1, hc, ?_⟩
    intro hnodir hio
    obtain ⟨s, hs, hcont⟩ := hside hnodir hio
    have hjson : env.fromJson s.content = some (metaObject env opt
        (versionFilePath env opt (cleanRel rel0) ts) (cleanRel rel0) "version" ts) := by
      rw [hcont]; exact hcodec _
    refine ⟨s, _, hs, hjson, jsonString_origAbs env opt _ _ _ _, ?_⟩
    obtain ⟨ok, w2, hres, hok⟩ := onRestoreSelectedVersion_spec env _ _ w1 d1 s _ hd1 hs hjson
    refine ⟨ok, w2, hres, fun h => ?_⟩
    obtain ⟨x, hx, hxc⟩ := hok h
    rw [jsonString_origAbs] at hx
    exact ⟨x, hx, by rw [hxc, hc]⟩

end

/-- C9, witness: the version step on the changed file of the scenario, with the toy codec; it
emits one `versionCreated`. -/
theorem versionCreated_payload_and_restore_witness :
    (∀ o, Demo.env.fromJson (Demo.env.toJson o) = some o) ∧
      Demo.eventsOf (maybeStashExistingVersion Demo.env Demo.opt "a.txt"
          (Demo.world Demo.filesChanged)) =
        some [Event.versionCreated "a.txt" "/dst/.plugbackup_meta/versions/ns/a.txt.v20250101-000000"
                "/dst/.plugbackup_meta/versions/ns/a.txt.v20250101-000000.json"] ∧
      ∃ r w1 evs, maybeStashExistingVersion Demo.env Demo.opt "a.txt" (Demo.world Demo.filesChanged) =
          some (r, w1) ∧
        w1.events = (Demo.world Demo.filesChanged).events ++ evs :=
  ⟨Demo.codec_roundtrip, by decide!,
    match versionCreated_payload_and_restore Demo.env Demo.opt "a.txt" (Demo.world Demo.filesChanged)
        Demo.codec_roundtrip with
    | ⟨r, w1, evs, h1, h2, _⟩ => ⟨r, w1, evs, h1, h2⟩⟩

/-! ### The fingerprint and the gate -/

theorem gateStep_refl (w : World) : GateStep w w :=
  ⟨rfl, [], by simp, fun _ h => by cases h⟩

theorem gateStep_trans {w w1 w2 : World} (h1 : GateStep w w1) (h2 : GateStep w1 w2) :
    GateStep w w2 := by
  obtain ⟨e1, l1, hl1, hg1⟩ := h1
  obtain ⟨e2, l2, hl2, hg2⟩ := h2
  refine ⟨e2.trans e1, l1 ++ l2, by rw [hl2, hl1, List.append_assoc], ?_⟩
  intro e he
  rcases List.mem_append.mp he with h | h
  · exact hg1 e h
  · rw [← e1]; exact hg2 e h

theorem keeps_pure {α : Type} (a : α) : Keeps (pure a : M α) := by
  intro w b w1 h
  simp only [pure_apply, Option.some.injEq, Prod.mk.injEq] at h
  rw [← h.2]; exact gateStep_refl w

theorem keeps_bind {α β : Type} (m : M α) (f : α → M β) (hm : Keeps m) (hf : ∀ a, Keeps (f a)) :
    Keeps (m >>= f) := by
  intro w b w2 h
  rw [bind_apply] at h
  cases hmw : m w with
  | none => rw [hmw] at h; cases h
  | some p =>
    obtain ⟨a, w1⟩ := p
    rw [hmw] at h
    exact gateStep_trans (hm w a w1 hmw) (hf a w1 b w2 h)

theorem keeps_ite {α : Type} (c : Prop) [Decidable c] (a b : M α) (ha : Keeps a) (hb : Keeps b) :
    Keeps (if c then a else b) := by
  split
  · exact ha
  · exact hb

/-- A step that leaves the fingerprint and the gate log alone. -/
theorem keeps_frame {α : Type} (m : M α)
    (h : ∀ w a w1, m w = some (a, w1) → w1.expectedDevice = w.expectedDevice ∧ w1.gateLog = w.gateLog) :
    Keeps m := by
  intro w a w1 hm
  obtain ⟨h1, h2⟩ := h w a w1 hm
  exact ⟨h1, [], by simp [h2], fun _ h => by cases h⟩

section
variable (env : Env) (opt : Options)

theorem keeps_emit (e : Event) : Keeps (emit e) :=
  keeps_frame _ (fun w a w1 h => by cases h; exact ⟨rfl, rfl⟩)

theorem keeps_msleep (ms : Int) : Keeps (msleep ms) :=
  keeps_frame _ (fun w a w1 h => by cases h; exact ⟨rfl, rfl⟩)

theorem keeps_loadStop : Keeps (loadStop env) :=
  keeps_frame _ (fun w a w1 h => by cases h; exact ⟨rfl, rfl⟩)

theorem keeps_loadPause : Keeps (loadPause env) :=
  keeps_frame _ (fun w a w1 h => by cases h; exact ⟨rfl, rfl⟩)

theorem keeps_isInterruptionRequested : Keeps (isInterruptionRequested env) :=
  keeps_frame _ (fun w a w1 h => by cases h; exact ⟨rfl, rfl⟩)

theorem keeps_currentMs : Keeps (currentMs env) :=
  keeps_frame _ (fun w a w1 h => by cases h; exact ⟨rfl, rfl⟩)

theorem keeps_timerElapsed : Keeps (timerElapsed env) :=
  keeps_frame _ (fun w a w1 h => by cases h; exact ⟨rfl, rfl⟩)

theorem keeps_ioAttempt (op : IoOp) : Keeps (ioAttempt env op) :=
  keeps_frame _ (fun w a w1 h => by cases h; exact ⟨rfl, rfl⟩)

theorem keeps_readFs {α : Type} (f : FS → α) : Keeps (readFs f) :=
  keeps_frame _ (fun w a w1 h => by cases h; exact ⟨rfl, rfl⟩)

theorem keeps_modifyFs (f : FS → FS) : Keeps (modifyFs f) :=
  keeps_frame _ (fun w a w1 h => by cases h; exact ⟨rfl, rfl⟩)

theorem keeps_qRead (rest : List Nat) : Keeps (qRead env rest) :=
  keeps_frame _ (fun w a w1 h => by cases h; exact ⟨rfl, rfl⟩)

theorem keeps_isDestReady : Keeps (isDestReadySameDevice env) := by
  intro w a w1 h
  rw [isDestReady_apply] at h
  cases h
  exact ⟨rfl, [(env.dev w.devN, gate w.expectedDevice (env.dev w.devN))], rfl,
    fun e he => by rw [List.mem_singleton.mp he]⟩

theorem keeps_outOfFuel {α : Type} : Keeps (outOfFuel : M α) := by
  intro w a w1 h; cases h

theorem keeps_getOfflineSignaled : Keeps getOfflineSignaled :=
  keeps_frame _ (fun w a w1 h => by cases h; exact ⟨rfl, rfl⟩)

theorem keeps_setOfflineSignaled (b : Bool) : Keeps (setOfflineSignaled b) :=
  keeps_frame _ (fun w a w1 h => by cases h; exact ⟨rfl, rfl⟩)

theorem keeps_getTotalBytes : Keeps getTotalBytes :=
  keeps_frame _ (fun w a w1 h => by cases h; exact ⟨rfl, rfl⟩)

theorem keeps_setTotalBytes (n : Nat) : Keeps (setTotalBytes n) :=
  keeps_frame _ (fun w a w1 h => by cases h; exact ⟨rfl, rfl⟩)

theorem keeps_countCopyCall : Keeps countCopyCall :=
  keeps_frame _ (fun w a w1 h => by cases h; exact ⟨rfl, rfl⟩)

theorem keeps_logMove (src dst : String) (moved : Bool) : Keeps (logMove src dst moved) :=
  keeps_frame _ (fun w a w1 h => by cases h; exact ⟨rfl, rfl⟩)

end

section
variable (env : Env) (opt : Options)
set_option linter.unusedTactic false
set_option linter.unreachableTactic false

theorem keeps_qRemove (p : String) : Keeps (qRemove env p) := by
  unfold qRemove
  repeat' first
    | with_reducible exact keeps_ioAttempt env _
    | with_reducible exact keeps_readFs _
    | with_reducible exact keeps_modifyFs _
    | with_reducible exact keeps_pure _
    | with_reducible exact keeps_outOfFuel
    | with_reducible apply keeps_bind
    | with_reducible apply keeps_ite
    | with_reducible intro _
    | split
    | dsimp only

theorem keeps_qRename (src dst : String) : Keeps (qRename env src dst) := by
  unfold qRename
  repeat' first
    | with_reducible exact keeps_ioAttempt env _
    | with_reducible exact keeps_readFs _
    | with_reducible exact keeps_modifyFs _
    | with_reducible exact keeps_pure _
    | with_reducible exact keeps_outOfFuel
    | with_reducible apply keeps_bind
    | with_reducible apply keeps_ite
    | with_reducible intro _
    | split
    | dsimp only

theorem keeps_qCopy (src dst : String) : Keeps (qCopy env src dst) := by
  unfold qCopy
  repeat' first
    | with_reducible exact keeps_ioAttempt env _
    | with_reducible exact keeps_readFs _
    | with_reducible exact keeps_modifyFs _
    | with_reducible exact keeps_currentMs env
    | with_reducible exact keeps_pure _
    | with_reducible exact keeps_outOfFuel
    | with_reducible apply keeps_bind
    | with_reducible apply keeps_ite
    | with_reducible intro _
    | split
    | dsimp only

theorem keeps_qMkpath (p : String) : Keeps (qMkpath env p) := by
  unfold qMkpath
  repeat' first
    | with_reducible exact keeps_ioAttempt env _
    | with_reducible exact keeps_readFs _
    | with_reducible exact keeps_modifyFs _
    | with_reducible exact keeps_pure _
    | with_reducible exact keeps_outOfFuel
    | with_reducible apply keeps_bind
    | with_reducible apply keeps_ite
    | with_reducible intro _
    | split
    | dsimp only

theorem keeps_qOpenRead (p : String) : Keeps (qOpenRead env p) := by
  unfold qOpenRead
  repeat' first
    | with_reducible exact keeps_ioAttempt env _
    | with_reducible exact keeps_readFs _
    | with_reducible exact keeps_modifyFs _
    | with_reducible exact keeps_pure _
    | with_reducible exact keeps_outOfFuel
    | with_reducible apply keeps_bind
    | with_reducible apply keeps_ite
    | with_reducible intro _
    | split
    | dsimp only

theorem keeps_qOpenWrite (p : String) : Keeps (qOpenWrite env p) := by
  unfold qOpenWrite
  repeat' first
    | with_reducible exact keeps_ioAttempt env _
    | with_reducible exact keeps_readFs _
    | with_reducible exact keeps_modifyFs _
    | with_reducible exact keeps_currentMs env
    | with_reducible exact keeps_pure _
    | with_reducible exact keeps_outOfFuel
    | with_reducible apply keeps_bind
    | with_reducible apply keeps_ite
    | with_reducible intro _
    | split
    | dsimp only

theorem keeps_qWrite (p : String) (data : List Nat) : Keeps (qWrite env p data) := by
  unfold qWrite
  repeat' first
    | with_reducible exact keeps_ioAttempt env _
    | with_reducible exact keeps_readFs _
    | with_reducible exact keeps_modifyFs _
    | with_reducible exact keeps_pure _
    | with_reducible exact keeps_outOfFuel
    | with_reducible apply keeps_bind
    | with_reducible apply keeps_ite
    | with_reducible intro _
    | split
    | dsimp only

theorem keeps_hashLoop : ∀ (n : Nat) (rest acc : List Nat), Keeps (hashLoop env n rest acc) := by
  intro n
  induction n with
  | zero =>
    intro rest acc
    unfold hashLoop
    repeat' first
      | with_reducible exact keeps_qRead env _
      | with_reducible exact keeps_pure _
      | with_reducible exact keeps_outOfFuel
      | with_reducible apply keeps_bind
      | with_reducible apply keeps_ite
      | with_reducible intro _
      | split
      | dsimp only
  | succ n ih =>
    intro rest acc
    unfold hashLoop
    repeat' first
      | with_reducible apply ih
      | with_reducible exact keeps_qRead env _
      | with_reducible exact keeps_pure _
      | with_reducible exact keeps_outOfFuel
      | with_reducible apply keeps_bind
      | with_reducible apply keeps_ite
      | with_reducible intro _
      | split
      | dsimp only

theorem keeps_fileHashSha256 (path : String) : Keeps (fileHashSha256 env path) := by
  unfold fileHashSha256
  repeat' first
    | with_reducible exact keeps_qOpenRead env _
    | with_reducible exact keeps_hashLoop env _ _ _
    | with_reducible exact keeps_pure _
    | with_reducible exact keeps_outOfFuel
    | with_reducible apply keeps_bind
    | with_reducible apply keeps_ite
    | with_reducible intro _
    | split
    | dsimp only

theorem keeps_ensureDir (p : String) : Keeps (ensureDir env p) := by
  unfold ensureDir
  repeat' first
    | with_reducible exact keeps_qMkpath env _
    | with_reducible exact keeps_pure _
    | with_reducible exact keeps_outOfFuel
    | with_reducible apply keeps_bind
    | with_reducible apply keeps_ite
    | with_reducible intro _
    | split
    | dsimp only

theorem keeps_renameOrCopy (src dst : String) : Keeps (renameOrCopy env src dst) := by
  unfold renameOrCopy
  repeat' first
    | with_reducible exact keeps_qRename env _ _
    | with_reducible exact keeps_qCopy env _ _
    | with_reducible exact keeps_qRemove env _
    | with_reducible exact keeps_pure _
    | with_reducible exact keeps_outOfFuel
    | with_reducible apply keeps_bind
    | with_reducible apply keeps_ite
    | with_reducible intro _
    | split
    | dsimp only

theorem keeps_moveFileRobust (src dst : String) : Keeps (moveFileRobust env src dst) := by
  unfold moveFileRobust
  repeat' first
    | with_reducible exact keeps_renameOrCopy env _ _
    | with_reducible exact keeps_qRemove env _
    | with_reducible exact keeps_readFs _
    | with_reducible exact keeps_logMove _ _ _
    | with_reducible exact keeps_pure _
    | with_reducible exact keeps_outOfFuel
    | with_reducible apply keeps_bind
    | with_reducible apply keeps_ite
    | with_reducible intro _
    | split
    | dsimp only

theorem keeps_tsNow : Keeps (tsNow env) := by
  unfold tsNow
  repeat' first
    | with_reducible exact keeps_currentMs env
    | with_reducible exact keeps_pure _
    | with_reducible exact keeps_outOfFuel
    | with_reducible apply keeps_bind
    | with_reducible apply keeps_ite
    | with_reducible intro _
    | split
    | dsimp only

theorem keeps_writeMetaJson (payloadPath rel kind ts : String) : Keeps (writeMetaJson env opt payloadPath rel kind ts) := by
  unfold writeMetaJson
  repeat' first
    | with_reducible exact keeps_qOpenWrite env _
    | with_reducible exact keeps_qWrite env _ _
    | with_reducible exact keeps_pure _
    | with_reducible exact keeps_outOfFuel
    | with_reducible apply keeps_bind
    | with_reducible apply keeps_ite
    | with_reducible intro _
    | split
    | dsimp only

theorem keeps_waitLoop : ∀ (n : Nat), Keeps (waitLoop env n) := by
  intro n
  induction n with
  | zero =>
    unfold waitLoop
    repeat' first
      | with_reducible exact keeps_isDestReady env
      | with_reducible exact keeps_loadStop env
      | with_reducible exact keeps_isInterruptionRequested env
      | with_reducible exact keeps_msleep _
      | with_reducible exact keeps_pure _
      | with_reducible exact keeps_outOfFuel
      | with_reducible apply keeps_bind
      | with_reducible apply keeps_ite
      | with_reducible intro _
      | split
      | dsimp only
  | succ n ih =>
    unfold waitLoop
    repeat' first
      | with_reducible apply ih
      | with_reducible exact keeps_isDestReady env
      | with_reducible exact keeps_loadStop env
      | with_reducible exact keeps_isInterruptionRequested env
      | with_reducible exact keeps_msleep _
      | with_reducible exact keeps_pure _
      | with_reducible exact keeps_outOfFuel
      | with_reducible apply keeps_bind
      | with_reducible apply keeps_ite
      | with_reducible intro _
      | split
      | dsimp only

theorem keeps_wait (fuel : Nat) (phaseHint : String) : Keeps (waitUntilDestReadyOrStopped env fuel phaseHint) := by
  unfold waitUntilDestReadyOrStopped
  repeat' first
    | with_reducible exact keeps_isDestReady env
    | with_reducible exact keeps_loadStop env
    | with_reducible exact keeps_emit _
    | with_reducible exact keeps_waitLoop env _
    | with_reducible exact keeps_getOfflineSignaled
    | with_reducible exact keeps_setOfflineSignaled _
    | with_reducible exact keeps_pure _
    | with_reducible exact keeps_outOfFuel
    | with_reducible apply keeps_bind
    | with_reducible apply keeps_ite
    | with_reducible intro _
    | split
    | dsimp only

theorem keeps_pauseLoop : ∀ (n : Nat), Keeps (pauseLoop env n) := by
  intro n
  induction n with
  | zero =>
    unfold pauseLoop
    repeat' first
      | with_reducible exact keeps_loadPause env
      | with_reducible exact keeps_loadStop env
      | with_reducible exact keeps_msleep _
      | with_reducible exact keeps_pure _
      | with_reducible exact keeps_outOfFuel
      | with_reducible apply keeps_bind
      | with_reducible apply keeps_ite
      | with_reducible intro _
      | split
      | dsimp only
  | succ n ih =>
    unfold pauseLoop
    repeat' first
      | with_reducible apply ih
      | with_reducible exact keeps_loadPause env
      | with_reducible exact keeps_loadStop env
      | with_reducible exact keeps_msleep _
      | with_reducible exact keeps_pure _
      | with_reducible exact keeps_outOfFuel
      | with_reducible apply keeps_bind
      | with_reducible apply keeps_ite
      | with_reducible intro _
      | split
      | dsimp only

theorem keeps_fastEqual (srcPath dstPath : String) : Keeps (fastEqual env srcPath dstPath) := by
  unfold fastEqual
  repeat' first
    | with_reducible exact keeps_readFs _
    | with_reducible exact keeps_fileHashSha256 env _
    | with_reducible exact keeps_pure _
    | with_reducible exact keeps_outOfFuel
    | with_reducible apply keeps_bind
    | with_reducible apply keeps_ite
    | with_reducible intro _
    | split
    | dsimp only

theorem keeps_identicalCheck (srcPath dstPath : String) : Keeps (identicalCheck env srcPath dstPath) := by
  unfold identicalCheck
  repeat' first
    | with_reducible exact keeps_readFs _
    | with_reducible exact keeps_fileHashSha256 env _
    | with_reducible exact keeps_pure _
    | with_reducible exact keeps_outOfFuel
    | with_reducible apply keeps_bind
    | with_reducible apply keeps_ite
    | with_reducible intro _
    | split
    | dsimp only

theorem keeps_archiveVersion (rel dstPath : String) : Keeps (archiveVersion env opt rel dstPath) := by
  unfold archiveVersion
  repeat' first
    | with_reducible exact keeps_tsNow env
    | with_reducible exact keeps_ensureDir env _
    | with_reducible exact keeps_isDestReady env
    | with_reducible exact keeps_moveFileRobust env _ _
    | with_reducible exact keeps_writeMetaJson env opt _ _ _ _
    | with_reducible exact keeps_emit _
    | with_reducible exact keeps_pure _
    | with_reducible exact keeps_outOfFuel
    | with_reducible apply keeps_bind
    | with_reducible apply keeps_ite
    | with_reducible intro _
    | split
    | dsimp only

theorem keeps_maybeStash (rel0 : String) : Keeps (maybeStashExistingVersion env opt rel0) := by
  unfold maybeStashExistingVersion
  repeat' first
    | with_reducible exact keeps_isDestReady env
    | with_reducible exact keeps_readFs _
    | with_reducible exact keeps_fastEqual env _ _
    | with_reducible exact keeps_archiveVersion env opt _ _
    | with_reducible exact keeps_pure _
    | with_reducible exact keeps_outOfFuel
    | with_reducible apply keeps_bind
    | with_reducible apply keeps_ite
    | with_reducible intro _
    | split
    | dsimp only

theorem keeps_readyOrWait (fuel : Nat) (hint : String) : Keeps (readyOrWait env fuel hint) := by
  unfold readyOrWait
  repeat' first
    | with_reducible exact keeps_isDestReady env
    | with_reducible exact keeps_wait env _ _
    | with_reducible exact keeps_loadStop env
    | with_reducible exact keeps_pure _
    | with_reducible exact keeps_outOfFuel
    | with_reducible apply keeps_bind
    | with_reducible apply keeps_ite
    | with_reducible intro _
    | split
    | dsimp only

theorem keeps_handleDeletionsLoop (fuel : Nat) (srcSet : List String) (rootNs : String) : ∀ (l : List String), Keeps (handleDeletionsLoop env opt fuel srcSet rootNs l) := by
  intro l
  induction l with
  | nil =>
    unfold handleDeletionsLoop
    repeat' first
      | with_reducible exact keeps_loadStop env
      | with_reducible exact keeps_readyOrWait env _ _
      | with_reducible exact keeps_tsNow env
      | with_reducible exact keeps_ensureDir env _
      | with_reducible exact keeps_moveFileRobust env _ _
      | with_reducible exact keeps_writeMetaJson env opt _ _ _ _
      | with_reducible exact keeps_emit _
      | with_reducible exact keeps_pure _
      | with_reducible exact keeps_outOfFuel
      | with_reducible apply keeps_bind
      | with_reducible apply keeps_ite
      | with_reducible intro _
      | split
      | dsimp only
  | cons x t ih =>
    unfold handleDeletionsLoop
    repeat' first
      | with_reducible exact ih
      | with_reducible exact keeps_loadStop env
      | with_reducible exact keeps_readyOrWait env _ _
      | with_reducible exact keeps_tsNow env
      | with_reducible exact keeps_ensureDir env _
      | with_reducible exact keeps_moveFileRobust env _ _
      | with_reducible exact keeps_writeMetaJson env opt _ _ _ _
      | with_reducible exact keeps_emit _
      | with_reducible exact keeps_pure _
      | with_reducible exact keeps_outOfFuel
      | with_reducible apply keeps_bind
      | with_reducible apply keeps_ite
      | with_reducible intro _
      | split
      | dsimp only

theorem keeps_handleDeletions (fuel : Nat) (srcSet : List String) : Keeps (handleDeletions env opt fuel srcSet) := by
  unfold handleDeletions
  repeat' first
    | with_reducible exact keeps_readyOrWait env _ _
    | with_reducible exact keeps_readFs _
    | with_reducible exact keeps_handleDeletionsLoop env opt _ _ _ _
    | with_reducible exact keeps_pure _
    | with_reducible exact keeps_outOfFuel
    | with_reducible apply keeps_bind
    | with_reducible apply keeps_ite
    | with_reducible intro _
    | split
    | dsimp only

theorem keeps_sweepDirLoop (cutoff : Int) (marker : String) : ∀ (l : List String), Keeps (sweepDirLoop env cutoff marker l) := by
  intro l
  induction l with
  | nil =>
    unfold sweepDirLoop
    repeat' first
      | with_reducible exact keeps_qRemove env _
      | with_reducible exact keeps_pure _
      | with_reducible exact keeps_outOfFuel
      | with_reducible apply keeps_bind
      | with_reducible apply keeps_ite
      | with_reducible intro _
      | split
      | dsimp only
  | cons x t ih =>
    unfold sweepDirLoop
    repeat' first
      | with_reducible exact ih
      | with_reducible exact keeps_qRemove env _
      | with_reducible exact keeps_pure _
      | with_reducible exact keeps_outOfFuel
      | with_reducible apply keeps_bind
      | with_reducible apply keeps_ite
      | with_reducible intro _
      | split
      | dsimp only

theorem keeps_sweepDir (cutoff : Int) (root marker : String) : Keeps (sweepDir env opt cutoff root marker) := by
  unfold sweepDir
  repeat' first
    | with_reducible exact keeps_readFs _
    | with_reducible exact keeps_sweepDirLoop env _ _ _
    | with_reducible exact keeps_pure _
    | with_reducible exact keeps_outOfFuel
    | with_reducible apply keeps_bind
    | with_reducible apply keeps_ite
    | with_reducible intro _
    | split
    | dsimp only

theorem keeps_sweepRetention (fuel : Nat) : Keeps (sweepRetention env opt fuel) := by
  unfold sweepRetention
  repeat' first
    | with_reducible exact keeps_readyOrWait env _ _
    | with_reducible exact keeps_currentMs env
    | with_reducible exact keeps_sweepDir env opt _ _ _
    | with_reducible exact keeps_pure _
    | with_reducible exact keeps_outOfFuel
    | with_reducible apply keeps_bind
    | with_reducible apply keeps_ite
    | with_reducible intro _
    | split
    | dsimp only

theorem keeps_copyPauseLoop : ∀ (n : Nat), Keeps (copyPauseLoop env n) := by
  intro n
  induction n with
  | zero =>
    unfold copyPauseLoop
    repeat' first
      | with_reducible exact keeps_loadPause env
      | with_reducible exact keeps_loadStop env
      | with_reducible exact keeps_isInterruptionRequested env
      | with_reducible exact keeps_msleep _
      | with_reducible exact keeps_pure _
      | with_reducible exact keeps_outOfFuel
      | with_reducible apply keeps_bind
      | with_reducible apply keeps_ite
      | with_reducible intro _
      | split
      | dsimp only
  | succ n ih =>
    unfold copyPauseLoop
    repeat' first
      | with_reducible apply ih
      | with_reducible exact keeps_loadPause env
      | with_reducible exact keeps_loadStop env
      | with_reducible exact keeps_isInterruptionRequested env
      | with_reducible exact keeps_msleep _
      | with_reducible exact keeps_pure _
      | with_reducible exact keeps_outOfFuel
      | with_reducible apply keeps_bind
      | with_reducible apply keeps_ite
      | with_reducible intro _
      | split
      | dsimp only

theorem keeps_stopOrInterrupted : Keeps (stopOrInterrupted env) := by
  unfold stopOrInterrupted
  repeat' first
    | with_reducible exact keeps_loadStop env
    | with_reducible exact keeps_isInterruptionRequested env
    | with_reducible exact keeps_pure _
    | with_reducible exact keeps_outOfFuel
    | with_reducible apply keeps_bind
    | with_reducible apply keeps_ite
    | with_reducible intro _
    | split
    | dsimp only

theorem keeps_copyChunks (fuel : Nat) (part : String) :
    ∀ (n : Nat) (rest : List Nat) (bytesDone : Nat) (sent : Int),
      Keeps (copyChunks env opt fuel part n rest bytesDone sent) := by
  intro n
  induction n with
  | zero =>
    intro rest bytesDone sent
    unfold copyChunks
    exact keeps_outOfFuel
  | succ n ih =>
    intro rest bytesDone sent
    unfold copyChunks
    repeat' first
      | with_reducible apply ih
      | with_reducible exact keeps_qRead env _
      | with_reducible exact keeps_stopOrInterrupted env
      | with_reducible exact keeps_qRemove env _
      | with_reducible exact keeps_copyPauseLoop env _
      | with_reducible exact keeps_isDestReady env
      | with_reducible exact keeps_timerElapsed env
      | with_reducible exact keeps_msleep _
      | with_reducible exact keeps_qWrite env _ _
      | with_reducible exact keeps_pure _
      | with_reducible exact keeps_outOfFuel
      | with_reducible apply keeps_bind
      | with_reducible apply keeps_ite
      | with_reducible intro _
      | split
      | dsimp only

theorem keeps_copyOneFile (fuel : Nat) (rel0 : String) (bytesDone : Nat) : Keeps (copyOneFile env opt fuel rel0 bytesDone) := by
  unfold copyOneFile
  repeat' first
    | with_reducible exact keeps_countCopyCall
    | with_reducible exact keeps_isDestReady env
    | with_reducible exact keeps_ensureDir env _
    | with_reducible exact keeps_qOpenRead env _
    | with_reducible exact keeps_qOpenWrite env _
    | with_reducible exact keeps_copyChunks env opt _ _ _ _ _ _
    | with_reducible exact keeps_qRemove env _
    | with_reducible exact keeps_qRename env _ _
    | with_reducible exact keeps_ioAttempt env _
    | with_reducible exact keeps_modifyFs _
    | with_reducible exact keeps_pure _
    | with_reducible exact keeps_outOfFuel
    | with_reducible apply keeps_bind
    | with_reducible apply keeps_ite
    | with_reducible intro _
    | split
    | dsimp only

theorem keeps_verifyRetry (a : List Nat) (dstPath : String) :
    ∀ (n : Nat) (delay : Int), Keeps (verifyRetry env a dstPath n delay) := by
  intro n
  induction n with
  | zero =>
    intro delay
    unfold verifyRetry
    exact keeps_pure _
  | succ n ih =>
    intro delay
    unfold verifyRetry
    repeat' first
      | with_reducible apply ih
      | with_reducible exact keeps_msleep _
      | with_reducible exact keeps_isDestReady env
      | with_reducible exact keeps_fileHashSha256 env _
      | with_reducible exact keeps_pure _
      | with_reducible exact keeps_outOfFuel
      | with_reducible apply keeps_bind
      | with_reducible apply keeps_ite
      | with_reducible intro _
      | split
      | dsimp only

theorem keeps_verifyFile (rel0 : String) : Keeps (verifyFile env opt rel0) := by
  unfold verifyFile
  repeat' first
    | with_reducible exact keeps_isDestReady env
    | with_reducible exact keeps_fileHashSha256 env _
    | with_reducible exact keeps_verifyRetry env _ _ _ _
    | with_reducible exact keeps_pure _
    | with_reducible exact keeps_outOfFuel
    | with_reducible apply keeps_bind
    | with_reducible apply keeps_ite
    | with_reducible intro _
    | split
    | dsimp only

theorem keeps_progressTick (bytesDone : Nat) : Keeps (progressTick env bytesDone) := by
  unfold progressTick
  repeat' first
    | with_reducible exact keeps_timerElapsed env
    | with_reducible exact keeps_getTotalBytes
    | with_reducible exact keeps_emit _
    | with_reducible exact keeps_pure _
    | with_reducible exact keeps_outOfFuel
    | with_reducible apply keeps_bind
    | with_reducible apply keeps_ite
    | with_reducible intro _
    | split
    | dsimp only

theorem keeps_copyRetryLoop (fuel : Nat) (rel : String) :
    ∀ (n bytesDone : Nat) (allOk : Bool), Keeps (copyRetryLoop env opt fuel rel n bytesDone allOk) := by
  intro n
  induction n with
  | zero =>
    intro bytesDone allOk
    unfold copyRetryLoop
    exact keeps_outOfFuel
  | succ n ih =>
    intro bytesDone allOk
    unfold copyRetryLoop
    repeat' first
      | with_reducible apply ih
      | with_reducible exact keeps_loadStop env
      | with_reducible exact keeps_pauseLoop env _
      | with_reducible exact keeps_isDestReady env
      | with_reducible exact keeps_wait env _ _
      | with_reducible exact keeps_copyOneFile env opt _ _ _
      | with_reducible exact keeps_verifyFile env opt _
      | with_reducible exact keeps_emit _
      | with_reducible exact keeps_pure _
      | with_reducible exact keeps_outOfFuel
      | with_reducible apply keeps_bind
      | with_reducible apply keeps_ite
      | with_reducible intro _
      | split
      | dsimp only

theorem keeps_processFile (fuel : Nat) (rel : String) (bytesDone : Nat) (allOk : Bool) : Keeps (processFile env opt fuel rel bytesDone allOk) := by
  unfold processFile
  repeat' first
    | with_reducible exact keeps_loadStop env
    | with_reducible exact keeps_pauseLoop env _
    | with_reducible exact keeps_readFs _
    | with_reducible exact keeps_emit _
    | with_reducible exact keeps_wait env _ _
    | with_reducible exact keeps_maybeStash env opt _
    | with_reducible exact keeps_isDestReady env
    | with_reducible exact keeps_identicalCheck env _ _
    | with_reducible exact keeps_progressTick env _
    | with_reducible exact keeps_copyRetryLoop env opt _ _ _ _ _
    | with_reducible exact keeps_pure _
    | with_reducible exact keeps_outOfFuel
    | with_reducible apply keeps_bind
    | with_reducible apply keeps_ite
    | with_reducible intro _
    | split
    | dsimp only

theorem keeps_fileLoop (fuel : Nat) :
    ∀ (l : List String) (bytesDone : Nat) (allOk : Bool), Keeps (fileLoop env opt fuel l bytesDone allOk) := by
  intro l
  induction l with
  | nil =>
    intro bytesDone allOk
    unfold fileLoop
    exact keeps_pure _
  | cons x t ih =>
    intro bytesDone allOk
    unfold fileLoop
    repeat' first
      | with_reducible apply ih
      | with_reducible exact keeps_processFile env opt _ _ _ _
      | with_reducible exact keeps_pure _
      | with_reducible exact keeps_outOfFuel
      | with_reducible apply keeps_bind
      | with_reducible apply keeps_ite
      | with_reducible intro _
      | split
      | dsimp only

end

section
variable (env : Env) (opt : Options)
set_option linter.unusedTactic false
set_option linter.unreachableTactic false

theorem gate_true_device {fp : String} {st : DevObs} (hfp : fp ≠ "") (h : gate fp st = true) :
    st.device = fp := by
  unfold gate at h
  by_cases h1 : (!st.valid || !st.ready || st.readOnly) = true
  · simp [h1] at h
  · by_cases h2 : st.device = fp
    · exact h2
    · simp [h1, hfp, h2] at h

theorem gate_empty (st : DevObs) : gate "" st = (st.valid && st.ready && !st.readOnly) := by
  unfold gate
  cases st.valid <;> cases st.ready <;> cases st.readOnly <;> simp

/-- What a run does with the fingerprint: the one a finished run holds is the one taken at its
first statement (the device identifier if the volume was valid and ready then, else empty); it is
not assigned again, and every call of `isDestReadySameDevice` of the run returned `gate` of that
fingerprint.  So with a non-empty fingerprint no volume with another device identifier ever
passed the gate (the second half of C10), and with an empty one (nothing captured at the start)
the gate admitted every valid, ready, writable volume whatever its device identifier: no later
readiness defines the fingerprint, against the first half of C10. -/
theorem run_gate_uses_start_fingerprint (fuel : Nat) (w w1 : World)
    (h : run env opt fuel w = some ((), w1)) :
    w1.expectedDevice =
        (if ((env.dev w.devN).valid && (env.dev w.devN).ready) = true
         then (env.dev w.devN).device else "") ∧
      ∃ log, w1.gateLog = w.gateLog ++ log ∧
        (∀ e ∈ log, e.2 = gate w1.expectedDevice e.1) ∧
        (w1.expectedDevice ≠ "" → ∀ e ∈ log, e.2 = true → e.1.device = w1.expectedDevice) ∧
        (w1.expectedDevice = "" → ∀ e ∈ log, e.2 = (e.1.valid && e.1.ready && !e.1.readOnly)) := by
  have key : ∀ (m : M Unit) (w0 : World), Keeps m → m w0 = some ((), w1) →
      w1.expectedDevice = w0.expectedDevice ∧
      ∃ log, w1.gateLog = w0.gateLog ++ log ∧
        (∀ e ∈ log, e.2 = gate w1.expectedDevice e.1) ∧
        (w1.expectedDevice ≠ "" → ∀ e ∈ log, e.2 = true → e.1.device = w1.expectedDevice) ∧
        (w1.expectedDevice = "" → ∀ e ∈ log, e.2 = (e.1.valid && e.1.ready && !e.1.readOnly)) := by
    intro m w0 hk hm
    obtain ⟨he, log, hlog, hg⟩ := hk w0 () w1 hm
    refine ⟨he, log, hlog, ?_, ?_, ?_⟩
    · intro e hmem; rw [he]; exact hg e hmem
    · intro hne e hmem htrue
      have := hg e hmem
      rw [htrue, ← he] at this
      exact gate_true_device hne this.symm
    · intro hemp e hmem
      have := hg e hmem
      rw [← he, hemp, gate_empty] at this
      exact this
  unfold run at h
  rw [bind_apply, storageInfo_apply] at h
  dsimp only at h
  rw [bind_apply, setExpectedDevice_apply] at h
  dsimp only at h
  refine key _ _ ?_ h
  repeat' first
    | with_reducible exact keeps_wait env _ _
    | with_reducible exact keeps_loadStop env
    | with_reducible exact keeps_emit _
    | with_reducible exact keeps_readFs _
    | with_reducible exact keeps_setTotalBytes _
    | with_reducible exact keeps_fileLoop env opt _ _ _ _
    | with_reducible exact keeps_handleDeletions env opt _ _
    | with_reducible exact keeps_sweepRetention env opt _
    | with_reducible exact keeps_pure _
    | with_reducible apply keeps_bind
    | with_reducible apply keeps_ite
    | with_reducible intro _
    | split
    | dsimp only

end

/-- The run of the scenario with the volume `A` there from the start keeps the fingerprint `A`. -/
theorem run_gate_uses_start_fingerprint_witness :
    ∃ w1, run Demo.env Demo.opt 5 (Demo.world Demo.filesNew) = some ((), w1) ∧
      w1.expectedDevice = "A" ∧
      ∃ log, w1.gateLog = [] ++ log ∧ ∀ e ∈ log, e.2 = true → e.1.device = "A" := by
  have hs : (run Demo.env Demo.opt 5 (Demo.world Demo.filesNew)).isSome = true := by decide!
  obtain ⟨⟨u, w1⟩, h⟩ := Option.isSome_iff_exists.mp hs
  obtain ⟨hfp, log, hlog, _, hdev, _⟩ :=
    run_gate_uses_start_fingerprint Demo.env Demo.opt 5 (Demo.world Demo.filesNew) w1 h
  have hA : w1.expectedDevice = "A" := hfp
  refine ⟨w1, h, hA, log, hlog, ?_⟩
  rw [hA] at hdev
  exact hdev (by decide)

/-! ### Deletion handling -/

theorem frames_pure {α : Type} (P : String → Prop) (a : α) : Frames P (pure a : M α) := by
  intro w b w1 h q _
  simp only [pure_apply, Option.some.injEq, Prod.mk.injEq] at h
  rw [← h.2]

theorem frames_bind {α β : Type} (P : String → Prop) (m : M α) (f : α → M β)
    (hm : Frames P m) (hf : ∀ a, Frames P (f a)) : Frames P (m >>= f) := by
  intro w b w2 h q hq
  rw [bind_apply] at h
  cases hmw : m w with
  | none => rw [hmw] at h; cases h
  | some p =>
    obtain ⟨a, w1⟩ := p
    rw [hmw] at h
    exact (hf a w1 b w2 h q hq).trans (hm w a w1 hmw q hq)

theorem frames_ite {α : Type} (P : String → Prop) (c : Prop) [Decidable c] (a b : M α)
    (ha : Frames P a) (hb : Frames P b) : Frames P (if c then a else b) := by
  split
  · exact ha
  · exact hb

section
variable (env : Env) (opt : Options)

theorem frames_readFs {α : Type} (P : String → Prop) (f : FS → α) : Frames P (readFs f) := by
  intro w a w1 h q _; cases h; rfl

theorem frames_logMove (P : String → Prop) (src dst : String) (moved : Bool) :
    Frames P (logMove src dst moved) := by
  intro w a w1 h q _; cases h; rfl

theorem frames_qRemove (P : String → Prop) (p : String) (hp : P p) : Frames P (qRemove env p) := by
  intro w a w1 h q hq
  rw [qRemove_apply] at h
  cases h
  have hne : q ≠ p := fun e => hq (e ▸ hp)
  dsimp only
  split
  · exact FS.get_erase_ne _ hne
  · rfl

theorem frames_qRename (P : String → Prop) (src dst : String) (hs : P src) (hd : P dst) :
    Frames P (qRename env src dst) := by
  intro w a w1 h q hq
  have hns : q ≠ src := fun e => hq (e ▸ hs)
  have hnd : q ≠ dst := fun e => hq (e ▸ hd)
  rw [qRename_apply] at h
  cases hg : w.fs.get src with
  | none => rw [hg] at h; cases h; rfl
  | some fd =>
    rw [hg] at h
    dsimp only at h
    split at h
    · cases h
      show ((w.fs.erase src).put dst fd).get q = w.fs.get q
      rw [FS.get_put_ne _ _ hnd, FS.get_erase_ne _ hns]
    · cases h; rfl

theorem frames_qCopy (P : String → Prop) (src dst : String) (hd : P dst) :
    Frames P (qCopy env src dst) := by
  intro w a w1 h q hq
  have hnd : q ≠ dst := fun e => hq (e ▸ hd)
  rw [qCopy_apply] at h
  cases hg : w.fs.get src with
  | none => rw [hg] at h; cases h; rfl
  | some fd =>
    rw [hg] at h
    dsimp only at h
    split at h
    · cases h
      exact FS.get_put_ne _ _ hnd
    · cases h; rfl

theorem frames_renameOrCopy (src dst : String) :
    Frames (fun q => q = src ∨ q = dst) (renameOrCopy env src dst) := by
  unfold renameOrCopy
  repeat' first
    | with_reducible exact frames_qRename env _ _ _ (Or.inl rfl) (Or.inr rfl)
    | with_reducible exact frames_qCopy env _ _ _ (Or.inr rfl)
    | with_reducible exact frames_qRemove env _ _ (Or.inl rfl)
    | with_reducible exact frames_pure _ _
    | with_reducible apply frames_bind
    | with_reducible apply frames_ite
    | with_reducible intro _

theorem frames_moveFileRobust (src dst : String) :
    Frames (fun q => q = src ∨ q = dst) (moveFileRobust env src dst) := by
  unfold moveFileRobust
  repeat' first
    | with_reducible exact frames_renameOrCopy env _ _
    | with_reducible exact frames_qRemove env _ _ (Or.inr rfl)
    | with_reducible exact frames_readFs _ _
    | with_reducible exact frames_logMove _ _ _ _
    | with_reducible exact frames_pure _ _
    | with_reducible apply frames_bind
    | with_reducible apply frames_ite
    | with_reducible intro _

theorem readyOrWait_ready (fuel : Nat) (hint : String) (w : World)
    (h : AlwaysReady env w.expectedDevice) :
    readyOrWait env fuel hint w =
      some (false, { w with devN := w.devN + 1,
                            gateLog := w.gateLog ++ [(env.dev w.devN, true)] }) := by
  unfold readyOrWait
  simp only [bind_apply, isDestReady_ready env w h, pure_apply, ite_apply_M, if_true]

end

section
variable (env : Env) (opt : Options)

theorem tombstoneCandidates_skip (srcSet more : List String) (abs : String)
    (h : (!inMetaTree abs && !srcSet.contains (deletionRel env opt abs)) = false) :
    tombstoneCandidates env opt srcSet (abs :: more) = tombstoneCandidates env opt srcSet more := by
  unfold tombstoneCandidates
  rw [List.filter_cons, h]
  rfl

theorem tombstoneCandidates_take (srcSet more : List String) (abs : String)
    (h : (!inMetaTree abs && !srcSet.contains (deletionRel env opt abs)) = true) :
    tombstoneCandidates env opt srcSet (abs :: more) =
      abs :: tombstoneCandidates env opt srcSet more := by
  unfold tombstoneCandidates
  rw [List.filter_cons, h]
  rfl

/-- After `renameOrCopy` returned true the source is gone, when it is not the target and its
removal is let through: a rename takes it away, and after a copy it is removed. -/
theorem renameOrCopy_source_gone (src dst : String) (w w1 : World)
    (h : renameOrCopy env src dst w = some (true, w1)) (hne : src ≠ dst)
    (hrm : ∀ n, env.ioOk n (IoOp.remove src) = true) : w1.fs.get src = none := by
  unfold renameOrCopy at h
  simp only [bind_apply, qRename_apply, qCopy_apply, qRemove_apply, pure_apply, ite_apply_M] at h
  cases hg : w.fs.get src with
  | none => simp [hg] at h
  | some fd =>
    by_cases hr : (!w.fs.pathExists dst && env.ioOk w.ioN (IoOp.rename src dst)) = true
    · simp [hg, hr] at h
      rw [← h]
      dsimp only
      rw [FS.get_put_ne _ _ hne, FS.get_erase_self]
    · by_cases hc : (!w.fs.pathExists dst && env.ioOk (w.ioN + 1) (IoOp.copy src dst)) = true
      · have hfile : (w.fs.put dst { content := fd.content, mtime := env.nowMs w.clockN / 1000 }).isFile src
            = true := by
          unfold FS.isFile
          rw [FS.get_put_ne _ _ hne, hg]; rfl
        simp [hg, hr, hc, hfile, hrm] at h
        rw [← h]
        dsimp only
        rw [FS.get_erase_self]
      · simp [hg, hr, hc] at h

/-- After `moveFileRobust` returned true the source is gone, when it is not the target and its
removal is let through. -/
theorem moveFileRobust_source_gone (src dst : String) (w w1 : World)
    (h : moveFileRobust env src dst w = some (true, w1)) (hne : src ≠ dst)
    (hrm : ∀ n, env.ioOk n (IoOp.remove src) = true) : w1.fs.get src = none := by
  have pre : ∃ fs0 i0, ∀ a wb, renameOrCopy env src dst { w with fs := fs0, ioN := i0 } = some (a, wb) →
      moveFileRobust env src dst w =
        some (a, { wb with moveLog := wb.moveLog ++ [(src, dst, a)] }) := by
    unfold moveFileRobust
    simp only [bind_apply, readFs_apply, qRemove_apply, pure_apply, ite_apply_M]
    by_cases ht : w.fs.pathExists dst = true
    · by_cases hr : (w.fs.isFile dst && env.ioOk w.ioN (IoOp.remove dst)) = true
      · exact ⟨w.fs.erase dst, w.ioN + 1, fun a wb h => by simp [ht, hr, h]⟩
      · exact ⟨w.fs, w.ioN + 1, fun a wb h => by simp [ht, hr, h]⟩
    · refine ⟨w.fs, w.ioN, fun a wb h => ?_⟩
      have h' : renameOrCopy env src dst w = some (a, wb) := h
      simp [ht, h']
  obtain ⟨fs0, i0, hmove⟩ := pre
  obtain ⟨r, fs1, i, c, hcore, _⟩ := renameOrCopy_spec env src dst { w with fs := fs0, ioN := i0 }
  have e := hmove _ _ hcore
  have hg := fun hr : r = true => renameOrCopy_source_gone env src dst _ _ (hr ▸ hcore) hne hrm
  rw [h] at e
  simp only [Option.some.injEq, Prod.mk.injEq] at e
  obtain ⟨e1, e2⟩ := e
  rw [e2]
  exact hg e1.symm

/-- The loop of `handleDeletions` with the device ready and no stop request: it runs to the end
of the listing, calls `moveFileRobust` on the candidates in order, emits one `deletedStashed` per
successful call and leaves alone every path that is no source, target or sidecar of a call; a
successful call whose paths are none of the paths of the other calls has moved its file. -/
theorem handleDeletionsLoop_spec (hs : env.stopAt = none) (fuel : Nat) (srcSet : List String) :
    ∀ (l : List String) (w : World), AlwaysReady env w.expectedDevice →
      ∃ w1 moved, handleDeletionsLoop env opt fuel srcSet (nsSubRoot env opt) l w = some ((), w1) ∧
        w1.expectedDevice = w.expectedDevice ∧
        w1.moveLog = w.moveLog ++ moved ∧
        moved.map (fun e => e.1) = tombstoneCandidates env opt srcSet l ∧
        (∀ e ∈ moved, ∃ t, e.2.1 = deletedFilePath env opt (deletionRel env opt e.1) (env.fmtTs t)) ∧
        w1.events = w.events ++ moved.filterMap (stashSignal env opt) ∧
        (∀ q, (∀ e ∈ moved, q ≠ e.1 ∧ q ≠ e.2.1 ∧ q ≠ e.2.1 ++ ".json") →
          w1.fs.get q = w.fs.get q) ∧
        (∀ pre e post, moved = pre ++ e :: post → e.2.2 = true →
          (∀ f ∈ pre ++ post, e.1 ≠ f.1 ∧ Apart e f) → MovedTo env w.fs w1.fs e) := by
  intro l
  induction l with
  | nil =>
    intro w _
    refine ⟨w, [], rfl, rfl, by simp, rfl, fun _ h => (by cases h), by simp, fun _ _ => rfl, ?_⟩
    intro pre e post h
    exact absurd (List.append_eq_nil.mp h.symm).2 (List.cons_ne_nil e post)
  | cons abs more ih =>
    intro w hready
    unfold handleDeletionsLoop
    simp only [bind_apply, loadStop_none env hs, pure_apply, ite_apply_M, Bool.false_eq_true, if_false]
    by_cases hmeta : inMetaTree abs = true
    · have hmeta' : (containsStr abs "/.plugbackup_meta/" || containsStr abs "\\.plugbackup_meta\\") = true :=
        hmeta
      obtain ⟨w1, moved, hrun, hfp, hlog, hmap, htgt, hev, hfr, hmv⟩ := ih { w with stopN := w.stopN + 1 } hready
      dsimp only at hrun hfp hlog hmap htgt hev hfr hmv
      refine ⟨w1, moved, ?_, hfp, hlog, ?_, htgt, hev, hfr, hmv⟩
      · simp only [hmeta', if_true]; exact hrun
      · rw [hmap, tombstoneCandidates_skip env opt srcSet more abs (by rw [hmeta]; rfl)]
    · have hmeta' : ¬ (containsStr abs "/.plugbackup_meta/" || containsStr abs "\\.plugbackup_meta\\") = true :=
        hmeta
      have hr1 := readyOrWait_ready env fuel "处理删除项" { w with stopN := w.stopN + 1 } hready
      dsimp only at hr1
      simp only [hmeta', if_false, hr1, Bool.false_eq_true]
      by_cases hin : srcSet.contains (cleanRel (relativeFilePath (nsSubRoot env opt) abs)) = true
      · obtain ⟨w1, moved, hrun, hfp, hlog, hmap, htgt, hev, hfr, hmv⟩ :=
          ih { w with stopN := w.stopN + 1, devN := w.devN + 1,
                      gateLog := w.gateLog ++ [(env.dev w.devN, true)] } hready
        dsimp only at hrun hfp hlog hmap htgt hev hfr hmv
        refine ⟨w1, moved, ?_, hfp, hlog, ?_, htgt, hev, hfr, hmv⟩
        · simp only [hin, if_true]; exact hrun
        · rw [hmap, tombstoneCandidates_skip env opt srcSet more abs
            (by unfold deletionRel; rw [hin]; simp)]
      · have hcand : (!inMetaTree abs && !srcSet.contains (deletionRel env opt abs)) = true := by
          unfold deletionRel
          simp only [Bool.not_eq_true] at hmeta hin
          rw [hmeta, hin]; rfl
        generalize hts : env.fmtTs (env.nowMs w.clockN) = ts
        generalize hout : deletedFilePath env opt
          (cleanRel (relativeFilePath (nsSubRoot env opt) abs)) ts = out
        have houtT : ∃ t, out = deletedFilePath env opt (deletionRel env opt abs) (env.fmtTs t) :=
          ⟨env.nowMs w.clockN, by rw [hts, ← hout]; rfl⟩
        simp only [hin, if_false, tsNow_apply, hts, hout]
        obtain ⟨b, ds, he, hds⟩ := ensureDir_frame env (filePathDir out)
          { w with stopN := w.stopN + 1, devN := w.devN + 1,
                   gateLog := w.gateLog ++ [(env.dev w.devN, true)], clockN := w.clockN + 1 }
        dsimp only at he hds
        have hr2 := readyOrWait_ready env fuel "处理删除项"
          { w with stopN := w.stopN + 1, devN := w.devN + 1,
                   gateLog := w.gateLog ++ [(env.dev w.devN, true)], clockN := w.clockN + 1,
                   ioN := w.ioN + 1, fs := { w.fs with dirs := ds } } hready
        dsimp only at hr2
        simp only [he, hr2, Bool.false_eq_true, if_false]
        obtain ⟨r, fs1, i, c, hm, htrue, _, _, _⟩ := moveFileRobust_spec env abs out
          { w with stopN := w.stopN + 1, devN := w.devN + 1 + 1,
                   gateLog := w.gateLog ++ [(env.dev w.devN, true)] ++ [(env.dev (w.devN + 1), true)],
                   clockN := w.clockN + 1, ioN := w.ioN + 1, fs := { w.fs with dirs := ds } }
        dsimp only at hm htrue
        have hmf := frames_moveFileRobust env abs out _ _ _ hm
        dsimp only at hmf
        cases r with
        | false =>
          obtain ⟨w1, moved, hrun, hfp, hlog, hmap, htgt, hev, hfr, hmv⟩ :=
            ih { w with stopN := w.stopN + 1, devN := w.devN + 1 + 1,
                        gateLog := w.gateLog ++ [(env.dev w.devN, true)] ++ [(env.dev (w.devN + 1), true)],
                        clockN := c, ioN := i, fs := fs1,
                        moveLog := w.moveLog ++ [(abs, out, false)] } hready
          dsimp only at hrun hfp hlog hmap htgt hev hfr hmv
          refine ⟨w1, (abs, out, false) :: moved, ?_, hfp, ?_, ?_, ?_, ?_, ?_, ?_⟩
          rotate_right
          · intro pre e post hsplit het hap
            cases pre with
            | nil =>
              rw [List.nil_append, List.cons.injEq] at hsplit
              rw [← hsplit.1] at het
              cases het
            | cons x pre1 =>
              rw [List.cons_append, List.cons.injEq] at hsplit
              have hx := hap x (List.mem_append_left _ (List.mem_cons_self _ _))
              rw [← hsplit.1] at hx
              obtain ⟨d, d1, h1, h2, h3, h4⟩ := hmv pre1 e post hsplit.2 het
                (fun f hf => hap f (by
                  rcases List.mem_append.mp hf with h | h
                  · exact List.mem_append_left _ (List.mem_cons_of_mem _ h)
                  · exact List.mem_append_right _ h))
              refine ⟨d, d1, ?_, h2, h3, h4⟩
              rw [← h1, hmf e.1 (fun hc => hc.elim hx.1 hx.2.1)]
              exact (FS.get_setDirs _ _ _).symm
          · simp only [hm, Bool.false_eq_true, if_false, pure_apply, bind_apply]; exact hrun
          · rw [hlog, List.append_assoc]; rfl
          · rw [tombstoneCandidates_take env opt srcSet more abs hcand, ← hmap]; rfl
          · intro e he
            rcases List.mem_cons.mp he with h | h
            · rw [h]; exact houtT
            · exact htgt e h
          · rw [hev]; simp [stashSignal]
          · intro q hq
            have h0 := hq _ (List.mem_cons_self _ _)
            rw [hfr q (fun e he => hq e (List.mem_cons_of_mem _ he))]
            rw [hmf q (fun hc => hc.elim h0.1 h0.2.1)]
            exact FS.get_setDirs _ _ _
        | true =>
          obtain ⟨fs2, i2, c2, hw, hother, _⟩ := writeMetaJson_spec env opt out
            (cleanRel (relativeFilePath (nsSubRoot env opt) abs)) "deleted" ts
            { w with stopN := w.stopN + 1, devN := w.devN + 1 + 1,
                     gateLog := w.gateLog ++ [(env.dev w.devN, true)] ++ [(env.dev (w.devN + 1), true)],
                     clockN := c, ioN := i, fs := fs1,
                     moveLog := w.moveLog ++ [(abs, out, true)] }
          dsimp only at hw hother
          obtain ⟨w1, moved, hrun, hfp, hlog, hmap, htgt, hev, hfr, hmv⟩ :=
            ih { w with stopN := w.stopN + 1, devN := w.devN + 1 + 1,
                        gateLog := w.gateLog ++ [(env.dev w.devN, true)] ++ [(env.dev (w.devN + 1), true)],
                        clockN := c2, ioN := i2, fs := fs2,
                        moveLog := w.moveLog ++ [(abs, out, true)],
                        events := w.events ++ [Event.deletedStashed
                          (cleanRel (relativeFilePath (nsSubRoot env opt) abs)) out (out ++ ".json")] }
              hready
          dsimp only at hrun hfp hlog hmap htgt hev hfr hmv
          refine ⟨w1, (abs, out, true) :: moved, ?_, hfp, ?_, ?_, ?_, ?_, ?_, ?_⟩
          rotate_right
          · intro pre e post hsplit het hap
            cases pre with
            | nil =>
              rw [List.nil_append, List.cons.injEq] at hsplit
              obtain ⟨he, hpost⟩ := hsplit
              subst he
              subst hpost
              obtain ⟨d, d1, h1, h2, h3⟩ := htrue rfl
              have hfar : ∀ q, (∀ f ∈ moved, q ≠ f.1 ∧ q ≠ f.2.1 ∧ q ≠ f.2.1 ++ ".json") →
                  q ≠ out ++ ".json" → w1.fs.get q = fs1.get q := by
                intro q hq hj
                rw [hfr q hq, hother q hj]
              refine ⟨d, d1, ?_, ?_, h3, ?_⟩
              · rw [← h1]; exact (FS.get_setDirs _ _ _).symm
              · rw [hfar out (fun f hf => (hap f hf).2.2.2) (append_json_ne out).symm]
                exact h2
              · intro hne hnj hrm
                rw [hfar abs (fun f hf => ⟨(hap f hf).1, (hap f hf).2.1, (hap f hf).2.2.1⟩) hnj]
                exact moveFileRobust_source_gone env abs out _ _ hm hne hrm
            | cons x pre1 =>
              rw [List.cons_append, List.cons.injEq] at hsplit
              have hx := hap x (List.mem_append_left _ (List.mem_cons_self _ _))
              rw [← hsplit.1] at hx
              obtain ⟨d, d1, h1, h2, h3, h4⟩ := hmv pre1 e post hsplit.2 het
                (fun f hf => hap f (by
                  rcases List.mem_append.mp hf with h | h
                  · exact List.mem_append_left _ (List.mem_cons_of_mem _ h)
                  · exact List.mem_append_right _ h))
              refine ⟨d, d1, ?_, h2, h3, h4⟩
              rw [← h1, hother e.1 hx.2.2.1, hmf e.1 (fun hc => hc.elim hx.1 hx.2.1)]
              exact (FS.get_setDirs _ _ _).symm
          · simp only [hm, hw, if_true, pure_apply, bind_apply, emit_apply]; exact hrun
          · rw [hlog, List.append_assoc]; rfl
          · rw [tombstoneCandidates_take env opt srcSet more abs hcand, ← hmap]; rfl
          · intro e he
            rcases List.mem_cons.mp he with h | h
            · rw [h]; exact houtT
            · exact htgt e h
          · rw [hev, List.append_assoc]; rfl
          · intro q hq
            have h0 := hq _ (List.mem_cons_self _ _)
            rw [hfr q (fun e he => hq e (List.mem_cons_of_mem _ he))]
            rw [hother q h0.2.2, hmf q (fun hc => hc.elim h0.1 h0.2.1)]
            exact FS.get_setDirs _ _ _
end

section
variable (env : Env) (opt : Options)

theorem filesUnder_nil_of_no_dir (fs : FS) (root : String) (h : fs.dirExists root = false) :
    fs.filesUnder root = [] := by
  unfold FS.dirExists at h
  rw [Bool.or_eq_false_iff] at h
  unfold FS.filesUnder
  have hf : (fs.files.map (fun e => e.1)).filter
      (fun q => startsWith q (root ++ "/") && !hiddenBelow root q) = [] := by
    rw [List.filter_eq_nil_iff]
    intro q hq
    obtain ⟨e, he, rfl⟩ := List.mem_map.mp hq
    have := List.any_eq_false.mp h.2 e he
    simp only [Bool.not_eq_true] at this
    rw [this]
    simp
  rw [hf]
  rfl

end

/-! ### Relations along a run -/

theorem TraceOnly.toTapeBlind {R : World → World → Prop} (H : TraceOnly R) : TapeBlind R :=
  ⟨H.refl, H.trans, fun w w1 _ he hs _ _ => H.hidden w w1 he hs⟩

theorem steps_pure {α : Type} {R : World → World → Prop} (H : TapeBlind R) (a : α) :
    Steps R (pure a : M α) := by
  intro w b w1 h
  simp only [pure_apply, Option.some.injEq, Prod.mk.injEq] at h
  rw [← h.2]; exact H.refl w

theorem steps_bind {α β : Type} {R : World → World → Prop} (H : TapeBlind R) (m : M α)
    (f : α → M β) (hm : Steps R m) (hf : ∀ a, Steps R (f a)) : Steps R (m >>= f) := by
  intro w b w2 h
  rw [bind_apply] at h
  cases hmw : m w with
  | none => rw [hmw] at h; cases h
  | some p =>
    obtain ⟨a, w1⟩ := p
    rw [hmw] at h
    exact H.trans _ _ _ (hm w a w1 hmw) (hf a w1 b w2 h)

theorem steps_ite {α : Type} {R : World → World → Prop} (c : Prop) [Decidable c] (a b : M α)
    (ha : Steps R a) (hb : Steps R b) : Steps R (if c then a else b) := by
  split
  · exact ha
  · exact hb

theorem steps_outOfFuel {α : Type} {R : World → World → Prop} : Steps R (outOfFuel : M α) := by
  intro w a w1 h; cases h

/-- What a finished bind went through. -/
theorem bind_inv {α β : Type} {m : M α} {f : α → M β} {w w2 : World} {b : β}
    (h : (m >>= f) w = some (b, w2)) : ∃ a w1, m w = some (a, w1) ∧ f a w1 = some (b, w2) := by
  rw [bind_apply] at h
  cases hmw : m w with
  | none => rw [hmw] at h; cases h
  | some p =>
    obtain ⟨a, w1⟩ := p
    rw [hmw] at h
    exact ⟨a, w1, rfl, h⟩

section
variable (env : Env) (opt : Options) {R : World → World → Prop}

theorem steps_msleep (H : TapeBlind R) (ms : Int) : Steps R (msleep ms) := by
  intro w a w1 h; cases h; exact H.tape _ _ rfl rfl rfl rfl rfl

theorem steps_loadStop (H : TapeBlind R) : Steps R (loadStop env) := by
  intro w a w1 h; cases h; exact H.tape _ _ rfl rfl rfl rfl rfl

theorem steps_loadPause (H : TapeBlind R) : Steps R (loadPause env) := by
  intro w a w1 h; cases h; exact H.tape _ _ rfl rfl rfl rfl rfl

theorem steps_isInterruptionRequested (H : TapeBlind R) : Steps R (isInterruptionRequested env) := by
  intro w a w1 h; cases h; exact H.tape _ _ rfl rfl rfl rfl rfl

theorem steps_storageInfo (H : TapeBlind R) : Steps R (storageInfo env) := by
  intro w a w1 h; cases h; exact H.tape _ _ rfl rfl rfl rfl rfl

theorem steps_currentMs (H : TapeBlind R) : Steps R (currentMs env) := by
  intro w a w1 h; cases h; exact H.tape _ _ rfl rfl rfl rfl rfl

theorem steps_timerElapsed (H : TapeBlind R) : Steps R (timerElapsed env) := by
  intro w a w1 h; cases h; exact H.tape _ _ rfl rfl rfl rfl rfl

theorem steps_ioAttempt (H : TapeBlind R) (op : IoOp) : Steps R (ioAttempt env op) := by
  intro w a w1 h; cases h; exact H.tape _ _ rfl rfl rfl rfl rfl

theorem steps_readFs {α : Type} (H : TapeBlind R) (f : FS → α) : Steps R (readFs f) := by
  intro w a w1 h; cases h; exact H.refl _

theorem steps_qRead (H : TapeBlind R) (rest : List Nat) : Steps R (qRead env rest) := by
  intro w a w1 h; cases h; exact H.tape _ _ rfl rfl rfl rfl rfl

theorem steps_isDestReady (H : TapeBlind R) : Steps R (isDestReadySameDevice env) := by
  intro w a w1 h
  rw [isDestReady_apply] at h
  cases h; exact H.tape _ _ rfl rfl rfl rfl rfl

theorem steps_getOfflineSignaled (H : TapeBlind R) : Steps R getOfflineSignaled := by
  intro w a w1 h; cases h; exact H.refl _

theorem steps_getTotalBytes (H : TapeBlind R) : Steps R getTotalBytes := by
  intro w a w1 h; cases h; exact H.refl _

theorem steps_setTotalBytes (H : TapeBlind R) (n : Nat) : Steps R (setTotalBytes n) := by
  intro w a w1 h; cases h; exact H.tape _ _ rfl rfl rfl rfl rfl

theorem steps_setExpectedDevice (H : TapeBlind R) (fp : String) : Steps R (setExpectedDevice fp) := by
  intro w a w1 h; cases h; exact H.tape _ _ rfl rfl rfl rfl rfl

theorem steps_modifyFs (H : TraceOnly R) (f : FS → FS) : Steps R (modifyFs f) := by
  intro w a w1 h; cases h; exact H.hidden _ _ rfl rfl

theorem steps_countCopyCall (H : TraceOnly R) : Steps R countCopyCall := by
  intro w a w1 h; cases h; exact H.hidden _ _ rfl rfl

theorem steps_logMove (H : TraceOnly R) (src dst : String) (moved : Bool) :
    Steps R (logMove src dst moved) := by
  intro w a w1 h; cases h; exact H.hidden _ _ rfl rfl

end

section
variable (env : Env) (opt : Options) {R : World → World → Prop}
set_option linter.unusedTactic false
set_option linter.unreachableTactic false
set_option linter.unusedVariables false

theorem steps_qOpenRead (H : TapeBlind R) (p : String) : Steps R (qOpenRead env p) := by
  have HT : TapeBlind R := H
  unfold qOpenRead
  repeat' first
    | with_reducible exact steps_ioAttempt env HT _
    | with_reducible exact steps_readFs HT _
    | with_reducible exact steps_pure HT _
    | with_reducible exact steps_outOfFuel
    | with_reducible apply steps_bind HT
    | with_reducible apply steps_ite
    | with_reducible intro _
    | split
    | dsimp only

theorem steps_hashLoop (H : TapeBlind R) : ∀ (n : Nat) (rest acc : List Nat), Steps R (hashLoop env n rest acc) := by
  have HT : TapeBlind R := H
  intro n
  induction n with
  | zero =>
    intro rest acc
    unfold hashLoop
    repeat' first
      | with_reducible exact steps_qRead env HT _
      | with_reducible exact steps_pure HT _
      | with_reducible exact steps_outOfFuel
      | with_reducible apply steps_bind HT
      | with_reducible apply steps_ite
      | with_reducible intro _
      | split
      | dsimp only
  | succ n ih =>
    intro rest acc
    unfold hashLoop
    repeat' first
      | with_reducible apply ih
      | with_reducible exact steps_qRead env HT _
      | with_reducible exact steps_pure HT _
      | with_reducible exact steps_outOfFuel
      | with_reducible apply steps_bind HT
      | with_reducible apply steps_ite
      | with_reducible intro _
      | split
      | dsimp only

theorem steps_fileHashSha256 (H : TapeBlind R) (path : String) : Steps R (fileHashSha256 env path) := by
  have HT : TapeBlind R := H
  unfold fileHashSha256
  repeat' first
    | with_reducible exact steps_qOpenRead env H _
    | with_reducible exact steps_hashLoop env H _ _ _
    | with_reducible exact steps_pure HT _
    | with_reducible exact steps_outOfFuel
    | with_reducible apply steps_bind HT
    | with_reducible apply steps_ite
    | with_reducible intro _
    | split
    | dsimp only

theorem steps_tsNow (H : TapeBlind R) : Steps R (tsNow env) := by
  have HT : TapeBlind R := H
  unfold tsNow
  repeat' first
    | with_reducible exact steps_currentMs env HT
    | with_reducible exact steps_pure HT _
    | with_reducible exact steps_outOfFuel
    | with_reducible apply steps_bind HT
    | with_reducible apply steps_ite
    | with_reducible intro _
    | split
    | dsimp only

theorem steps_waitLoop (H : TapeBlind R) : ∀ (n : Nat), Steps R (waitLoop env n) := by
  have HT : TapeBlind R := H
  intro n
  induction n with
  | zero =>
    unfold waitLoop
    repeat' first
      | with_reducible exact steps_isDestReady env HT
      | with_reducible exact steps_loadStop env HT
      | with_reducible exact steps_isInterruptionRequested env HT
      | with_reducible exact steps_msleep HT _
      | with_reducible exact steps_pure HT _
      | with_reducible exact steps_outOfFuel
      | with_reducible apply steps_bind HT
      | with_reducible apply steps_ite
      | with_reducible intro _
      | split
      | dsimp only
  | succ n ih =>
    unfold waitLoop
    repeat' first
      | with_reducible apply ih
      | with_reducible exact steps_isDestReady env HT
      | with_reducible exact steps_loadStop env HT
      | with_reducible exact steps_isInterruptionRequested env HT
      | with_reducible exact steps_msleep HT _
      | with_reducible exact steps_pure HT _
      | with_reducible exact steps_outOfFuel
      | with_reducible apply steps_bind HT
      | with_reducible apply steps_ite
      | with_reducible intro _
      | split
      | dsimp only

theorem steps_pauseLoop (H : TapeBlind R) : ∀ (n : Nat), Steps R (pauseLoop env n) := by
  have HT : TapeBlind R := H
  intro n
  induction n with
  | zero =>
    unfold pauseLoop
    repeat' first
      | with_reducible exact steps_loadPause env HT
      | with_reducible exact steps_loadStop env HT
      | with_reducible exact steps_msleep HT _
      | with_reducible exact steps_pure HT _
      | with_reducible exact steps_outOfFuel
      | with_reducible apply steps_bind HT
      | with_reducible apply steps_ite
      | with_reducible intro _
      | split
      | dsimp only
  | succ n ih =>
    unfold pauseLoop
    repeat' first
      | with_reducible apply ih
      | with_reducible exact steps_loadPause env HT
      | with_reducible exact steps_loadStop env HT
      | with_reducible exact steps_msleep HT _
      | with_reducible exact steps_pure HT _
      | with_reducible exact steps_outOfFuel
      | with_reducible apply steps_bind HT
      | with_reducible apply steps_ite
      | with_reducible intro _
      | split
      | dsimp only

theorem steps_fastEqual (H : TapeBlind R) (srcPath dstPath : String) : Steps R (fastEqual env srcPath dstPath) := by
  have HT : TapeBlind R := H
  unfold fastEqual
  repeat' first
    | with_reducible exact steps_readFs HT _
    | with_reducible exact steps_fileHashSha256 env H _
    | with_reducible exact steps_pure HT _
    | with_reducible exact steps_outOfFuel
    | with_reducible apply steps_bind HT
    | with_reducible apply steps_ite
    | with_reducible intro _
    | split
    | dsimp only

theorem steps_identicalCheck (H : TapeBlind R) (srcPath dstPath : String) : Steps R (identicalCheck env srcPath dstPath) := by
  have HT : TapeBlind R := H
  unfold identicalCheck
  repeat' first
    | with_reducible exact steps_readFs HT _
    | with_reducible exact steps_fileHashSha256 env H _
    | with_reducible exact steps_pure HT _
    | with_reducible exact steps_outOfFuel
    | with_reducible apply steps_bind HT
    | with_reducible apply steps_ite
    | with_reducible intro _
    | split
    | dsimp only

theorem steps_copyPauseLoop (H : TapeBlind R) : ∀ (n : Nat), Steps R (copyPauseLoop env n) := by
  have HT : TapeBlind R := H
  intro n
  induction n with
  | zero =>
    unfold copyPauseLoop
    repeat' first
      | with_reducible exact steps_loadPause env HT
      | with_reducible exact steps_loadStop env HT
      | with_reducible exact steps_isInterruptionRequested env HT
      | with_reducible exact steps_msleep HT _
      | with_reducible exact steps_pure HT _
      | with_reducible exact steps_outOfFuel
      | with_reducible apply steps_bind HT
      | with_reducible apply steps_ite
      | with_reducible intro _
      | split
      | dsimp only
  | succ n ih =>
    unfold copyPauseLoop
    repeat' first
      | with_reducible apply ih
      | with_reducible exact steps_loadPause env HT
      | with_reducible exact steps_loadStop env HT
      | with_reducible exact steps_isInterruptionRequested env HT
      | with_reducible exact steps_msleep HT _
      | with_reducible exact steps_pure HT _
      | with_reducible exact steps_outOfFuel
      | with_reducible apply steps_bind HT
      | with_reducible apply steps_ite
      | with_reducible intro _
      | split
      | dsimp only

theorem steps_stopOrInterrupted (H : TapeBlind R) : Steps R (stopOrInterrupted env) := by
  have HT : TapeBlind R := H
  unfold stopOrInterrupted
  repeat' first
    | with_reducible exact steps_loadStop env HT
    | with_reducible exact steps_isInterruptionRequested env HT
    | with_reducible exact steps_pure HT _
    | with_reducible exact steps_outOfFuel
    | with_reducible apply steps_bind HT
    | with_reducible apply steps_ite
    | with_reducible intro _
    | split
    | dsimp only

theorem steps_verifyRetry (H : TapeBlind R) (a : List Nat) (dstPath : String) : ∀ (n : Nat) (delay : Int), Steps R (verifyRetry env a dstPath n delay) := by
  have HT : TapeBlind R := H
  intro n
  induction n with
  | zero =>
    intro delay
    unfold verifyRetry
    repeat' first
      | with_reducible exact steps_msleep HT _
      | with_reducible exact steps_isDestReady env HT
      | with_reducible exact steps_fileHashSha256 env H _
      | with_reducible exact steps_pure HT _
      | with_reducible exact steps_outOfFuel
      | with_reducible apply steps_bind HT
      | with_reducible apply steps_ite
      | with_reducible intro _
      | split
      | dsimp only
  | succ n ih =>
    intro delay
    unfold verifyRetry
    repeat' first
      | with_reducible apply ih
      | with_reducible exact steps_msleep HT _
      | with_reducible exact steps_isDestReady env HT
      | with_reducible exact steps_fileHashSha256 env H _
      | with_reducible exact steps_pure HT _
      | with_reducible exact steps_outOfFuel
      | with_reducible apply steps_bind HT
      | with_reducible apply steps_ite
      | with_reducible intro _
      | split
      | dsimp only

theorem steps_verifyFile (H : TapeBlind R) (rel0 : String) : Steps R (verifyFile env opt rel0) := by
  have HT : TapeBlind R := H
  unfold verifyFile
  repeat' first
    | with_reducible exact steps_isDestReady env HT
    | with_reducible exact steps_fileHashSha256 env H _
    | with_reducible exact steps_verifyRetry env H _ _ _ _
    | with_reducible exact steps_pure HT _
    | with_reducible exact steps_outOfFuel
    | with_reducible apply steps_bind HT
    | with_reducible apply steps_ite
    | with_reducible intro _
    | split
    | dsimp only

theorem steps_qRemove (H : TraceOnly R) (p : String) : Steps R (qRemove env p) := by
  have HT : TapeBlind R := H.toTapeBlind
  unfold qRemove
  repeat' first
    | with_reducible exact steps_ioAttempt env HT _
    | with_reducible exact steps_readFs HT _
    | with_reducible exact steps_modifyFs H _
    | with_reducible exact steps_pure HT _
    | with_reducible exact steps_outOfFuel
    | with_reducible apply steps_bind HT
    | with_reducible apply steps_ite
    | with_reducible intro _
    | split
    | dsimp only

theorem steps_qRename (H : TraceOnly R) (src dst : String) : Steps R (qRename env src dst) := by
  have HT : TapeBlind R := H.toTapeBlind
  unfold qRename
  repeat' first
    | with_reducible exact steps_ioAttempt env HT _
    | with_reducible exact steps_readFs HT _
    | with_reducible exact steps_modifyFs H _
    | with_reducible exact steps_pure HT _
    | with_reducible exact steps_outOfFuel
    | with_reducible apply steps_bind HT
    | with_reducible apply steps_ite
    | with_reducible intro _
    | split
    | dsimp only

theorem steps_qCopy (H : TraceOnly R) (src dst : String) : Steps R (qCopy env src dst) := by
  have HT : TapeBlind R := H.toTapeBlind
  unfold qCopy
  repeat' first
    | with_reducible exact steps_ioAttempt env HT _
    | with_reducible exact steps_readFs HT _
    | with_reducible exact steps_modifyFs H _
    | with_reducible exact steps_currentMs env HT
    | with_reducible exact steps_pure HT _
    | with_reducible exact steps_outOfFuel
    | with_reducible apply steps_bind HT
    | with_reducible apply steps_ite
    | with_reducible intro _
    | split
    | dsimp only

theorem steps_qMkpath (H : TraceOnly R) (p : String) : Steps R (qMkpath env p) := by
  have HT : TapeBlind R := H.toTapeBlind
  unfold qMkpath
  repeat' first
    | with_reducible exact steps_ioAttempt env HT _
    | with_reducible exact steps_readFs HT _
    | with_reducible exact steps_modifyFs H _
    | with_reducible exact steps_pure HT _
    | with_reducible exact steps_outOfFuel
    | with_reducible apply steps_bind HT
    | with_reducible apply steps_ite
    | with_reducible intro _
    | split
    | dsimp only

theorem steps_qOpenWrite (H : TraceOnly R) (p : String) : Steps R (qOpenWrite env p) := by
  have HT : TapeBlind R := H.toTapeBlind
  unfold qOpenWrite
  repeat' first
    | with_reducible exact steps_ioAttempt env HT _
    | with_reducible exact steps_readFs HT _
    | with_reducible exact steps_modifyFs H _
    | with_reducible exact steps_currentMs env HT
    | with_reducible exact steps_pure HT _
    | with_reducible exact steps_outOfFuel
    | with_reducible apply steps_bind HT
    | with_reducible apply steps_ite
    | with_reducible intro _
    | split
    | dsimp only

theorem steps_qWrite (H : TraceOnly R) (p : String) (data : List Nat) : Steps R (qWrite env p data) := by
  have HT : TapeBlind R := H.toTapeBlind
  unfold qWrite
  repeat' first
    | with_reducible exact steps_ioAttempt env HT _
    | with_reducible exact steps_readFs HT _
    | with_reducible exact steps_modifyFs H _
    | with_reducible exact steps_pure HT _
    | with_reducible exact steps_outOfFuel
    | with_reducible apply steps_bind HT
    | with_reducible apply steps_ite
    | with_reducible intro _
    | split
    | dsimp only

theorem steps_ensureDir (H : TraceOnly R) (p : String) : Steps R (ensureDir env p) := by
  have HT : TapeBlind R := H.toTapeBlind
  unfold ensureDir
  repeat' first
    | with_reducible exact steps_qMkpath env H _
    | with_reducible exact steps_pure HT _
    | with_reducible exact steps_outOfFuel
    | with_reducible apply steps_bind HT
    | with_reducible apply steps_ite
    | with_reducible intro _
    | split
    | dsimp only

theorem steps_renameOrCopy (H : TraceOnly R) (src dst : String) : Steps R (renameOrCopy env src dst) := by
  have HT : TapeBlind R := H.toTapeBlind
  unfold renameOrCopy
  repeat' first
    | with_reducible exact steps_qRename env H _ _
    | with_reducible exact steps_qCopy env H _ _
    | with_reducible exact steps_qRemove env H _
    | with_reducible exact steps_pure HT _
    | with_reducible exact steps_outOfFuel
    | with_reducible apply steps_bind HT
    | with_reducible apply steps_ite
    | with_reducible intro _
    | split
    | dsimp only

theorem steps_moveFileRobust (H : TraceOnly R) (src dst : String) : Steps R (moveFileRobust env src dst) := by
  have HT : TapeBlind R := H.toTapeBlind
  unfold moveFileRobust
  repeat' first
    | with_reducible exact steps_renameOrCopy env H _ _
    | with_reducible exact steps_qRemove env H _
    | with_reducible exact steps_readFs HT _
    | with_reducible exact steps_logMove H _ _ _
    | with_reducible exact steps_pure HT _
    | with_reducible exact steps_outOfFuel
    | with_reducible apply steps_bind HT
    | with_reducible apply steps_ite
    | with_reducible intro _
    | split
    | dsimp only

theorem steps_writeMetaJson (H : TraceOnly R) (payloadPath rel kind ts : String) : Steps R (writeMetaJson env opt payloadPath rel kind ts) := by
  have HT : TapeBlind R := H.toTapeBlind
  unfold writeMetaJson
  repeat' first
    | with_reducible exact steps_qOpenWrite env H _
    | with_reducible exact steps_qWrite env H _ _
    | with_reducible exact steps_pure HT _
    | with_reducible exact steps_outOfFuel
    | with_reducible apply steps_bind HT
    | with_reducible apply steps_ite
    | with_reducible intro _
    | split
    | dsimp only

theorem steps_sweepDirLoop (H : TraceOnly R) (cutoff : Int) (marker : String) : ∀ (l : List String), Steps R (sweepDirLoop env cutoff marker l) := by
  have HT : TapeBlind R := H.toTapeBlind
  intro l
  induction l with
  | nil =>
    unfold sweepDirLoop
    repeat' first
      | with_reducible exact steps_qRemove env H _
      | with_reducible exact steps_pure HT _
      | with_reducible exact steps_outOfFuel
      | with_reducible apply steps_bind HT
      | with_reducible apply steps_ite
      | with_reducible intro _
      | split
      | dsimp only
  | cons x t ih =>
    unfold sweepDirLoop
    repeat' first
      | with_reducible apply ih
      | with_reducible exact ih
      | with_reducible exact steps_qRemove env H _
      | with_reducible exact steps_pure HT _
      | with_reducible exact steps_outOfFuel
      | with_reducible apply steps_bind HT
      | with_reducible apply steps_ite
      | with_reducible intro _
      | split
      | dsimp only

theorem steps_sweepDir (H : TraceOnly R) (cutoff : Int) (root marker : String) : Steps R (sweepDir env opt cutoff root marker) := by
  have HT : TapeBlind R := H.toTapeBlind
  unfold sweepDir
  repeat' first
    | with_reducible exact steps_readFs HT _
    | with_reducible exact steps_sweepDirLoop env H _ _ _
    | with_reducible exact steps_pure HT _
    | with_reducible exact steps_outOfFuel
    | with_reducible apply steps_bind HT
    | with_reducible apply steps_ite
    | with_reducible intro _
    | split
    | dsimp only

theorem steps_copyChunks (H : TraceOnly R) (fuel : Nat) (part : String) : ∀ (n : Nat) (rest : List Nat) (bytesDone : Nat) (sent : Int), Steps R (copyChunks env opt fuel part n rest bytesDone sent) := by
  have HT : TapeBlind R := H.toTapeBlind
  intro n
  induction n with
  | zero =>
    intro rest bytesDone sent
    unfold copyChunks
    repeat' first
      | with_reducible exact steps_qRead env HT _
      | with_reducible exact steps_stopOrInterrupted env HT
      | with_reducible exact steps_qRemove env H _
      | with_reducible exact steps_copyPauseLoop env HT _
      | with_reducible exact steps_isDestReady env HT
      | with_reducible exact steps_timerElapsed env HT
      | with_reducible exact steps_msleep HT _
      | with_reducible exact steps_qWrite env H _ _
      | with_reducible exact steps_pure HT _
      | with_reducible exact steps_outOfFuel
      | with_reducible apply steps_bind HT
      | with_reducible apply steps_ite
      | with_reducible intro _
      | split
      | dsimp only
  | succ n ih =>
    intro rest bytesDone sent
    unfold copyChunks
    repeat' first
      | with_reducible apply ih
      | with_reducible exact steps_qRead env HT _
      | with_reducible exact steps_stopOrInterrupted env HT
      | with_reducible exact steps_qRemove env H _
      | with_reducible exact steps_copyPauseLoop env HT _
      | with_reducible exact steps_isDestReady env HT
      | with_reducible exact steps_timerElapsed env HT
      | with_reducible exact steps_msleep HT _
      | with_reducible exact steps_qWrite env H _ _
      | with_reducible exact steps_pure HT _
      | with_reducible exact steps_outOfFuel
      | with_reducible apply steps_bind HT
      | with_reducible apply steps_ite
      | with_reducible intro _
      | split
      | dsimp only

theorem steps_copyOneFile (H : TraceOnly R) (fuel : Nat) (rel0 : String) (bytesDone : Nat) : Steps R (copyOneFile env opt fuel rel0 bytesDone) := by
  have HT : TapeBlind R := H.toTapeBlind
  unfold copyOneFile
  repeat' first
    | with_reducible exact steps_countCopyCall H
    | with_reducible exact steps_isDestReady env HT
    | with_reducible exact steps_ensureDir env H _
    | with_reducible exact steps_qOpenRead env HT _
    | with_reducible exact steps_qOpenWrite env H _
    | with_reducible exact steps_copyChunks env opt H _ _ _ _ _ _
    | with_reducible exact steps_qRemove env H _
    | with_reducible exact steps_qRename env H _ _
    | with_reducible exact steps_ioAttempt env HT _
    | with_reducible exact steps_modifyFs H _
    | with_reducible exact steps_pure HT _
    | with_reducible exact steps_outOfFuel
    | with_reducible apply steps_bind HT
    | with_reducible apply steps_ite
    | with_reducible intro _
    | split
    | dsimp only

theorem steps_archiveVersion (H : MidRel env R) (rel dstPath : String) : Steps R (archiveVersion env opt rel dstPath) := by
  have HT : TapeBlind R := H.base.toTapeBlind
  unfold archiveVersion
  repeat' first
    | with_reducible exact steps_tsNow env HT
    | with_reducible exact steps_ensureDir env H.base _
    | with_reducible exact steps_isDestReady env HT
    | with_reducible exact steps_moveFileRobust env H.base _ _
    | with_reducible exact steps_writeMetaJson env opt H.base _ _ _ _
    | with_reducible exact H.versionCreated _ _ _
    | with_reducible exact steps_pure HT _
    | with_reducible exact steps_outOfFuel
    | with_reducible apply steps_bind HT
    | with_reducible apply steps_ite
    | with_reducible intro _
    | split
    | dsimp only

theorem steps_maybeStash (H : MidRel env R) (rel0 : String) : Steps R (maybeStashExistingVersion env opt rel0) := by
  have HT : TapeBlind R := H.base.toTapeBlind
  unfold maybeStashExistingVersion
  repeat' first
    | with_reducible exact steps_isDestReady env HT
    | with_reducible exact steps_readFs HT _
    | with_reducible exact steps_fastEqual env HT _ _
    | with_reducible exact steps_archiveVersion env opt H _ _
    | with_reducible exact steps_pure HT _
    | with_reducible exact steps_outOfFuel
    | with_reducible apply steps_bind HT
    | with_reducible apply steps_ite
    | with_reducible intro _
    | split
    | dsimp only

theorem steps_readyOrWait (H : MidRel env R) (fuel : Nat) (hint : String) : Steps R (readyOrWait env fuel hint) := by
  have HT : TapeBlind R := H.base.toTapeBlind
  unfold readyOrWait
  repeat' first
    | with_reducible exact steps_isDestReady env HT
    | with_reducible exact H.wait _ _
    | with_reducible exact steps_loadStop env HT
    | with_reducible exact steps_pure HT _
    | with_reducible exact steps_outOfFuel
    | with_reducible apply steps_bind HT
    | with_reducible apply steps_ite
    | with_reducible intro _
    | split
    | dsimp only

theorem steps_handleDeletionsLoop (H : MidRel env R) (fuel : Nat) (srcSet : List String) (rootNs : String) : ∀ (l : List String), Steps R (handleDeletionsLoop env opt fuel srcSet rootNs l) := by
  have HT : TapeBlind R := H.base.toTapeBlind
  intro l
  induction l with
  | nil =>
    unfold handleDeletionsLoop
    repeat' first
      | with_reducible exact steps_loadStop env HT
      | with_reducible exact steps_readyOrWait env H _ _
      | with_reducible exact steps_tsNow env HT
      | with_reducible exact steps_ensureDir env H.base _
      | with_reducible exact steps_moveFileRobust env H.base _ _
      | with_reducible exact steps_writeMetaJson env opt H.base _ _ _ _
      | with_reducible exact H.deletedStashed _ _ _
      | with_reducible exact steps_pure HT _
      | with_reducible exact steps_outOfFuel
      | with_reducible apply steps_bind HT
      | with_reducible apply steps_ite
      | with_reducible intro _
      | split
      | dsimp only
  | cons x t ih =>
    unfold handleDeletionsLoop
    repeat' first
      | with_reducible apply ih
      | with_reducible exact ih
      | with_reducible exact steps_loadStop env HT
      | with_reducible exact steps_readyOrWait env H _ _
      | with_reducible exact steps_tsNow env HT
      | with_reducible exact steps_ensureDir env H.base _
      | with_reducible exact steps_moveFileRobust env H.base _ _
      | with_reducible exact steps_writeMetaJson env opt H.base _ _ _ _
      | with_reducible exact H.deletedStashed _ _ _
      | with_reducible exact steps_pure HT _
      | with_reducible exact steps_outOfFuel
      | with_reducible apply steps_bind HT
      | with_reducible apply steps_ite
      | with_reducible intro _
      | split
      | dsimp only

theorem steps_handleDeletions (H : MidRel env R) (fuel : Nat) (srcSet : List String) : Steps R (handleDeletions env opt fuel srcSet) := by
  have HT : TapeBlind R := H.base.toTapeBlind
  unfold handleDeletions
  repeat' first
    | with_reducible exact steps_readyOrWait env H _ _
    | with_reducible exact steps_readFs HT _
    | with_reducible exact steps_handleDeletionsLoop env opt H _ _ _ _
    | with_reducible exact steps_pure HT _
    | with_reducible exact steps_outOfFuel
    | with_reducible apply steps_bind HT
    | with_reducible apply steps_ite
    | with_reducible intro _
    | split
    | dsimp only

theorem steps_sweepRetention (H : MidRel env R) (fuel : Nat) : Steps R (sweepRetention env opt fuel) := by
  have HT : TapeBlind R := H.base.toTapeBlind
  unfold sweepRetention
  repeat' first
    | with_reducible exact steps_readyOrWait env H _ _
    | with_reducible exact steps_currentMs env HT
    | with_reducible exact steps_sweepDir env opt H.base _ _ _
    | with_reducible exact steps_pure HT _
    | with_reducible exact steps_outOfFuel
    | with_reducible apply steps_bind HT
    | with_reducible apply steps_ite
    | with_reducible intro _
    | split
    | dsimp only

theorem steps_progressTick (H : MidRel env R) (bytesDone : Nat) : Steps R (progressTick env bytesDone) := by
  have HT : TapeBlind R := H.base.toTapeBlind
  unfold progressTick
  repeat' first
    | with_reducible exact steps_timerElapsed env HT
    | with_reducible exact steps_getTotalBytes HT
    | with_reducible exact H.progressUpdated _ _
    | with_reducible exact steps_pure HT _
    | with_reducible exact steps_outOfFuel
    | with_reducible apply steps_bind HT
    | with_reducible apply steps_ite
    | with_reducible intro _
    | split
    | dsimp only

theorem steps_copyRetryLoop (H : TopRel env R) (fuel : Nat) (rel : String) : ∀ (n : Nat) (bytesDone : Nat) (allOk : Bool), Steps R (copyRetryLoop env opt fuel rel n bytesDone allOk) := by
  have HT : TapeBlind R := H.mid.base.toTapeBlind
  intro n
  induction n with
  | zero =>
    intro bytesDone allOk
    unfold copyRetryLoop
    repeat' first
      | with_reducible exact steps_loadStop env HT
      | with_reducible exact steps_pauseLoop env HT _
      | with_reducible exact steps_isDestReady env HT
      | with_reducible exact H.mid.wait _ _
      | with_reducible exact steps_copyOneFile env opt H.mid.base _ _ _
      | with_reducible exact steps_verifyFile env opt HT _
      | with_reducible exact H.fileFinished _ _ _
      | with_reducible exact steps_pure HT _
      | with_reducible exact steps_outOfFuel
      | with_reducible apply steps_bind HT
      | with_reducible apply steps_ite
      | with_reducible intro _
      | split
      | dsimp only
  | succ n ih =>
    intro bytesDone allOk
    unfold copyRetryLoop
    repeat' first
      | with_reducible apply ih
      | with_reducible exact steps_loadStop env HT
      | with_reducible exact steps_pauseLoop env HT _
      | with_reducible exact steps_isDestReady env HT
      | with_reducible exact H.mid.wait _ _
      | with_reducible exact steps_copyOneFile env opt H.mid.base _ _ _
      | with_reducible exact steps_verifyFile env opt HT _
      | with_reducible exact H.fileFinished _ _ _
      | with_reducible exact steps_pure HT _
      | with_reducible exact steps_outOfFuel
      | with_reducible apply steps_bind HT
      | with_reducible apply steps_ite
      | with_reducible intro _
      | split
      | dsimp only

theorem steps_processFile (H : TopRel env R) (fuel : Nat) (rel : String) (bytesDone : Nat) (allOk : Bool) : Steps R (processFile env opt fuel rel bytesDone allOk) := by
  have HT : TapeBlind R := H.mid.base.toTapeBlind
  unfold processFile
  repeat' first
    | with_reducible exact steps_loadStop env HT
    | with_reducible exact steps_pauseLoop env HT _
    | with_reducible exact steps_readFs HT _
    | with_reducible exact H.fileStarted _ _
    | with_reducible exact H.fileFinished _ _ _
    | with_reducible exact H.mid.wait _ _
    | with_reducible exact steps_maybeStash env opt H.mid _
    | with_reducible exact steps_isDestReady env HT
    | with_reducible exact steps_identicalCheck env HT _ _
    | with_reducible exact steps_progressTick env H.mid _
    | with_reducible exact steps_copyRetryLoop env opt H _ _ _ _ _
    | with_reducible exact steps_pure HT _
    | with_reducible exact steps_outOfFuel
    | with_reducible apply steps_bind HT
    | with_reducible apply steps_ite
    | with_reducible intro _
    | split
    | dsimp only

theorem steps_fileLoop (H : TopRel env R) (fuel : Nat) : ∀ (l : List String) (bytesDone : Nat) (allOk : Bool), Steps R (fileLoop env opt fuel l bytesDone allOk) := by
  have HT : TapeBlind R := H.mid.base.toTapeBlind
  intro l
  induction l with
  | nil =>
    intro bytesDone allOk
    unfold fileLoop
    repeat' first
      | with_reducible exact steps_processFile env opt H _ _ _ _
      | with_reducible exact steps_pure HT _
      | with_reducible exact steps_outOfFuel
      | with_reducible apply steps_bind HT
      | with_reducible apply steps_ite
      | with_reducible intro _
      | split
      | dsimp only
  | cons x t ih =>
    intro bytesDone allOk
    unfold fileLoop
    repeat' first
      | with_reducible apply ih
      | with_reducible exact ih
      | with_reducible exact steps_processFile env opt H _ _ _ _
      | with_reducible exact steps_pure HT _
      | with_reducible exact steps_outOfFuel
      | with_reducible apply steps_bind HT
      | with_reducible apply steps_ite
      | with_reducible intro _
      | split
      | dsimp only

theorem steps_run (H : TopRel env R) (fuel : Nat) : Steps R (run env opt fuel) := by
  have HT : TapeBlind R := H.mid.base.toTapeBlind
  unfold run
  repeat' first
    | with_reducible exact steps_storageInfo env HT
    | with_reducible exact steps_setExpectedDevice HT _
    | with_reducible exact H.mid.wait _ _
    | with_reducible exact steps_loadStop env HT
    | with_reducible exact H.finished _ _
    | with_reducible exact H.mid.progressUpdated _ _
    | with_reducible exact steps_readFs HT _
    | with_reducible exact steps_setTotalBytes HT _
    | with_reducible exact steps_fileLoop env opt H _ _ _ _
    | with_reducible exact steps_handleDeletions env opt H.mid _ _
    | with_reducible exact steps_sweepRetention env opt H.mid _
    | with_reducible exact steps_pure HT _
    | with_reducible exact steps_outOfFuel
    | with_reducible apply steps_bind HT
    | with_reducible apply steps_ite
    | with_reducible intro _
    | split
    | dsimp only

end

/-! ### The device signals -/

theorem devTrace_append (evs1 evs2 : List Event) : ∀ (f f1 : Bool),
    devTrace f evs1 = some f1 → devTrace f (evs1 ++ evs2) = devTrace f1 evs2 := by
  induction evs1 with
  | nil => intro f f1 h; cases h; rfl
  | cons e es ih =>
    intro f f1 h
    simp only [List.cons_append, devTrace] at h ⊢
    cases hs : devStep f e with
    | none => rw [hs] at h; cases h
    | some g =>
      rw [hs] at h
      exact ih g f1 h

theorem deviceStep_traceOnly : TraceOnly DeviceStep := by
  refine ⟨fun w => ⟨[], by simp, rfl⟩, ?_, ?_⟩
  · intro w w1 w2 h1 h2
    obtain ⟨e1, he1, ht1⟩ := h1
    obtain ⟨e2, he2, ht2⟩ := h2
    refine ⟨e1 ++ e2, by rw [he2, he1, List.append_assoc], ?_⟩
    rw [devTrace_append e1 e2 _ _ ht1]; exact ht2
  · intro w w1 he hs
    exact ⟨[], by simp [he], by rw [hs]; rfl⟩

section
variable (env : Env) (opt : Options)

theorem loadStop_apply (w : World) :
    loadStop env w = some ((match env.stopAt with
                            | none => false
                            | some k => decide (k ≤ w.stopN)),
                           { w with stopN := w.stopN + 1 }) := rfl

/-- Events and `m_offlineSignaled` are as before. -/
theorem sameTrace_tapeBlind :
    TapeBlind (fun w w1 => w1.events = w.events ∧ w1.offlineSignaled = w.offlineSignaled) :=
  ⟨fun _ => ⟨rfl, rfl⟩, fun _ _ _ h1 h2 => ⟨h2.1.trans h1.1, h2.2.trans h1.2⟩,
    fun _ _ _ he hs _ _ => ⟨he, hs⟩⟩

/-- A step that appends one signal which the state of `m_offlineSignaled` leaves alone. -/
theorem deviceStep_emit (e : Event) (h : ∀ f, devStep f e = some f) : Steps DeviceStep (emit e) := by
  intro w a w1 hw
  cases hw
  exact ⟨[e], rfl, by simp [devTrace, h]⟩

/-- The part of the wait after the offline signal: the loop, then the online signal. -/
theorem deviceStep_wait_tail (fuel : Nat) (wA : World) (a : PUnit) (w1 : World)
    (h : (waitLoop env fuel >>= fun _ => getOfflineSignaled >>= fun sig1 =>
            if sig1 = true then
              (isDestReadySameDevice env >>= fun r =>
                if r = true then (setOfflineSignaled false >>= fun _ => emit Event.deviceOnline)
                else pure PUnit.unit)
            else pure PUnit.unit) wA = some (a, w1)) :
    (w1.events = wA.events ∧ w1.offlineSignaled = wA.offlineSignaled) ∨
      (wA.offlineSignaled = true ∧ w1.events = wA.events ++ [Event.deviceOnline] ∧
        w1.offlineSignaled = false) := by
  obtain ⟨u, wB, hB, h⟩ := bind_inv h
  obtain ⟨hev, hflag⟩ := steps_waitLoop env (sameTrace_tapeBlind) fuel _ _ _ hB
  rw [bind_apply, getOfflineSignaled_apply] at h
  dsimp only at h
  split at h
  · rename_i hsig
    rw [bind_apply, isDestReady_apply] at h
    dsimp only at h
    split at h
    · rw [bind_apply, setOfflineSignaled_apply] at h
      dsimp only at h
      rw [emit_apply] at h
      cases h
      exact Or.inr ⟨by rw [← hflag]; exact hsig, by simp [hev], rfl⟩
    · cases h
      exact Or.inl ⟨hev, hflag⟩
  · cases h
    exact Or.inl ⟨hev, hflag⟩

theorem deviceStep_wait (fuel : Nat) (hint : String) :
    Steps DeviceStep (waitUntilDestReadyOrStopped env fuel hint) := by
  intro w a w1 h
  unfold waitUntilDestReadyOrStopped at h
  rw [bind_apply, loadStop_apply] at h
  dsimp only at h
  split at h
  · cases h
    exact ⟨[], by simp, rfl⟩
  · rw [bind_apply, isDestReady_apply] at h
    dsimp only at h
    rw [bind_apply, getOfflineSignaled_apply] at h
    dsimp only at h
    rw [ite_apply_M] at h
    split at h
    · rename_i hc
      have hsig : w.offlineSignaled = false := by
        cases hw : w.offlineSignaled
        · rfl
        · rw [hw] at hc; simp at hc
      rw [bind_apply, setOfflineSignaled_apply] at h
      dsimp only at h
      rw [bind_apply, emit_apply] at h
      dsimp only at h
      rcases deviceStep_wait_tail env fuel _ _ _ h with ⟨he, hf⟩ | ⟨_, he, hf⟩
      · exact ⟨[Event.deviceOffline hint], he, by rw [hf, hsig]; rfl⟩
      · refine ⟨[Event.deviceOffline hint, Event.deviceOnline], by rw [he]; simp, ?_⟩
        rw [hf, hsig]; rfl
    · rw [bind_apply, pure_apply] at h
      dsimp only at h
      rcases deviceStep_wait_tail env fuel _ _ _ h with ⟨he, hf⟩ | ⟨hsig, he, hf⟩
      · exact ⟨[], by simp [he], by rw [hf]; rfl⟩
      · refine ⟨[Event.deviceOnline], he, ?_⟩
        have hsig' : w.offlineSignaled = true := hsig
        rw [hf, hsig']; rfl

end

theorem alternatesFrom_snoc (x : Bool) : ∀ (K : List Bool) (b : Bool),
    alternatesFrom b K = true →
    alternatesFrom b (K ++ [x]) = (x == (match K.getLast? with
                                          | none => b
                                          | some l => !l)) := by
  intro K
  induction K with
  | nil => intro b _; simp [alternatesFrom]
  | cons y ys ih =>
    intro b h
    simp only [alternatesFrom, Bool.and_eq_true, beq_iff_eq] at h
    obtain ⟨hy, hys⟩ := h
    subst hy
    have hstep : alternatesFrom y (y :: ys ++ [x]) = alternatesFrom (!y) (ys ++ [x]) := by
      show (y == y && alternatesFrom (!y) (ys ++ [x])) = _
      simp
    rw [hstep, ih (!y) hys]
    cases ys with
    | nil => rfl
    | cons z zs =>
      rw [List.getLast?_cons_cons]
      have hl : (z :: zs).getLast? = some ((z :: zs).getLast (List.cons_ne_nil _ _)) :=
        List.getLast?_eq_getLast _ _
      rw [hl]

theorem deviceKinds_append (a b : List Event) :
    deviceKinds (a ++ b) = deviceKinds a ++ deviceKinds b := by
  simp [deviceKinds, List.filterMap_append]

/-- One signal that may be emitted keeps the alternation and the meaning of the flag. -/
theorem devStep_inv (pre : List Event) (e : Event) (f g : Bool)
    (halt : alternatesFrom true (deviceKinds pre) = true) (hf : f = lastIsOffline pre)
    (hs : devStep f e = some g) :
    alternatesFrom true (deviceKinds (pre ++ [e])) = true ∧ g = lastIsOffline (pre ++ [e]) := by
  have hnext : ∀ x : Bool, alternatesFrom true (deviceKinds pre ++ [x]) = (x == !f) := by
    intro x
    rw [alternatesFrom_snoc x _ _ halt, hf]
    unfold lastIsOffline
    cases (deviceKinds pre).getLast? <;> rfl
  have hsame : ∀ e : Event, deviceKinds [e] = [] →
      alternatesFrom true (deviceKinds (pre ++ [e])) = true ∧ f = lastIsOffline (pre ++ [e]) := by
    intro e he
    unfold lastIsOffline at hf ⊢
    rw [deviceKinds_append, he, List.append_nil]
    exact ⟨halt, hf⟩
  cases e with
  | deviceOffline hint =>
    cases f with
    | true => simp [devStep] at hs
    | false =>
      simp only [devStep, Bool.false_eq_true, if_false, Option.some.injEq] at hs
      subst hs
      have hk : deviceKinds [Event.deviceOffline hint] = [true] := rfl
      unfold lastIsOffline
      rw [deviceKinds_append, hk, hnext true]
      simp
  | deviceOnline =>
    cases f with
    | false => simp [devStep] at hs
    | true =>
      simp only [devStep, if_true, Option.some.injEq] at hs
      subst hs
      have hk : deviceKinds [Event.deviceOnline] = [false] := rfl
      unfold lastIsOffline
      rw [deviceKinds_append, hk, hnext false]
      simp
  | progressUpdated a b => cases hs; exact hsame _ rfl
  | finished a b => cases hs; exact hsame _ rfl
  | fileStarted a b => cases hs; exact hsame _ rfl
  | fileFinished a b c => cases hs; exact hsame _ rfl
  | versionCreated a b c => cases hs; exact hsame _ rfl
  | deletedStashed a b c => cases hs; exact hsame _ rfl

theorem devTrace_inv : ∀ (evs pre : List Event) (f f1 : Bool),
    alternatesFrom true (deviceKinds pre) = true → f = lastIsOffline pre →
    devTrace f evs = some f1 →
    alternatesFrom true (deviceKinds (pre ++ evs)) = true ∧ f1 = lastIsOffline (pre ++ evs) := by
  intro evs
  induction evs with
  | nil =>
    intro pre f f1 halt hf h
    cases h
    rw [List.append_nil]
    exact ⟨halt, hf⟩
  | cons e es ih =>
    intro pre f f1 halt hf h
    simp only [devTrace] at h
    cases hs : devStep f e with
    | none => rw [hs] at h; cases h
    | some g =>
      rw [hs] at h
      obtain ⟨h1, h2⟩ := devStep_inv pre e f g halt hf hs
      have := ih (pre ++ [e]) g f1 h1 h2 h
      rwa [List.append_assoc] at this

theorem deviceInv_of_step {w w1 : World} (hs : DeviceStep w w1) (hi : DeviceInv w) : DeviceInv w1 := by
  obtain ⟨evs, hev, ht⟩ := hs
  obtain ⟨h1, h2⟩ := devTrace_inv evs w.events _ _ hi.1 hi.2 ht
  unfold DeviceInv
  rw [hev]
  exact ⟨h1, h2⟩

section
variable (env : Env) (opt : Options)

theorem deviceStep_topRel : TopRel env DeviceStep where
  mid :=
    { base := deviceStep_traceOnly
      wait := deviceStep_wait env
      versionCreated := fun _ _ _ => deviceStep_emit _ (fun _ => rfl)
      deletedStashed := fun _ _ _ => deviceStep_emit _ (fun _ => rfl)
      progressUpdated := fun _ _ => deviceStep_emit _ (fun _ => rfl) }
  fileStarted := fun _ _ => deviceStep_emit _ (fun _ => rfl)
  fileFinished := fun _ _ _ => deviceStep_emit _ (fun _ => rfl)
  finished := fun _ _ => deviceStep_emit _ (fun _ => rfl)

/-- C11: on a worker whose device signals so far strictly alternate, begin with `deviceOffline`
and agree with `m_offlineSignaled` (as on a fresh worker, which has emitted none and holds
false), every call of `waitUntilDestReadyOrStopped` that returns, whatever the volume reports and
whatever the hint, and every `run` that returns, emits `deviceOffline` only while the member is
false and `deviceOnline` only while it is true, and leaves a trace whose device signals again
strictly alternate, begin with `deviceOffline`, and whose last device signal is `deviceOffline`
exactly when the member is true. -/
theorem device_events_alternate (fuel : Nat) (hint : String) (w w1 w2 : World)
    (hinv : DeviceInv w) :
    (waitUntilDestReadyOrStopped env fuel hint w = some ((), w1) →
        DeviceStep w w1 ∧ DeviceInv w1) ∧
      (run env opt fuel w = some ((), w2) → DeviceStep w w2 ∧ DeviceInv w2) := by
  constructor
  · intro h
    have hs := deviceStep_wait env fuel hint w () w1 h
    exact ⟨hs, deviceInv_of_step hs hinv⟩
  · intro h
    have hs := steps_run env opt (deviceStep_topRel env) fuel w () w2 h
    exact ⟨hs, deviceInv_of_step hs hinv⟩

end

/-- C11, witness: the run of the scenario in which the volume goes away in the middle of a copy;
its device signals are `deviceOffline`, `deviceOnline`. -/
theorem device_events_alternate_witness :
    DeviceInv (Demo.world Demo.filesFour) ∧
      (Demo.eventsOf (run Demo.envFlapMidCopy Demo.opt 5 (Demo.world Demo.filesFour))).map
        deviceKinds = some [true, false] ∧
      ∃ w2, run Demo.envFlapMidCopy Demo.opt 5 (Demo.world Demo.filesFour) = some ((), w2) ∧
        DeviceStep (Demo.world Demo.filesFour) w2 ∧ DeviceInv w2 := by
  have hinv : DeviceInv (Demo.world Demo.filesFour) := ⟨rfl, rfl⟩
  have hs : (run Demo.envFlapMidCopy Demo.opt 5 (Demo.world Demo.filesFour)).isSome = true := by
    decide!
  obtain ⟨⟨u, w2⟩, h⟩ := Option.isSome_iff_exists.mp hs
  exact ⟨hinv, by decide!, w2, h,
    (device_events_alternate Demo.envFlapMidCopy Demo.opt 5 "" (Demo.world Demo.filesFour) w2 w2
      hinv).2 h⟩

/-! ### The flag `allOk` and the failed files -/

section
variable (env : Env) (opt : Options) {R : World → World → Prop}
set_option linter.unusedTactic false
set_option linter.unreachableTactic false
set_option linter.unusedVariables false

/-- The wait is a step of every relation that its two signals and the assignments of
`m_offlineSignaled` are steps of. -/
theorem steps_wait_of (H : TapeBlind R) (hset : ∀ b, Steps R (setOfflineSignaled b))
    (hoff : ∀ hint, Steps R (emit (Event.deviceOffline hint)))
    (hon : Steps R (emit Event.deviceOnline)) (fuel : Nat) (hint : String) :
    Steps R (waitUntilDestReadyOrStopped env fuel hint) := by
  unfold waitUntilDestReadyOrStopped
  repeat' first
    | with_reducible exact steps_loadStop env H
    | with_reducible exact steps_isDestReady env H
    | with_reducible exact steps_getOfflineSignaled H
    | with_reducible exact steps_waitLoop env H _
    | with_reducible exact hset _
    | with_reducible exact hoff _
    | with_reducible exact hon
    | with_reducible exact steps_pure H _
    | with_reducible apply steps_bind H
    | with_reducible apply steps_ite
    | with_reducible intro _
    | split
    | dsimp only

end

theorem noFail_traceOnly : TraceOnly NoFail := by
  refine ⟨fun w => ⟨[], by simp, rfl, rfl⟩, ?_, ?_⟩
  · intro w w1 w2 h1 h2
    obtain ⟨e1, he1, hf1, hn1⟩ := h1
    obtain ⟨e2, he2, hf2, hn2⟩ := h2
    refine ⟨e1 ++ e2, by rw [he2, he1, List.append_assoc], ?_, ?_⟩
    · unfold hasFailure at hf1 hf2 ⊢
      rw [List.any_append, hf1, hf2]; rfl
    · rw [List.any_append, hn1, hn2]; rfl
  · intro w w1 he _
    exact ⟨[], by simp [he], rfl, rfl⟩

theorem noFail_emit (e : Event) (h : isFailure e = false) (h2 : isFinished e = false) :
    Steps NoFail (emit e) := by
  intro w a w1 hw
  cases hw
  exact ⟨[e], rfl, by simp [hasFailure, h], by simp [h2]⟩

theorem noFail_setOfflineSignaled (b : Bool) : Steps NoFail (setOfflineSignaled b) := by
  intro w a w1 hw
  cases hw
  exact ⟨[], by simp, rfl, rfl⟩

section
variable (env : Env) (opt : Options)

theorem noFail_midRel : MidRel env NoFail where
  base := noFail_traceOnly
  wait := steps_wait_of env noFail_traceOnly.toTapeBlind noFail_setOfflineSignaled
    (fun _ => noFail_emit _ rfl rfl) (noFail_emit _ rfl rfl)
  versionCreated := fun _ _ _ => noFail_emit _ rfl rfl
  deletedStashed := fun _ _ _ => noFail_emit _ rfl rfl
  progressUpdated := fun _ _ => noFail_emit _ rfl rfl

end

/-! The flag through the per-file loop. -/

theorem okSteps_of_noFail {α : Type} (b : Bool) (m : M α) (h : Steps NoFail m) :
    OkSteps b (fun _ => b) m := by
  intro w a w1 hw
  obtain ⟨evs, he, hf, hn⟩ := h w a w1 hw
  exact ⟨evs, he, by simp [hf], hn⟩

theorem okSteps_bind {α β : Type} (b : Bool) (pm : α → Bool) (post : β → Bool) (m : M α)
    (f : α → M β) (hm : OkSteps b pm m) (hf : ∀ x, OkSteps (pm x) post (f x)) :
    OkSteps b post (m >>= f) := by
  intro w y w2 h
  obtain ⟨x, w1, h1, h2⟩ := bind_inv h
  obtain ⟨e1, he1, hk1, hn1⟩ := hm w x w1 h1
  obtain ⟨e2, he2, hk2, hn2⟩ := hf x w1 y w2 h2
  refine ⟨e1 ++ e2, by rw [he2, he1, List.append_assoc], ?_, ?_⟩
  · rw [hk2, hk1]
    unfold hasFailure
    rw [List.any_append]
    cases b <;> cases List.any e1 isFailure <;> cases List.any e2 isFailure <;> rfl
  · rw [List.any_append, hn1, hn2]; rfl

theorem okSteps_ite {α : Type} (b : Bool) (post : α → Bool) (c : Prop) [Decidable c] (x y : M α)
    (hx : OkSteps b post x) (hy : OkSteps b post y) : OkSteps b post (if c then x else y) := by
  split
  · exact hx
  · exact hy

theorem okSteps_pure {α : Type} (b : Bool) (post : α → Bool) (a : α) (h : post a = b) :
    OkSteps b post (pure a : M α) := by
  intro w x w1 hw
  simp only [pure_apply, Option.some.injEq, Prod.mk.injEq] at hw
  obtain ⟨hx, hw1⟩ := hw
  subst hx hw1
  exact ⟨[], by simp, by simp [hasFailure, h], rfl⟩

theorem okSteps_outOfFuel {α : Type} (b : Bool) (post : α → Bool) :
    OkSteps b post (outOfFuel : M α) := by
  intro w a w1 h; cases h

/-- A failed `fileFinished` clears the flag. -/
theorem okSteps_fail (b : Bool) (rel err : String) :
    OkSteps b (fun _ => false) (emit (Event.fileFinished rel false err)) := by
  intro w a w1 hw
  cases hw
  exact ⟨[Event.fileFinished rel false err], rfl, by simp [hasFailure, isFailure], rfl⟩

section
variable (env : Env) (opt : Options)
set_option linter.unusedTactic false
set_option linter.unreachableTactic false
set_option linter.unusedVariables false

theorem okSteps_copyRetryLoop (fuel : Nat) (rel : String) :
    ∀ (n bytesDone : Nat) (allOk : Bool),
      OkSteps allOk (fun r => r.2) (copyRetryLoop env opt fuel rel n bytesDone allOk) := by
  have HT : TapeBlind NoFail := noFail_traceOnly.toTapeBlind
  have HM : MidRel env NoFail := noFail_midRel env
  intro n
  induction n with
  | zero =>
    intro bytesDone allOk
    unfold copyRetryLoop
    exact okSteps_outOfFuel _ _
  | succ n ih =>
    intro bytesDone allOk
    unfold copyRetryLoop
    repeat' first
      | with_reducible apply ih
      | with_reducible exact okSteps_of_noFail _ _ (steps_loadStop env HT)
      | with_reducible exact okSteps_of_noFail _ _ (steps_pauseLoop env HT _)
      | with_reducible exact okSteps_of_noFail _ _ (steps_isDestReady env HT)
      | with_reducible exact okSteps_of_noFail _ _ (HM.wait _ _)
      | with_reducible exact okSteps_of_noFail _ _ (steps_copyOneFile env opt HM.base _ _ _)
      | with_reducible exact okSteps_of_noFail _ _ (steps_verifyFile env opt HT _)
      | with_reducible exact okSteps_fail _ _ _
      | with_reducible apply okSteps_bind
      | with_reducible apply okSteps_ite
      | with_reducible intro _
      | exact okSteps_of_noFail _ _ (noFail_emit _ rfl rfl)
      | exact okSteps_pure _ _ _ rfl
      | split
      | dsimp only

theorem okSteps_processFile (fuel : Nat) (rel : String) (bytesDone : Nat) (allOk : Bool) :
    OkSteps allOk (fun r => r.2.2) (processFile env opt fuel rel bytesDone allOk) := by
  have HT : TapeBlind NoFail := noFail_traceOnly.toTapeBlind
  have HM : MidRel env NoFail := noFail_midRel env
  unfold processFile
  repeat' first
    | with_reducible exact okSteps_copyRetryLoop env opt _ _ _ _ _
    | with_reducible exact okSteps_of_noFail _ _ (steps_loadStop env HT)
    | with_reducible exact okSteps_of_noFail _ _ (steps_pauseLoop env HT _)
    | with_reducible exact okSteps_of_noFail _ _ (steps_readFs HT _)
    | with_reducible exact okSteps_of_noFail _ _ (steps_isDestReady env HT)
    | with_reducible exact okSteps_of_noFail _ _ (HM.wait _ _)
    | with_reducible exact okSteps_of_noFail _ _ (steps_maybeStash env opt HM _)
    | with_reducible exact okSteps_of_noFail _ _ (steps_identicalCheck env HT _ _)
    | with_reducible exact okSteps_of_noFail _ _ (steps_progressTick env HM _)
    | with_reducible exact okSteps_fail _ _ _
    | with_reducible apply okSteps_bind
    | with_reducible apply okSteps_ite
    | with_reducible intro _
    | exact okSteps_of_noFail _ _ (noFail_emit _ rfl rfl)
    | exact okSteps_of_noFail _ _ (steps_pure HT _)
    | exact okSteps_pure _ _ _ rfl
    | split
    | dsimp only

theorem okSteps_fileLoop (fuel : Nat) :
    ∀ (l : List String) (bytesDone : Nat) (allOk : Bool),
      OkSteps allOk (fun r => r.2) (fileLoop env opt fuel l bytesDone allOk) := by
  intro l
  induction l with
  | nil =>
    intro bytesDone allOk
    unfold fileLoop
    exact okSteps_pure _ _ _ rfl
  | cons x t ih =>
    intro bytesDone allOk
    unfold fileLoop
    repeat' first
      | with_reducible apply ih
      | with_reducible exact okSteps_processFile env opt _ _ _ _
      | with_reducible apply okSteps_bind
      | with_reducible intro _
      | exact okSteps_pure _ _ _ rfl
      | split
      | dsimp only

end

theorem hasFailure_false_iff (evs : List Event) :
    hasFailure evs = false ↔ ∀ rel err, Event.fileFinished rel false err ∉ evs := by
  unfold hasFailure
  rw [List.any_eq_false]
  constructor
  · intro h rel err hmem
    exact h _ hmem rfl
  · intro h e he hf
    cases e with
    | fileFinished rel ok err =>
      cases ok with
      | false => exact h rel err he
      | true => cases hf
    | progressUpdated a b => cases hf
    | finished a b => cases hf
    | fileStarted a b => cases hf
    | versionCreated a b c => cases hf
    | deletedStashed a b c => cases hf
    | deviceOffline a => cases hf
    | deviceOnline => cases hf

section
variable (env : Env) (opt : Options)
set_option linter.unusedTactic false
set_option linter.unreachableTactic false
set_option linter.unusedVariables false

/-- What `run` emits when nobody cancels: signals without a `finished` among them, then one
`finished` whose flag is true exactly if none of them is a failed `fileFinished`. -/
theorem run_trace (hs : env.stopAt = none) (fuel : Nat) (w w1 : World)
    (h : run env opt fuel w = some ((), w1)) :
    ∃ evs ok, w1.events = w.events ++ evs ++ [Event.finished ok (if ok = true then "完成" else "部分失败")] ∧
      evs.any isFinished = false ∧ ok = !hasFailure evs := by
  have HT : TapeBlind NoFail := noFail_traceOnly.toTapeBlind
  have HM : MidRel env NoFail := noFail_midRel env
  unfold run at h
  rw [bind_apply, storageInfo_apply] at h
  dsimp only at h
  rw [bind_apply, setExpectedDevice_apply] at h
  dsimp only at h
  obtain ⟨u, wa, hwait, h⟩ := bind_inv h
  obtain ⟨e1, he1, hf1, hn1⟩ := HM.wait _ _ _ _ _ hwait
  dsimp only at he1
  rw [bind_apply, loadStop_none env hs] at h
  dsimp only at h
  simp only [Bool.false_eq_true, if_false] at h
  rw [bind_apply, readFs_apply] at h
  dsimp only at h
  rw [bind_apply, readFs_apply] at h
  dsimp only at h
  rw [bind_apply, setTotalBytes_apply] at h
  dsimp only at h
  rw [bind_apply, emit_apply] at h
  dsimp only at h
  obtain ⟨r, wb, hloop, h⟩ := bind_inv h
  obtain ⟨e2, he2, hk2, hn2⟩ := okSteps_fileLoop env opt _ _ _ _ _ _ _ hloop
  dsimp only at he2 hk2
  obtain ⟨bd, allOk⟩ := r
  dsimp only at h hk2
  rw [bind_apply, loadStop_none env hs] at h
  dsimp only at h
  simp only [Bool.not_false, if_true] at h
  obtain ⟨u1, wc, hw1, h⟩ := bind_inv h
  obtain ⟨e3, he3, hf3, hn3⟩ := HM.wait _ _ _ _ _ hw1
  dsimp only at he3
  rw [bind_apply, loadStop_none env hs] at h
  dsimp only at h
  simp only [Bool.not_false, if_true] at h
  obtain ⟨u2, wd, hdel, h⟩ := bind_inv h
  obtain ⟨e4, he4, hf4, hn4⟩ := steps_handleDeletions env opt HM _ _ _ _ _ hdel
  dsimp only at he4
  rw [bind_apply, loadStop_none env hs] at h
  dsimp only at h
  simp only [Bool.not_false, if_true] at h
  obtain ⟨u3, we, hw2, h⟩ := bind_inv h
  obtain ⟨e5, he5, hf5, hn5⟩ := HM.wait _ _ _ _ _ hw2
  dsimp only at he5
  rw [bind_apply, loadStop_none env hs] at h
  dsimp only at h
  simp only [Bool.not_false, if_true] at h
  obtain ⟨u4, wf, hsw, h⟩ := bind_inv h
  obtain ⟨e6, he6, hf6, hn6⟩ := steps_sweepRetention env opt HM _ _ _ _ hsw
  rw [bind_apply, emit_apply] at h
  dsimp only at h
  rw [emit_apply] at h
  cases h
  refine ⟨e1 ++ [Event.progressUpdated 0 ((srcSetOf env opt wa.fs).map (srcSize env opt wa.fs)).sum] ++
      e2 ++ e3 ++ e4 ++ e5 ++ e6 ++
      [Event.progressUpdated ((srcSetOf env opt wa.fs).map (srcSize env opt wa.fs)).sum
        ((srcSetOf env opt wa.fs).map (srcSize env opt wa.fs)).sum], allOk, ?_, ?_, ?_⟩
  · dsimp only
    rw [he6, he5, he4, he3, he2, he1]
    simp only [List.append_assoc]
  · simp only [List.any_append, hn1, hn2, hn3, hn4, hn5, hn6]
    rfl
  · unfold hasFailure at hf1 hf3 hf4 hf5 hf6 hk2 ⊢
    simp only [List.any_append, hf1, hf3, hf4, hf5, hf6]
    rw [hk2]
    simp [isFailure]

end

theorem returns_bind {α β : Type} (P : β → Prop) (m : M α) (f : α → M β)
    (hf : ∀ x, Returns P (f x)) : Returns P (m >>= f) := by
  intro w b w2 h
  obtain ⟨x, w1, _, h2⟩ := bind_inv h
  exact hf x w1 b w2 h2

theorem returns_bind_of {α β : Type} (Q : α → Prop) (P : β → Prop) (m : M α) (f : α → M β)
    (hm : Returns Q m) (hf : ∀ x, Q x → Returns P (f x)) : Returns P (m >>= f) := by
  intro w b w2 h
  obtain ⟨x, w1, h1, h2⟩ := bind_inv h
  exact hf x (hm w x w1 h1) w1 b w2 h2

theorem returns_ite {α : Type} (P : α → Prop) (c : Prop) [Decidable c] (x y : M α)
    (hx : Returns P x) (hy : Returns P y) : Returns P (if c then x else y) := by
  split
  · exact hx
  · exact hy

theorem returns_pure {α : Type} (P : α → Prop) (a : α) (h : P a) : Returns P (pure a : M α) := by
  intro w x w1 hw
  simp only [pure_apply, Option.some.injEq, Prod.mk.injEq] at hw
  rw [← hw.1]; exact h

theorem returns_outOfFuel {α : Type} (P : α → Prop) : Returns P (outOfFuel : M α) := by
  intro w a w1 h; cases h

section
variable (env : Env) (opt : Options)
set_option linter.unusedTactic false
set_option linter.unreachableTactic false
set_option linter.unusedVariables false

/-- Without a stop request a load of `m_stop` reads 0. -/
theorem returns_loadStop_bind {β : Type} (hs : env.stopAt = none) (P : β → Prop)
    (f : Bool → M β) (hf : Returns P (f false)) : Returns P (loadStop env >>= f) := by
  intro w b w2 h
  rw [bind_apply, loadStop_none env hs] at h
  exact hf _ b w2 h

/-- Without a stop request an iteration of the per-file loop never leaves the loop. -/
theorem processFile_next (hs : env.stopAt = none) (fuel : Nat) (rel : String) (bytesDone : Nat)
    (allOk : Bool) :
    Returns (fun r => r.1 = Step.next) (processFile env opt fuel rel bytesDone allOk) := by
  unfold processFile
  repeat' first
    | (with_reducible apply returns_loadStop_bind env hs
       simp only [Bool.false_eq_true, if_false])
    | with_reducible apply returns_bind_of (fun (x : Option Bool) => x ≠ none)
    | with_reducible apply returns_bind
    | with_reducible apply returns_ite
    | with_reducible intro _
    | exact returns_pure _ _ rfl
    | exact returns_pure _ _ (Option.some_ne_none _)
    | contradiction
    | split
    | dsimp only

end

/-! ### The `.part` file of a copy -/

/-- The files and directories are as before. -/
theorem sameFs_tapeBlind : TapeBlind (fun w w1 => w1.fs = w.fs) :=
  ⟨fun _ => rfl, fun _ _ _ h1 h2 => h2.trans h1, fun _ _ hf _ _ _ _ => hf⟩

theorem append_part_ne (p : String) : p ++ ".part" ≠ p := by
  intro h
  have := congrArg (fun s : String => s.data.length) h
  simp at this

section
variable (env : Env) (opt : Options)
set_option linter.unusedTactic false
set_option linter.unreachableTactic false
set_option linter.unusedVariables false

/-- A removal that the environment lets through removes a file that is there. -/
theorem qRemove_gone (hrm : ∀ n p, env.ioOk n (IoOp.remove p) = true) {p : String} {w w1 : World}
    {b : Bool} (h : qRemove env p w = some (b, w1)) (hp : ∃ d, w.fs.get p = some d) :
    w1.fs.get p = none := by
  obtain ⟨d, hd⟩ := hp
  rw [qRemove_apply] at h
  cases h
  simp [FS.isFile, hd, hrm, FS.get_erase_self]

/-- The streaming loop of `copyOneFile` on a `.part` file that is there: when it returns false
from inside the loop the `.part` file is gone, when it runs to its end the file is still there. -/
theorem copyChunks_part (hrm : ∀ n p, env.ioOk n (IoOp.remove p) = true) (fuel : Nat)
    (part : String) :
    ∀ (n : Nat) (rest : List Nat) (bytesDone : Nat) (sent : Int) (w : World) (res : Option Bool)
      (bd1 : Nat) (w1 : World),
      (∃ d, w.fs.get part = some d) →
      copyChunks env opt fuel part n rest bytesDone sent w = some ((res, bd1), w1) →
      (res = some false ∧ w1.fs.get part = none) ∨ (res = none ∧ ∃ d, w1.fs.get part = some d) := by
  intro n
  induction n with
  | zero =>
    intro rest bytesDone sent w res bd1 w1 _ h
    unfold copyChunks at h
    cases h
  | succ n ih =>
    intro rest bytesDone sent w res bd1 w1 hp h
    obtain ⟨d, hd⟩ := hp
    unfold copyChunks at h
    rw [bind_apply, qRead_apply] at h
    dsimp only at h
    have key : ∀ (m : M Int) (wa wb : World) (x : Int), Steps (fun w w1 => w1.fs = w.fs) m →
        m wa = some (x, wb) → wb.fs = wa.fs := fun m wa wb x hk hm => hk wa x wb hm
    cases hr : readChunk (env.read w.readN) rest with
    | none =>
      rw [hr] at h
      cases h
      exact Or.inr ⟨rfl, d, hd⟩
    | some cr =>
      obtain ⟨chunk, rest1⟩ := cr
      rw [hr] at h
      dsimp only at h
      obtain ⟨st, wa, hst, h⟩ := bind_inv h
      have hfa := steps_stopOrInterrupted env sameFs_tapeBlind _ _ _ hst
      dsimp only at hfa
      have hda : wa.fs.get part = some d := by rw [hfa]; exact hd
      rw [ite_apply_M] at h
      split at h
      · obtain ⟨b, wx, hq, h⟩ := bind_inv h
        cases h
        exact Or.inl ⟨rfl, qRemove_gone env hrm hq ⟨d, hda⟩⟩
      · obtain ⟨u, wb, hpl, h⟩ := bind_inv h
        have hfb : wb.fs = wa.fs := steps_copyPauseLoop env sameFs_tapeBlind _ _ _ _ hpl
        have hdb : wb.fs.get part = some d := by rw [hfb]; exact hda
        rw [bind_apply, isDestReady_apply] at h
        dsimp only at h
        rw [ite_apply_M] at h
        split at h
        · obtain ⟨b, wx, hq, h⟩ := bind_inv h
          cases h
          exact Or.inl ⟨rfl, qRemove_gone env hrm hq ⟨d, hdb⟩⟩
        · obtain ⟨sent1, wc, hsp, h⟩ := bind_inv h
          have hfc := key _ _ _ _ ?_ hsp
          · dsimp only at hfc
            have hdc : wc.fs.get part = some d := by rw [hfc]; exact hdb
            rw [bind_apply, qWrite_apply, hdc] at h
            dsimp only at h
            by_cases hw : env.ioOk wc.ioN (IoOp.write part) = true
            · rw [if_pos hw] at h
              dsimp only at h
              simp only [Bool.not_true, Bool.false_eq_true, if_false] at h
              exact ih _ _ _ _ _ _ _ ⟨_, FS.get_put_self _ _ _⟩ h
            · rw [if_neg hw] at h
              dsimp only at h
              simp only [Bool.not_false, if_true] at h
              obtain ⟨b, wx, hq, h⟩ := bind_inv h
              cases h
              exact Or.inl ⟨rfl, qRemove_gone env hrm hq ⟨d, hdc⟩⟩
          · repeat' first
              | with_reducible exact steps_timerElapsed env sameFs_tapeBlind
              | with_reducible exact steps_msleep sameFs_tapeBlind _
              | with_reducible exact steps_pure sameFs_tapeBlind _
              | with_reducible apply steps_bind sameFs_tapeBlind
              | with_reducible apply steps_ite
              | with_reducible intro _
              | split
              | dsimp only

theorem ensureDir_files {p : String} {w w1 : World} {b : Bool}
    (h : ensureDir env p w = some (b, w1)) : w1.fs.files = w.fs.files := by
  obtain ⟨b0, ds, he, _⟩ := ensureDir_frame env p w
  rw [he] at h
  cases h
  rfl

/-- What opening a file for writing leaves: nothing changed when it fails, a file when it
succeeds. -/
theorem qOpenWrite_inv {p : String} {w w1 : World} {b : Bool}
    (h : qOpenWrite env p w = some (b, w1)) :
    (b = false ∧ w1.fs = w.fs) ∨ (b = true ∧ ∃ d, w1.fs.get p = some d) := by
  rw [qOpenWrite_apply] at h
  split at h
  · cases h
    exact Or.inr ⟨rfl, _, FS.get_put_self _ _ _⟩
  · cases h
    exact Or.inl ⟨rfl, rfl⟩

/-- What a rename leaves: the source is gone when it succeeds, nothing changed when it fails. -/
theorem qRename_inv {src dst : String} {w w1 : World} {b : Bool}
    (h : qRename env src dst w = some (b, w1)) (hne : src ≠ dst) :
    (b = true ∧ w1.fs.get src = none) ∨ (b = false ∧ w1.fs = w.fs) := by
  rw [qRename_apply] at h
  cases hg : w.fs.get src with
  | none =>
    rw [hg] at h
    cases h
    exact Or.inr ⟨rfl, rfl⟩
  | some fd =>
    rw [hg] at h
    dsimp only at h
    split at h
    · cases h
      refine Or.inl ⟨rfl, ?_⟩
      show ((w.fs.erase src).put dst fd).get src = none
      rw [FS.get_put_ne _ _ hne, FS.get_erase_self]
    · cases h
      exact Or.inr ⟨rfl, rfl⟩

/-- C15 as amended: when every removal the code asks for is let through, a call of `copyOneFile`
that returns leaves no `.part` file, unless it returned false before it opened the `.part` file
(volume not ready, target directory not made, source or `.part` file not opened): such a call
leaves every file as it was, a `.part` file that was there before included.  So no `.part` file
is left by a call that found none. -/
theorem copyOneFile_leaves_no_part (hrm : ∀ n p, env.ioOk n (IoOp.remove p) = true)
    (fuel : Nat) (rel0 : String) (bytesDone : Nat) (w : World) (r : Bool) (bd1 : Nat) (w1 : World)
    (h : copyOneFile env opt fuel rel0 bytesDone w = some ((r, bd1), w1)) :
    (w1.fs.get (dstAbsPath env opt (cleanRel rel0) ++ ".part") = none ∨
        (r = false ∧ w1.fs.files = w.fs.files)) ∧
      (w.fs.get (dstAbsPath env opt (cleanRel rel0) ++ ".part") = none →
        w1.fs.get (dstAbsPath env opt (cleanRel rel0) ++ ".part") = none) := by
  have main : w1.fs.get (dstAbsPath env opt (cleanRel rel0) ++ ".part") = none ∨
      (r = false ∧ w1.fs.files = w.fs.files) := by
    generalize hdst : dstAbsPath env opt (cleanRel rel0) = dst
    unfold copyOneFile at h
    rw [bind_apply, countCopyCall_apply] at h
    dsimp only at h
    rw [hdst] at h
    rw [bind_apply, isDestReady_apply] at h
    dsimp only at h
    rw [ite_apply_M] at h
    split at h
    · cases h
      exact Or.inr ⟨rfl, rfl⟩
    · obtain ⟨b1, wa, hens, h⟩ := bind_inv h
      have hfa := ensureDir_files env hens
      dsimp only at hfa
      rw [ite_apply_M] at h
      split at h
      · cases h
        exact Or.inr ⟨rfl, hfa⟩
      · rw [bind_apply, isDestReady_apply] at h
        dsimp only at h
        rw [ite_apply_M] at h
        split at h
        · cases h
          exact Or.inr ⟨rfl, hfa⟩
        · obtain ⟨ob, wb, hor, h⟩ := bind_inv h
          have hfb := steps_qOpenRead env sameFs_tapeBlind _ _ _ _ hor
          dsimp only at hfb
          cases ob with
          | none =>
            cases h
            exact Or.inr ⟨rfl, by rw [hfb]; exact hfa⟩
          | some bytes =>
            dsimp only at h
            obtain ⟨b2, wc, how, h⟩ := bind_inv h
            rcases qOpenWrite_inv env how with ⟨hb2, hfc⟩ | ⟨hb2, hpart⟩
            · subst hb2
              simp only [Bool.not_false, if_true] at h
              cases h
              exact Or.inr ⟨rfl, by rw [hfc, hfb]; exact hfa⟩
            · subst hb2
              simp only [Bool.not_true, Bool.false_eq_true, if_false] at h
              obtain ⟨rc, wd, hcc, h⟩ := bind_inv h
              obtain ⟨res, bd⟩ := rc
              rcases copyChunks_part env opt hrm fuel _ _ _ _ _ _ _ _ _ hpart hcc with
                ⟨hres, hgone⟩ | ⟨hres, hthere⟩
              · subst hres
                cases h
                exact Or.inl hgone
              · subst hres
                dsimp only at h
                obtain ⟨b3, we, hrd, h⟩ := bind_inv h
                have hne : dst ++ ".part" ≠ dst := append_part_ne dst
                have hpe : we.fs.get (dst ++ ".part") = wd.fs.get (dst ++ ".part") :=
                  frames_qRemove env (fun q => q = dst) dst rfl _ _ _ hrd _ hne
                obtain ⟨b4, wf, hrn, h⟩ := bind_inv h
                rcases qRename_inv env hrn hne with ⟨hb4, hsrc⟩ | ⟨hb4, hff⟩
                · subst hb4
                  simp only [Bool.not_true, Bool.false_eq_true, if_false] at h
                  rw [ite_apply_M] at h
                  split at h
                  · rw [bind_apply, ioAttempt_apply] at h
                    dsimp only at h
                    rw [ite_apply_M] at h
                    split at h
                    · rw [bind_apply, modifyFs_apply] at h
                      dsimp only at h
                      cases h
                      refine Or.inl ?_
                      dsimp only
                      split
                      · rw [FS.get_put_ne _ _ hne]; exact hsrc
                      · exact hsrc
                    · rw [bind_apply, pure_apply] at h
                      cases h
                      exact Or.inl hsrc
                  · rw [bind_apply, pure_apply] at h
                    cases h
                    exact Or.inl hsrc
                · subst hb4
                  simp only [Bool.not_false, if_true] at h
                  obtain ⟨b5, wg, hrp, h⟩ := bind_inv h
                  cases h
                  refine Or.inl (qRemove_gone env hrm hrp ?_)
                  rw [hff, hpe]
                  exact hthere
  refine ⟨main, fun h0 => ?_⟩
  rcases main with hm | ⟨_, hf⟩
  · exact hm
  · unfold FS.get at h0 ⊢
    rw [hf]; exact h0

end

/-- C15, witness: a copy that goes through in the destination that holds a stale `.part` file. -/
theorem copyOneFile_leaves_no_part_witness :
    (∀ n p, Demo.env.ioOk n (IoOp.remove p) = true) ∧
      ∃ r bd1 w1, copyOneFile Demo.env Demo.opt 5 "a.txt" 0 (Demo.world Demo.filesStalePart) =
          some ((r, bd1), w1) ∧
        (w1.fs.get (dstAbsPath Demo.env Demo.opt (cleanRel "a.txt") ++ ".part") = none ∨
          (r = false ∧ w1.fs.files = (Demo.world Demo.filesStalePart).fs.files)) := by
  have hs : (copyOneFile Demo.env Demo.opt 5 "a.txt" 0 (Demo.world Demo.filesStalePart)).isSome =
      true := by decide!
  obtain ⟨⟨⟨r, bd1⟩, w1⟩, h⟩ := Option.isSome_iff_exists.mp hs
  exact ⟨fun _ _ => rfl, r, bd1, w1, h,
    (copyOneFile_leaves_no_part Demo.env Demo.opt (fun _ _ => rfl) 5 "a.txt" 0
      (Demo.world Demo.filesStalePart) r bd1 w1 h).1⟩

/-! ### A file identical to its backup -/

theorem idleStep_tapeBlind : TapeBlind IdleStep := by
  refine ⟨fun w => ⟨rfl, rfl, rfl, [], by simp, fun _ h => (by cases h)⟩, ?_, ?_⟩
  · intro w w1 w2 h1 h2
    obtain ⟨a1, b1, c1, e1, he1, hv1⟩ := h1
    obtain ⟨a2, b2, c2, e2, he2, hv2⟩ := h2
    refine ⟨a2.trans a1, b2.trans b1, c2.trans c1, e1 ++ e2,
      by rw [he2, he1, List.append_assoc], ?_⟩
    intro e he
    rcases List.mem_append.mp he with h | h
    · exact hv1 e h
    · exact hv2 e h
  · intro w w1 hf he _ hc hm
    exact ⟨hf, hc, hm, [], by simp [he], fun _ h => (by cases h)⟩

theorem idleStep_emit (e : Event) (h : isVersionCreated e = false) : Steps IdleStep (emit e) := by
  intro w a w1 hw
  cases hw
  refine ⟨rfl, rfl, rfl, [e], rfl, ?_⟩
  intro x hx
  rw [List.mem_singleton.mp hx]; exact h

theorem idleStep_setOfflineSignaled (b : Bool) : Steps IdleStep (setOfflineSignaled b) := by
  intro w a w1 hw
  cases hw
  exact ⟨rfl, rfl, rfl, [], by simp, fun _ h => (by cases h)⟩

section
variable (env : Env) (opt : Options)

theorem idleStep_wait (fuel : Nat) (hint : String) :
    Steps IdleStep (waitUntilDestReadyOrStopped env fuel hint) :=
  steps_wait_of env idleStep_tapeBlind idleStep_setOfflineSignaled
    (fun _ => idleStep_emit _ rfl) (idleStep_emit _ rfl) fuel hint

theorem readChunk_nil (o : Option Nat) : readChunk o [] = none := by
  cases o with
  | none => rfl
  | some cap => simp [readChunk]

theorem readChunk_cons (cap : Nat) (x : Nat) (xs : List Nat) :
    ∃ chunk rest1, readChunk (some cap) (x :: xs) = some (chunk, rest1) ∧
      chunk ++ rest1 = x :: xs ∧ rest1.length < (x :: xs).length := by
  have hb : 0 < BUF := by decide
  have hn : min (min BUF (cap + 1)) (x :: xs).length ≠ 0 := by
    simp only [List.length_cons]
    omega
  refine ⟨(x :: xs).take (min (min BUF (cap + 1)) (x :: xs).length),
    (x :: xs).drop (min (min BUF (cap + 1)) (x :: xs).length), ?_, List.take_append_drop _ _, ?_⟩
  · show (if min (min BUF (cap + 1)) (x :: xs).length = 0 then none else _) = _
    rw [if_neg hn]
  · simp only [List.length_drop, List.length_cons] at hn ⊢
    omega

/-- Without a read error the loop of the hasher feeds the whole file to the digest. -/
theorem hashLoop_complete (hread : ∀ n, env.read n ≠ none) :
    ∀ (fuel : Nat) (rest acc : List Nat) (w : World), rest.length < fuel →
      ∃ r, hashLoop env fuel rest acc w = some (acc ++ rest, { w with readN := r }) := by
  intro fuel
  induction fuel with
  | zero => intro rest acc w h; cases h
  | succ n ih =>
    intro rest acc w hlen
    unfold hashLoop
    rw [bind_apply, qRead_apply]
    dsimp only
    cases rest with
    | nil =>
      rw [readChunk_nil]
      exact ⟨w.readN + 1, by simp⟩
    | cons x xs =>
      cases hr : env.read w.readN with
      | none => exact absurd hr (hread _)
      | some cap =>
        obtain ⟨chunk, rest1, hc, happ, hlt⟩ := readChunk_cons cap x xs
        rw [hc]
        dsimp only
        obtain ⟨r, h⟩ := ih rest1 (acc ++ chunk) { w with readN := w.readN + 1 } (by omega)
        rw [h]
        exact ⟨r, by rw [List.append_assoc, happ]⟩

/-- The digest of a file that can be opened and read without error. -/
theorem fileHashSha256_value (hopen : ∀ n p, env.ioOk n (IoOp.openRead p) = true)
    (hread : ∀ n, env.read n ≠ none) (p : String) (w : World) (fd : FileData)
    (hp : w.fs.get p = some fd) :
    ∃ r, fileHashSha256 env p w =
      some (env.sha256 fd.content, { w with ioN := w.ioN + 1, readN := r }) := by
  unfold fileHashSha256
  rw [bind_apply, qOpenRead_apply, hp]
  dsimp only
  rw [if_pos (hopen _ _)]
  dsimp only
  obtain ⟨r, h⟩ := hashLoop_complete env hread (fd.content.length + 1) fd.content []
    { w with ioN := w.ioN + 1 } (Nat.lt_succ_self _)
  rw [bind_apply, h]
  exact ⟨r, by simp⟩

theorem likelySameByStat_identical {fs : FS} {srcPath dstPath : String}
    (hid : IdenticalAt env fs srcPath dstPath) : likelySameByStat fs srcPath dstPath = true := by
  obtain ⟨s, d, hs, hd, hlen, hm, _, _⟩ := hid
  unfold likelySameByStat
  rw [hs, hd]
  simp [hlen, hm]

/-- The fast path of the version step finds identical files identical. -/
theorem fastEqual_identical (hopen : ∀ n p, env.ioOk n (IoOp.openRead p) = true)
    (hread : ∀ n, env.read n ≠ none) (srcPath dstPath : String) (w : World)
    (hid : IdenticalAt env w.fs srcPath dstPath) :
    ∃ i r, fastEqual env srcPath dstPath w = some (true, { w with ioN := i, readN := r }) := by
  have hl := likelySameByStat_identical env hid
  obtain ⟨s, d, hs, hd, _, _, hh, hne⟩ := hid
  unfold fastEqual
  rw [bind_apply, readFs_apply]
  dsimp only
  rw [hl, if_pos rfl]
  obtain ⟨r1, h1⟩ := fileHashSha256_value env hopen hread dstPath w d hd
  rw [bind_apply, h1]
  dsimp only
  obtain ⟨r2, h2⟩ := fileHashSha256_value env hopen hread srcPath
    { w with ioN := w.ioN + 1, readN := r1 } s hs
  rw [bind_apply, h2]
  dsimp only
  refine ⟨w.ioN + 1 + 1, r2, ?_⟩
  rw [pure_apply]
  have : decide (env.sha256 d.content ≠ [] ∧ env.sha256 d.content = env.sha256 s.content) = true := by
    rw [← hh]; simp [hne]
  rw [this]

/-- The check of `run` finds identical files identical. -/
theorem identicalCheck_identical (hopen : ∀ n p, env.ioOk n (IoOp.openRead p) = true)
    (hread : ∀ n, env.read n ≠ none) (srcPath dstPath : String) (w : World)
    (hid : IdenticalAt env w.fs srcPath dstPath) :
    ∃ i r, identicalCheck env srcPath dstPath w = some (true, { w with ioN := i, readN := r }) := by
  have hl := likelySameByStat_identical env hid
  obtain ⟨s, d, hs, hd, _, _, hh, hne⟩ := hid
  have hex : w.fs.pathExists dstPath = true := by simp [FS.pathExists, FS.isFile, hd]
  unfold identicalCheck
  rw [bind_apply, readFs_apply]
  dsimp only
  rw [hl, hex]
  simp only [Bool.and_self, if_true]
  obtain ⟨r1, h1⟩ := fileHashSha256_value env hopen hread srcPath w s hs
  rw [bind_apply, h1]
  dsimp only
  obtain ⟨r2, h2⟩ := fileHashSha256_value env hopen hread dstPath
    { w with ioN := w.ioN + 1, readN := r1 } d hd
  rw [bind_apply, h2]
  dsimp only
  refine ⟨w.ioN + 1 + 1, r2, ?_⟩
  rw [pure_apply]
  have : decide (env.sha256 s.content ≠ [] ∧ env.sha256 s.content = env.sha256 d.content) = true := by
    rw [← hh]; simp [hne]
  rw [this]

/-- The version step on a file identical to its backup touches nothing: it returns true when
keep-versions is off or the volume is not ready, false otherwise. -/
theorem maybeStash_identical (hopen : ∀ n p, env.ioOk n (IoOp.openRead p) = true)
    (hread : ∀ n, env.read n ≠ none) (rel0 : String) (w : World)
    (hid : IdenticalAt env w.fs (srcAbsPath env opt (cleanRel rel0))
      (dstAbsPath env opt (cleanRel rel0))) :
    ∃ b dn g i r, maybeStashExistingVersion env opt rel0 w =
      some (b, { w with devN := dn, gateLog := g, ioN := i, readN := r }) := by
  unfold maybeStashExistingVersion
  by_cases hk : opt.keepVersionsOnChange = true
  · simp only [hk, Bool.not_true, Bool.false_eq_true, if_false]
    rw [bind_apply, isDestReady_apply]
    dsimp only
    rw [ite_apply_M]
    split
    · exact ⟨true, _, _, w.ioN, w.readN, rfl⟩
    · have hex : w.fs.pathExists (dstAbsPath env opt (cleanRel rel0)) = true := by
        obtain ⟨s, d, _, hd, _⟩ := hid
        simp [FS.pathExists, FS.isFile, hd]
      rw [bind_apply, readFs_apply]
      dsimp only
      rw [hex]
      simp only [Bool.not_true, Bool.false_eq_true, if_false]
      obtain ⟨i, r, hf⟩ := fastEqual_identical env hopen hread _ _
        { w with devN := w.devN + 1,
                 gateLog := w.gateLog ++ [(env.dev w.devN, gate w.expectedDevice (env.dev w.devN))] }
        hid
      rw [bind_apply, hf]
      exact ⟨false, _, _, i, r, rfl⟩
  · simp only [Bool.not_eq_true] at hk
    simp only [hk, Bool.not_false, if_true]
    exact ⟨true, w.devN, w.gateLog, w.ioN, w.readN, rfl⟩

end

section
variable (env : Env) (opt : Options)
set_option linter.unusedTactic false
set_option linter.unreachableTactic false
set_option linter.unusedVariables false

theorem idleStep_progressTick (bytesDone : Nat) : Steps IdleStep (progressTick env bytesDone) := by
  have HT : TapeBlind IdleStep := idleStep_tapeBlind
  unfold progressTick
  repeat' first
    | with_reducible exact steps_timerElapsed env HT
    | with_reducible exact steps_getTotalBytes HT
    | with_reducible exact steps_pure HT _
    | with_reducible apply steps_bind HT
    | with_reducible apply steps_ite
    | with_reducible intro _
    | exact idleStep_emit _ rfl
    | split
    | dsimp only

/-- The part of C16 that holds, the iteration of `run` for a file: the source file and its payload
exist with the same size, modification times at most 2 s apart and the same non-empty SHA-256,
and the files can be opened and read without error (so that the digests the run computes are
these).  Then the iteration, whether keep-versions is on or off and whatever the volume reports,
changes no file, does not call `copyOneFile`, does not call `moveFileRobust`, and emits no
`versionCreated`.  What the deletion pass of the same run does to such a payload is another
matter. -/
theorem identical_file_not_written (hopen : ∀ n p, env.ioOk n (IoOp.openRead p) = true)
    (hread : ∀ n, env.read n ≠ none) (fuel : Nat) (rel : String) (bytesDone : Nat)
    (allOk : Bool) (w : World) (r : Step × Nat × Bool) (w1 : World)
    (hclean : cleanRel rel = rel)
    (hid : IdenticalAt env w.fs (srcAbsPath env opt rel) (dstAbsPath env opt rel))
    (h : processFile env opt fuel rel bytesDone allOk w = some (r, w1)) :
    w1.fs = w.fs ∧ w1.copyCalls = w.copyCalls ∧ w1.moveLog = w.moveLog ∧
      ∃ evs, w1.events = w.events ++ evs ∧ ∀ e ∈ evs, isVersionCreated e = false := by
  have HT : TapeBlind IdleStep := idleStep_tapeBlind
  have tr : ∀ {a b c : World}, IdleStep a b → IdleStep b c → IdleStep a c :=
    fun h1 h2 => HT.trans _ _ _ h1 h2
  show IdleStep w w1
  unfold processFile at h
  rw [bind_apply, loadStop_apply] at h
  dsimp only at h
  rw [ite_apply_M] at h
  split at h
  · cases h
    exact HT.tape _ _ rfl rfl rfl rfl rfl
  · obtain ⟨u, wa, hpl, h⟩ := bind_inv h
    have h1 := steps_pauseLoop env HT fuel _ _ _ hpl
    replace h1 : IdleStep w wa := h1
    have hida : IdenticalAt env wa.fs (srcAbsPath env opt rel) (dstAbsPath env opt rel) := by
      rw [h1.1]; exact hid
    obtain ⟨s, d, hs, hd, _⟩ := hida
    rw [bind_apply, readFs_apply] at h
    dsimp only at h
    rw [hs] at h
    dsimp only at h
    rw [bind_apply, emit_apply] at h
    dsimp only at h
    have he1 : IdleStep wa { wa with events := wa.events ++ [Event.fileStarted rel s.content.length] } :=
      idleStep_emit (Event.fileStarted rel s.content.length) rfl wa () _ rfl
    obtain ⟨u2, wb, hw, h⟩ := bind_inv h
    have h2 := idleStep_wait env fuel _ _ _ _ hw
    have hwb : IdleStep w wb := tr (tr h1 he1) h2
    rw [bind_apply, loadStop_apply] at h
    dsimp only at h
    rw [ite_apply_M] at h
    split at h
    · cases h
      exact tr hwb (HT.tape _ _ rfl rfl rfl rfl rfl)
    · have hidb : IdenticalAt env wb.fs (srcAbsPath env opt rel) (dstAbsPath env opt rel) := by
        rw [hwb.1]; exact hid
      have hex : wb.fs.pathExists (dstAbsPath env opt rel) = true := by
        obtain ⟨_, d2, _, hd2, _⟩ := hidb
        simp [FS.pathExists, FS.isFile, hd2]
      rw [bind_apply, readFs_apply] at h
      dsimp only at h
      rw [hex] at h
      simp only [if_true] at h
      obtain ⟨b, dn, g, i, r0, hm⟩ := maybeStash_identical env opt hopen hread rel
        { wb with stopN := wb.stopN + 1 } (by rw [hclean]; exact hidb)
      rw [bind_apply, hm] at h
      dsimp only at h
      obtain ⟨st, wc, hblock, h⟩ := bind_inv h
      have hwc : IdleStep w wc := by
        rw [bind_apply, isDestReady_apply] at hblock
        dsimp only at hblock
        rw [ite_apply_M] at hblock
        split at hblock
        · obtain ⟨u3, wd, hw2, hblock⟩ := bind_inv hblock
          have h3 := idleStep_wait env fuel _ _ _ _ hw2
          have hwd : IdleStep w wd := tr hwb (tr (HT.tape _ _ rfl rfl rfl rfl rfl) h3)
          rw [bind_apply, loadStop_apply] at hblock
          dsimp only at hblock
          rw [ite_apply_M] at hblock
          split at hblock
          · cases hblock
            exact tr hwd (HT.tape _ _ rfl rfl rfl rfl rfl)
          · obtain ⟨b2, dn2, g2, i2, r2, hm2⟩ := maybeStash_identical env opt hopen hread rel
              { wd with stopN := wd.stopN + 1 } (by rw [hclean, hwd.1]; exact hid)
            rw [bind_apply, hm2] at hblock
            cases hblock
            exact tr hwd (HT.tape _ _ rfl rfl rfl rfl rfl)
        · cases hblock
          exact tr hwb (HT.tape _ _ rfl rfl rfl rfl rfl)
      have hidc : IdenticalAt env wc.fs (srcAbsPath env opt rel) (dstAbsPath env opt rel) := by
        rw [hwc.1]; exact hid
      cases st with
      | none =>
        cases h
        exact hwc
      | some b3 =>
        cases b3 with
        | false =>
          dsimp only at h
          rw [bind_apply, emit_apply] at h
          cases h
          exact tr hwc (idleStep_emit (Event.fileFinished rel false "版本归档失败") rfl wc () _ rfl)
        | true =>
          dsimp only at h
          obtain ⟨i3, r3, hic⟩ := identicalCheck_identical env hopen hread _ _ wc hidc
          rw [bind_apply, hic] at h
          dsimp only at h
          simp only [if_true] at h
          rw [bind_apply, emit_apply] at h
          dsimp only at h
          obtain ⟨u4, we, hpt, h⟩ := bind_inv h
          have h4 := idleStep_progressTick env _ _ _ _ hpt
          cases h
          refine tr hwc (tr ?_ h4)
          exact tr (HT.tape wc { wc with ioN := i3, readN := r3 } rfl rfl rfl rfl rfl)
            (idleStep_emit (Event.fileFinished rel true "") rfl _ () _ rfl)

end

/-- The iteration for the file of the scenario that is identical to its backup, with
keep-versions on. -/
theorem identical_file_not_written_witness :
    IdenticalAt Demo.env (Demo.world Demo.filesSame).fs (srcAbsPath Demo.env Demo.opt "a.txt")
        (dstAbsPath Demo.env Demo.opt "a.txt") ∧
      ∃ r w1, processFile Demo.env Demo.opt 5 "a.txt" 0 true (Demo.world Demo.filesSame) =
          some (r, w1) ∧
        w1.fs = (Demo.world Demo.filesSame).fs ∧
        w1.copyCalls = (Demo.world Demo.filesSame).copyCalls ∧
        w1.moveLog = (Demo.world Demo.filesSame).moveLog ∧
        ∃ evs, w1.events = (Demo.world Demo.filesSame).events ++ evs ∧
          ∀ e ∈ evs, isVersionCreated e = false := by
  have hid : IdenticalAt Demo.env (Demo.world Demo.filesSame).fs
      (srcAbsPath Demo.env Demo.opt "a.txt") (dstAbsPath Demo.env Demo.opt "a.txt") :=
    ⟨{ content := [1, 2, 3], mtime := 5 }, { content := [1, 2, 3], mtime := 5 },
      by decide!, by decide!, rfl, by decide, rfl, by decide⟩
  have hs : (processFile Demo.env Demo.opt 5 "a.txt" 0 true (Demo.world Demo.filesSame)).isSome =
      true := by decide!
  obtain ⟨⟨r, w1⟩, h⟩ := Option.isSome_iff_exists.mp hs
  exact ⟨hid, r, w1, h,
    identical_file_not_written Demo.env Demo.opt (fun _ _ => rfl)
      (fun _ hn => Option.noConfusion hn) 5 "a.txt" 0 true (Demo.world Demo.filesSame) r w1
      (by decide) hid h⟩

/-! ### Normalized paths -/

theorem splitSlash_ne_nil (l : List Char) : splitSlash l ≠ [] := by
  induction l with
  | nil => simp [splitSlash]
  | cons c cs ih =>
    unfold splitSlash
    split
    · simp
    · split
      · simp
      · simp

theorem splitSlash_slash (r : List Char) : splitSlash ('/' :: r) = [] :: splitSlash r := by
  rw [splitSlash, if_pos rfl]

theorem splitSlash_noSlash (a : List Char) (h : '/' ∉ a) : splitSlash a = [a] := by
  induction a with
  | nil => rfl
  | cons c cs ih =>
    have hc : c ≠ '/' := fun e => h (e ▸ List.mem_cons_self _ _)
    have hcs : '/' ∉ cs := fun e => h (List.mem_cons_of_mem _ e)
    unfold splitSlash
    rw [if_neg hc, ih hcs]

theorem splitSlash_append (a r : List Char) (h : '/' ∉ a) :
    splitSlash (a ++ '/' :: r) = a :: splitSlash r := by
  induction a with
  | nil =>
    exact splitSlash_slash r
  | cons c cs ih =>
    have hc : c ≠ '/' := fun e => h (e ▸ List.mem_cons_self _ _)
    have hcs : '/' ∉ cs := fun e => h (List.mem_cons_of_mem _ e)
    show splitSlash (c :: (cs ++ '/' :: r)) = _
    rw [splitSlash, if_neg hc, ih hcs]

theorem splitSlash_joinSlash : ∀ (comps : List (List Char)), comps ≠ [] →
    (∀ c ∈ comps, '/' ∉ c) → splitSlash (joinSlash comps) = comps := by
  intro comps
  induction comps with
  | nil => intro h; exact absurd rfl h
  | cons a t ih =>
    intro _ hs
    cases t with
    | nil =>
      show splitSlash a = [a]
      exact splitSlash_noSlash a (hs a (List.mem_cons_self _ _))
    | cons b t2 =>
      show splitSlash (a ++ '/' :: joinSlash (b :: t2)) = _
      rw [splitSlash_append _ _ (hs a (List.mem_cons_self _ _)),
        ih (List.cons_ne_nil _ _) (fun c hc => hs c (List.mem_cons_of_mem _ hc))]

theorem keptComp_of_plain {c : List Char} (h : PlainComp c) : keptComp c = true := by
  unfold keptComp
  simp [h.1, h.2.2.1]

theorem cleanStep_plain (b : Bool) (st : List (List Char)) {c : List Char} (h : PlainComp c) :
    cleanStep b st c = c :: st := by
  unfold cleanStep
  rw [if_neg (by simp [h.1, h.2.2.1]), if_neg h.2.2.2]

theorem cleanStep_dropped (b : Bool) (st : List (List Char)) {c : List Char}
    (h : c = [] ∨ c = ['.']) : cleanStep b st c = st := by
  unfold cleanStep
  rw [if_pos h]

/-- Cleaning a list of components that holds no `..`: the empty ones and the `.` are dropped. -/
theorem foldl_cleanStep (b : Bool) : ∀ (comps st : List (List Char)),
    (∀ c ∈ comps, PlainComp c ∨ c = [] ∨ c = ['.']) →
    comps.foldl (cleanStep b) st = (comps.filter keptComp).reverse ++ st := by
  intro comps
  induction comps with
  | nil => intro st _; rfl
  | cons c t ih =>
    intro st h
    have ht : ∀ x ∈ t, PlainComp x ∨ x = [] ∨ x = ['.'] :=
      fun x hx => h x (List.mem_cons_of_mem _ hx)
    rw [List.foldl_cons]
    rcases h c (List.mem_cons_self _ _) with hp | hd
    · rw [cleanStep_plain b st hp, ih _ ht, List.filter_cons, keptComp_of_plain hp]
      simp
    · rw [cleanStep_dropped b st hd, ih _ ht, List.filter_cons]
      have : keptComp c = false := by
        unfold keptComp
        rcases hd with e | e <;> simp [e]
      rw [this]
      rfl

theorem filter_keptComp_plain (comps : List (List Char)) (h : ∀ c ∈ comps, PlainComp c) :
    comps.filter keptComp = comps :=
  List.filter_eq_self.mpr (fun c hc => keptComp_of_plain (h c hc))

/-- Cleaning an absolute path without `..`: empty components and `.` go. -/
theorem cleanPath_abs (comps : List (List Char))
    (h : ∀ c ∈ comps, PlainComp c ∨ c = [] ∨ c = ['.']) :
    cleanPath ⟨'/' :: joinSlash comps⟩ = absString (comps.filter keptComp) := by
  unfold cleanPath
  rw [if_neg (by simp)]
  simp only [List.head?_cons, if_true]
  have hsplit : ∃ pre, splitSlash ('/' :: joinSlash comps) = [] :: pre ∧
      pre.filter keptComp = comps.filter keptComp ∧
      ∀ c ∈ pre, PlainComp c ∨ c = [] ∨ c = ['.'] := by
    have h0 : splitSlash ('/' :: joinSlash comps) = [] :: splitSlash (joinSlash comps) :=
      splitSlash_slash _
    cases comps with
    | nil =>
      refine ⟨[[]], h0, rfl, ?_⟩
      intro c hc
      rw [List.mem_singleton.mp hc]
      exact Or.inr (Or.inl rfl)
    | cons a t =>
      refine ⟨a :: t, ?_, rfl, h⟩
      rw [h0, splitSlash_joinSlash _ (List.cons_ne_nil _ _)]
      intro c hc
      rcases h c hc with hp | hd | hd
      · exact hp.2.1
      · rw [hd]; simp
      · rw [hd]; simp
  obtain ⟨pre, hs, hf, hpre⟩ := hsplit
  rw [hs, List.foldl_cons, cleanStep_dropped _ [] (Or.inl rfl), foldl_cleanStep _ pre [] hpre,
    hf]
  simp [absString]

theorem cleanPath_absString (cs : List (List Char)) (h : ∀ c ∈ cs, PlainComp c) :
    cleanPath (absString cs) = absString cs := by
  unfold absString
  rw [cleanPath_abs cs (fun c hc => Or.inl (h c hc)), filter_keptComp_plain cs h]
  rfl

theorem head_joinSlash_ne_slash (cs : List (List Char)) (hne : cs ≠ [])
    (h : ∀ c ∈ cs, c ≠ [] ∧ '/' ∉ c) : (joinSlash cs).head? ≠ some '/' := by
  cases cs with
  | nil => exact absurd rfl hne
  | cons a t =>
    obtain ⟨ha, hs⟩ := h a (List.mem_cons_self _ _)
    cases a with
    | nil => exact absurd rfl ha
    | cons x xs =>
      have hx : x ≠ '/' := fun e => hs (e ▸ List.mem_cons_self _ _)
      cases t with
      | nil => simpa [joinSlash] using hx
      | cons b t2 => simpa [joinSlash] using hx

theorem joinSlash_ne_nil (cs : List (List Char)) (hne : cs ≠ [])
    (h : ∀ c ∈ cs, c ≠ [] ∧ '/' ∉ c) : joinSlash cs ≠ [] := by
  cases cs with
  | nil => exact absurd rfl hne
  | cons a t =>
    obtain ⟨ha, _⟩ := h a (List.mem_cons_self _ _)
    cases t with
    | nil => simpa [joinSlash] using ha
    | cons b t2 => simp [joinSlash]

/-- A relative path of plain components is clean. -/
theorem cleanPath_relString (cs : List (List Char)) (hne : cs ≠ []) (h : ∀ c ∈ cs, PlainComp c) :
    cleanPath (relString cs) = relString cs := by
  have hc : ∀ c ∈ cs, c ≠ [] ∧ '/' ∉ c := fun c hc => ⟨(h c hc).1, (h c hc).2.1⟩
  unfold cleanPath relString
  rw [if_neg (joinSlash_ne_nil cs hne hc)]
  have hh : ¬ ((joinSlash cs).head? = some '/') := head_joinSlash_ne_slash cs hne hc
  simp only [hh, if_false]
  rw [splitSlash_joinSlash cs hne (fun c hx => (h c hx).2.1),
    foldl_cleanStep _ cs [] (fun c hx => Or.inl (h c hx)), filter_keptComp_plain cs h]
  simp [hne]


theorem splitSlash_noSlash_mem (l : List Char) : ∀ c ∈ splitSlash l, '/' ∉ c := by
  induction l with
  | nil =>
    intro c hc
    rw [List.mem_singleton.mp hc]
    simp
  | cons x xs ih =>
    intro c hc
    rw [splitSlash] at hc
    by_cases hx : x = '/'
    · rw [if_pos hx] at hc
      rcases List.mem_cons.mp hc with e | e
      · rw [e]; simp
      · exact ih c e
    · rw [if_neg hx] at hc
      cases hs : splitSlash xs with
      | nil =>
        rw [hs] at hc
        rw [List.mem_singleton.mp hc]
        simpa using Ne.symm hx
      | cons h t =>
        rw [hs] at hc ih
        rcases List.mem_cons.mp hc with e | e
        · rw [e]
          intro hm
          rcases List.mem_cons.mp hm with e1 | e1
          · exact hx e1.symm
          · exact ih h (List.mem_cons_self _ _) e1
        · exact ih c (List.mem_cons_of_mem _ e)

theorem cleanStep_true_plain (st : List (List Char)) (c : List Char)
    (hst : ∀ x ∈ st, PlainComp x) (hc : '/' ∉ c) : ∀ x ∈ cleanStep true st c, PlainComp x := by
  unfold cleanStep
  by_cases h1 : c = [] ∨ c = ['.']
  · rw [if_pos h1]; exact hst
  · rw [if_neg h1]
    by_cases h2 : c = ['.', '.']
    · rw [if_pos h2]
      cases st with
      | nil => intro x hx; simp at hx
      | cons top rest =>
        have htop : top ≠ ['.', '.'] := (hst top (List.mem_cons_self _ _)).2.2.2
        simp only [htop, if_false]
        exact fun x hx => hst x (List.mem_cons_of_mem _ hx)
    · rw [if_neg h2]
      intro x hx
      rcases List.mem_cons.mp hx with e | e
      · rw [e]
        exact ⟨fun e0 => h1 (Or.inl e0), hc, fun e0 => h1 (Or.inr e0), h2⟩
      · exact hst x e

theorem foldl_cleanStep_true_plain : ∀ (comps st : List (List Char)),
    (∀ c ∈ comps, '/' ∉ c) → (∀ x ∈ st, PlainComp x) →
    ∀ x ∈ comps.foldl (cleanStep true) st, PlainComp x := by
  intro comps
  induction comps with
  | nil => intro st _ hst; exact hst
  | cons c t ih =>
    intro st hc hst
    rw [List.foldl_cons]
    exact ih _ (fun x hx => hc x (List.mem_cons_of_mem _ hx))
      (cleanStep_true_plain st c hst (hc c (List.mem_cons_self _ _)))

/-- Cleaning an absolute path gives the path of a list of plain components. -/
theorem cleanPath_absolute (p : String) (h : isAbsolutePath p = true) :
    ∃ cs, (∀ c ∈ cs, PlainComp c) ∧ cleanPath p = absString cs := by
  have hh : p.data.head? = some '/' := by simpa [isAbsolutePath] using h
  have hne : p.data ≠ [] := by
    intro e
    rw [e] at hh
    simp at hh
  refine ⟨((splitSlash p.data).foldl (cleanStep true) []).reverse, ?_, ?_⟩
  · intro c hc
    exact foldl_cleanStep_true_plain _ [] (splitSlash_noSlash_mem _) (fun _ hx => by simp at hx) c
      (List.mem_reverse.mp hc)
  · unfold cleanPath
    rw [if_neg hne]
    simp [hh, absString]

theorem isAbsolutePath_absString (cs : List (List Char)) : isAbsolutePath (absString cs) = true := by
  simp [isAbsolutePath, absString]

theorem absolutePath_absString (cwd : String) (cs : List (List Char))
    (h : ∀ c ∈ cs, PlainComp c) : absolutePath cwd (absString cs) = absString cs := by
  unfold absolutePath
  rw [if_pos (isAbsolutePath_absString cs), cleanPath_absString cs h]

/-- The absolute path of a directory is the path of a list of plain components. -/
theorem absolutePath_normal (cwd dir : String) (h : isAbsolutePath cwd = true) :
    ∃ cs, (∀ c ∈ cs, PlainComp c) ∧ absolutePath cwd dir = absString cs := by
  unfold absolutePath
  by_cases hd : isAbsolutePath dir = true
  · rw [if_pos hd]
    exact cleanPath_absolute dir hd
  · rw [if_neg hd]
    apply cleanPath_absolute
    have hh : cwd.data.head? = some '/' := by simpa [isAbsolutePath] using h
    cases hc : cwd.data with
    | nil => rw [hc] at hh; simp at hh
    | cons x xs =>
      rw [hc] at hh
      simp [isAbsolutePath, String.data_append, hc] at hh ⊢
      exact hh

theorem joinSlash_cons (a : List Char) (t : List (List Char)) (ht : t ≠ []) :
    joinSlash (a :: t) = a ++ '/' :: joinSlash t := by
  cases t with
  | nil => exact absurd rfl ht
  | cons b t2 => rfl

theorem joinSlash_append : ∀ (a b : List (List Char)), a ≠ [] → b ≠ [] →
    joinSlash (a ++ b) = joinSlash a ++ '/' :: joinSlash b := by
  intro a
  induction a with
  | nil => intro b h; exact absurd rfl h
  | cons x t ih =>
    intro b _ hb
    by_cases ht : t = []
    · subst ht
      exact joinSlash_cons x b hb
    · show joinSlash (x :: (t ++ b)) = _
      rw [joinSlash_cons x (t ++ b) (by simp [ht]), ih b ht hb, joinSlash_cons x t ht]
      simp

theorem afterLastSlash_joinSlash (dirs : List (List Char)) (base : List Char) (h : '/' ∉ base) :
    afterLastSlash (joinSlash (dirs ++ [base])) = base := by
  by_cases hd : dirs = []
  · subst hd
    exact afterLastSlash_of_no_slash base h
  · rw [joinSlash_append dirs [base] hd (by simp)]
    show afterLastSlash (joinSlash dirs ++ '/' :: base) = base
    rw [afterLastSlash_append_slash, afterLastSlash_of_no_slash base h]

theorem endsWith_absString (cs : List (List Char)) (hne : cs ≠ [])
    (h : ∀ c ∈ cs, PlainComp c) : endsWith (absString cs) "/" = false := by
  cases he : endsWith (absString cs) "/" with
  | false => rfl
  | true =>
    exfalso
    obtain ⟨x, hx⟩ := endsWith_slash_data he
    have h1 : afterLastSlash (absString cs).data = [] := by
      rw [hx]
      exact afterLastSlash_append_slash x []
    have hlast := h _ (List.getLast_mem hne)
    have h2 : afterLastSlash (absString cs).data = cs.getLast hne := by
      show afterLastSlash ('/' :: joinSlash cs) = _
      rw [show '/' :: joinSlash cs = [] ++ '/' :: joinSlash cs from rfl, afterLastSlash_append_slash]
      have e := afterLastSlash_joinSlash cs.dropLast (cs.getLast hne) hlast.2.1
      rw [List.dropLast_append_getLast hne] at e
      exact e
    exact hlast.1 (h2.symm.trans h1)

theorem endsWith_root : endsWith (absString []) "/" = true := by decide

/-- The characters of `QDir(dir).absoluteFilePath(name)` for a relative, non-empty `name`. -/
theorem absoluteFilePath_data (cwd dir name : String) (cs : List (List Char))
    (hcs : ∀ c ∈ cs, PlainComp c) (hd : absolutePath cwd dir = absString cs)
    (hna : isAbsolutePath name = false) (hne : name.data ≠ []) :
    (absoluteFilePath cwd dir name).data =
      '/' :: (if cs = [] then name.data else joinSlash cs ++ '/' :: name.data) := by
  unfold absoluteFilePath
  rw [hna]
  simp only [Bool.false_eq_true, if_false, hne, hd]
  by_cases hc : cs = []
  · subst hc
    rw [if_pos endsWith_root]
    simp [absString, joinSlash]
  · rw [if_neg hc, endsWith_absString cs hc hcs]
    simp [absString]

theorem isAbsolutePath_of_head (name : String) (x : Char) (xs : List Char)
    (h : name.data = x :: xs) (hx : x ≠ '/') : isAbsolutePath name = false := by
  simp [isAbsolutePath, h, hx]

theorem isAbsolutePath_relString (rc : List (List Char)) (hne : rc ≠ [])
    (h : ∀ c ∈ rc, c ≠ [] ∧ '/' ∉ c) : isAbsolutePath (relString rc) = false := by
  have := head_joinSlash_ne_slash rc hne h
  simpa [isAbsolutePath, relString] using this

/-- A relative path of components below a directory: the components are appended. -/
theorem absoluteFilePath_comps (cwd dir : String) (cs rc : List (List Char))
    (hcs : ∀ c ∈ cs, PlainComp c) (hd : absolutePath cwd dir = absString cs)
    (hne : rc ≠ []) (hrc : ∀ c ∈ rc, c ≠ [] ∧ '/' ∉ c) :
    absoluteFilePath cwd dir (relString rc) = absString (cs ++ rc) := by
  apply String.ext
  rw [absoluteFilePath_data cwd dir _ cs hcs hd (isAbsolutePath_relString rc hne hrc)
    (joinSlash_ne_nil rc hne hrc)]
  by_cases hc : cs = []
  · subst hc
    simp [absString, relString]
  · rw [if_neg hc]
    simp [absString, relString, joinSlash_append cs rc hc hne]

theorem plain_weak {cs : List (List Char)} (h : ∀ c ∈ cs, PlainComp c) :
    ∀ c ∈ cs, c ≠ [] ∧ '/' ∉ c := fun c hc => ⟨(h c hc).1, (h c hc).2.1⟩

theorem plain_append {a b : List (List Char)} (ha : ∀ c ∈ a, PlainComp c)
    (hb : ∀ c ∈ b, PlainComp c) : ∀ c ∈ a ++ b, PlainComp c := by
  intro c hc
  rcases List.mem_append.mp hc with e | e
  · exact ha c e
  · exact hb c e

theorem plain_singleton {c : List Char} (h : PlainComp c) : ∀ x ∈ [c], PlainComp x := by
  intro x hx
  rw [List.mem_singleton.mp hx]
  exact h

theorem dropWhile_all {α : Type} (p : α → Bool) (a : List α) (h : ∀ x ∈ a, p x = true) :
    a.dropWhile p = [] := by
  induction a with
  | nil => rfl
  | cons x t ih =>
    have hx : p x = true := h x (List.mem_cons_self x t)
    have ht : ∀ y ∈ t, p y = true := fun y hy => h y (List.mem_cons_of_mem x hy)
    simp [List.dropWhile, hx, ih ht]

theorem dropWhile_append_stop {α : Type} (p : α → Bool) (a : List α) (c : α) (b : List α)
    (hc : p c = false) (h : ∀ x ∈ a, p x = true) : (a ++ c :: b).dropWhile p = c :: b := by
  induction a with
  | nil => simp [List.dropWhile, hc]
  | cons x t ih =>
    have hx : p x = true := h x (List.mem_cons_self x t)
    have ht : ∀ y ∈ t, p y = true := fun y hy => h y (List.mem_cons_of_mem x hy)
    simp [List.dropWhile, hx, ih ht]

theorem fileName_relString (dirs : List (List Char)) (base : List Char) (h : '/' ∉ base) :
    fileName (relString (dirs ++ [base])) = ⟨base⟩ := by
  unfold fileName relString
  rw [afterLastSlash_joinSlash dirs base h]

theorem filePathDir_relString (dirs : List (List Char)) (base : List Char) (h : '/' ∉ base)
    (hd : ∀ c ∈ dirs, c ≠ [] ∧ '/' ∉ c) :
    filePathDir (relString (dirs ++ [base])) = if dirs = [] then "." else relString dirs := by
  have hp : ∀ x ∈ base.reverse, (fun c => decide (c ≠ '/')) x = true := by
    intro x hx
    have : x ≠ '/' := fun e => h (e ▸ List.mem_reverse.mp hx)
    simpa using this
  unfold filePathDir relString
  by_cases hdn : dirs = []
  · subst hdn
    rw [if_pos rfl]
    show (match (base.reverse.dropWhile (fun c => c ≠ '/')) with
      | [] => "." | [_] => "/" | _ :: rest => (⟨rest.reverse⟩ : String)) = "."
    rw [dropWhile_all _ _ hp]
  · rw [if_neg hdn]
    have hj := joinSlash_ne_nil dirs hdn hd
    have e : (joinSlash (dirs ++ [base])).reverse = base.reverse ++ '/' :: (joinSlash dirs).reverse := by
      rw [joinSlash_append dirs [base] hdn (by simp)]
      simp [joinSlash]
    show (match ((joinSlash (dirs ++ [base])).reverse.dropWhile (fun c => c ≠ '/')) with
      | [] => "." | [_] => "/" | _ :: rest => (⟨rest.reverse⟩ : String)) = _
    rw [e, dropWhile_append_stop _ _ _ _ (by simp) hp]
    cases hr : (joinSlash dirs).reverse with
    | nil => exact absurd (List.reverse_eq_nil_iff.mp hr) hj
    | cons y ys =>
      show (⟨(y :: ys).reverse⟩ : String) = _
      rw [← hr, List.reverse_reverse]


theorem plainComp_cons_ne_slash {x : Char} {xs : List Char} (h : PlainComp (x :: xs)) : x ≠ '/' :=
  fun e => h.2.1 (e ▸ List.mem_cons_self _ _)

/-- The path `QDir(QDir(root).absoluteFilePath(ns + "/" + dir)).absoluteFilePath(name + suffix)`
built by `versionFilePath` and `deletedFilePath`, for `dir` and `name` taken from a normalized
relative path. -/
theorem stampedPath_comps (cwd root ns suffix : String) (V nc dirs : List (List Char))
    (base : List Char) (hV : ∀ c ∈ V, PlainComp c) (hroot : absolutePath cwd root = absString V)
    (hns : ns = relString nc) (hnc : nc ≠ []) (hncp : ∀ c ∈ nc, PlainComp c)
    (hdirs : ∀ c ∈ dirs, PlainComp c) (hbase : PlainComp base) :
    absoluteFilePath cwd
        (absoluteFilePath cwd root (ns ++ "/" ++ filePathDir (relString (dirs ++ [base]))))
        (fileName (relString (dirs ++ [base])) ++ suffix) =
      absString (V ++ nc ++ dirs ++ [base]) ++ suffix := by
  rw [filePathDir_relString dirs base hbase.2.1 (plain_weak hdirs),
    fileName_relString dirs base hbase.2.1]
  have hX : ∃ X : List (List Char), X ≠ [] ∧ (∀ c ∈ X, c ≠ [] ∧ '/' ∉ c) ∧
      (ns ++ "/" ++ (if dirs = [] then "." else relString dirs)) = relString (nc ++ X) ∧
      (V ++ (nc ++ X)).filter keptComp = V ++ nc ++ dirs ∧
      (∀ c ∈ X, PlainComp c ∨ c = [] ∨ c = ['.']) := by
    by_cases hd : dirs = []
    · refine ⟨[['.']], by simp, ?_, ?_, ?_, ?_⟩
      · intro c hc
        rw [List.mem_singleton.mp hc]
        decide
      · rw [if_pos hd, hns]
        apply String.ext
        simp [relString, joinSlash_append nc [['.']] hnc (by simp), joinSlash]
      · rw [hd, List.filter_append, List.filter_append, filter_keptComp_plain V hV,
          filter_keptComp_plain nc hncp]
        simp [keptComp]
      · intro c hc
        exact Or.inr (Or.inr (List.mem_singleton.mp hc))
    · refine ⟨dirs, hd, plain_weak hdirs, ?_, ?_, fun c hc => Or.inl (hdirs c hc)⟩
      · rw [if_neg hd, hns]
        apply String.ext
        simp [relString, joinSlash_append nc dirs hnc hd]
      · rw [filter_keptComp_plain _ (plain_append hV (plain_append hncp hdirs)),
          List.append_assoc]
  obtain ⟨X, hXne, hXw, hname, hfilter, hXp⟩ := hX
  rw [hname]
  have hncX : ∀ c ∈ nc ++ X, c ≠ [] ∧ '/' ∉ c := by
    intro c hc
    rcases List.mem_append.mp hc with e | e
    · exact plain_weak hncp c e
    · exact hXw c e
  rw [absoluteFilePath_comps cwd root V (nc ++ X) hV hroot (by simp [hnc]) hncX]
  have hclean : absolutePath cwd (absString (V ++ (nc ++ X))) = absString (V ++ nc ++ dirs) := by
    unfold absolutePath
    rw [if_pos (isAbsolutePath_absString _)]
    unfold absString
    rw [cleanPath_abs, hfilter]
    · rfl
    · intro c hc
      rcases List.mem_append.mp hc with e | e
      · exact Or.inl (hV c e)
      · rcases List.mem_append.mp e with e1 | e1
        · exact Or.inl (hncp c e1)
        · exact hXp c e1
  have hall : ∀ c ∈ V ++ nc ++ dirs, PlainComp c := plain_append (plain_append hV hncp) hdirs
  have hne : V ++ nc ++ dirs ≠ [] := by simp [hnc]
  cases hb : base with
  | nil => exact absurd hb hbase.1
  | cons x xs =>
    have hx : x ≠ '/' := plainComp_cons_ne_slash (hb ▸ hbase)
    apply String.ext
    rw [absoluteFilePath_data cwd _ _ (V ++ nc ++ dirs) hall hclean
      (isAbsolutePath_of_head _ x (xs ++ suffix.data) (by simp) hx) (by simp), if_neg hne]
    rw [String.data_append]
    unfold absString
    rw [joinSlash_append (V ++ nc ++ dirs) [x :: xs] hne (by simp)]
    simp [joinSlash]

section
variable (env : Env) (opt : Options)

theorem metaRoot_comps (cs : List (List Char)) (hcs : ∀ c ∈ cs, PlainComp c)
    (hd : absolutePath env.cwd opt.dstDir = absString cs) :
    metaRoot env opt = absString (cs ++ [".plugbackup_meta".data]) :=
  absoluteFilePath_comps env.cwd opt.dstDir cs [".plugbackup_meta".data] hcs hd (by simp)
    (by decide)

theorem versionsRoot_comps (cs : List (List Char)) (hcs : ∀ c ∈ cs, PlainComp c)
    (hd : absolutePath env.cwd opt.dstDir = absString cs) :
    versionsRoot env opt = absString (cs ++ [".plugbackup_meta".data, "versions".data]) := by
  unfold versionsRoot
  rw [metaRoot_comps env opt cs hcs hd]
  have h := absoluteFilePath_comps env.cwd (absString (cs ++ [".plugbackup_meta".data]))
    (cs ++ [".plugbackup_meta".data]) ["versions".data]
    (plain_append hcs (plain_singleton (by decide)))
    (absolutePath_absString _ _ (plain_append hcs (plain_singleton (by decide)))) (by simp)
    (by decide)
  rw [List.append_assoc] at h
  exact h

theorem deletedRoot_comps (cs : List (List Char)) (hcs : ∀ c ∈ cs, PlainComp c)
    (hd : absolutePath env.cwd opt.dstDir = absString cs) :
    deletedRoot env opt = absString (cs ++ [".plugbackup_meta".data, "deleted".data]) := by
  unfold deletedRoot
  rw [metaRoot_comps env opt cs hcs hd]
  have h := absoluteFilePath_comps env.cwd (absString (cs ++ [".plugbackup_meta".data]))
    (cs ++ [".plugbackup_meta".data]) ["deleted".data]
    (plain_append hcs (plain_singleton (by decide)))
    (absolutePath_absString _ _ (plain_append hcs (plain_singleton (by decide)))) (by simp)
    (by decide)
  rw [List.append_assoc] at h
  exact h

theorem plain_meta_versions {cs : List (List Char)} (hcs : ∀ c ∈ cs, PlainComp c) :
    ∀ c ∈ cs ++ [".plugbackup_meta".data, "versions".data], PlainComp c :=
  plain_append hcs (by decide)

theorem plain_meta_deleted {cs : List (List Char)} (hcs : ∀ c ∈ cs, PlainComp c) :
    ∀ c ∈ cs ++ [".plugbackup_meta".data, "deleted".data], PlainComp c :=
  plain_append hcs (by decide)

theorem nsSubRoot_comps (cs nc : List (List Char)) (hcs : ∀ c ∈ cs, PlainComp c)
    (hd : absolutePath env.cwd opt.dstDir = absString cs)
    (hns : nsPrefix env opt = relString nc) (hnc : nc ≠ []) (hncp : ∀ c ∈ nc, PlainComp c) :
    nsSubRoot env opt = absString (cs ++ nc) := by
  unfold nsSubRoot
  rw [hns]
  exact absoluteFilePath_comps env.cwd opt.dstDir cs nc hcs hd hnc (plain_weak hncp)

theorem dstAbsPath_comps (cs nc rc : List (List Char)) (hcs : ∀ c ∈ cs, PlainComp c)
    (hd : absolutePath env.cwd opt.dstDir = absString cs)
    (hns : nsPrefix env opt = relString nc) (hnc : nc ≠ []) (hncp : ∀ c ∈ nc, PlainComp c)
    (hrc : rc ≠ []) (hrcp : ∀ c ∈ rc, PlainComp c) :
    dstAbsPath env opt (relString rc) = absString (cs ++ nc ++ rc) := by
  unfold dstAbsPath cleanRel
  rw [nsSubRoot_comps env opt cs nc hcs hd hns hnc hncp, cleanPath_relString rc hrc hrcp]
  exact absoluteFilePath_comps env.cwd _ (cs ++ nc) rc (plain_append hcs hncp)
    (absolutePath_absString _ _ (plain_append hcs hncp)) hrc (plain_weak hrcp)

theorem versionFilePath_comps (cs nc dirs : List (List Char)) (base : List Char) (ts : String)
    (hcs : ∀ c ∈ cs, PlainComp c) (hd : absolutePath env.cwd opt.dstDir = absString cs)
    (hns : nsPrefix env opt = relString nc) (hnc : nc ≠ []) (hncp : ∀ c ∈ nc, PlainComp c)
    (hdirs : ∀ c ∈ dirs, PlainComp c) (hbase : PlainComp base) :
    versionFilePath env opt (relString (dirs ++ [base])) ts =
      absString (cs ++ [".plugbackup_meta".data, "versions".data] ++ nc ++ dirs ++ [base])
        ++ ".v" ++ ts := by
  unfold versionFilePath cleanRel
  rw [cleanPath_relString (dirs ++ [base]) (by simp) (plain_append hdirs (plain_singleton hbase))]
  dsimp only
  have h := stampedPath_comps env.cwd (versionsRoot env opt) (nsPrefix env opt) (".v" ++ ts) _ nc dirs
    base (plain_meta_versions hcs)
    (by rw [versionsRoot_comps env opt cs hcs hd]
        exact absolutePath_absString _ _ (plain_meta_versions hcs))
    hns hnc hncp hdirs hbase
  rw [← String.append_assoc, ← String.append_assoc] at h
  exact h

theorem deletedFilePath_comps (cs nc dirs : List (List Char)) (base : List Char) (ts : String)
    (hcs : ∀ c ∈ cs, PlainComp c) (hd : absolutePath env.cwd opt.dstDir = absString cs)
    (hns : nsPrefix env opt = relString nc) (hnc : nc ≠ []) (hncp : ∀ c ∈ nc, PlainComp c)
    (hdirs : ∀ c ∈ dirs, PlainComp c) (hbase : PlainComp base) :
    deletedFilePath env opt (relString (dirs ++ [base])) ts =
      absString (cs ++ [".plugbackup_meta".data, "deleted".data] ++ nc ++ dirs ++ [base])
        ++ ".d" ++ ts := by
  unfold deletedFilePath cleanRel
  rw [cleanPath_relString (dirs ++ [base]) (by simp) (plain_append hdirs (plain_singleton hbase))]
  dsimp only
  have h := stampedPath_comps env.cwd (deletedRoot env opt) (nsPrefix env opt) (".d" ++ ts) _ nc dirs
    base (plain_meta_deleted hcs)
    (by rw [deletedRoot_comps env opt cs hcs hd]
        exact absolutePath_absString _ _ (plain_meta_deleted hcs))
    hns hnc hncp hdirs hbase
  rw [← String.append_assoc, ← String.append_assoc] at h
  exact h

end

theorem absString_append (a b : List (List Char)) (ha : a ≠ []) (hb : b ≠ []) :
    absString (a ++ b) = absString a ++ "/" ++ relString b := by
  apply String.ext
  simp [absString, relString, joinSlash_append a b ha hb]

theorem relString_snoc (dirs : List (List Char)) (base : List Char) (hd : dirs ≠ []) :
    relString (dirs ++ [base]) = relString dirs ++ "/" ++ ⟨base⟩ := by
  apply String.ext
  simp [relString, joinSlash_append dirs [base] hd (by simp), joinSlash]

section
variable (env : Env) (opt : Options)

/-- C20 (amended): when the namespace prefix is a non-empty normalized relative path `ns`, then for
every non-empty normalized relative path `rel`, with directory components `dirs` and last
component `base`, and every timestamp `ts`: the absolute destination directory is the path of a
list `cs` of plain components, `dstAbsPath rel` is the path with components `cs`, `ns`, `rel`,
`versionFilePath rel ts` is the path with components `cs`, `.plugbackup_meta`, `versions`, `ns`,
`dirs`, `base` followed by `.v` and `ts`, and `deletedFilePath rel ts` the same with `deleted` and
`.d`; a `rel` without directory component (`dirs` empty) sits directly below `ns`.  When the
destination is not the root these are the strings `dst/ns/rel`,
`dst/.plugbackup_meta/versions/ns/rel.v<ts>` and `dst/.plugbackup_meta/deleted/ns/rel.d<ts>`. -/
theorem vault_paths_of_normalized_rel (hcwd : isAbsolutePath env.cwd = true)
    (nc dirs : List (List Char)) (base : List Char) (ts : String)
    (hns : nsPrefix env opt = relString nc) (hnc : nc ≠ [])
    (hncp : ∀ c ∈ nc, PlainComp c) (hdirs : ∀ c ∈ dirs, PlainComp c) (hbase : PlainComp base) :
    ∃ cs, (∀ c ∈ cs, PlainComp c) ∧ absolutePath env.cwd opt.dstDir = absString cs ∧
      dstAbsPath env opt (relString (dirs ++ [base])) = absString (cs ++ nc ++ dirs ++ [base]) ∧
      versionFilePath env opt (relString (dirs ++ [base])) ts =
        absString (cs ++ [".plugbackup_meta".data, "versions".data] ++ nc ++ dirs ++ [base])
          ++ ".v" ++ ts ∧
      deletedFilePath env opt (relString (dirs ++ [base])) ts =
        absString (cs ++ [".plugbackup_meta".data, "deleted".data] ++ nc ++ dirs ++ [base])
          ++ ".d" ++ ts ∧
      (cs ≠ [] →
        dstAbsPath env opt (relString (dirs ++ [base])) =
          absolutePath env.cwd opt.dstDir ++ "/" ++ nsPrefix env opt ++ "/"
            ++ relString (dirs ++ [base]) ∧
        versionFilePath env opt (relString (dirs ++ [base])) ts =
          absolutePath env.cwd opt.dstDir ++ "/" ++ ".plugbackup_meta/versions" ++ "/"
            ++ nsPrefix env opt ++ "/" ++ relString (dirs ++ [base]) ++ ".v" ++ ts ∧
        deletedFilePath env opt (relString (dirs ++ [base])) ts =
          absolutePath env.cwd opt.dstDir ++ "/" ++ ".plugbackup_meta/deleted" ++ "/"
            ++ nsPrefix env opt ++ "/" ++ relString (dirs ++ [base]) ++ ".d" ++ ts) := by
  obtain ⟨cs, hcs, hd⟩ := absolutePath_normal env.cwd opt.dstDir hcwd
  have h1 := dstAbsPath_comps env opt cs nc (dirs ++ [base]) hcs hd hns hnc hncp (by simp)
    (plain_append hdirs (plain_singleton hbase))
  rw [← List.append_assoc] at h1
  have h2 := versionFilePath_comps env opt cs nc dirs base ts hcs hd hns hnc hncp hdirs hbase
  have h3 := deletedFilePath_comps env opt cs nc dirs base ts hcs hd hns hnc hncp hdirs hbase
  refine ⟨cs, hcs, hd, h1, h2, h3, ?_⟩
  intro hne
  have hrc : dirs ++ [base] ≠ [] := by simp
  refine ⟨?_, ?_, ?_⟩
  · rw [h1, hd, hns, List.append_assoc, List.append_assoc,
      absString_append cs (nc ++ (dirs ++ [base])) hne (by simp [hnc])]
    apply String.ext
    simp [relString, joinSlash_append nc (dirs ++ [base]) hnc hrc]
  · rw [h2, hd, hns, List.append_assoc, List.append_assoc, List.append_assoc,
      absString_append cs _ hne (by simp)]
    apply String.ext
    have e : joinSlash ([".plugbackup_meta".data, "versions".data] ++ (nc ++ (dirs ++ [base])))
        = ".plugbackup_meta/versions".data ++ '/' :: (joinSlash nc ++ '/' :: joinSlash (dirs ++ [base])) := by
      rw [joinSlash_append _ _ (by simp) (by simp [hnc]), joinSlash_append nc _ hnc hrc]
      rfl
    simp only [relString, String.data_append, e]
    simp
  · rw [h3, hd, hns, List.append_assoc, List.append_assoc, List.append_assoc,
      absString_append cs _ hne (by simp)]
    apply String.ext
    have e : joinSlash ([".plugbackup_meta".data, "deleted".data] ++ (nc ++ (dirs ++ [base])))
        = ".plugbackup_meta/deleted".data ++ '/' :: (joinSlash nc ++ '/' :: joinSlash (dirs ++ [base])) := by
      rw [joinSlash_append _ _ (by simp) (by simp [hnc]), joinSlash_append nc _ hnc hrc]
      rfl
    simp only [relString, String.data_append, e]
    simp

end

theorem vault_paths_of_normalized_rel_witness :
    isAbsolutePath Demo.env.cwd = true ∧
    nsPrefix Demo.env Demo.opt = relString ["ns".data] ∧
    ∃ cs, (∀ c ∈ cs, PlainComp c) ∧ absolutePath Demo.env.cwd Demo.opt.dstDir = absString cs ∧
      dstAbsPath Demo.env Demo.opt (relString (["sub".data] ++ ["a.txt".data])) =
        absString (cs ++ ["ns".data] ++ ["sub".data] ++ ["a.txt".data]) ∧
      versionFilePath Demo.env Demo.opt (relString (["sub".data] ++ ["a.txt".data])) "20250101-000000" =
        absString (cs ++ [".plugbackup_meta".data, "versions".data] ++ ["ns".data] ++ ["sub".data]
          ++ ["a.txt".data]) ++ ".v" ++ "20250101-000000" ∧
      deletedFilePath Demo.env Demo.opt (relString (["sub".data] ++ ["a.txt".data])) "20250101-000000" =
        absString (cs ++ [".plugbackup_meta".data, "deleted".data] ++ ["ns".data] ++ ["sub".data]
          ++ ["a.txt".data]) ++ ".d" ++ "20250101-000000" ∧
      (cs ≠ [] →
        dstAbsPath Demo.env Demo.opt (relString (["sub".data] ++ ["a.txt".data])) =
          absolutePath Demo.env.cwd Demo.opt.dstDir ++ "/" ++ nsPrefix Demo.env Demo.opt ++ "/"
            ++ relString (["sub".data] ++ ["a.txt".data]) ∧
        versionFilePath Demo.env Demo.opt (relString (["sub".data] ++ ["a.txt".data])) "20250101-000000" =
          absolutePath Demo.env.cwd Demo.opt.dstDir ++ "/" ++ ".plugbackup_meta/versions" ++ "/"
            ++ nsPrefix Demo.env Demo.opt ++ "/" ++ relString (["sub".data] ++ ["a.txt".data])
            ++ ".v" ++ "20250101-000000" ∧
        deletedFilePath Demo.env Demo.opt (relString (["sub".data] ++ ["a.txt".data])) "20250101-000000" =
          absolutePath Demo.env.cwd Demo.opt.dstDir ++ "/" ++ ".plugbackup_meta/deleted" ++ "/"
            ++ nsPrefix Demo.env Demo.opt ++ "/" ++ relString (["sub".data] ++ ["a.txt".data])
            ++ ".d" ++ "20250101-000000") :=
  ⟨by decide, by decide,
    vault_paths_of_normalized_rel Demo.env Demo.opt (by decide) ["ns".data] ["sub".data]
      "a.txt".data "20250101-000000" (by decide) (by decide) (by decide) (by decide) (by decide)⟩

/-! ### Namespaces keep workers apart -/

theorem slashfree_prefix_unique : ∀ (a b x y : List Char), '/' ∉ a → '/' ∉ b →
    a ++ '/' :: x = b ++ '/' :: y → a = b ∧ x = y := by
  intro a
  induction a with
  | nil =>
    intro b x y _ hb h
    cases b with
    | nil => exact ⟨rfl, by simpa using h⟩
    | cons c cs =>
      exfalso
      have : '/' = c := by simpa using (List.cons.inj h).1
      exact hb (this ▸ List.mem_cons_self _ _)
  | cons c cs ih =>
    intro b x y ha hb h
    cases b with
    | nil =>
      exfalso
      have : c = '/' := by simpa using (List.cons.inj h).1
      exact ha (this ▸ List.mem_cons_self _ _)
    | cons d ds =>
      obtain ⟨h1, h2⟩ := List.cons.inj h
      obtain ⟨e1, e2⟩ := ih ds x y (fun e => ha (List.mem_cons_of_mem _ e))
        (fun e => hb (List.mem_cons_of_mem _ e)) h2
      exact ⟨by rw [h1, e1], e2⟩

theorem joinTail_prefix : ∀ (A B : List (List Char)) (r1 r2 : List Char),
    (∀ c ∈ A, '/' ∉ c) → (∀ c ∈ B, '/' ∉ c) → joinTail A r1 = joinTail B r2 →
    A <+: B ∨ B <+: A := by
  intro A
  induction A with
  | nil => intro B _ _ _ _ _; exact Or.inl (List.nil_prefix)
  | cons a t ih =>
    intro B r1 r2 hA hB h
    cases B with
    | nil => exact Or.inr (List.nil_prefix)
    | cons b u =>
      obtain ⟨e1, e2⟩ := slashfree_prefix_unique a b _ _ (hA a (List.mem_cons_self _ _))
        (hB b (List.mem_cons_self _ _)) h
      rcases ih u r1 r2 (fun c hc => hA c (List.mem_cons_of_mem _ hc))
        (fun c hc => hB c (List.mem_cons_of_mem _ hc)) e2 with hp | hp
      · exact Or.inl (List.cons_prefix_cons.mpr ⟨e1, hp⟩)
      · exact Or.inr (List.cons_prefix_cons.mpr ⟨e1.symm, hp⟩)

theorem joinTail_append (A B : List (List Char)) (r : List Char) :
    joinTail (A ++ B) r = joinTail A (joinTail B r) := by
  induction A with
  | nil => rfl
  | cons a t ih =>
    show a ++ '/' :: joinTail (t ++ B) r = a ++ '/' :: joinTail t (joinTail B r)
    rw [ih]

theorem joinTail_append_right (A : List (List Char)) (x t : List Char) :
    joinTail A x ++ t = joinTail A (x ++ t) := by
  induction A with
  | nil => rfl
  | cons a u ih =>
    show (a ++ '/' :: joinTail u x) ++ t = a ++ '/' :: joinTail u (x ++ t)
    rw [← ih]
    simp

theorem joinTail_cancel (A : List (List Char)) (x y : List Char)
    (h : joinTail A x = joinTail A y) : x = y := by
  induction A with
  | nil => exact h
  | cons a u ih =>
    have h1 : a ++ '/' :: joinTail u x = a ++ '/' :: joinTail u y := h
    exact ih (List.cons.inj (List.append_cancel_left h1)).2

theorem joinSlash_joinTail (A rc : List (List Char)) (hrc : rc ≠ []) :
    joinSlash (A ++ rc) = joinTail A (joinSlash rc) := by
  induction A with
  | nil => rfl
  | cons a t ih =>
    show joinSlash (a :: (t ++ rc)) = a ++ '/' :: joinTail t (joinSlash rc)
    rw [joinSlash_cons a (t ++ rc) (by simp [hrc]), ih]

/-- The characters of a path below the components `cs ++ A`, with text appended. -/
theorem absString_tail_data (cs A rc : List (List Char)) (tail : String) (hrc : rc ≠ []) :
    (absString (cs ++ A ++ rc) ++ tail).data =
      '/' :: joinTail cs (joinTail A (joinSlash rc ++ tail.data)) := by
  rw [String.data_append]
  show '/' :: joinSlash (cs ++ A ++ rc) ++ tail.data = _
  rw [joinSlash_joinTail (cs ++ A) rc hrc, List.cons_append, joinTail_append_right,
    joinTail_append]

theorem absString_data (cs A rc : List (List Char)) (hrc : rc ≠ []) :
    (absString (cs ++ A ++ rc)).data = '/' :: joinTail cs (joinTail A (joinSlash rc)) := by
  show '/' :: joinSlash (cs ++ A ++ rc) = _
  rw [joinSlash_joinTail (cs ++ A) rc hrc, joinTail_append]

/-- The namespace part of a written path: the namespace itself, or the namespace below the
versions or the tombstones of the vault. -/
theorem written_form (env : Env) (opt : Options) (cs nc rc : List (List Char)) (ts : String)
    (hcs : ∀ c ∈ cs, PlainComp c) (hd : absolutePath env.cwd opt.dstDir = absString cs)
    (hns : nsPrefix env opt = relString nc) (hnc : nc ≠ []) (hncp : ∀ c ∈ nc, PlainComp c)
    (hrc : rc ≠ []) (hrcp : ∀ c ∈ rc, PlainComp c) :
    ∀ p ∈ writtenPaths env opt (relString rc) ts, ∃ A T,
      (A = nc ∨ A = [".plugbackup_meta".data, "versions".data] ++ nc ∨
        A = [".plugbackup_meta".data, "deleted".data] ++ nc) ∧
      p.data = '/' :: joinTail cs (joinTail A T) := by
  have hsplit : rc.dropLast ++ [rc.getLast hrc] = rc := List.dropLast_append_getLast hrc
  have hdirs : ∀ c ∈ rc.dropLast, PlainComp c := fun c hc => hrcp c (List.mem_of_mem_dropLast hc)
  have hbase : PlainComp (rc.getLast hrc) := hrcp _ (List.getLast_mem hrc)
  have h1 := dstAbsPath_comps env opt cs nc rc hcs hd hns hnc hncp hrc hrcp
  have h2 := versionFilePath_comps env opt cs nc rc.dropLast (rc.getLast hrc) ts hcs hd hns hnc
    hncp hdirs hbase
  have h3 := deletedFilePath_comps env opt cs nc rc.dropLast (rc.getLast hrc) ts hcs hd hns hnc
    hncp hdirs hbase
  rw [hsplit] at h2 h3
  simp only [List.append_assoc] at h2 h3
  rw [hsplit] at h2 h3
  rw [← List.append_assoc, ← List.append_assoc] at h2 h3
  intro p hp
  simp only [writtenPaths, List.mem_cons, List.mem_singleton, List.not_mem_nil, or_false] at hp
  rcases hp with e | e | e | e | e | e
  · exact ⟨nc, joinSlash rc, Or.inl rfl, by rw [e, h1]; exact absString_data cs nc rc hrc⟩
  · exact ⟨nc, joinSlash rc ++ ".part".data, Or.inl rfl,
      by rw [e, h1]; exact absString_tail_data cs nc rc _ hrc⟩
  · refine ⟨[".plugbackup_meta".data, "versions".data] ++ nc, joinSlash rc ++ (".v" ++ ts).data, Or.inr (Or.inl rfl), ?_⟩
    rw [e, h2, String.append_assoc, List.append_assoc cs]
    exact absString_tail_data cs _ rc _ hrc
  · refine ⟨[".plugbackup_meta".data, "versions".data] ++ nc, joinSlash rc ++ (".v" ++ (ts ++ ".json")).data, Or.inr (Or.inl rfl), ?_⟩
    rw [e, h2, String.append_assoc, String.append_assoc, List.append_assoc cs]
    exact absString_tail_data cs _ rc _ hrc
  · refine ⟨[".plugbackup_meta".data, "deleted".data] ++ nc, joinSlash rc ++ (".d" ++ ts).data, Or.inr (Or.inr rfl), ?_⟩
    rw [e, h3, String.append_assoc, List.append_assoc cs]
    exact absString_tail_data cs _ rc _ hrc
  · refine ⟨[".plugbackup_meta".data, "deleted".data] ++ nc, joinSlash rc ++ (".d" ++ (ts ++ ".json")).data, Or.inr (Or.inr rfl), ?_⟩
    rw [e, h3, String.append_assoc, String.append_assoc, List.append_assoc cs]
    exact absString_tail_data cs _ rc _ hrc

theorem kinds_not_prefix (nc1 nc2 A1 A2 : List (List Char)) (hnc1 : nc1 ≠ [])
    (hpre : ¬ nc1 <+: nc2)
    (hm1 : nc1.head? ≠ some ".plugbackup_meta".data)
    (hm2 : nc2.head? ≠ some ".plugbackup_meta".data)
    (h1 : A1 = nc1 ∨ A1 = [".plugbackup_meta".data, "versions".data] ++ nc1 ∨
      A1 = [".plugbackup_meta".data, "deleted".data] ++ nc1)
    (h2 : A2 = nc2 ∨ A2 = [".plugbackup_meta".data, "versions".data] ++ nc2 ∨
      A2 = [".plugbackup_meta".data, "deleted".data] ++ nc2) : ¬ A1 <+: A2 := by
  intro h
  have hhead : ∀ (x : List Char) (l : List (List Char)), nc1 <+: x :: l → nc1.head? = some x := by
    intro x l hx
    cases nc1 with
    | nil => exact absurd rfl hnc1
    | cons a t => rw [(List.cons_prefix_cons.mp hx).1]; rfl
  have hhead2 : ∀ (x : List Char) (l : List (List Char)), x :: l <+: nc2 → nc2.head? = some x := by
    intro x l hx
    cases nc2 with
    | nil => simp at hx
    | cons a t => rw [(List.cons_prefix_cons.mp hx).1]; rfl
  rcases h1 with e1 | e1 | e1 <;> rcases h2 with e2 | e2 | e2 <;> subst e1 <;> subst e2
  · exact hpre h
  · exact hm1 (hhead _ _ h)
  · exact hm1 (hhead _ _ h)
  · exact hm2 (hhead2 _ _ h)
  · exact hpre ((List.prefix_append_right_inj _).mp h)
  · have := (List.cons_prefix_cons.mp (List.cons_prefix_cons.mp h).2).1
    exact absurd this (by decide)
  · exact hm2 (hhead2 _ _ h)
  · have := (List.cons_prefix_cons.mp (List.cons_prefix_cons.mp h).2).1
    exact absurd this (by decide)
  · exact hpre ((List.prefix_append_right_inj _).mp h)

theorem kinds_slashfree (nc A : List (List Char)) (hncp : ∀ c ∈ nc, PlainComp c)
    (h : A = nc ∨ A = [".plugbackup_meta".data, "versions".data] ++ nc ∨
      A = [".plugbackup_meta".data, "deleted".data] ++ nc) : ∀ c ∈ A, '/' ∉ c := by
  rcases h with e | e | e <;> subst e
  · exact fun c hc => (hncp c hc).2.1
  · exact fun c hc => (plain_append (by decide) hncp c hc).2.1
  · exact fun c hc => (plain_append (by decide) hncp c hc).2.1

/-- C18 (amended): two workers with the same absolute destination directory, whose namespace
prefixes are non-empty normalized relative paths, neither a leading part of the other (distinct
single names are such) and neither beginning with `.plugbackup_meta`, write different paths: for
all non-empty normalized relative paths `r1`, `r2` and all timestamps, no path of the first among
`dstAbsPath`, its `.part` sibling, `versionFilePath`, `deletedFilePath` and their `.json` sidecars
is one of the second. -/
theorem namespaces_write_disjoint_paths (env : Env) (opt1 opt2 : Options)
    (hcwd : isAbsolutePath env.cwd = true)
    (hdst : absolutePath env.cwd opt1.dstDir = absolutePath env.cwd opt2.dstDir)
    (nc1 nc2 rc1 rc2 : List (List Char)) (ts1 ts2 : String)
    (hns1 : nsPrefix env opt1 = relString nc1) (hns2 : nsPrefix env opt2 = relString nc2)
    (hnc1 : nc1 ≠ []) (hnc2 : nc2 ≠ [])
    (hncp1 : ∀ c ∈ nc1, PlainComp c) (hncp2 : ∀ c ∈ nc2, PlainComp c)
    (hpre1 : ¬ nc1 <+: nc2) (hpre2 : ¬ nc2 <+: nc1)
    (hm1 : nc1.head? ≠ some ".plugbackup_meta".data)
    (hm2 : nc2.head? ≠ some ".plugbackup_meta".data)
    (hrc1 : rc1 ≠ []) (hrc2 : rc2 ≠ [])
    (hrcp1 : ∀ c ∈ rc1, PlainComp c) (hrcp2 : ∀ c ∈ rc2, PlainComp c) :
    ∀ p ∈ writtenPaths env opt1 (relString rc1) ts1,
      p ∉ writtenPaths env opt2 (relString rc2) ts2 := by
  obtain ⟨cs, hcs, hd1⟩ := absolutePath_normal env.cwd opt1.dstDir hcwd
  have hd2 : absolutePath env.cwd opt2.dstDir = absString cs := hdst ▸ hd1
  intro p hp1 hp2
  obtain ⟨A1, T1, hA1, e1⟩ := written_form env opt1 cs nc1 rc1 ts1 hcs hd1 hns1 hnc1 hncp1 hrc1
    hrcp1 p hp1
  obtain ⟨A2, T2, hA2, e2⟩ := written_form env opt2 cs nc2 rc2 ts2 hcs hd2 hns2 hnc2 hncp2 hrc2
    hrcp2 p hp2
  have e : joinTail A1 T1 = joinTail A2 T2 :=
    joinTail_cancel cs _ _ (List.cons.inj (e1.symm.trans e2)).2
  rcases joinTail_prefix A1 A2 T1 T2 (kinds_slashfree nc1 A1 hncp1 hA1)
    (kinds_slashfree nc2 A2 hncp2 hA2) e with h | h
  · exact kinds_not_prefix nc1 nc2 A1 A2 hnc1 hpre1 hm1 hm2 hA1 hA2 h
  · exact kinds_not_prefix nc2 nc1 A2 A1 hnc2 hpre2 hm2 hm1 hA2 hA1 h

theorem namespaces_write_disjoint_paths_witness :
    isAbsolutePath Demo.env.cwd = true ∧
    absolutePath Demo.env.cwd Demo.opt.dstDir = absolutePath Demo.env.cwd Demo.optOther.dstDir ∧
    nsPrefix Demo.env Demo.opt = relString ["ns".data] ∧
    nsPrefix Demo.env Demo.optOther = relString ["other".data] ∧
    ∀ p ∈ writtenPaths Demo.env Demo.opt (relString ["sub".data, "a.txt".data]) "20250101-000000",
      p ∉ writtenPaths Demo.env Demo.optOther (relString ["sub".data, "a.txt".data])
        "20250101-000000" :=
  ⟨by decide, by decide, by decide, by decide,
    namespaces_write_disjoint_paths Demo.env Demo.opt Demo.optOther (by decide) (by decide)
      ["ns".data] ["other".data] ["sub".data, "a.txt".data] ["sub".data, "a.txt".data]
      "20250101-000000" "20250101-000000" (by decide) (by decide) (by decide) (by decide)
      (by decide) (by decide) (by decide) (by decide) (by decide) (by decide) (by decide)
      (by decide) (by decide) (by decide)⟩

/-! ### The retention sweep -/

theorem lastIndexOf_none_of_not_mem (x y : Char) : ∀ (l : List Char), x ∉ l →
    lastIndexOf [x, y] l = none := by
  intro l
  induction l with
  | nil => intro _; rfl
  | cons c cs ih =>
    intro h
    have hc : c ≠ x := fun e => h (e ▸ List.mem_cons_self _ _)
    unfold lastIndexOf
    rw [ih (fun e => h (List.mem_cons_of_mem _ e))]
    simp only [List.isPrefixOf]
    have hb : (x == c) = false := by simpa using Ne.symm hc
    simp [hb]

theorem lastIndexOf_append (m : List Char) : ∀ (a l : List Char) (i : Nat),
    lastIndexOf m l = some i → lastIndexOf m (a ++ l) = some (a.length + i) := by
  intro a
  induction a with
  | nil => intro l i h; simpa using h
  | cons c cs ih =>
    intro l i h
    show lastIndexOf m (c :: (cs ++ l)) = _
    unfold lastIndexOf
    rw [ih l i h]
    simp only [List.length_cons]
    congr 1
    omega

/-- The text after the last marker of `base.xTS` is `TS`, when `TS` holds no `.`. -/
theorem drop_lastIndexOf_marker (x : Char) (base ts : List Char) (hx : x ≠ '.')
    (h : '.' ∉ ts) :
    ∃ pos, lastIndexOf ['.', x] (base ++ '.' :: x :: ts) = some pos ∧
      (base ++ '.' :: x :: ts).drop (pos + 2) = ts := by
  have h0 : lastIndexOf ['.', x] ('.' :: x :: ts) = some 0 := by
    unfold lastIndexOf
    rw [lastIndexOf_none_of_not_mem '.' x (x :: ts)
      (by
        intro e
        rcases List.mem_cons.mp e with e1 | e1
        · exact hx e1.symm
        · exact h e1)]
    simp [List.isPrefixOf]
  refine ⟨base.length + 0, lastIndexOf_append _ base _ 0 h0, ?_⟩
  rw [show base.length + 0 + 2 = base.length + 2 from rfl, ← List.drop_drop]
  simp

theorem endsWithCI_append_self (p s : String) : endsWithCI (p ++ s) s = true := by
  unfold endsWithCI
  simp [List.isPrefixOf_iff_prefix]

theorem FS.get_isSome_iff (fs : FS) (p : String) :
    fs.get p ≠ none ↔ p ∈ fs.files.map (fun e => e.1) := by
  unfold FS.get
  constructor
  · intro h
    cases hf : fs.files.find? (fun e => decide (e.1 = p)) with
    | none => rw [hf] at h; exact absurd rfl h
    | some e =>
      have h1 := List.find?_some hf
      have h2 := List.mem_of_find?_eq_some hf
      exact List.mem_map.mpr ⟨e, h2, by simpa using h1⟩
  · intro h
    obtain ⟨e, he, hp⟩ := List.mem_map.mp h
    intro hn
    rw [Option.map_eq_none', List.find?_eq_none] at hn
    exact hn e he (by simpa using hp)

theorem FS.mem_filesUnder (fs : FS) (root p : String) :
    p ∈ fs.filesUnder root ↔
      fs.get p ≠ none ∧ startsWith p (root ++ "/") = true ∧ hiddenBelow root p = false := by
  unfold FS.filesUnder
  rw [List.mem_dedup, List.mem_filter, FS.get_isSome_iff, Bool.and_eq_true, Bool.not_eq_true']

/-- A removal the environment lets through: the file is gone, the others are as before. -/
theorem qRemove_get (env : Env) (hrm : ∀ n p, env.ioOk n (IoOp.remove p) = true) (p : String)
    (w : World) : ∃ b w1, qRemove env p w = some (b, w1) ∧
      ∀ q, w1.fs.get q = if q = p then none else w.fs.get q := by
  refine ⟨_, _, qRemove_apply env p w, ?_⟩
  intro q
  rw [hrm, Bool.and_true]
  dsimp only
  by_cases hf : w.fs.isFile p = true
  · rw [if_pos hf]
    by_cases hq : q = p
    · rw [if_pos hq, hq]; exact FS.get_erase_self _ _
    · rw [if_neg hq]; exact FS.get_erase_ne _ hq
  · rw [if_neg hf]
    by_cases hq : q = p
    · rw [if_pos hq, hq]
      unfold FS.isFile at hf
      cases hg : w.fs.get p with
      | none => rfl
      | some d => rw [hg] at hf; exact absurd rfl hf
    · rw [if_neg hq]

section
variable (env : Env) (opt : Options)

theorem sweepDirLoop_skip (cutoff : Int) (marker file : String) (more : List String) (w : World)
    (h : expired env cutoff marker file = false) :
    sweepDirLoop env cutoff marker (file :: more) w = sweepDirLoop env cutoff marker more w := by
  unfold expired stampText at h
  rw [sweepDirLoop]
  by_cases hj : endsWithCI file ".json" = true
  · rw [if_pos hj]
  · rw [if_neg hj]
    simp only [hj, Bool.not_false, Bool.true_and] at h
    cases hl : lastIndexOf marker.data (fileName file).data with
    | none => rfl
    | some pos =>
      rw [hl] at h
      dsimp only at h ⊢
      cases hp : env.parseTs ⟨(fileName file).data.drop (pos + 2)⟩ with
      | none => rfl
      | some t =>
        rw [hp] at h
        dsimp only at h ⊢
        have ht : ¬ t < cutoff := by simpa using h
        rw [ite_apply_M, if_neg ht]
        rfl

theorem sweepDirLoop_take (cutoff : Int) (marker file : String) (more : List String) (w : World)
    (h : expired env cutoff marker file = true) :
    sweepDirLoop env cutoff marker (file :: more) w =
      (do let _ ← qRemove env file
          let _ ← qRemove env (file ++ ".json")
          sweepDirLoop env cutoff marker more) w := by
  unfold expired stampText at h
  rw [sweepDirLoop]
  by_cases hj : endsWithCI file ".json" = true
  · rw [hj] at h; simp at h
  · rw [if_neg hj]
    simp only [hj, Bool.not_false, Bool.true_and] at h
    cases hl : lastIndexOf marker.data (fileName file).data with
    | none => rw [hl] at h; simp at h
    | some pos =>
      rw [hl] at h
      dsimp only at h ⊢
      cases hp : env.parseTs ⟨(fileName file).data.drop (pos + 2)⟩ with
      | none => rw [hp] at h; simp at h
      | some t =>
        rw [hp] at h
        dsimp only at h ⊢
        have ht : t < cutoff := by simpa using h
        simp only [bind_apply, ite_apply_M, if_pos ht, pure_apply]

/-- The sweep of a listing ends; the expired payloads of the listing and their sidecars are
gone and every other file is as before. -/
theorem sweepDirLoop_total (hrm : ∀ n p, env.ioOk n (IoOp.remove p) = true) (cutoff : Int)
    (marker : String) : ∀ (l : List String) (w : World),
    ∃ w1, sweepDirLoop env cutoff marker l w = some ((), w1) ∧
      ∀ q, w1.fs.get q = if q ∈ sweptPaths env cutoff marker l then none else w.fs.get q := by
  intro l
  induction l with
  | nil =>
    intro w
    exact ⟨w, rfl, fun q => by simp [sweptPaths]⟩
  | cons file more ih =>
    intro w
    cases he : expired env cutoff marker file with
    | false =>
      obtain ⟨w1, h1, hg⟩ := ih w
      refine ⟨w1, by rw [sweepDirLoop_skip env cutoff marker file more w he]; exact h1, ?_⟩
      intro q
      rw [hg q]
      simp [sweptPaths, he]
    | true =>
      obtain ⟨b1, wa, ha, hga⟩ := qRemove_get env hrm file w
      obtain ⟨b2, wb, hb, hgb⟩ := qRemove_get env hrm (file ++ ".json") wa
      obtain ⟨w1, h1, hg⟩ := ih wb
      refine ⟨w1, ?_, ?_⟩
      · rw [sweepDirLoop_take env cutoff marker file more w he, bind_apply, ha]
        dsimp only
        rw [bind_apply, hb]
        exact h1
      · intro q
        rw [hg q, hgb q, hga q]
        simp only [sweptPaths, he, if_true, List.mem_cons]
        by_cases h1 : q = file
        · simp [h1]
        · by_cases h2 : q = file ++ ".json"
          · simp [h2]
          · simp [h1, h2]

theorem sweepDir_total (hrm : ∀ n p, env.ioOk n (IoOp.remove p) = true) (cutoff : Int)
    (root marker : String) (w : World) :
    ∃ w1, sweepDir env opt cutoff root marker w = some ((), w1) ∧
      ∀ q, w1.fs.get q =
        if q ∈ sweptPaths env cutoff marker
            (w.fs.filesUnder (absoluteFilePath env.cwd root (nsPrefix env opt)))
        then none else w.fs.get q := by
  unfold sweepDir
  rw [bind_apply, readFs_apply]
  dsimp only
  cases hd : w.fs.dirExists (absoluteFilePath env.cwd root (nsPrefix env opt)) with
  | false =>
    refine ⟨w, by simp, ?_⟩
    intro q
    rw [filesUnder_nil_of_no_dir _ _ hd]
    simp [sweptPaths]
  | true =>
    obtain ⟨w1, h1, hg⟩ := sweepDirLoop_total env hrm cutoff marker
      (w.fs.filesUnder (absoluteFilePath env.cwd root (nsPrefix env opt))) w
    refine ⟨w1, ?_, hg⟩
    simp only [Bool.not_true, Bool.false_eq_true, if_false, bind_apply, readFs_apply]
    exact h1

theorem mem_sweptPaths (cutoff : Int) (marker : String) (q : String) : ∀ (l : List String),
    q ∈ sweptPaths env cutoff marker l ↔
      ∃ p ∈ l, expired env cutoff marker p = true ∧ (q = p ∨ q = p ++ ".json") := by
  intro l
  induction l with
  | nil => simp [sweptPaths]
  | cons x t ih =>
    unfold sweptPaths
    cases he : expired env cutoff marker x with
    | false =>
      simp only [Bool.false_eq_true, if_false, ih, List.mem_cons]
      constructor
      · rintro ⟨p, hp, hx, hq⟩
        exact ⟨p, Or.inr hp, hx, hq⟩
      · rintro ⟨p, hp | hp, hx, hq⟩
        · rw [hp, he] at hx; cases hx
        · exact ⟨p, hp, hx, hq⟩
    | true =>
      simp only [if_true, List.mem_cons, ih]
      constructor
      · rintro (h | h | ⟨p, hp, hx, hq⟩)
        · exact ⟨x, Or.inl rfl, he, Or.inl h⟩
        · exact ⟨x, Or.inl rfl, he, Or.inr h⟩
        · exact ⟨p, Or.inr hp, hx, hq⟩
      · rintro ⟨p, hp | hp, hx, hq⟩
        · rw [hp] at hq
          rcases hq with h | h
          · exact Or.inl h
          · exact Or.inr (Or.inl h)
        · exact Or.inr (Or.inr ⟨p, hp, hx, hq⟩)

theorem expired_not_json {cutoff : Int} {marker p : String}
    (h : expired env cutoff marker p = true) : endsWithCI p ".json" = false := by
  unfold expired at h
  cases hj : endsWithCI p ".json" with
  | false => rfl
  | true => rw [hj] at h; simp at h

end

section
variable (env : Env) (opt : Options)

/-- The two sweeps of `sweepRetention` end; the expired payloads and their sidecars are gone and
every other file is as before. -/
theorem sweeps_get (hrm : ∀ n p, env.ioOk n (IoOp.remove p) = true) (cutoff : Int) (wb : World) :
    ∃ w1, (do sweepDir env opt cutoff (versionsRoot env opt) ".v"
              sweepDir env opt cutoff (deletedRoot env opt) ".d") wb = some ((), w1) ∧
      (∀ p, ExpiredIn env opt wb.fs cutoff p →
        w1.fs.get p = none ∧ w1.fs.get (p ++ ".json") = none) ∧
      (∀ q, (∀ p, ExpiredIn env opt wb.fs cutoff p → q ≠ p ∧ q ≠ p ++ ".json") →
        w1.fs.get q = wb.fs.get q) := by
  obtain ⟨w2, h2, hg2⟩ := sweepDir_total env opt hrm cutoff (versionsRoot env opt) ".v" wb
  obtain ⟨w3, h3, hg3⟩ := sweepDir_total env opt hrm cutoff (deletedRoot env opt) ".d" w2
  have hsub : ∀ p root, p ∈ w2.fs.filesUnder root → p ∈ wb.fs.filesUnder root := by
    intro p root hp
    rw [FS.mem_filesUnder] at hp ⊢
    refine ⟨?_, hp.2⟩
    intro hn
    apply hp.1
    rw [hg2 p, hn]
    simp
  refine ⟨w3, ?_, ?_, ?_⟩
  · rw [bind_apply, h2]
    exact h3
  · intro p hp
    rcases hp with ⟨hin, hex⟩ | ⟨hin, hex⟩
    · replace hin := (FS.mem_filesUnder _ _ _).mpr hin
      have m1 : p ∈ sweptPaths env cutoff ".v"
          (wb.fs.filesUnder (absoluteFilePath env.cwd (versionsRoot env opt) (nsPrefix env opt))) :=
        (mem_sweptPaths env cutoff ".v" p _).mpr ⟨p, hin, hex, Or.inl rfl⟩
      have m2 : p ++ ".json" ∈ sweptPaths env cutoff ".v"
          (wb.fs.filesUnder (absoluteFilePath env.cwd (versionsRoot env opt) (nsPrefix env opt))) :=
        (mem_sweptPaths env cutoff ".v" _ _).mpr ⟨p, hin, hex, Or.inr rfl⟩
      constructor
      · rw [hg3 p, hg2 p, if_pos m1]; simp
      · rw [hg3 (p ++ ".json"), hg2 (p ++ ".json"), if_pos m2]; simp
    · replace hin := (FS.mem_filesUnder _ _ _).mpr hin
      by_cases hgone : p ∈ sweptPaths env cutoff ".v"
          (wb.fs.filesUnder (absoluteFilePath env.cwd (versionsRoot env opt) (nsPrefix env opt)))
      · obtain ⟨p1, hin1, hex1, hq⟩ := (mem_sweptPaths env cutoff ".v" p _).mp hgone
        rcases hq with e | e
        · have m2 : p ++ ".json" ∈ sweptPaths env cutoff ".v"
              (wb.fs.filesUnder
                (absoluteFilePath env.cwd (versionsRoot env opt) (nsPrefix env opt))) :=
            (mem_sweptPaths env cutoff ".v" _ _).mpr ⟨p1, hin1, hex1, Or.inr (by rw [e])⟩
          constructor
          · rw [hg3 p, hg2 p, if_pos hgone]; simp
          · rw [hg3 (p ++ ".json"), hg2 (p ++ ".json"), if_pos m2]; simp
        · exfalso
          have := expired_not_json env hex
          rw [e, endsWithCI_append_self] at this
          cases this
      · have hin2 : p ∈ w2.fs.filesUnder
            (absoluteFilePath env.cwd (deletedRoot env opt) (nsPrefix env opt)) := by
          rw [FS.mem_filesUnder] at hin ⊢
          refine ⟨?_, hin.2⟩
          rw [hg2 p, if_neg hgone]
          exact hin.1
        have m1 : p ∈ sweptPaths env cutoff ".d"
            (w2.fs.filesUnder (absoluteFilePath env.cwd (deletedRoot env opt) (nsPrefix env opt))) :=
          (mem_sweptPaths env cutoff ".d" p _).mpr ⟨p, hin2, hex, Or.inl rfl⟩
        have m2 : p ++ ".json" ∈ sweptPaths env cutoff ".d"
            (w2.fs.filesUnder (absoluteFilePath env.cwd (deletedRoot env opt) (nsPrefix env opt))) :=
          (mem_sweptPaths env cutoff ".d" _ _).mpr ⟨p, hin2, hex, Or.inr rfl⟩
        constructor
        · rw [hg3 p, if_pos m1]
        · rw [hg3 (p ++ ".json"), if_pos m2]
  · intro q hq
    have n2 : q ∉ sweptPaths env cutoff ".d"
        (w2.fs.filesUnder (absoluteFilePath env.cwd (deletedRoot env opt) (nsPrefix env opt))) := by
      intro hm
      obtain ⟨p, hin, hex, e⟩ := (mem_sweptPaths env cutoff ".d" q _).mp hm
      have := hq p (Or.inr ⟨(FS.mem_filesUnder _ _ _).mp (hsub p _ hin), hex⟩)
      rcases e with e | e
      · exact this.1 e
      · exact this.2 e
    have n1 : q ∉ sweptPaths env cutoff ".v"
        (wb.fs.filesUnder (absoluteFilePath env.cwd (versionsRoot env opt) (nsPrefix env opt))) := by
      intro hm
      obtain ⟨p, hin, hex, e⟩ := (mem_sweptPaths env cutoff ".v" q _).mp hm
      have := hq p (Or.inl ⟨(FS.mem_filesUnder _ _ _).mp hin, hex⟩)
      rcases e with e | e
      · exact this.1 e
      · exact this.2 e
    rw [hg3 q, if_neg n2, hg2 q, if_neg n1]

theorem sameFs_readyOrWait (fuel : Nat) (hint : String) :
    Steps (fun w w1 => w1.fs = w.fs) (readyOrWait env fuel hint) := by
  have HT := sameFs_tapeBlind
  have hwait : ∀ fuel hint, Steps (fun w w1 => w1.fs = w.fs)
      (waitUntilDestReadyOrStopped env fuel hint) :=
    steps_wait_of env sameFs_tapeBlind (fun _ w a w1 h => by cases h; rfl)
      (fun _ w a w1 h => by cases h; rfl) (fun w a w1 h => by cases h; rfl)
  unfold readyOrWait
  repeat' first
    | with_reducible exact steps_isDestReady env HT
    | with_reducible exact hwait _ _
    | with_reducible exact steps_loadStop env HT
    | with_reducible exact steps_pure HT _
    | with_reducible apply steps_bind HT
    | with_reducible apply steps_ite
    | with_reducible intro _

/-- The stamp read off the name of a version or a tombstone is the timestamp it was made with. -/
theorem stampText_stamped (root ns dir name ts : String) (x : Char) (hx : x ≠ '.')
    (hxs : x ≠ '/') (hn : '/' ∉ name.data) (h1 : '.' ∉ ts.data) (h2 : '/' ∉ ts.data) :
    stampText ⟨['.', x]⟩
      (absoluteFilePath env.cwd (absoluteFilePath env.cwd root (ns ++ "/" ++ dir))
        (name ++ ⟨['.', x]⟩ ++ ts)) = some ts := by
  unfold stampText fileName
  rw [afterLastSlash_absoluteFilePath _ _ _ (by simp)]
  rw [afterLastSlash_of_no_slash _ (by
    simp only [String.data_append, List.mem_append, List.mem_cons, List.not_mem_nil, or_false,
      not_or]
    exact ⟨⟨hn, by decide, fun e => hxs e.symm⟩, h2⟩)]
  obtain ⟨pos, hp, hd⟩ := drop_lastIndexOf_marker x name.data ts.data hx h1
  have e : (name ++ (⟨['.', x]⟩ : String) ++ ts).data = name.data ++ '.' :: x :: ts.data := by
    simp
  rw [e, hp]
  dsimp only
  rw [hd]

/-- C17 as amended: with `retentionDays ≤ 0` the sweep returns at once and changes nothing.  With
`retentionDays = d > 0`, removals that succeed and a device check that lets the sweep through
(at once, or after a wait that no stop request ended), the sweep ends; with `now` the clock
reading it takes and `cutoff = now − d` days, every visible expired payload, that is every file
below `versions/<ns>` (marker `.v`) or `deleted/<ns>` (marker `.d`) with no component below that
directory starting with a dot, that is no `.json` and whose text after the last marker of its
name parses to a time earlier than `cutoff`, is gone together with its `.json` sidecar, and every
file that is neither a visible expired payload nor the sidecar of one is as before: so is every
payload that is not older than the cutoff, whose text does not parse, that has no marker, or
that is hidden.  The text after the last marker in the name of `versionFilePath rel ts` and
of `deletedFilePath rel ts` is `ts`, for every `rel` and every timestamp `ts` (a text without
`.` and `/`). -/
theorem sweepRetention_removes_expired (fuel : Nat) (w : World) :
    (opt.retentionDays ≤ 0 → sweepRetention env opt fuel w = some ((), w)) ∧
    (0 < opt.retentionDays → (∀ n p, env.ioOk n (IoOp.remove p) = true) →
      ∀ wa, readyOrWait env fuel "清理旧版本" w = some (false, wa) →
      ∃ w1, sweepRetention env opt fuel w = some ((), w1) ∧
        (∀ p, ExpiredIn env opt w.fs (env.nowMs wa.clockN - opt.retentionDays * 86400000) p →
          w1.fs.get p = none ∧ w1.fs.get (p ++ ".json") = none) ∧
        (∀ q, (∀ p, ExpiredIn env opt w.fs (env.nowMs wa.clockN - opt.retentionDays * 86400000) p →
            q ≠ p ∧ q ≠ p ++ ".json") → w1.fs.get q = w.fs.get q) ∧
        (∀ q, endsWithCI q ".json" = false →
          ¬ ExpiredIn env opt w.fs (env.nowMs wa.clockN - opt.retentionDays * 86400000) q →
          w1.fs.get q = w.fs.get q)) ∧
    (∀ rel ts : String, '.' ∉ ts.data → '/' ∉ ts.data →
      stampText ".v" (versionFilePath env opt rel ts) = some ts ∧
      stampText ".d" (deletedFilePath env opt rel ts) = some ts) := by
  refine ⟨?_, ?_, ?_⟩
  · intro hd
    unfold sweepRetention
    have hmax : max 0 opt.retentionDays = 0 := max_eq_left hd
    simp only [hmax, if_true, pure_apply]
  · intro hd hrm wa hgate
    have hmax : max 0 opt.retentionDays = opt.retentionDays := max_eq_right (le_of_lt hd)
    have hne : ¬ opt.retentionDays = 0 := ne_of_gt hd
    have hfa : wa.fs = w.fs := sameFs_readyOrWait env fuel _ _ _ _ hgate
    obtain ⟨w1, h1, hgone, hkeep⟩ := sweeps_get env opt hrm
      (env.nowMs wa.clockN - opt.retentionDays * 86400000) { wa with clockN := wa.clockN + 1 }
    have hfb : ({ wa with clockN := wa.clockN + 1 } : World).fs = w.fs := hfa
    rw [hfb] at hgone hkeep
    refine ⟨w1, ?_, hgone, hkeep, ?_⟩
    · unfold sweepRetention
      simp only [hmax, hne, if_false]
      rw [bind_apply, hgate]
      simp only [Bool.false_eq_true, if_false]
      rw [bind_apply, currentMs_apply]
      exact h1
    · intro q hj hq
      apply hkeep
      intro p hp
      constructor
      · intro e
        exact hq (e ▸ hp)
      · intro e
        rw [e, endsWithCI_append_self] at hj
        cases hj
  · intro rel ts h1 h2
    constructor
    · exact stampText_stamped env _ _ _ _ ts 'v' (by decide) (by decide)
        (no_slash_afterLastSlash _) h1 h2
    · exact stampText_stamped env _ _ _ _ ts 'd' (by decide) (by decide)
        (no_slash_afterLastSlash _) h1 h2

end

/-- The sweep of the vault of the scenario, on 2025-01-11 with seven days of retention; the
version and the tombstone of 2025-01-01 are visible expired payloads. -/
theorem sweepRetention_removes_expired_witness :
    0 < Demo.opt.retentionDays ∧
    (∃ w1, sweepRetention Demo.envSweep Demo.opt 5 (Demo.world Demo.filesVault) = some ((), w1) ∧
      (∀ p, ExpiredIn Demo.envSweep Demo.opt (Demo.world Demo.filesVault).fs
          (1736553600000 - 7 * 86400000) p →
        w1.fs.get p = none ∧ w1.fs.get (p ++ ".json") = none) ∧
      (∀ q, (∀ p, ExpiredIn Demo.envSweep Demo.opt (Demo.world Demo.filesVault).fs
          (1736553600000 - 7 * 86400000) p → q ≠ p ∧ q ≠ p ++ ".json") →
        w1.fs.get q = (Demo.world Demo.filesVault).fs.get q) ∧
      (∀ q, endsWithCI q ".json" = false →
        ¬ ExpiredIn Demo.envSweep Demo.opt (Demo.world Demo.filesVault).fs
          (1736553600000 - 7 * 86400000) q →
        w1.fs.get q = (Demo.world Demo.filesVault).fs.get q)) ∧
    ExpiredIn Demo.envSweep Demo.opt (Demo.world Demo.filesVault).fs
      (1736553600000 - 7 * 86400000) "/dst/.plugbackup_meta/versions/ns/a.txt.v20250101-000000" ∧
    ExpiredIn Demo.envSweep Demo.opt (Demo.world Demo.filesVault).fs
      (1736553600000 - 7 * 86400000) "/dst/.plugbackup_meta/deleted/ns/c.txt.d20250101-000000" :=
  ⟨by decide,
    (sweepRetention_removes_expired Demo.envSweep Demo.opt 5 (Demo.world Demo.filesVault)).2.1
      (by decide) (fun _ _ => rfl) _
      (readyOrWait_ready Demo.envSweep 5 "清理旧版本" (Demo.world Demo.filesVault) (fun _ => rfl)),
    Or.inl (by decide!), Or.inr (by decide!)⟩

/-! ### The namespace a worker derives -/

theorem prefix_unique_of_sep (s : Char) : ∀ (a b x y : List Char), s ∉ a → s ∉ b →
    a ++ s :: x = b ++ s :: y → a = b ∧ x = y := by
  intro a
  induction a with
  | nil =>
    intro b x y _ hb h
    cases b with
    | nil => exact ⟨rfl, by simpa using h⟩
    | cons c cs =>
      exfalso
      have : s = c := by simpa using (List.cons.inj h).1
      exact hb (this ▸ List.mem_cons_self _ _)
  | cons c cs ih =>
    intro b x y ha hb h
    cases b with
    | nil =>
      exfalso
      have : c = s := by simpa using (List.cons.inj h).1
      exact ha (this ▸ List.mem_cons_self _ _)
    | cons d ds =>
      obtain ⟨h1, h2⟩ := List.cons.inj h
      obtain ⟨e1, e2⟩ := ih ds x y (fun e => ha (List.mem_cons_of_mem _ e))
        (fun e => hb (List.mem_cons_of_mem _ e)) h2
      exact ⟨by rw [h1, e1], e2⟩

theorem no_slash_completeBaseName (p : String) : '/' ∉ (completeBaseName p).data := by
  unfold completeBaseName
  dsimp only
  split
  · intro h
    have h1 := List.mem_of_mem_dropLast h
    have h2 := List.mem_reverse.mp h1
    have h3 := (List.dropWhile_sublist _).subset h2
    exact no_slash_afterLastSlash _ (List.mem_reverse.mp h3)
  · exact no_slash_afterLastSlash _

/-- The namespace a worker derives from its source directory, when the digest is written in
lowercase hex: one plain component, which is not the name of the vault. -/
theorem nsPrefix_derived (env : Env) (opt : Options) (hn : opt.nsName = "")
    (hhex : ∀ s ch, ch ∈ (env.sha1Hex s).data → ch ∈ "0123456789abcdef".data) :
    ∃ c, PlainComp c ∧ c ≠ ".plugbackup_meta".data ∧ nsPrefix env opt = relString [c] := by
  have hh : ∀ ch ∈ (shortHash env (absolutePath env.cwd opt.srcDir)).data,
      ch ∈ "0123456789abcdef".data := by
    intro ch hch
    exact hhex _ ch (List.mem_of_mem_take hch)
  refine ⟨(completeBaseName opt.srcDir).data ++
    '_' :: (shortHash env (absolutePath env.cwd opt.srcDir)).data, ⟨?_, ?_, ?_, ?_⟩, ?_, ?_⟩
  · simp
  · intro h
    rcases List.mem_append.mp h with e | e
    · exact no_slash_completeBaseName _ e
    · rcases List.mem_cons.mp e with e1 | e1
      · exact absurd e1 (by decide)
      · exact absurd (hh _ e1) (by decide)
  · intro h
    have : '_' ∈ ['.'] := by rw [← h]; simp
    exact absurd this (by decide)
  · intro h
    have : '_' ∈ ['.', '.'] := by rw [← h]; simp
    exact absurd this (by decide)
  · intro h
    have hr := congrArg List.reverse h
    rw [List.reverse_append, List.reverse_cons, List.append_assoc] at hr
    have hr2 : (shortHash env (absolutePath env.cwd opt.srcDir)).data.reverse ++
        '_' :: (completeBaseName opt.srcDir).data.reverse =
        "atem".data ++ '_' :: "pukcabgulp.".data := by
      rw [show ("atem".data ++ '_' :: "pukcabgulp.".data) = ".plugbackup_meta".data.reverse from by
        decide]
      rw [← hr]
      simp
    have hns : '_' ∉ (shortHash env (absolutePath env.cwd opt.srcDir)).data.reverse := by
      intro e
      exact absurd (hh _ (List.mem_reverse.mp e)) (by decide)
    obtain ⟨e1, _⟩ := prefix_unique_of_sep '_' _ _ _ _ hns (by decide) hr2
    have : 'm' ∈ (shortHash env (absolutePath env.cwd opt.srcDir)).data := by
      apply List.mem_reverse.mp
      rw [e1]
      decide
    exact absurd (hh _ this) (by decide)
  · unfold nsPrefix nsPrefixCached
    simp only [hn, ne_eq, not_true_eq_false, if_false]
    apply String.ext
    simp [relString, joinSlash]

/-! ### The sidecar and its reader -/

section
variable (env : Env) (opt : Options)

theorem srcAbsPath_ne_empty (hcwd : isAbsolutePath env.cwd = true) (rel : String) :
    srcAbsPath env opt rel ≠ "" := by
  unfold srcAbsPath absoluteFilePath
  obtain ⟨cs, _, hd⟩ := absolutePath_normal env.cwd opt.srcDir hcwd
  have key : ∀ s : String, s.data ≠ [] → s ≠ "" := by
    intro s hs e
    rw [e] at hs
    exact hs rfl
  by_cases ha : isAbsolutePath rel = true
  · rw [if_pos ha]
    apply key
    intro e
    simp [isAbsolutePath, e] at ha
  · rw [if_neg ha]
    dsimp only
    rw [hd]
    split
    · exact key _ (by simp [absString])
    · split
      · exact key _ (by simp [absString])
      · exact key _ (by simp [absString])

/-- C21 (amended): `writeMetaJson` returns `payloadPath + ".json"`, and the object it builds has
exactly the keys `kind`, `ts`, `srcRoot`, `dstRoot`, `namespace`, `rel`, `origAbs`, `payload`,
with the arguments, the two roots of the options, `nsPrefix()`, and `origAbs` the path
`QDir(srcRoot).absoluteFilePath(rel)` (the string `srcRoot/rel` for an absolute normalized source
root other than `/` and a normalized relative `rel`).  When no directory stands at the sidecar path,
its opens and its write succeed and the JSON codec round-trips, the sidecar holds the serialised
object and `readOrigAbsFromMeta` on it succeeds and returns that `origAbs`, `rel` and `srcRoot`. -/
theorem writeMetaJson_roundtrip (hcwd : isAbsolutePath env.cwd = true)
    (payloadPath rel kind ts : String) (w : World) :
    ∃ w1, writeMetaJson env opt payloadPath rel kind ts w = some (payloadPath ++ ".json", w1) ∧
      (metaObject env opt payloadPath rel kind ts).map Prod.fst =
        ["kind", "ts", "srcRoot", "dstRoot", "namespace", "rel", "origAbs", "payload"] ∧
      (metaObject env opt payloadPath rel kind ts).map Prod.snd =
        [kind, ts, opt.srcDir, opt.dstDir, nsPrefix env opt, rel, srcAbsPath env opt rel,
          payloadPath] ∧
      (∀ cs rc, cs ≠ [] → rc ≠ [] → (∀ c ∈ cs, PlainComp c) → (∀ c ∈ rc, PlainComp c) →
        opt.srcDir = absString cs → rel = relString rc →
        srcAbsPath env opt rel = opt.srcDir ++ "/" ++ rel) ∧
      (w.fs.dirExists (payloadPath ++ ".json") = false →
        (∀ n, env.ioOk n (IoOp.openWrite (payloadPath ++ ".json")) = true ∧
              env.ioOk n (IoOp.write (payloadPath ++ ".json")) = true ∧
              env.ioOk n (IoOp.openRead (payloadPath ++ ".json")) = true) →
        (∀ o, env.fromJson (env.toJson o) = some o) →
        (∃ d, w1.fs.get (payloadPath ++ ".json") = some d ∧
          d.content = env.toJson (metaObject env opt payloadPath rel kind ts)) ∧
        ∃ w2, readOrigAbsFromMeta env (payloadPath ++ ".json") w1 =
          some (some (srcAbsPath env opt rel, rel, opt.srcDir), w2)) := by
  obtain ⟨fs1, i, c, hrun, _, hside⟩ := writeMetaJson_spec env opt payloadPath rel kind ts w
  refine ⟨_, hrun, rfl, rfl, ?_, ?_⟩
  · intro cs rc hcs hrc hcsp hrcp hsrc hrel
    unfold srcAbsPath
    rw [hrel, absoluteFilePath_comps env.cwd opt.srcDir cs rc hcsp
      (by rw [hsrc]; exact absolutePath_absString _ _ hcsp) hrc (plain_weak hrcp),
      absString_append cs rc hcs hrc, hsrc]
  · intro hnodir hio hcodec
    obtain ⟨d, hd, hcont⟩ := hside hnodir (fun n => ⟨(hio n).1, (hio n).2.1⟩)
    refine ⟨⟨d, hd, hcont⟩, ?_⟩
    unfold readOrigAbsFromMeta
    rw [bind_apply, qOpenRead_apply]
    dsimp only
    rw [hd]
    dsimp only
    rw [if_pos (hio _).2.2]
    dsimp only
    rw [hcont, hcodec]
    dsimp only
    rw [jsonString_origAbs, ite_apply_M, if_neg (srcAbsPath_ne_empty env opt hcwd rel)]
    exact ⟨_, rfl⟩

end

/-- C21, witness: the sidecar of a payload in the destination of the scenario, with the toy
codec. -/
theorem writeMetaJson_roundtrip_witness :
    isAbsolutePath Demo.env.cwd = true ∧
    (Demo.world Demo.filesChanged).fs.dirExists ("/dst/x.v1" ++ ".json") = false ∧
    ∃ w1, writeMetaJson Demo.env Demo.opt "/dst/x.v1" "a.txt" "version" "20250101-000000"
        (Demo.world Demo.filesChanged) = some ("/dst/x.v1" ++ ".json", w1) ∧
      ∃ w2, readOrigAbsFromMeta Demo.env ("/dst/x.v1" ++ ".json") w1 =
        some (some (srcAbsPath Demo.env Demo.opt "a.txt", "a.txt", Demo.opt.srcDir), w2) :=
  ⟨by decide, by decide,
    match writeMetaJson_roundtrip Demo.env Demo.opt (by decide) "/dst/x.v1" "a.txt" "version"
        "20250101-000000" (Demo.world Demo.filesChanged) with
    | ⟨w1, h1, _, _, _, h5⟩ =>
      ⟨w1, h1, (h5 (by decide) (fun _ => ⟨rfl, rfl, rfl⟩) Demo.codec_roundtrip).2⟩⟩

/-! ### Verification after the copy -/

theorem backoff_succ (k : Nat) : backoff (k + 1) = nextDelay (backoff k) := by
  unfold backoff nextDelay
  rw [pow_succ]
  generalize (2 : Int) ^ k = x
  omega

theorem iterate_nextDelay (k : Nat) : ∀ i : Nat,
    List.iterate nextDelay (backoff i) k = (List.range k).map (fun j => backoff (i + j)) := by
  induction k with
  | zero => intro i; rfl
  | succ k ih =>
    intro i
    rw [List.iterate, ← backoff_succ, ih (i + 1), List.range_succ_eq_map, List.map_cons,
      List.map_map]
    congr 1
    apply List.map_congr_left
    intro j _
    show backoff (i + 1 + j) = backoff (i + (j + 1))
    congr 1
    omega

theorem backoff_bounds (k : Nat) : 0 < backoff k ∧ backoff k ≤ 30000 ∧ backoff k * 2 < 2 ^ 31 := by
  unfold backoff
  have h : (0 : Int) < 2 ^ k := by positivity
  generalize (2 : Int) ^ k = x at h
  refine ⟨?_, ?_, ?_⟩ <;> omega

section
variable (env : Env) (opt : Options)

/-- The digest of a file that does not exist or cannot be opened is empty. -/
theorem fileHashSha256_unreadable (p : String) (w : World)
    (h : w.fs.get p = none ∨ env.ioOk w.ioN (IoOp.openRead p) = false) :
    fileHashSha256 env p w = some ([], { w with ioN := w.ioN + 1 }) := by
  unfold fileHashSha256
  rw [bind_apply, qOpenRead_apply]
  rcases h with h | h
  · rw [h]; rfl
  · cases hg : w.fs.get p with
    | none => rfl
    | some fd =>
      dsimp only
      rw [h]
      rfl

theorem retryOutcome_nil (a : List Nat) : RetryOutcome a 0 [] false :=
  ⟨fun h => (by cases h), fun _ => ⟨rfl, fun x hx => (by cases hx)⟩⟩

theorem retryOutcome_hit (a b : List Nat) (n : Nat) (h : digestsMatch a b = true) :
    RetryOutcome a (n + 1) [b] true :=
  ⟨fun _ => ⟨[], b, rfl, h, fun x hx => (by cases hx)⟩, fun h => (by cases h)⟩

theorem retryOutcome_cons (a b : List Nat) (n : Nat) (bs : List (List Nat)) (r : Bool)
    (hb : digestsMatch a b = false) (h : RetryOutcome a n bs r) :
    RetryOutcome a (n + 1) (b :: bs) r := by
  constructor
  · intro hr
    obtain ⟨pre, x, e, hx, hpre⟩ := h.1 hr
    refine ⟨b :: pre, x, by rw [e]; rfl, hx, ?_⟩
    intro y hy
    rcases List.mem_cons.mp hy with e1 | e1
    · rw [e1]; exact hb
    · exact hpre y e1
  · intro hr
    obtain ⟨e, hall⟩ := h.2 hr
    refine ⟨by simp [e], ?_⟩
    intro y hy
    rcases List.mem_cons.mp hy with e1 | e1
    · rw [e1]; exact hb
    · exact hall y e1

/-- One retry of `verifyFile` on a ready volume: the sleep, the check, the digest `b` of the
destination, and then the comparison. -/
theorem verifyRetry_step (a : List Nat) (dst : String) (n : Nat) (delay : Int) (w : World)
    (hready : AlwaysReady env w.expectedDevice) :
    ∃ b wb, fileHashSha256 env dst (afterGate env (afterSleep delay w)) = some (b, wb) ∧
      wb.fs = w.fs ∧ wb.events = w.events ∧ wb.expectedDevice = w.expectedDevice ∧
      wb.sleeps = w.sleeps ++ [delay] ∧ wb.ioN = w.ioN + 1 ∧
      verifyRetry env a dst (n + 1) delay w =
        (if b ≠ [] ∧ a = b then (pure true : M Bool)
          else verifyRetry env a dst n (min (delay * 2) 30000)) wb := by
  obtain ⟨b, rd, hb⟩ := fileHashSha256_frame env dst
    { w with sleeps := w.sleeps ++ [delay], devN := w.devN + 1,
             gateLog := w.gateLog ++ [(env.dev w.devN, true)] }
  have hgate : isDestReadySameDevice env { w with sleeps := w.sleeps ++ [delay] } =
      some (true, { w with sleeps := w.sleeps ++ [delay], devN := w.devN + 1,
                           gateLog := w.gateLog ++ [(env.dev w.devN, true)] }) :=
    isDestReady_ready env { w with sleeps := w.sleeps ++ [delay] } hready
  refine ⟨b, _, hb, rfl, rfl, rfl, rfl, rfl, ?_⟩
  rw [verifyRetry, bind_apply, msleep_apply]
  dsimp only
  rw [bind_apply, hgate]
  dsimp only
  simp only [Bool.not_true, Bool.false_eq_true, if_false]
  rw [bind_apply, hb]

/-- The retry loop of `verifyFile` on a volume that stays ready: it ends, and with `bs` the
destination digests its calls of `fileHashSha256` returned, one per retry, it slept `delay`,
`nextDelay delay`, ... once before each, opened one file per retry and touched neither the files
nor the trace. -/
theorem verifyRetry_trace (a : List Nat) (dst : String) : ∀ (n : Nat) (delay : Int) (w : World),
    AlwaysReady env w.expectedDevice →
    ∃ bs r w1, verifyRetry env a dst n delay w = some (r, w1) ∧
      RetryRun env dst delay w bs w1 ∧
      bs.length ≤ n ∧ RetryOutcome a n bs r ∧
      w1.sleeps = w.sleeps ++ List.iterate nextDelay delay bs.length ∧
      w1.ioN = w.ioN + bs.length ∧ w1.fs = w.fs ∧ w1.events = w.events := by
  intro n
  induction n with
  | zero =>
    intro delay w _
    exact ⟨[], false, w, rfl, rfl, Nat.le_refl _, retryOutcome_nil a,
      by simp [List.iterate], rfl, rfl, rfl⟩
  | succ n ih =>
    intro delay w hready
    obtain ⟨b, wb, hb, hfs, hev, hexp, hsl, hio, hstep⟩ :=
      verifyRetry_step env a dst n delay w hready
    by_cases hm : b ≠ [] ∧ a = b
    · refine ⟨[b], true, wb, by rw [hstep, if_pos hm]; rfl, ⟨wb, hb, rfl⟩, by simp,
        retryOutcome_hit a b n (by simp [digestsMatch, hm]), ?_, ?_, hfs, hev⟩
      · rw [hsl]; simp [List.iterate]
      · rw [hio]; rfl
    · obtain ⟨bs, r, w1, hrun, hchain, hlen, hout, hsl1, hio1, hfs1, hev1⟩ :=
        ih (min (delay * 2) 30000) wb (hexp ▸ hready)
      have hmb : digestsMatch a b = false := by simp [digestsMatch, hm]
      refine ⟨b :: bs, r, w1, by rw [hstep, if_neg hm]; exact hrun, ⟨wb, hb, hchain⟩,
        by simp; omega, retryOutcome_cons a b n bs r hmb hout, ?_, ?_,
        hfs1.trans hfs, hev1.trans hev⟩
      · rw [hsl1, hsl]
        simp [List.iterate, nextDelay]
      · rw [hio1, hio]
        simp only [List.length_cons]
        omega

end

section
variable (env : Env) (opt : Options)

/-- The head of `verifyFile` on a ready volume: the check, the digest `a` of the source and the
digest `b0` of the destination, and then the comparisons. -/
theorem verifyFile_head (rel0 : String) (w : World) (hready : AlwaysReady env w.expectedDevice) :
    ∃ a wa b0 wb,
      fileHashSha256 env (srcAbsPath env opt (cleanRel rel0)) (afterGate env w) = some (a, wa) ∧
      fileHashSha256 env (dstAbsPath env opt (cleanRel rel0)) wa = some (b0, wb) ∧
      wb.fs = w.fs ∧ wb.events = w.events ∧ wb.expectedDevice = w.expectedDevice ∧
      wb.sleeps = w.sleeps ∧ wb.ioN = w.ioN + 2 ∧
      verifyFile env opt rel0 w =
        (if a = [] ∨ b0 = [] then (pure false : M Bool)
          else if a = b0 then pure true
          else verifyRetry env a (dstAbsPath env opt (cleanRel rel0)) opt.maxRetries.toNat 1000)
          wb := by
  obtain ⟨a, ra, ha⟩ := fileHashSha256_frame env (srcAbsPath env opt (cleanRel rel0))
    { w with devN := w.devN + 1, gateLog := w.gateLog ++ [(env.dev w.devN, true)] }
  obtain ⟨b0, rb, hb⟩ := fileHashSha256_frame env (dstAbsPath env opt (cleanRel rel0))
    { w with devN := w.devN + 1, gateLog := w.gateLog ++ [(env.dev w.devN, true)],
             ioN := w.ioN + 1, readN := ra }
  refine ⟨a, _, b0, _, ha, hb, rfl, rfl, rfl, rfl, rfl, ?_⟩
  unfold verifyFile
  rw [bind_apply, isDestReady_ready env w hready]
  dsimp only
  simp only [Bool.not_true, Bool.false_eq_true, if_false]
  rw [bind_apply, ha]
  dsimp only
  rw [bind_apply, hb]

/-- What `verifyFile` does on a volume that stays ready, in terms of the digests its own calls of
`fileHashSha256` return. -/
theorem verifyFile_spec (rel0 : String) (w : World) (hready : AlwaysReady env w.expectedDevice) :
    ∃ a wa b0 wb bs r w1,
      fileHashSha256 env (srcAbsPath env opt (cleanRel rel0)) (afterGate env w) = some (a, wa) ∧
      fileHashSha256 env (dstAbsPath env opt (cleanRel rel0)) wa = some (b0, wb) ∧
      RetryRun env (dstAbsPath env opt (cleanRel rel0)) 1000 wb bs w1 ∧
      verifyFile env opt rel0 w = some (r, w1) ∧
      w1.ioN = w.ioN + 2 + bs.length ∧ bs.length ≤ opt.maxRetries.toNat ∧
      w1.sleeps = w.sleeps ++ (List.range bs.length).map backoff ∧
      ((a = [] ∨ b0 = []) → r = false ∧ bs = []) ∧
      (a ≠ [] → a = b0 → r = true ∧ bs = []) ∧
      (a ≠ [] → b0 ≠ [] → a ≠ b0 → RetryOutcome a opt.maxRetries.toNat bs r) := by
  obtain ⟨a, wa, b0, wb, ha, hb, hfs, hev, hexp, hsl, hio, hrun⟩ :=
    verifyFile_head env opt rel0 w hready
  by_cases he : a = [] ∨ b0 = []
  · refine ⟨a, wa, b0, wb, [], false, wb, ha, hb, rfl, by rw [hrun, if_pos he]; rfl, hio,
      Nat.zero_le _, by simp [hsl], fun _ => ⟨rfl, rfl⟩, ?_, ?_⟩
    · intro h1 h2
      rcases he with e | e
      · exact absurd e h1
      · exact absurd (h2 ▸ e) h1
    · intro h1 h2 _
      rcases he with e | e
      · exact absurd e h1
      · exact absurd e h2
  · by_cases hab : a = b0
    · refine ⟨a, wa, b0, wb, [], true, wb, ha, hb, rfl,
        by rw [hrun, if_neg he, if_pos hab]; rfl, hio,
        Nat.zero_le _, by simp [hsl], fun h => absurd h he, fun _ _ => ⟨rfl, rfl⟩,
        fun _ _ h => absurd hab h⟩
    · obtain ⟨bs, r, w1, hr, hchain, hlen, hout, hsl1, hio1, _, _⟩ :=
        verifyRetry_trace env a (dstAbsPath env opt (cleanRel rel0)) opt.maxRetries.toNat 1000 wb
          (hexp ▸ hready)
      refine ⟨a, wa, b0, wb, bs, r, w1, ha, hb, hchain,
        by rw [hrun, if_neg he, if_neg hab]; exact hr, by rw [hio1, hio], hlen, ?_,
        fun h => absurd h he, fun _ h => absurd h hab, fun _ _ _ => hout⟩
      rw [hsl1, hsl]
      have := iterate_nextDelay bs.length 0
      simp only [Nat.zero_add] at this
      rw [show (1000 : Int) = backoff 0 from rfl, this]

end

theorem digestsMatch_empty_right (a : List Nat) : digestsMatch a [] = false := by
  simp [digestsMatch]

theorem digestsMatch_empty_left (b : List Nat) : digestsMatch [] b = false := by
  unfold digestsMatch
  by_cases h : b = []
  · simp [h]
  · simp [h, Ne.symm h]

section
variable (env : Env) (opt : Options)

/-- C23: on a volume that stays ready `verifyFile` returns.  It calls `fileHashSha256` once on
the source, which gives the digest `a`, then on the destination, which gives `b0`, and then once
per retry on the destination, which gives the digests `bs`: these are the digests that the calls
of this very execution return, each in the world the call before it left.  It opens no other
file; the retries are at most `max(maxRetries, 0)`; before the `k`-th retry it sleeps
`backoff k = min(1000·2^k, 30000)` ms, that is 1 s, 2 s, 4 s, 8 s, 16 s, 30 s, 30 s, ..., and no
delay or doubled delay leaves the range of a 32-bit integer.  It returns false without a retry
when `a` or `b0` is empty and true without a retry when they are equal; when they are not empty
and differ it returns true at the first retry whose digest is not empty and equal to `a`, and
false after all the retries when there is none. -/
theorem verifyFile_backoff (rel0 : String) (w : World)
    (hready : AlwaysReady env w.expectedDevice) :
    ∃ a wa b0 wb bs r w1,
      fileHashSha256 env (srcAbsPath env opt (cleanRel rel0)) (afterGate env w) = some (a, wa) ∧
      fileHashSha256 env (dstAbsPath env opt (cleanRel rel0)) wa = some (b0, wb) ∧
      RetryRun env (dstAbsPath env opt (cleanRel rel0)) 1000 wb bs w1 ∧
      verifyFile env opt rel0 w = some (r, w1) ∧
      w1.ioN = w.ioN + 2 + bs.length ∧
      (bs.length : Int) ≤ max opt.maxRetries 0 ∧
      w1.sleeps = w.sleeps ++ (List.range bs.length).map backoff ∧
      (∀ k, 0 < backoff k ∧ backoff k ≤ 30000 ∧ backoff k * 2 < 2 ^ 31) ∧
      (List.range 7).map backoff = [1000, 2000, 4000, 8000, 16000, 30000, 30000] ∧
      ((a = [] ∨ b0 = []) → r = false ∧ bs = []) ∧
      (a ≠ [] → a = b0 → r = true ∧ bs = []) ∧
      (a ≠ [] → b0 ≠ [] → a ≠ b0 → RetryOutcome a opt.maxRetries.toNat bs r) := by
  obtain ⟨a, wa, b0, wb, bs, r, w1, ha, hb, hchain, hrun, hio, hlen, hsl, h1, h2, hout⟩ :=
    verifyFile_spec env opt rel0 w hready
  refine ⟨a, wa, b0, wb, bs, r, w1, ha, hb, hchain, hrun, hio, ?_, hsl, backoff_bounds,
    by decide, h1, h2, hout⟩
  have : ((opt.maxRetries.toNat : Nat) : Int) = max opt.maxRetries 0 := Int.toNat_eq_max _
  rw [← this]
  exact_mod_cast hlen

/-- C22 (amended): on a volume that stays ready, with `a` the digest that the call of
`fileHashSha256` on the source returns and `b0` the digest that the first call on the destination
returns: when `a` or `b0` is empty, `verifyFile` returns false at once, in the world the second
call left: it does not sleep and computes no further digest.  When the two are equal and not
empty it returns true at once.  Only after two non-empty digests that differ does it retry, and
then a destination digest that is empty counts as a mismatch: the loop goes on to the next
retry, up to `max(maxRetries, 0)` of them with the backoff, and reports failure after the last. -/
theorem verifyFile_unreadable_fails_at_once (rel0 : String) (w : World)
    (hready : AlwaysReady env w.expectedDevice) :
    ∃ a wa b0 wb bs r w1,
      fileHashSha256 env (srcAbsPath env opt (cleanRel rel0)) (afterGate env w) = some (a, wa) ∧
      fileHashSha256 env (dstAbsPath env opt (cleanRel rel0)) wa = some (b0, wb) ∧
      RetryRun env (dstAbsPath env opt (cleanRel rel0)) 1000 wb bs w1 ∧
      verifyFile env opt rel0 w = some (r, w1) ∧
      ((a = [] ∨ b0 = []) →
        r = false ∧ bs = [] ∧ w1 = wb ∧ w1.sleeps = w.sleeps ∧ w1.ioN = w.ioN + 2) ∧
      (a ≠ [] → a = b0 → r = true ∧ bs = [] ∧ w1 = wb) ∧
      (a ≠ [] → b0 ≠ [] → a ≠ b0 →
        RetryOutcome a opt.maxRetries.toNat bs r ∧
        (bs.length : Int) ≤ max opt.maxRetries 0 ∧
        w1.sleeps = w.sleeps ++ (List.range bs.length).map backoff ∧
        ∀ x ∈ bs, x = [] → digestsMatch a x = false) := by
  obtain ⟨a, wa, b0, wb, bs, r, w1, ha, hb, hchain, hrun, hio, hlen, hsl, hempty, heq, hout⟩ :=
    verifyFile_spec env opt rel0 w hready
  refine ⟨a, wa, b0, wb, bs, r, w1, ha, hb, hchain, hrun, ?_, ?_, ?_⟩
  · intro he
    obtain ⟨hr, hbs⟩ := hempty he
    subst hbs
    have hw : w1 = wb := hchain
    refine ⟨hr, rfl, hw, ?_, ?_⟩
    · rw [hsl]; simp
    · rw [hio]; rfl
  · intro h1 h2
    obtain ⟨hr, hbs⟩ := heq h1 h2
    subst hbs
    exact ⟨hr, rfl, hchain⟩
  · intro h1 h2 h3
    refine ⟨hout h1 h2 h3, ?_, hsl, ?_⟩
    · have : ((opt.maxRetries.toNat : Nat) : Int) = max opt.maxRetries 0 := Int.toNat_eq_max _
      rw [← this]
      exact_mod_cast hlen
    · intro x _ hx
      rw [hx]
      exact digestsMatch_empty_right a

/-- A fast-equal check that answers true has hashed the payload and then the source, and the two
calls returned one and the same non-empty digest. -/
theorem fastEqual_true (src dst : String) (w w1 : World)
    (h : fastEqual env src dst w = some (true, w1)) :
    ∃ d wa, d ≠ [] ∧ fileHashSha256 env dst w = some (d, wa) ∧
      fileHashSha256 env src wa = some (d, w1) := by
  unfold fastEqual at h
  rw [bind_apply, readFs_apply] at h
  dsimp only at h
  cases hl : likelySameByStat w.fs src dst with
  | false =>
    rw [hl] at h
    cases h
  | true =>
    rw [hl] at h
    simp only [if_true] at h
    obtain ⟨hd, wa, hhd, h⟩ := bind_inv h
    obtain ⟨hs, wb, hhs, h⟩ := bind_inv h
    simp only [pure_apply, Option.some.injEq, Prod.mk.injEq] at h
    have hm := of_decide_eq_true h.1
    refine ⟨hd, wa, hm.1, hhd, ?_⟩
    rw [hhs, hm.2, h.2]

/-- An identical-skip check that answers true has hashed the source and then the payload, and
the two calls returned one and the same non-empty digest. -/
theorem identicalCheck_true (src dst : String) (w w1 : World)
    (h : identicalCheck env src dst w = some (true, w1)) :
    ∃ d wa, d ≠ [] ∧ fileHashSha256 env src w = some (d, wa) ∧
      fileHashSha256 env dst wa = some (d, w1) := by
  unfold identicalCheck at h
  rw [bind_apply, readFs_apply] at h
  dsimp only at h
  cases hl : (w.fs.pathExists dst && likelySameByStat w.fs src dst) with
  | false =>
    rw [hl] at h
    cases h
  | true =>
    rw [hl] at h
    simp only [if_true] at h
    obtain ⟨a, wa, ha, h⟩ := bind_inv h
    obtain ⟨b, wb, hb, h⟩ := bind_inv h
    simp only [pure_apply, Option.some.injEq, Prod.mk.injEq] at h
    have hm := of_decide_eq_true h.1
    refine ⟨a, wa, hm.1, ha, ?_⟩
    rw [hb, ← hm.2, h.2]

/-- A verification that answers true has got two non-empty digests from its first two calls of
`fileHashSha256`. -/
theorem verifyFile_true (rel0 : String) (w w1 : World)
    (h : verifyFile env opt rel0 w = some (true, w1)) :
    ∃ a wa b0 wb, a ≠ [] ∧ b0 ≠ [] ∧
      fileHashSha256 env (srcAbsPath env opt (cleanRel rel0)) (afterGate env w) = some (a, wa) ∧
      fileHashSha256 env (dstAbsPath env opt (cleanRel rel0)) wa = some (b0, wb) := by
  unfold verifyFile at h
  rw [bind_apply, isDestReady_apply] at h
  dsimp only at h
  cases hg : gate w.expectedDevice (env.dev w.devN) with
  | false =>
    rw [hg] at h
    cases h
  | true =>
    rw [hg] at h
    simp only [Bool.not_true, Bool.false_eq_true, if_false] at h
    obtain ⟨a, wa, ha, h⟩ := bind_inv h
    obtain ⟨b, wb, hb, h⟩ := bind_inv h
    by_cases he : a = [] ∨ b = []
    · rw [if_pos he] at h
      cases h
    · rw [if_neg he] at h
      exact ⟨a, wa, b, wb, fun e => he (Or.inl e), fun e => he (Or.inr e), ha, hb⟩

/-- The part of C24 that holds: the test of a retry fails on an empty digest on either side, and
a file that cannot be opened is neither declared identical by the fast-equal check or by the
identical-skip check nor verified, since its digest is the empty one. -/
theorem open_failure_never_equal (src dst rel0 : String) (w w1 : World) :
    (∀ a b, a = [] ∨ b = [] → digestsMatch a b = false) ∧
    (CannotOpen env w.fs src ∨ CannotOpen env w.fs dst →
      fastEqual env src dst w ≠ some (true, w1) ∧
      identicalCheck env src dst w ≠ some (true, w1)) ∧
    (CannotOpen env w.fs (srcAbsPath env opt (cleanRel rel0)) ∨
        CannotOpen env w.fs (dstAbsPath env opt (cleanRel rel0)) →
      verifyFile env opt rel0 w ≠ some (true, w1)) := by
  have hfs : ∀ (p : String) (wx wy : World) (d : List Nat),
      fileHashSha256 env p wx = some (d, wy) → wy.fs = wx.fs := by
    intro p wx wy d hh
    obtain ⟨x, rd, hx⟩ := fileHashSha256_frame env p wx
    rw [hx] at hh
    cases hh
    rfl
  have key : ∀ (p : String) (wx wy : World) (d : List Nat), wx.fs = w.fs →
      CannotOpen env w.fs p → fileHashSha256 env p wx = some (d, wy) → d = [] := by
    intro p wx wy d hx hu hh
    have := fileHashSha256_unreadable env p wx
      (by
        rcases hu with e | e
        · exact Or.inl (hx ▸ e)
        · exact Or.inr (e _))
    rw [this] at hh
    cases hh
    rfl
  refine ⟨?_, ?_, ?_⟩
  · intro a b h
    rcases h with e | e
    · rw [e]; exact digestsMatch_empty_left b
    · rw [e]; exact digestsMatch_empty_right a
  · intro hu
    constructor
    · intro h
      obtain ⟨d, wa, hne, hd, hs⟩ := fastEqual_true env src dst w w1 h
      rcases hu with e | e
      · exact hne (key src wa w1 d (hfs _ _ _ _ hd) e hs)
      · exact hne (key dst w wa d rfl e hd)
    · intro h
      obtain ⟨d, wa, hne, hs, hd⟩ := identicalCheck_true env src dst w w1 h
      rcases hu with e | e
      · exact hne (key src w wa d rfl e hs)
      · exact hne (key dst wa w1 d (hfs _ _ _ _ hs) e hd)
  · intro hu h
    obtain ⟨a, wa, b0, wb, hane, hbne, ha, hb⟩ := verifyFile_true env opt rel0 w w1 h
    rcases hu with e | e
    · exact hane (key _ (afterGate env w) wa a rfl e ha)
    · exact hbne (key _ wa wb b0 (hfs _ (afterGate env w) wa a ha) e hb)

end

/-- C23, witness: the payload differs from the source and the volume stays ready: three retries
after 1 s, 2 s and 4 s, and the answer is false.  When the first read of the destination fails,
the first digests differ and the first retry succeeds after 1 s. -/
theorem verifyFile_backoff_witness :
    AlwaysReady Demo.env (Demo.world Demo.filesDiffer).expectedDevice ∧
    Demo.resultOf (verifyFile Demo.env Demo.optVerify "a.txt" (Demo.world Demo.filesDiffer)) =
      some false ∧
    Demo.sleepsOf (verifyFile Demo.env Demo.optVerify "a.txt" (Demo.world Demo.filesDiffer)) =
      some [1000, 2000, 4000] ∧
    Demo.resultOf (verifyFile Demo.envThirdReadFails Demo.optVerify "a.txt"
      (Demo.world Demo.filesCopied)) = some true ∧
    Demo.sleepsOf (verifyFile Demo.envThirdReadFails Demo.optVerify "a.txt"
      (Demo.world Demo.filesCopied)) = some [1000] ∧
    ∃ a wa b0 wb bs r w1,
      fileHashSha256 Demo.env (srcAbsPath Demo.env Demo.optVerify (cleanRel "a.txt"))
        (afterGate Demo.env (Demo.world Demo.filesDiffer)) = some (a, wa) ∧
      fileHashSha256 Demo.env (dstAbsPath Demo.env Demo.optVerify (cleanRel "a.txt")) wa =
        some (b0, wb) ∧
      RetryRun Demo.env (dstAbsPath Demo.env Demo.optVerify (cleanRel "a.txt")) 1000 wb bs w1 ∧
      verifyFile Demo.env Demo.optVerify "a.txt" (Demo.world Demo.filesDiffer) = some (r, w1) ∧
      w1.ioN = (Demo.world Demo.filesDiffer).ioN + 2 + bs.length ∧
      (bs.length : Int) ≤ max Demo.optVerify.maxRetries 0 ∧
      w1.sleeps = (Demo.world Demo.filesDiffer).sleeps ++ (List.range bs.length).map backoff :=
  ⟨fun _ => rfl, by decide!, by decide!, by decide!, by decide!,
    match verifyFile_backoff Demo.env Demo.optVerify "a.txt" (Demo.world Demo.filesDiffer)
        (fun _ => rfl) with
    | ⟨a, wa, b0, wb, bs, r, w1, h1, h2, h3, h4, h5, h6, h7, _⟩ =>
      ⟨a, wa, b0, wb, bs, r, w1, h1, h2, h3, h4, h5, h6, h7⟩⟩

/-- C22, witness: the destination cannot be opened when it is first hashed: the digest of the
source is not empty, the first digest of the destination is, and `verifyFile` returns false in
the world the second call left. -/
theorem verifyFile_unreadable_fails_at_once_witness :
    AlwaysReady Demo.envSecondOpenFails (Demo.world Demo.filesCopied).expectedDevice ∧
    Demo.resultOf (fileHashSha256 Demo.envSecondOpenFails "/src/a.txt"
      (afterGate Demo.envSecondOpenFails (Demo.world Demo.filesCopied))) = some [32, 7] ∧
    Demo.resultOf
      ((do let _ ← fileHashSha256 Demo.envSecondOpenFails "/src/a.txt"
           fileHashSha256 Demo.envSecondOpenFails "/dst/ns/a.txt")
        (afterGate Demo.envSecondOpenFails (Demo.world Demo.filesCopied))) = some [] ∧
    ∃ a wa b0 wb bs r w1,
      fileHashSha256 Demo.envSecondOpenFails
        (srcAbsPath Demo.envSecondOpenFails Demo.optVerify (cleanRel "a.txt"))
        (afterGate Demo.envSecondOpenFails (Demo.world Demo.filesCopied)) = some (a, wa) ∧
      fileHashSha256 Demo.envSecondOpenFails
        (dstAbsPath Demo.envSecondOpenFails Demo.optVerify (cleanRel "a.txt")) wa =
        some (b0, wb) ∧
      RetryRun Demo.envSecondOpenFails
        (dstAbsPath Demo.envSecondOpenFails Demo.optVerify (cleanRel "a.txt")) 1000 wb bs w1 ∧
      verifyFile Demo.envSecondOpenFails Demo.optVerify "a.txt"
        (Demo.world Demo.filesCopied) = some (r, w1) ∧
      ((a = [] ∨ b0 = []) →
        r = false ∧ bs = [] ∧ w1 = wb ∧ w1.sleeps = (Demo.world Demo.filesCopied).sleeps ∧
        w1.ioN = (Demo.world Demo.filesCopied).ioN + 2) :=
  ⟨fun _ => rfl, by decide!, by decide!,
    match verifyFile_unreadable_fails_at_once Demo.envSecondOpenFails Demo.optVerify "a.txt"
        (Demo.world Demo.filesCopied) (fun _ => rfl) with
    | ⟨a, wa, b0, wb, bs, r, w1, h1, h2, h3, h4, h5, _⟩ =>
      ⟨a, wa, b0, wb, bs, r, w1, h1, h2, h3, h4, h5⟩⟩

/-! ### The speed limit of a copy -/

section
variable (env : Env) (opt : Options)

/-- One turn of the streaming loop of `copyOneFile` under a speed limit, when nobody cancels or
pauses, the volume is ready and the write goes through: if the chunk does not fit into what is
left of the budget of the window, the window is reset and the chunk is written all the same, so
that the next turn starts with `sentInWindow` equal to the length of the chunk, whatever the
budget is. -/
theorem copyChunks_overrun_step (hstop : env.stopAt = none) (hintr : env.interruptAt = none)
    (hpause : ∀ n, env.pause n = false) (hio : ∀ n p, env.ioOk n (IoOp.write p) = true)
    (hL : 0 < opt.speedLimitBps) (fuel n : Nat) (part : String) (rest chunk rest1 : List Nat)
    (bd : Nat) (sent : Int) (w : World) (fd : FileData)
    (hready : AlwaysReady env w.expectedDevice)
    (hread : readChunk (env.read w.readN) rest = some (chunk, rest1))
    (hover : sent + chunk.length > opt.speedLimitBps * 100 / 1000)
    (hfile : w.fs.get part = some fd) :
    ∃ w1, w1.fs = w.fs.put part { fd with content := fd.content ++ chunk } ∧
      w1.timerN = w.timerN + 1 ∧ w1.expectedDevice = w.expectedDevice ∧
      copyChunks env opt (fuel + 1) part (n + 1) rest bd sent w =
        copyChunks env opt (fuel + 1) part n rest1 (bd + chunk.length) (0 + chunk.length) w1 := by
  have hrd : gate w.expectedDevice (env.dev w.devN) = true := hready _
  by_cases hel : env.elapsedMs w.timerN < 100
  · refine ⟨{ w with readN := w.readN + 1,
                     stopN := w.stopN + 1,
                     intrN := w.intrN + 1,
                     pauseN := w.pauseN + 1,
                     devN := w.devN + 1,
                     gateLog := w.gateLog ++ [(env.dev w.devN, true)],
                     timerN := w.timerN + 1,
                     sleeps := w.sleeps ++ [100 - env.elapsedMs w.timerN],
                     ioN := w.ioN + 1,
                     fs := w.fs.put part { fd with content := fd.content ++ chunk } },
      rfl, rfl, rfl, ?_⟩
    rw [copyChunks]
    simp only [bind_apply, qRead_apply, hread, stopOrInterrupted, loadStop_apply, hstop,
      isInterruptionRequested, hintr, copyPauseLoop, loadPause_apply, hpause, pure_apply,
      ite_apply_M, Bool.false_eq_true, if_false, hL, if_true, hover, timerElapsed_apply, hel,
      msleep_apply, qWrite_apply, hfile, hio, isDestReady_apply, hrd, Bool.not_true,
      Bool.not_false, gt_iff_lt]
  · refine ⟨{ w with readN := w.readN + 1,
                     stopN := w.stopN + 1,
                     intrN := w.intrN + 1,
                     pauseN := w.pauseN + 1,
                     devN := w.devN + 1,
                     gateLog := w.gateLog ++ [(env.dev w.devN, true)],
                     timerN := w.timerN + 1,
                     ioN := w.ioN + 1,
                     fs := w.fs.put part { fd with content := fd.content ++ chunk } },
      rfl, rfl, rfl, ?_⟩
    rw [copyChunks]
    simp only [bind_apply, qRead_apply, hread, stopOrInterrupted, loadStop_apply, hstop,
      isInterruptionRequested, hintr, copyPauseLoop, loadPause_apply, hpause, pure_apply,
      ite_apply_M, Bool.false_eq_true, if_false, hL, if_true, hover, timerElapsed_apply, hel,
      msleep_apply, qWrite_apply, hfile, hio, isDestReady_apply, hrd, Bool.not_true,
      Bool.not_false, gt_iff_lt]

/-- The limit of 1 MiB/s, as the spin box of the window sets it: the budget of a window is
104857 bytes, and every full buffer of 1 MiB read from the source is written within one window,
whatever was sent before. -/
theorem copyChunks_mebibyte_in_one_window (hstop : env.stopAt = none)
    (hintr : env.interruptAt = none) (hpause : ∀ n, env.pause n = false)
    (hio : ∀ n p, env.ioOk n (IoOp.write p) = true) (hL : opt.speedLimitBps = 1048576)
    (fuel n : Nat) (part : String) (rest : List Nat) (bd : Nat) (sent : Int) (hsent : 0 ≤ sent)
    (w : World) (fd : FileData) (cap : Nat) (hready : AlwaysReady env w.expectedDevice)
    (hcap : env.read w.readN = some cap) (hbuf : BUF ≤ cap + 1) (hrest : BUF ≤ rest.length)
    (hfile : w.fs.get part = some fd) :
    opt.speedLimitBps * 100 / 1000 = 104857 ∧
    ∃ w1, w1.fs = w.fs.put part { fd with content := fd.content ++ rest.take BUF } ∧
      copyChunks env opt (fuel + 1) part (n + 1) rest bd sent w =
        copyChunks env opt (fuel + 1) part n (rest.drop BUF) (bd + 1048576) 1048576 w1 := by
  have hB : BUF = 1048576 := by decide
  have hlen : (rest.take BUF).length = 1048576 := by
    rw [List.length_take, Nat.min_eq_left hrest, hB]
  have hread : readChunk (env.read w.readN) rest = some (rest.take BUF, rest.drop BUF) := by
    rw [hcap]
    unfold readChunk
    have hmin : min (min BUF (cap + 1)) rest.length = BUF := by
      rw [Nat.min_eq_left hbuf, Nat.min_eq_left hrest]
    simp only [hmin]
    rw [if_neg (by rw [hB]; decide)]
  have hbudget : opt.speedLimitBps * 100 / 1000 = 104857 := by rw [hL]; decide
  refine ⟨hbudget, ?_⟩
  obtain ⟨w1, hfs, _, _, hstep⟩ := copyChunks_overrun_step env opt hstop hintr hpause hio
    (by rw [hL]; decide) fuel n part rest (rest.take BUF) (rest.drop BUF) bd sent w fd hready hread
    (by rw [hbudget, hlen]; omega) hfile
  refine ⟨w1, hfs, ?_⟩
  rw [hstep, hlen]
  rfl

end

/-! ### The speed estimator -/

theorem bitLen_zero (fuel : Nat) : Demo.bitLen fuel 0 = 0 := by
  cases fuel <;> simp [Demo.bitLen]

theorem bitLen_spec : ∀ (fuel n : Nat), n ≤ fuel → 0 < n →
    1 ≤ Demo.bitLen fuel n ∧ 2 ^ (Demo.bitLen fuel n - 1) ≤ n ∧ n < 2 ^ Demo.bitLen fuel n := by
  intro fuel
  induction fuel with
  | zero => intro n h1 h2; omega
  | succ fuel ih =>
    intro n hle hpos
    have hn : n ≠ 0 := by omega
    simp only [Demo.bitLen, if_neg hn]
    by_cases h2 : n / 2 = 0
    · rw [h2, bitLen_zero]
      have : n = 1 := by omega
      subst this
      simp
    · obtain ⟨hb, hlo, hhi⟩ := ih (n / 2) (by omega) (by omega)
      generalize Demo.bitLen fuel (n / 2) = b at hb hlo hhi
      refine ⟨by omega, ?_, ?_⟩
      · have e : b + 1 - 1 = (b - 1) + 1 := by omega
        rw [e, pow_succ]
        omega
      · rw [pow_succ]
        omega

theorem floorLog2_spec (q : ℚ) (hq : 0 < q) :
    (2 : ℚ) ^ Demo.floorLog2 q ≤ q ∧ q < (2 : ℚ) ^ (Demo.floorLog2 q + 1) := by
  have hnum : 0 < q.num := Rat.num_pos.mpr hq
  have hden : 0 < q.den := q.den_pos
  obtain ⟨hbn, hnlo, hnhi⟩ := bitLen_spec q.num.natAbs q.num.natAbs (le_refl _)
    (Int.natAbs_pos.mpr (ne_of_gt hnum))
  obtain ⟨hbd, hdlo, hdhi⟩ := bitLen_spec q.den q.den (le_refl _) hden
  have hqe : q = (q.num.natAbs : ℚ) / (q.den : ℚ) := by
    have h2 : ((q.num.natAbs : ℕ) : ℚ) = (q.num : ℚ) := by
      rw [Nat.cast_natAbs, abs_of_pos hnum]
    rw [h2]
    exact (Rat.num_div_den q).symm
  generalize hN : q.num.natAbs = n at hbn hnlo hnhi hqe
  generalize hD : q.den = d at hbd hdlo hdhi hqe hden
  unfold Demo.floorLog2
  rw [hN, hD]
  generalize hbnv : Demo.bitLen n n = bn at hbn hnlo hnhi
  generalize hbdv : Demo.bitLen d d = bd at hbd hdlo hdhi
  have hdq : (0 : ℚ) < (d : ℚ) := by exact_mod_cast hden
  have two_pos : ∀ z : Int, (0 : ℚ) < 2 ^ z := fun z => zpow_pos (by norm_num) z
  have hnhi' : (n : ℚ) < 2 ^ (bn : Int) := by
    rw [zpow_natCast]; exact_mod_cast hnhi
  have hnlo' : (2 : ℚ) ^ ((bn : Int) - 1) ≤ n := by
    have : ((bn : Int) - 1) = ((bn - 1 : ℕ) : Int) := by omega
    rw [this, zpow_natCast]; exact_mod_cast hnlo
  have hdhi' : (d : ℚ) < 2 ^ (bd : Int) := by
    rw [zpow_natCast]; exact_mod_cast hdhi
  have hdlo' : (2 : ℚ) ^ ((bd : Int) - 1) ≤ d := by
    have : ((bd : Int) - 1) = ((bd - 1 : ℕ) : Int) := by omega
    rw [this, zpow_natCast]; exact_mod_cast hdlo
  have hup : q < (2 : ℚ) ^ ((bn : Int) - bd + 1) := by
    rw [hqe, div_lt_iff₀ hdq]
    calc (n : ℚ) < 2 ^ (bn : Int) := hnhi'
      _ = 2 ^ ((bn : Int) - bd + 1) * 2 ^ ((bd : Int) - 1) := by
          rw [← zpow_add₀ (by norm_num : (2 : ℚ) ≠ 0)]; congr 1; ring
      _ ≤ 2 ^ ((bn : Int) - bd + 1) * d :=
          mul_le_mul_of_nonneg_left hdlo' (le_of_lt (two_pos _))
  have hlow : (2 : ℚ) ^ ((bn : Int) - bd - 1) ≤ q := by
    rw [hqe, le_div_iff₀ hdq]
    calc (2 : ℚ) ^ ((bn : Int) - bd - 1) * d
        ≤ 2 ^ ((bn : Int) - bd - 1) * 2 ^ (bd : Int) :=
          mul_le_mul_of_nonneg_left (le_of_lt hdhi') (le_of_lt (two_pos _))
      _ = 2 ^ ((bn : Int) - 1) := by
          rw [← zpow_add₀ (by norm_num : (2 : ℚ) ≠ 0)]; congr 1; ring
      _ ≤ n := hnlo'
  split
  · rename_i h
    exact ⟨h, hup⟩
  · rename_i h
    refine ⟨hlow, ?_⟩
    have : (bn : Int) - bd - 1 + 1 = (bn : Int) - bd := by ring
    rw [this]
    exact not_le.mp h

theorem floorLog2_mono (x y : ℚ) (hx : 0 < x) (hxy : x ≤ y) :
    Demo.floorLog2 x ≤ Demo.floorLog2 y := by
  by_contra hc
  have hlt : Demo.floorLog2 y + 1 ≤ Demo.floorLog2 x := by omega
  have h1 := (floorLog2_spec x hx).1
  have h2 := (floorLog2_spec y (lt_of_lt_of_le hx hxy)).2
  have h3 : (2 : ℚ) ^ (Demo.floorLog2 y + 1) ≤ 2 ^ Demo.floorLog2 x :=
    zpow_le_zpow_right₀ (by norm_num) hlt
  linarith

theorem roundHalfEven_cases (x : ℚ) :
    (Demo.roundHalfEven x = ⌊x⌋ ∧ x - ⌊x⌋ ≤ 1 / 2) ∨
    (Demo.roundHalfEven x = ⌊x⌋ + 1 ∧ 1 / 2 ≤ x - ⌊x⌋) := by
  unfold Demo.roundHalfEven
  split
  · left; exact ⟨rfl, by linarith⟩
  · rename_i h1
    split
    · right; exact ⟨rfl, by linarith⟩
    · rename_i h2
      have : x - ⌊x⌋ = 1 / 2 := le_antisymm (not_lt.mp h2) (not_lt.mp h1)
      split
      · left; exact ⟨rfl, by linarith⟩
      · right; exact ⟨rfl, by linarith⟩

theorem roundHalfEven_ge (x : ℚ) (k : Int) (h : (k : ℚ) ≤ x) : k ≤ Demo.roundHalfEven x := by
  have hf : k ≤ ⌊x⌋ := Int.le_floor.mpr h
  rcases roundHalfEven_cases x with ⟨e, _⟩ | ⟨e, _⟩ <;> omega

theorem roundHalfEven_le (x : ℚ) (k : Int) (h : x ≤ (k : ℚ)) : Demo.roundHalfEven x ≤ k := by
  rcases roundHalfEven_cases x with ⟨e, _⟩ | ⟨e, hr⟩
  · rw [e]
    exact_mod_cast (Int.floor_le x).trans h
  · rw [e]
    have hlt : ⌊x⌋ < k := by
      have : ((⌊x⌋ : Int) : ℚ) < k := by linarith
      exact_mod_cast this
    omega

theorem roundHalfEven_mono (x y : ℚ) (h : x ≤ y) :
    Demo.roundHalfEven x ≤ Demo.roundHalfEven y := by
  have hfl : ⌊x⌋ ≤ ⌊y⌋ := Int.floor_le_floor h
  rcases lt_or_eq_of_le hfl with hlt | heq
  · have h1 : Demo.roundHalfEven x ≤ ⌊x⌋ + 1 := by
      rcases roundHalfEven_cases x with ⟨e, _⟩ | ⟨e, _⟩ <;> omega
    have h2 : ⌊y⌋ ≤ Demo.roundHalfEven y := by
      rcases roundHalfEven_cases y with ⟨e, _⟩ | ⟨e, _⟩ <;> omega
    omega
  · unfold Demo.roundHalfEven
    rw [← heq]
    have hxy : x - ⌊x⌋ ≤ y - ⌊x⌋ := by linarith
    by_cases a1 : x - (⌊x⌋ : ℚ) < 1 / 2
    · rw [if_pos a1]
      by_cases b1 : y - (⌊x⌋ : ℚ) < 1 / 2
      · rw [if_pos b1]
      · rw [if_neg b1]
        split
        · omega
        · split <;> omega
    · rw [if_neg a1]
      by_cases a2 : 1 / 2 < x - (⌊x⌋ : ℚ)
      · rw [if_pos a2, if_neg (by linarith), if_pos (by linarith)]
      · rw [if_neg a2]
        have hb1 : ¬ y - (⌊x⌋ : ℚ) < 1 / 2 := by linarith
        rw [if_neg hb1]
        by_cases b2 : 1 / 2 < y - (⌊x⌋ : ℚ)
        · rw [if_pos b2]
          split <;> omega
        · rw [if_neg b2]

theorem roundPos_bounds (x : ℚ) (hx : 0 < x) :
    (2 : ℚ) ^ Demo.floorLog2 x ≤ Demo.roundPos x ∧
    Demo.roundPos x ≤ (2 : ℚ) ^ (Demo.floorLog2 x + 1) := by
  obtain ⟨hlo, hhi⟩ := floorLog2_spec x hx
  have hp : (0 : ℚ) < 2 ^ (Demo.floorLog2 x - 52) := zpow_pos (by norm_num) _
  unfold Demo.roundPos
  have e1 : (2 : ℚ) ^ Demo.floorLog2 x = 2 ^ (52 : Int) * 2 ^ (Demo.floorLog2 x - 52) := by
    rw [← zpow_add₀ (by norm_num : (2 : ℚ) ≠ 0)]; congr 1; ring
  have e2 : (2 : ℚ) ^ (Demo.floorLog2 x + 1) = 2 ^ (53 : Int) * 2 ^ (Demo.floorLog2 x - 52) := by
    rw [← zpow_add₀ (by norm_num : (2 : ℚ) ≠ 0)]; congr 1; ring
  constructor
  · rw [e1]
    apply mul_le_mul_of_nonneg_right _ (le_of_lt hp)
    have : ((2 ^ 52 : Int) : ℚ) ≤ x / 2 ^ (Demo.floorLog2 x - 52) := by
      rw [le_div_iff₀ hp]
      have : ((2 ^ 52 : Int) : ℚ) = 2 ^ (52 : Int) := by norm_num
      rw [this, ← e1]
      exact hlo
    have h := roundHalfEven_ge _ _ this
    have h' : ((2 ^ 52 : Int) : ℚ) ≤ (Demo.roundHalfEven (x / 2 ^ (Demo.floorLog2 x - 52)) : ℚ) := by
      exact_mod_cast h
    have e : ((2 ^ 52 : Int) : ℚ) = 2 ^ (52 : Int) := by norm_num
    rw [e] at h'
    exact h'
  · rw [e2]
    apply mul_le_mul_of_nonneg_right _ (le_of_lt hp)
    have : x / 2 ^ (Demo.floorLog2 x - 52) ≤ ((2 ^ 53 : Int) : ℚ) := by
      rw [div_le_iff₀ hp]
      have : ((2 ^ 53 : Int) : ℚ) = 2 ^ (53 : Int) := by norm_num
      rw [this, ← e2]
      exact le_of_lt hhi
    have h := roundHalfEven_le _ _ this
    have h' : (Demo.roundHalfEven (x / 2 ^ (Demo.floorLog2 x - 52)) : ℚ) ≤ ((2 ^ 53 : Int) : ℚ) := by
      exact_mod_cast h
    have e : ((2 ^ 53 : Int) : ℚ) = 2 ^ (53 : Int) := by norm_num
    rw [e] at h'
    exact h'

theorem roundPos_pos (x : ℚ) (hx : 0 < x) : 0 < Demo.roundPos x :=
  lt_of_lt_of_le (zpow_pos (by norm_num) _) (roundPos_bounds x hx).1

theorem roundPos_mono (x y : ℚ) (hx : 0 < x) (hxy : x ≤ y) :
    Demo.roundPos x ≤ Demo.roundPos y := by
  have hy : 0 < y := lt_of_lt_of_le hx hxy
  rcases lt_or_eq_of_le (floorLog2_mono x y hx hxy) with hlt | heq
  · calc Demo.roundPos x ≤ (2 : ℚ) ^ (Demo.floorLog2 x + 1) := (roundPos_bounds x hx).2
      _ ≤ 2 ^ Demo.floorLog2 y := zpow_le_zpow_right₀ (by norm_num) (by omega)
      _ ≤ Demo.roundPos y := (roundPos_bounds y hy).1
  · unfold Demo.roundPos
    rw [← heq]
    have hp : (0 : ℚ) < 2 ^ (Demo.floorLog2 x - 52) := zpow_pos (by norm_num) _
    apply mul_le_mul_of_nonneg_right _ (le_of_lt hp)
    have : x / 2 ^ (Demo.floorLog2 x - 52) ≤ y / 2 ^ (Demo.floorLog2 x - 52) :=
      div_le_div_of_nonneg_right hxy (le_of_lt hp)
    exact_mod_cast roundHalfEven_mono _ _ this

/-- Rounding to the nearest `double` is monotone. -/
theorem roundDouble_mono : Monotone Demo.roundDouble := by
  intro x y hxy
  unfold Demo.roundDouble
  rcases lt_trichotomy x 0 with hx | hx | hx
  · rw [if_neg (ne_of_lt hx), if_neg (not_lt.mpr (le_of_lt hx))]
    have hnx : 0 < -x := by linarith
    rcases lt_trichotomy y 0 with hy | hy | hy
    · rw [if_neg (ne_of_lt hy), if_neg (not_lt.mpr (le_of_lt hy))]
      have := roundPos_mono (-y) (-x) (by linarith) (by linarith)
      linarith
    · rw [if_pos hy]
      have := roundPos_pos (-x) hnx
      linarith
    · rw [if_neg (ne_of_gt hy), if_pos hy]
      have := roundPos_pos (-x) hnx
      have := roundPos_pos y hy
      linarith
  · subst hx
    rw [if_pos rfl]
    rcases lt_or_eq_of_le hxy with hy | hy
    · rw [if_neg (ne_of_gt hy), if_pos hy]
      exact le_of_lt (roundPos_pos y hy)
    · rw [← hy, if_pos rfl]
  · have hy : 0 < y := lt_of_lt_of_le hx hxy
    rw [if_neg (ne_of_gt hx), if_pos hx, if_neg (ne_of_gt hy), if_pos hy]
    exact roundPos_mono x y hx hxy

/-- The rounding of the scenarios has what the statements ask of the rounding to `double`. -/
theorem roundDouble_roundsLikeDouble : RoundsLikeDouble Demo.roundDouble :=
  ⟨roundDouble_mono, by decide!, by decide!, by decide!⟩

theorem avgBytesPerSec_cons (rnd : ℚ → ℚ) (w : Int) (a : Point) (l : List Point) (h : l ≠ []) :
    SpeedAverager.avgBytesPerSec rnd { windowMs := w, points := a :: l } =
      if rnd (rnd (((l.getLast h).t - a.t : Int) : ℚ) / 1000) ≤ rnd (1 / 100) then 0
      else rnd (rnd (rnd ((l.getLast h).bytes : ℚ) - rnd (a.bytes : ℚ)) /
        rnd (rnd (((l.getLast h).t - a.t : Int) : ℚ) / 1000)) := by
  cases l with
  | nil => exact absurd rfl h
  | cons q rest => rfl

/-- The test `dt <= 0.01` succeeds exactly when the time stamps are at most 10 ms apart. -/
theorem dt_le_iff (rnd : ℚ → ℚ) (hr : RoundsLikeDouble rnd) (d : Int) :
    rnd (rnd (d : ℚ) / 1000) ≤ rnd (1 / 100) ↔ d ≤ 10 := by
  obtain ⟨hmono, h10, h11, hlt⟩ := hr
  constructor
  · intro h
    by_contra hc
    have hd : (11 : Int) ≤ d := by omega
    have h1 : (11 : ℚ) ≤ rnd (d : ℚ) := by
      rw [← h11]
      exact hmono (by exact_mod_cast hd)
    have h2 : rnd (11 / 1000) ≤ rnd (rnd (d : ℚ) / 1000) :=
      hmono (by linarith)
    linarith
  · intro h
    have h1 : rnd (d : ℚ) ≤ 10 := by
      rw [← h10]
      exact hmono (by exact_mod_cast h)
    exact hmono (by linarith)

/-- The average when the deque holds a head, some samples, and a last sample. -/
theorem avgBytesPerSec_endpoints (rnd : ℚ → ℚ) (hr : RoundsLikeDouble rnd) (w : Int)
    (a b : Point) (mid : List Point) :
    SpeedAverager.avgBytesPerSec rnd { windowMs := w, points := a :: (mid ++ [b]) } =
      if b.t - a.t ≤ 10 then 0
      else rnd (rnd (rnd (b.bytes : ℚ) - rnd (a.bytes : ℚ)) /
        rnd (rnd ((b.t - a.t : Int) : ℚ) / 1000)) := by
  rw [avgBytesPerSec_cons rnd w a (mid ++ [b]) (by simp), List.getLast_append_singleton]
  by_cases h : b.t - a.t ≤ 10
  · rw [if_pos ((dt_le_iff rnd hr _).mpr h), if_pos h]
  · rw [if_neg (fun e => h ((dt_le_iff rnd hr _).mp e)), if_neg h]

/-- C26 (amended): `avgBytesPerSec` computes in `double`s, every operation rounding to the
nearest `double`.  With fewer than two samples it returns 0.  With at least two, with head `a`
and last sample `b`, it uses these two only: it returns 0 when the two time stamps are at most
10 ms apart, and otherwise the quotient of `double(bytes_last) − double(bytes_head)` by
`(t_last − t_head) / 1000.0`, which then is the value of the formula with `max(0.01, ·)`. -/
theorem avgBytesPerSec_value (rnd : ℚ → ℚ) (hr : RoundsLikeDouble rnd) (w : Int) :
    SpeedAverager.avgBytesPerSec rnd { windowMs := w, points := [] } = 0 ∧
    (∀ a, SpeedAverager.avgBytesPerSec rnd { windowMs := w, points := [a] } = 0) ∧
    (∀ a b mid,
      SpeedAverager.avgBytesPerSec rnd { windowMs := w, points := a :: (mid ++ [b]) } =
        if b.t - a.t ≤ 10 then 0
        else rnd (rnd (rnd (b.bytes : ℚ) - rnd (a.bytes : ℚ)) /
          rnd (rnd ((b.t - a.t : Int) : ℚ) / 1000))) ∧
    (∀ a b mid, 10 < b.t - a.t →
      SpeedAverager.avgBytesPerSec rnd { windowMs := w, points := a :: (mid ++ [b]) } =
        clampedAverage rnd a b) := by
  refine ⟨rfl, fun _ => rfl, avgBytesPerSec_endpoints rnd hr w, ?_⟩
  intro a b mid h
  rw [avgBytesPerSec_endpoints rnd hr, if_neg (not_le.mpr h)]
  unfold clampedAverage
  have hlt : rnd (1 / 100) ≤ rnd (rnd ((b.t - a.t : Int) : ℚ) / 1000) := by
    by_contra hc
    have := (dt_le_iff rnd hr (b.t - a.t)).mp (le_of_lt (not_le.mp hc))
    omega
  rw [max_eq_right hlt]

/-- C26, witness: the rounding to the nearest `double`, a head at 0 ms and a last sample at
500 ms. -/
theorem avgBytesPerSec_value_witness :
    RoundsLikeDouble Demo.roundDouble ∧
    (10 : Int) < (Point.mk 500 1000).t - (Point.mk 0 0).t ∧
    SpeedAverager.avgBytesPerSec Demo.roundDouble
      { windowMs := 5000, points := Point.mk 0 0 :: ([Point.mk 7 3] ++ [Point.mk 500 1000]) } =
      clampedAverage Demo.roundDouble (Point.mk 0 0) (Point.mk 500 1000) :=
  ⟨⟨roundDouble_mono, by decide!, by decide!, by decide!⟩, by decide,
    (avgBytesPerSec_value Demo.roundDouble ⟨roundDouble_mono, by decide!, by decide!, by decide!⟩
      5000).2.2.2 (Point.mk 0 0) (Point.mk 500 1000) [Point.mk 7 3] (by decide)⟩

theorem popOld_split (w t : Int) : ∀ (l : List Point),
    ∃ pre, l = pre ++ popOld w t l ∧ ∀ q ∈ pre, t - q.t > w := by
  intro l
  induction l with
  | nil => exact ⟨[], rfl, fun q hq => by cases hq⟩
  | cons p ps ih =>
    unfold popOld
    by_cases h : t - p.t > w
    · rw [if_pos h]
      obtain ⟨pre, e, hpre⟩ := ih
      refine ⟨p :: pre, by rw [List.cons_append, ← e], ?_⟩
      intro q hq
      rcases List.mem_cons.mp hq with e1 | e1
      · rw [e1]; exact h
      · exact hpre q e1
    · rw [if_neg h]
      exact ⟨[], rfl, fun q hq => by cases hq⟩

theorem popOld_within (w t : Int) : ∀ (l : List Point), l.Pairwise (fun p q => p.t ≤ q.t) →
    ∀ x ∈ popOld w t l, t - x.t ≤ w := by
  intro l
  induction l with
  | nil => intro _ x hx; cases hx
  | cons p ps ih =>
    intro hs x hx
    unfold popOld at hx
    by_cases h : t - p.t > w
    · rw [if_pos h] at hx
      exact ih (List.Pairwise.of_cons hs) x hx
    · rw [if_neg h] at hx
      rcases List.mem_cons.mp hx with e | e
      · rw [e]; omega
      · have := List.rel_of_pairwise_cons hs e
        omega

theorem popOld_snoc (w t b : Int) (hw : 0 ≤ w) : ∀ (l : List Point),
    ∃ kept, popOld w t (l ++ [{ t := t, bytes := b }]) = kept ++ [{ t := t, bytes := b }] := by
  intro l
  induction l with
  | nil =>
    refine ⟨[], ?_⟩
    show popOld w t [{ t := t, bytes := b }] = _
    unfold popOld
    rw [if_neg (by simp only [sub_self]; omega)]
    rfl
  | cons p ps ih =>
    show ∃ kept, popOld w t (p :: (ps ++ [{ t := t, bytes := b }])) = _
    unfold popOld
    by_cases h : t - p.t > w
    · rw [if_pos h]
      exact ih
    · rw [if_neg h]
      exact ⟨p :: ps, rfl⟩

theorem feed_snoc (s : SpeedAverager) (l : List Point) (p : Point) :
    feed s (l ++ [p]) = (feed s l).onProgress p.t p.bytes := by
  unfold feed
  rw [List.foldl_append]
  rfl

theorem feed_windowMs (s : SpeedAverager) : ∀ (l : List Point), (feed s l).windowMs = s.windowMs := by
  intro l
  induction l using List.reverseRecOn with
  | nil => rfl
  | append_singleton l p ih =>
    rw [feed_snoc]
    exact ih

/-- What the deque holds after the samples of a list were fed to an empty estimator. -/
theorem feed_invariant (w : Int) (hw : 0 ≤ w) : ∀ (samples : List Point),
    samples.Pairwise (fun p q => p.t ≤ q.t) →
    ∃ dropped, samples = dropped ++ (feed { windowMs := w, points := [] } samples).points ∧
      ∀ last, samples.getLast? = some last →
        (feed { windowMs := w, points := [] } samples).points.getLast? = some last ∧
        (∀ p ∈ (feed { windowMs := w, points := [] } samples).points, last.t - p.t ≤ w) ∧
        (∀ q ∈ dropped, last.t - q.t > w) := by
  intro samples
  induction samples using List.reverseRecOn with
  | nil =>
    intro _
    exact ⟨[], rfl, fun last h => by cases h⟩
  | append_singleton l p ih =>
    intro hs
    obtain ⟨hl, hlp⟩ := List.pairwise_append.mp hs |>.1, (List.pairwise_append.mp hs).2.2
    obtain ⟨dropped, e, hinv⟩ := ih hl
    have hwin := feed_windowMs { windowMs := w, points := [] } l
    have hpts : (feed { windowMs := w, points := [] } (l ++ [p])).points =
        popOld w p.t ((feed { windowMs := w, points := [] } l).points ++ [p]) := by
      rw [feed_snoc]
      unfold SpeedAverager.onProgress
      rw [hwin]
    obtain ⟨pre, hsplit, hpre⟩ := popOld_split w p.t
      ((feed { windowMs := w, points := [] } l).points ++ [p])
    obtain ⟨kept, hkept⟩ := popOld_snoc w p.t p.bytes hw
      (feed { windowMs := w, points := [] } l).points
    have hsorted : ((feed { windowMs := w, points := [] } l).points ++ [p]).Pairwise
        (fun p q => p.t ≤ q.t) := by
      have : (dropped ++ (feed { windowMs := w, points := [] } l).points ++ [p]).Pairwise
          (fun p q => p.t ≤ q.t) := by rw [← e]; exact hs
      rw [List.append_assoc] at this
      exact (List.pairwise_append.mp this).2.1
    refine ⟨dropped ++ pre, ?_, ?_⟩
    · rw [hpts, List.append_assoc, ← hsplit, ← List.append_assoc, ← e]
    · intro last hlast
      have hlast' : last = p := by
        simpa using hlast.symm
      subst hlast'
      refine ⟨?_, ?_, ?_⟩
      · rw [hpts, hkept]
        simp
      · rw [hpts]
        exact popOld_within w last.t _ hsorted
      · intro q hq
        rcases List.mem_append.mp hq with h1 | h1
        · have hq_le : q.t ≤ last.t := hlp q (by rw [e]; exact List.mem_append_left _ h1) last
            (List.mem_singleton.mpr rfl)
          cases hl0 : l.getLast? with
          | none =>
            have : l = [] := List.getLast?_eq_none_iff.mp hl0
            rw [this] at e
            have : dropped = [] := by
              have := congrArg List.length e
              simp at this
              exact List.length_eq_zero.mp (by omega)
            rw [this] at h1
            cases h1
          | some prev =>
            have h2 := (hinv prev hl0).2.2 q h1
            have hprev : prev.t ≤ last.t :=
              hlp prev (List.mem_of_getLast?_eq_some hl0) last (List.mem_singleton.mpr rfl)
            omega
        · exact hpre q h1

/-- C28: for a window that is not negative and samples with non-decreasing timestamps fed, one
call of `onProgress` each, to an estimator whose deque was empty (a new one, or one that was
reset): after the call for the sample `last` the deque is not empty and ends with `last`; it is
a suffix of the samples fed so far, in their order; every sample it holds is at most the window
older than `last`; every sample that was dropped, and so the one just before the head of the
deque, is more than the window older than `last`.  After `reset` the deque is empty and
`avgBytesPerSec` returns 0. -/
theorem onProgress_keeps_window (w : Int) (hw : 0 ≤ w) (samples : List Point) (last : Point)
    (hs : (samples ++ [last]).Pairwise (fun p q => p.t ≤ q.t)) :
    (∃ dropped kept,
      samples ++ [last] =
        dropped ++ (feed { windowMs := w, points := [] } (samples ++ [last])).points ∧
      (feed { windowMs := w, points := [] } (samples ++ [last])).points = kept ++ [last] ∧
      (∀ p ∈ (feed { windowMs := w, points := [] } (samples ++ [last])).points,
        last.t - p.t ≤ w) ∧
      (∀ q ∈ dropped, last.t - q.t > w) ∧
      (∀ q, dropped.getLast? = some q → last.t - q.t > w)) ∧
    (∀ (rnd : ℚ → ℚ) (s : SpeedAverager),
      s.reset.points = [] ∧ s.reset.avgBytesPerSec rnd = 0) := by
  constructor
  · obtain ⟨dropped, e, hinv⟩ := feed_invariant w hw (samples ++ [last]) hs
    obtain ⟨h1, h2, h3⟩ := hinv last (by simp)
    obtain ⟨kept, hk⟩ := List.getLast?_eq_some_iff.mp h1
    exact ⟨dropped, kept, e, hk, h2, h3, fun q hq => h3 q (List.mem_of_getLast?_eq_some hq)⟩
  · intro rnd s
    exact ⟨rfl, rfl⟩

/-- C28, witness: a window of 100 ms and samples at 0, 50, 120 and 300 ms; the deque then holds
the last sample only. -/
theorem onProgress_keeps_window_witness :
    (0 : Int) ≤ 100 ∧
    ([Point.mk 0 0, Point.mk 50 3, Point.mk 120 10] ++ [Point.mk 300 20]).Pairwise
      (fun p q => p.t ≤ q.t) ∧
    (feed { windowMs := 100, points := [] }
      ([Point.mk 0 0, Point.mk 50 3, Point.mk 120 10] ++ [Point.mk 300 20])).points =
      [Point.mk 300 20] ∧
    ∃ dropped kept,
      [Point.mk 0 0, Point.mk 50 3, Point.mk 120 10] ++ [Point.mk 300 20] =
        dropped ++ (feed { windowMs := 100, points := [] }
          ([Point.mk 0 0, Point.mk 50 3, Point.mk 120 10] ++ [Point.mk 300 20])).points ∧
      (feed { windowMs := 100, points := [] }
        ([Point.mk 0 0, Point.mk 50 3, Point.mk 120 10] ++ [Point.mk 300 20])).points =
        kept ++ [Point.mk 300 20] ∧
      (∀ p ∈ (feed { windowMs := 100, points := [] }
        ([Point.mk 0 0, Point.mk 50 3, Point.mk 120 10] ++ [Point.mk 300 20])).points,
        (Point.mk 300 20).t - p.t ≤ 100) ∧
      (∀ q ∈ dropped, (Point.mk 300 20).t - q.t > 100) ∧
      (∀ q, dropped.getLast? = some q → (Point.mk 300 20).t - q.t > 100) :=
  ⟨by decide, by decide, by decide,
    (onProgress_keeps_window 100 (by decide) [Point.mk 0 0, Point.mk 50 3, Point.mk 120 10]
      (Point.mk 300 20) (by decide)).1⟩

/-! ### Start-up validation -/

theorem append_ne_empty_of_left (a b : String) (h : a.data ≠ []) : a ++ b ≠ "" := by
  intro e
  have := congrArg String.data e
  simp only [String.data_append] at this
  have h2 : a.data = [] := (List.append_eq_nil.mp this).1
  exact h h2

theorem destCheck_finds (sep : Char) (cwd dest : String) : ∀ (l : List String),
    (∃ s ∈ l, equalsCI s dest = true ∨ isSubPath sep cwd s dest = true) →
    destCheck sep cwd dest l ≠ "" := by
  intro l
  induction l with
  | nil => rintro ⟨s, hs, _⟩; cases hs
  | cons x t ih =>
    rintro ⟨s, hs, hcond⟩
    unfold destCheck
    by_cases h1 : equalsCI x dest = true
    · rw [if_pos h1]
      exact append_ne_empty_of_left _ _ (by decide)
    · rw [if_neg h1]
      by_cases h2 : isSubPath sep cwd x dest = true
      · rw [if_pos h2]
        rw [String.append_assoc, String.append_assoc]
        exact append_ne_empty_of_left _ _ (by decide)
      · rw [if_neg h2]
        apply ih
        rcases List.mem_cons.mp hs with e | e
        · rw [e] at hcond
          rcases hcond with c | c
          · exact absurd c h1
          · exact absurd c h2
        · exact ⟨s, e, hcond⟩

/-- Whenever the test of the destination against a checked source succeeds, `onValidate` reports
an error and disables the start button, whatever the other tests say. -/
theorem onValidate_error_of_test (sep : Char) (cwd : String) (writable : String → Bool)
    (items : List SourceItem) (destText : String)
    (h : ∃ it ∈ items, it.checked = true ∧
      (equalsCI (cleanPath it.text) (cleanPath destText) = true ∨
        isSubPath sep cwd (cleanPath it.text) (cleanPath destText) = true)) :
    (onValidate sep cwd writable items destText).1 ≠ "" ∧
      (onValidate sep cwd writable items destText).2 = false := by
  have key : (onValidate sep cwd writable items destText).1 ≠ "" := by
    unfold onValidate
    dsimp only
    split
    · exact append_ne_empty_of_left "请至少选择一个源目录。" "" (by decide) ∘ fun e => by
        rw [String.append_empty]; exact e
    · split
      · exact append_ne_empty_of_left "请选择备份目标目录（移动硬盘上的文件夹）。" "" (by decide) ∘
          fun e => by rw [String.append_empty]; exact e
      · split
        · exact append_ne_empty_of_left "目标目录不可写或不存在（可能未插入移动硬盘）。" ""
            (by decide) ∘ fun e => by rw [String.append_empty]; exact e
        · split
          · rw [String.append_assoc, String.append_assoc]
            exact append_ne_empty_of_left _ _ (by decide)
          · apply destCheck_finds
            obtain ⟨it, hit, hc, hcond⟩ := h
            refine ⟨cleanPath it.text, ?_, hcond⟩
            exact List.mem_map.mpr ⟨it, List.mem_filter.mpr ⟨hit, by simpa using hc⟩, rfl⟩
  refine ⟨key, ?_⟩
  have : (onValidate sep cwd writable items destText).2 =
      decide ((onValidate sep cwd writable items destText).1 = "") := rfl
  rw [this]
  exact decide_eq_false key

theorem equalsCI_refl (a : String) : equalsCI a a = true := by
  simp [equalsCI]

theorem absString_ne_empty (cs : List (List Char)) : absString cs ≠ "" := by
  intro e
  have := congrArg String.data e
  simp [absString] at this

/-- With the separator `/` the test of `isSubPath` succeeds on a directory that lies inside
another. -/
theorem isSubPath_of_liesInside (cwd parent child : String) (h : LiesInside parent child) :
    isSubPath '/' cwd parent child = true := by
  obtain ⟨cs, ds, hcs, hds, hplain, hp, hc⟩ := h
  have hpc : ∀ c ∈ cs, PlainComp c := fun c hc => hplain c (List.mem_append_left _ hc)
  subst hp hc
  unfold isSubPath
  rw [if_neg (by
    intro hor
    rcases hor with e | e
    · exact absString_ne_empty _ e
    · exact absString_ne_empty _ e)]
  rw [absolutePath_absString cwd cs hpc, absolutePath_absString cwd (cs ++ ds) hplain]
  unfold startsWithCI
  have hdata : (absString (cs ++ ds)).data =
      (absString cs ++ String.singleton '/').data ++ joinSlash ds := by
    simp [absString, joinSlash_append cs ds hcs hds, String.singleton]
  rw [hdata, List.map_append]
  exact List.isPrefixOf_iff_prefix.mpr (List.prefix_append _ _)

/-- C27 (amended): whenever the destination equals a checked source (after cleaning, letter case
ignored), or the native separator is `/` and the destination lies inside a checked source that
is not the root directory (the cleaned paths are absolute and normalized, and the components of
the destination are those of the source followed by at least one more), `onValidate` reports an
error and disables the start button, whatever the other sources and whatever the state of the
destination. -/
theorem onValidate_rejects_destination_in_source (sep : Char) (cwd : String)
    (writable : String → Bool) (items : List SourceItem) (destText : String)
    (h : ∃ it ∈ items, it.checked = true ∧
      (cleanPath it.text = cleanPath destText ∨
        equalsCI (cleanPath it.text) (cleanPath destText) = true ∨
        (sep = '/' ∧ LiesInside (cleanPath it.text) (cleanPath destText)))) :
    (onValidate sep cwd writable items destText).1 ≠ "" ∧
      (onValidate sep cwd writable items destText).2 = false := by
  obtain ⟨it, hit, hc, hcond⟩ := h
  apply onValidate_error_of_test
  refine ⟨it, hit, hc, ?_⟩
  rcases hcond with e | e | ⟨hsep, hin⟩
  · left
    rw [e]
    exact equalsCI_refl _
  · exact Or.inl e
  · right
    rw [hsep]
    exact isSubPath_of_liesInside cwd _ _ hin

/-- C27, witness: the destination `/src/backup` inside the checked source `/src`. -/
theorem onValidate_rejects_destination_in_source_witness :
    LiesInside (cleanPath "/src") (cleanPath "/src/backup") ∧
    (onValidate '/' "/" (fun _ => true) [SourceItem.mk "/src" true] "/src/backup").1 ≠ "" ∧
    (onValidate '/' "/" (fun _ => true) [SourceItem.mk "/src" true] "/src/backup").2 = false :=
  have hin : LiesInside (cleanPath "/src") (cleanPath "/src/backup") :=
    ⟨[['s', 'r', 'c']], [['b', 'a', 'c', 'k', 'u', 'p']], by simp, by simp,
      by decide, by decide, by decide⟩
  ⟨hin,
    onValidate_rejects_destination_in_source '/' "/" (fun _ => true) [SourceItem.mk "/src" true]
      "/src/backup"
      ⟨SourceItem.mk "/src" true, List.mem_singleton.mpr rfl, rfl, Or.inr (Or.inr ⟨rfl, hin⟩)⟩⟩

/-! ### Smart mode -/

theorem not_pos_zero {P : Prop} {k : Nat} (h : k + 1 ≤ 0) : P :=
  absurd h (Nat.not_succ_le_zero k)

theorem lastCounted_snoc_middle (hi : Int) (P : ℚ → Prop) (l : List ℚ) (c : ℚ)
    (hc : InMiddleBand hi c) (h : LastCounted hi P l) : LastCounted hi P (l ++ [c]) := by
  obtain ⟨front, b, mid, e, hP, hb, hm⟩ := h
  refine ⟨front, b, mid ++ [c], ?_, hP, hb, ?_⟩
  · rw [e]; simp
  · intro m hmem
    rcases List.mem_append.mp hmem with h1 | h1
    · exact hm m h1
    · rw [List.mem_singleton.mp h1]; exact hc

theorem lastCounted_snoc_counted (hi : Int) (P : ℚ → Prop) (l : List ℚ) (c : ℚ)
    (hc : ¬ InMiddleBand hi c) (hP : P c) : LastCounted hi P (l ++ [c]) :=
  ⟨l, c, [], rfl, hP, hc, fun _ h => by cases h⟩

theorem smartAfter_snoc (hi : Int) (l : List ℚ) (c : ℚ) :
    smartAfter hi (l ++ [c]) = (onSmartTick true true hi c (smartAfter hi l)).1 := by
  unfold smartAfter
  rw [List.foldl_append]
  rfl

theorem onSmartTick_busy (hi : Int) (c : ℚ) (s : SmartState) (h : (hi : ℚ) ≤ c) :
    onSmartTick true true hi c s =
      if s.smartPaused = false ∧ 2 ≤ s.busyCount + 1 then
        ({ smartPaused := true, busyCount := s.busyCount + 1, idleCount := 0 },
          SmartCall.pauseAll)
      else ({ smartPaused := s.smartPaused, busyCount := s.busyCount + 1, idleCount := 0 },
        SmartCall.nothing) := by
  unfold onSmartTick
  simp only [Bool.not_true, Bool.false_eq_true, if_false, if_pos h]
  cases hp : s.smartPaused <;> simp [pauseAllTasks, resumeAllTasks]

theorem onSmartTick_idle (hi : Int) (c : ℚ) (s : SmartState) (h : ¬ (hi : ℚ) ≤ c)
    (h2 : c ≤ (smartLo hi : ℚ)) :
    onSmartTick true true hi c s =
      if s.smartPaused = true ∧ 2 ≤ s.idleCount + 1 then
        ({ smartPaused := false, busyCount := 0, idleCount := s.idleCount + 1 },
          SmartCall.resumeAll)
      else ({ smartPaused := s.smartPaused, busyCount := 0, idleCount := s.idleCount + 1 },
        SmartCall.nothing) := by
  unfold onSmartTick
  simp only [Bool.not_true, Bool.false_eq_true, if_false, if_neg h, if_pos h2]
  cases hp : s.smartPaused <;> simp [pauseAllTasks, resumeAllTasks]

theorem onSmartTick_middle (hi : Int) (c : ℚ) (s : SmartState) (h : ¬ (hi : ℚ) ≤ c)
    (h2 : ¬ c ≤ (smartLo hi : ℚ)) :
    onSmartTick true true hi c s =
      if s.smartPaused = false ∧ 2 ≤ s.busyCount then
        ({ s with smartPaused := true }, SmartCall.pauseAll)
      else if s.smartPaused = true ∧ 2 ≤ s.idleCount then
        ({ s with smartPaused := false }, SmartCall.resumeAll)
      else (s, SmartCall.nothing) := by
  unfold onSmartTick
  simp only [Bool.not_true, Bool.false_eq_true, if_false, if_neg h, if_neg h2]
  cases hp : s.smartPaused <;> simp [pauseAllTasks, resumeAllTasks]

theorem smartInv_step (hi : Int) (l : List ℚ) (c : ℚ) (s : SmartState) (h : SmartInv hi l s) :
    SmartInv hi (l ++ [c]) (onSmartTick true true hi c s).1 := by
  obtain ⟨hnb, hbp, hir, hbl, hil, hble, hile⟩ := h
  have hlen : (l ++ [c]).length = l.length + 1 := by simp
  by_cases h1 : (hi : ℚ) ≤ c
  · have hnm : ¬ InMiddleBand hi c := fun hm => absurd h1 (not_le.mpr hm.1)
    rw [onSmartTick_busy hi c s h1]
    split
    · refine ⟨Or.inr rfl, fun _ => rfl, fun h => not_pos_zero h, fun _ =>
        lastCounted_snoc_counted hi _ l c hnm h1, fun h => not_pos_zero h, ?_, ?_⟩
      · rw [hlen]; exact Nat.succ_le_succ hble
      · exact Nat.zero_le _
    · rename_i hn
      refine ⟨Or.inr rfl, ?_, fun h => not_pos_zero h, fun _ =>
        lastCounted_snoc_counted hi _ l c hnm h1, fun h => not_pos_zero h, ?_, ?_⟩
      · intro h2
        cases hp : s.smartPaused
        · exact absurd ⟨hp, h2⟩ hn
        · rfl
      · rw [hlen]; exact Nat.succ_le_succ hble
      · exact Nat.zero_le _
  · by_cases h2 : c ≤ (smartLo hi : ℚ)
    · have hnm : ¬ InMiddleBand hi c := fun hm => absurd h2 (not_le.mpr hm.2)
      rw [onSmartTick_idle hi c s h1 h2]
      split
      · refine ⟨Or.inl rfl, fun h => not_pos_zero h, fun _ => rfl,
          fun h => not_pos_zero h, fun _ =>
          lastCounted_snoc_counted hi _ l c hnm ⟨not_le.mp h1, h2⟩, ?_, ?_⟩
        · exact Nat.zero_le _
        · rw [hlen]; exact Nat.succ_le_succ hile
      · rename_i hn
        refine ⟨Or.inl rfl, fun h => not_pos_zero h, ?_,
          fun h => not_pos_zero h, fun _ =>
          lastCounted_snoc_counted hi _ l c hnm ⟨not_le.mp h1, h2⟩, ?_, ?_⟩
        · intro h3
          cases hp : s.smartPaused
          · rfl
          · exact absurd ⟨hp, h3⟩ hn
        · exact Nat.zero_le _
        · rw [hlen]; exact Nat.succ_le_succ hile
    · have hm : InMiddleBand hi c := ⟨not_le.mp h1, not_le.mp h2⟩
      rw [onSmartTick_middle hi c s h1 h2]
      have keep : SmartInv hi (l ++ [c]) s :=
        ⟨hnb, hbp, hir, fun h => lastCounted_snoc_middle hi _ l c hm (hbl h),
          fun h => lastCounted_snoc_middle hi _ l c hm (hil h),
          by rw [hlen]; exact Nat.le_succ_of_le hble, by rw [hlen]; exact Nat.le_succ_of_le hile⟩
      split
      · rename_i hc
        rw [hbp hc.2] at hc
        exact absurd hc.1 (by decide)
      · split
        · rename_i _ hc
          rw [hir hc.2] at hc
          exact absurd hc.1 (by decide)
        · exact keep

theorem smartInv_after (hi : Int) (l : List ℚ) : SmartInv hi l (smartAfter hi l) := by
  induction l using List.reverseRecOn with
  | nil =>
    exact ⟨Or.inl rfl, fun h => not_pos_zero h, fun h => not_pos_zero h,
      fun h => not_pos_zero h, fun h => not_pos_zero h, Nat.le_refl _, Nat.le_refl _⟩
  | append_singleton l c ih =>
    rw [smartAfter_snoc]
    exact smartInv_step hi l c _ ih

/-- C30 (amended): samples of the middle band (below `hi`, above `lo = max (hi - 10) 10`) are not
counted.  For every sequence of samples fed to `onSmartTick` with the threshold `hi`, a tick calls
`pauseAllTasks` only if its sample is at least `hi` and the last earlier sample outside the middle
band was at least `hi` too, and calls `resumeAllTasks` only if its sample is at most `lo` and the
last earlier sample outside the middle band was at most `lo` too; the two counters are never both
positive and never exceed the number of samples; a tick whose guard fails changes nothing. -/
theorem onSmartTick_calls_after_two_counted (hi : Int) (before : List ℚ) (cpu : ℚ) :
    (smartCallAt hi before cpu = SmartCall.pauseAll →
      (hi : ℚ) ≤ cpu ∧ LastCounted hi (fun b => (hi : ℚ) ≤ b) before ∧
      (smartAfter hi before).smartPaused = false ∧
      (smartAfter hi (before ++ [cpu])).smartPaused = true) ∧
    (smartCallAt hi before cpu = SmartCall.resumeAll →
      cpu < (hi : ℚ) ∧ cpu ≤ (smartLo hi : ℚ) ∧
      LastCounted hi (fun b => b < (hi : ℚ) ∧ b ≤ (smartLo hi : ℚ)) before ∧
      (smartAfter hi before).smartPaused = true ∧
      (smartAfter hi (before ++ [cpu])).smartPaused = false) ∧
    ((smartAfter hi before).busyCount = 0 ∨ (smartAfter hi before).idleCount = 0) ∧
    (smartAfter hi before).busyCount ≤ before.length ∧
    (smartAfter hi before).idleCount ≤ before.length ∧
    (∀ (running : Bool) (s : SmartState),
      onSmartTick false running hi cpu s = (s, SmartCall.nothing)) ∧
    (∀ ( checked : Bool) (s : SmartState),
      onSmartTick checked false hi cpu s = (s, SmartCall.nothing)) := by
  obtain ⟨hnb, hbp, hir, hbl, hil, hble, hile⟩ := smartInv_after hi before
  refine ⟨?_, ?_, hnb, hble, hile, fun _ _ => rfl, fun c s => by cases c <;> rfl⟩
  · intro h
    unfold smartCallAt at h
    rw [smartAfter_snoc]
    by_cases h1 : (hi : ℚ) ≤ cpu
    · rw [onSmartTick_busy hi cpu _ h1] at h ⊢
      split at h
      · rename_i hc
        rw [if_pos hc]
        exact ⟨h1, hbl (by omega), hc.1, rfl⟩
      · cases h
    · by_cases h2 : cpu ≤ (smartLo hi : ℚ)
      · rw [onSmartTick_idle hi cpu _ h1 h2] at h
        split at h <;> cases h
      · rw [onSmartTick_middle hi cpu _ h1 h2] at h
        split at h
        · rename_i hc
          rw [hbp hc.2] at hc
          exact absurd hc.1 (by decide)
        · split at h <;> cases h
  · intro h
    unfold smartCallAt at h
    rw [smartAfter_snoc]
    by_cases h1 : (hi : ℚ) ≤ cpu
    · rw [onSmartTick_busy hi cpu _ h1] at h
      split at h <;> cases h
    · by_cases h2 : cpu ≤ (smartLo hi : ℚ)
      · rw [onSmartTick_idle hi cpu _ h1 h2] at h ⊢
        split at h
        · rename_i hc
          rw [if_pos hc]
          exact ⟨not_le.mp h1, h2, hil (by omega), hc.1, rfl⟩
        · cases h
      · rw [onSmartTick_middle hi cpu _ h1 h2] at h
        split at h
        · cases h
        · split at h
          · rename_i _ hc
            rw [hir hc.2] at hc
            exact absurd hc.1 (by decide)
          · cases h

/-- C30, witness: with `hi = 65` the second of two samples of 70 pauses the tasks. -/
theorem onSmartTick_calls_after_two_counted_witness :
    smartCallAt 65 [70] 70 = SmartCall.pauseAll ∧
    ((65 : Int) : ℚ) ≤ 70 ∧ LastCounted 65 (fun b => ((65 : Int) : ℚ) ≤ b) [70] ∧
    (smartAfter 65 [70]).smartPaused = false ∧
    (smartAfter 65 ([70] ++ [70])).smartPaused = true :=
  ⟨by decide, (onSmartTick_calls_after_two_counted 65 [70] 70).1 (by decide)⟩

/-! ### The signals of a file come in pairs -/

theorem fileTrace_append (a b : List Event) : ∀ (cur : Option String),
    fileTrace cur (a ++ b) = (fileTrace cur a).bind (fun next => fileTrace next b) := by
  induction a with
  | nil => intro cur; rfl
  | cons e t ih =>
    intro cur
    simp only [List.cons_append, fileTrace]
    cases fileStep cur e with
    | none => rfl
    | some next => exact ih next

theorem fileTrace_stays (cur : Option String) : ∀ (evs : List Event),
    (∀ e ∈ evs, fileStep cur e = some cur) → fileTrace cur evs = some cur := by
  intro evs
  induction evs with
  | nil => intro _; rfl
  | cons e t ih =>
    intro h
    simp only [fileTrace]
    rw [h e (List.mem_cons_self _ _)]
    exact ih (fun x hx => h x (List.mem_cons_of_mem _ hx))

theorem stays_traceOnly (cur : Option String) : TraceOnly (Stays cur) := by
  refine ⟨fun w => ⟨[], by simp, fun _ h => by cases h⟩, ?_, ?_⟩
  · intro w w1 w2 h1 h2
    obtain ⟨e1, he1, hk1⟩ := h1
    obtain ⟨e2, he2, hk2⟩ := h2
    refine ⟨e1 ++ e2, by rw [he2, he1, List.append_assoc], ?_⟩
    intro e he
    rcases List.mem_append.mp he with h | h
    · exact hk1 e h
    · exact hk2 e h
  · intro w w1 he _
    exact ⟨[], by simp [he], fun _ h => by cases h⟩

theorem stays_emit (cur : Option String) (e : Event) (h : fileStep cur e = some cur) :
    Steps (Stays cur) (emit e) := by
  intro w a w1 hw
  cases hw
  refine ⟨[e], rfl, ?_⟩
  intro x hx
  rw [List.mem_singleton.mp hx]
  exact h

theorem stays_setOfflineSignaled (cur : Option String) (b : Bool) :
    Steps (Stays cur) (setOfflineSignaled b) := by
  intro w a w1 hw
  cases hw
  exact ⟨[], by simp, fun _ h => by cases h⟩

theorem fileStep_other (cur : Option String) (e : Event) (h : isStartOrFinish e = false)
    (hv : isVersionCreated e = false) : fileStep cur e = some cur := by
  cases e with
  | fileStarted a b => simp [isStartOrFinish] at h
  | fileFinished a b c => simp [isStartOrFinish] at h
  | versionCreated a b c => simp [isVersionCreated] at hv
  | progressUpdated a b => cases cur <;> rfl
  | finished a b => cases cur <;> rfl
  | deletedStashed a b c => cases cur <;> rfl
  | deviceOffline a => cases cur <;> rfl
  | deviceOnline => cases cur <;> rfl

section
variable (env : Env) (opt : Options) {R : World → World → Prop}
set_option linter.unusedTactic false
set_option linter.unreachableTactic false
set_option linter.unusedVariables false

theorem stays_wait (cur : Option String) (fuel : Nat) (hint : String) :
    Steps (Stays cur) (waitUntilDestReadyOrStopped env fuel hint) :=
  steps_wait_of env (stays_traceOnly cur).toTapeBlind (stays_setOfflineSignaled cur)
    (fun _ => stays_emit cur _ (fileStep_other cur _ rfl rfl))
    (stays_emit cur _ (fileStep_other cur _ rfl rfl)) fuel hint

/-- The step that archives the payload emits `versionCreated` for its own `rel` only. -/
theorem steps_archiveVersion_of (H : TraceOnly R) (rel dstPath : String)
    (hv : ∀ p q, Steps R (emit (Event.versionCreated rel p q))) :
    Steps R (archiveVersion env opt rel dstPath) := by
  have HT : TapeBlind R := H.toTapeBlind
  unfold archiveVersion
  repeat' first
    | with_reducible exact steps_tsNow env HT
    | with_reducible exact steps_ensureDir env H _
    | with_reducible exact steps_isDestReady env HT
    | with_reducible exact steps_moveFileRobust env H _ _
    | with_reducible exact steps_writeMetaJson env opt H _ _ _ _
    | with_reducible exact hv _ _
    | with_reducible exact steps_pure HT _
    | with_reducible exact steps_outOfFuel
    | with_reducible apply steps_bind HT
    | with_reducible apply steps_ite
    | with_reducible intro _
    | split
    | dsimp only

theorem steps_maybeStash_of (H : TraceOnly R) (rel0 : String)
    (hv : ∀ p q, Steps R (emit (Event.versionCreated (cleanRel rel0) p q))) :
    Steps R (maybeStashExistingVersion env opt rel0) := by
  have HT : TapeBlind R := H.toTapeBlind
  unfold maybeStashExistingVersion
  repeat' first
    | with_reducible exact steps_isDestReady env HT
    | with_reducible exact steps_readFs HT _
    | with_reducible exact steps_fastEqual env HT _ _
    | with_reducible exact steps_archiveVersion_of env opt H _ _ hv
    | with_reducible exact steps_pure HT _
    | with_reducible exact steps_outOfFuel
    | with_reducible apply steps_bind HT
    | with_reducible apply steps_ite
    | with_reducible intro _
    | split
    | dsimp only

theorem steps_readyOrWait_of (H : TraceOnly R)
    (hw : ∀ fuel hint, Steps R (waitUntilDestReadyOrStopped env fuel hint))
    (fuel : Nat) (hint : String) : Steps R (readyOrWait env fuel hint) := by
  have HT : TapeBlind R := H.toTapeBlind
  unfold readyOrWait
  repeat' first
    | with_reducible exact steps_isDestReady env HT
    | with_reducible exact hw _ _
    | with_reducible exact steps_loadStop env HT
    | with_reducible exact steps_pure HT _
    | with_reducible exact steps_outOfFuel
    | with_reducible apply steps_bind HT
    | with_reducible apply steps_ite
    | with_reducible intro _
    | split
    | dsimp only

/-- The handling of the deletions emits the signals of the wait and `deletedStashed` only. -/
theorem steps_handleDeletionsLoop_of (H : TraceOnly R)
    (hw : ∀ fuel hint, Steps R (waitUntilDestReadyOrStopped env fuel hint))
    (hd : ∀ rel p q, Steps R (emit (Event.deletedStashed rel p q)))
    (fuel : Nat) (srcSet : List String) (rootNs : String) :
    ∀ (l : List String), Steps R (handleDeletionsLoop env opt fuel srcSet rootNs l) := by
  have HT : TapeBlind R := H.toTapeBlind
  intro l
  induction l with
  | nil =>
    unfold handleDeletionsLoop
    exact steps_pure HT _
  | cons x t ih =>
    unfold handleDeletionsLoop
    repeat' first
      | with_reducible apply ih
      | with_reducible exact ih
      | with_reducible exact steps_loadStop env HT
      | with_reducible exact steps_readyOrWait_of env H hw _ _
      | with_reducible exact steps_tsNow env HT
      | with_reducible exact steps_ensureDir env H _
      | with_reducible exact steps_moveFileRobust env H _ _
      | with_reducible exact steps_writeMetaJson env opt H _ _ _ _
      | with_reducible exact hd _ _ _
      | with_reducible exact steps_pure HT _
      | with_reducible exact steps_outOfFuel
      | with_reducible apply steps_bind HT
      | with_reducible apply steps_ite
      | with_reducible intro _
      | split
      | dsimp only

theorem steps_handleDeletions_of (H : TraceOnly R)
    (hw : ∀ fuel hint, Steps R (waitUntilDestReadyOrStopped env fuel hint))
    (hd : ∀ rel p q, Steps R (emit (Event.deletedStashed rel p q)))
    (fuel : Nat) (srcSet : List String) : Steps R (handleDeletions env opt fuel srcSet) := by
  have HT : TapeBlind R := H.toTapeBlind
  unfold handleDeletions
  repeat' first
    | with_reducible exact steps_readyOrWait_of env H hw _ _
    | with_reducible exact steps_readFs HT _
    | with_reducible exact steps_handleDeletionsLoop_of env opt H hw hd _ _ _ _
    | with_reducible exact steps_pure HT _
    | with_reducible exact steps_outOfFuel
    | with_reducible apply steps_bind HT
    | with_reducible apply steps_ite
    | with_reducible intro _
    | split
    | dsimp only

/-- The retention sweep emits the signals of the wait only. -/
theorem steps_sweepRetention_of (H : TraceOnly R)
    (hw : ∀ fuel hint, Steps R (waitUntilDestReadyOrStopped env fuel hint))
    (fuel : Nat) : Steps R (sweepRetention env opt fuel) := by
  have HT : TapeBlind R := H.toTapeBlind
  unfold sweepRetention
  repeat' first
    | with_reducible exact steps_readyOrWait_of env H hw _ _
    | with_reducible exact steps_currentMs env HT
    | with_reducible exact steps_sweepDir env opt H _ _ _
    | with_reducible exact steps_pure HT _
    | with_reducible exact steps_outOfFuel
    | with_reducible apply steps_bind HT
    | with_reducible apply steps_ite
    | with_reducible intro _
    | split
    | dsimp only

theorem steps_progressTick_of (H : TraceOnly R)
    (hp : ∀ a b, Steps R (emit (Event.progressUpdated a b))) (bytesDone : Nat) :
    Steps R (progressTick env bytesDone) := by
  have HT : TapeBlind R := H.toTapeBlind
  unfold progressTick
  repeat' first
    | with_reducible exact steps_timerElapsed env HT
    | with_reducible exact steps_getTotalBytes HT
    | with_reducible exact hp _ _
    | with_reducible exact steps_pure HT _
    | with_reducible exact steps_outOfFuel
    | with_reducible apply steps_bind HT
    | with_reducible apply steps_ite
    | with_reducible intro _
    | split
    | dsimp only

end

/-! The open iteration through the functions of the worker. -/

theorem fileSteps_of_stays {α : Type} (cur : Option String) (m : M α) (h : Steps (Stays cur) m) :
    FileSteps cur (fun _ => cur) m := by
  intro w a w1 hw
  obtain ⟨evs, he, hk⟩ := h w a w1 hw
  exact ⟨evs, he, fileTrace_stays cur evs hk⟩

theorem fileSteps_bind {α β : Type} (cur : Option String) (pm : α → Option String)
    (post : β → Option String) (m : M α) (f : α → M β) (hm : FileSteps cur pm m)
    (hf : ∀ x, FileSteps (pm x) post (f x)) : FileSteps cur post (m >>= f) := by
  intro w y w2 h
  obtain ⟨x, w1, h1, h2⟩ := bind_inv h
  obtain ⟨e1, he1, hk1⟩ := hm w x w1 h1
  obtain ⟨e2, he2, hk2⟩ := hf x w1 y w2 h2
  refine ⟨e1 ++ e2, by rw [he2, he1, List.append_assoc], ?_⟩
  rw [fileTrace_append, hk1]
  exact hk2

theorem fileSteps_bind_of {α β : Type} (Q : α → Prop) (cur : Option String)
    (pm : α → Option String) (post : β → Option String) (m : M α) (f : α → M β)
    (hq : Returns Q m) (hm : FileSteps cur pm m)
    (hf : ∀ x, Q x → FileSteps (pm x) post (f x)) : FileSteps cur post (m >>= f) := by
  intro w y w2 h
  obtain ⟨x, w1, h1, h2⟩ := bind_inv h
  obtain ⟨e1, he1, hk1⟩ := hm w x w1 h1
  obtain ⟨e2, he2, hk2⟩ := hf x (hq w x w1 h1) w1 y w2 h2
  refine ⟨e1 ++ e2, by rw [he2, he1, List.append_assoc], ?_⟩
  rw [fileTrace_append, hk1]
  exact hk2

theorem fileSteps_ite {α : Type} (cur : Option String) (post : α → Option String) (c : Prop)
    [Decidable c] (x y : M α) (hx : FileSteps cur post x) (hy : FileSteps cur post y) :
    FileSteps cur post (if c then x else y) := by
  split
  · exact hx
  · exact hy

theorem fileSteps_pure {α : Type} (cur : Option String) (post : α → Option String) (a : α)
    (h : post a = cur) : FileSteps cur post (pure a : M α) := by
  intro w x w1 hw
  simp only [pure_apply, Option.some.injEq, Prod.mk.injEq] at hw
  obtain ⟨hx, hw1⟩ := hw
  subst hx hw1
  exact ⟨[], by simp, by rw [h]; rfl⟩

theorem fileSteps_outOfFuel {α : Type} (cur : Option String) (post : α → Option String) :
    FileSteps cur post (outOfFuel : M α) := by
  intro w a w1 h; cases h

/-- Between two iterations `fileStarted` opens the iteration of its file. -/
theorem fileSteps_started (rel : String) (size : Nat) :
    FileSteps none (fun _ => some rel) (emit (Event.fileStarted rel size)) := by
  intro w a w1 hw
  cases hw
  exact ⟨[Event.fileStarted rel size], rfl, rfl⟩

/-- The signal `fileFinished` of the file of the open iteration closes it. -/
theorem fileSteps_finished (rel : String) (ok : Bool) (err : String) :
    FileSteps (some rel) (fun _ => none) (emit (Event.fileFinished rel ok err)) := by
  intro w a w1 hw
  cases hw
  refine ⟨[Event.fileFinished rel ok err], rfl, ?_⟩
  simp [fileTrace, fileStep]

section
variable (env : Env) (opt : Options)
set_option linter.unusedTactic false
set_option linter.unreachableTactic false
set_option linter.unusedVariables false

/-- Without a stop request a load of `m_stop` reads 0. -/
theorem fileSteps_loadStop_bind {β : Type} (hs : env.stopAt = none) (cur : Option String)
    (post : β → Option String) (f : Bool → M β) (hf : FileSteps cur post (f false)) :
    FileSteps cur post (loadStop env >>= f) := by
  intro w b w2 h
  rw [bind_apply, loadStop_none env hs] at h
  obtain ⟨evs, he, hk⟩ := hf _ b w2 h
  exact ⟨evs, he, hk⟩

theorem stays_maybeStash (rel : String) :
    Steps (Stays (some rel)) (maybeStashExistingVersion env opt rel) :=
  steps_maybeStash_of env opt (stays_traceOnly _) rel
    (fun _ _ => stays_emit _ _ (by simp [fileStep]))

theorem stays_progressTick (cur : Option String) (bytesDone : Nat) :
    Steps (Stays cur) (progressTick env bytesDone) :=
  steps_progressTick_of env (stays_traceOnly _)
    (fun _ _ => stays_emit _ _ (fileStep_other cur _ rfl rfl)) bytesDone

/-- Without a stop request the retry loop of a file emits exactly one `fileFinished`, for this
file, and no `fileStarted`. -/
theorem fileSteps_copyRetryLoop (hs : env.stopAt = none) (fuel : Nat) (rel : String) :
    ∀ (n bytesDone : Nat) (allOk : Bool),
      FileSteps (some rel) (fun _ => none) (copyRetryLoop env opt fuel rel n bytesDone allOk) := by
  have HT : TapeBlind (Stays (some rel)) := (stays_traceOnly _).toTapeBlind
  have HN : TapeBlind (Stays none) := (stays_traceOnly _).toTapeBlind
  intro n
  induction n with
  | zero =>
    intro bytesDone allOk
    unfold copyRetryLoop
    exact fileSteps_outOfFuel _ _
  | succ n ih =>
    intro bytesDone allOk
    unfold copyRetryLoop
    repeat' first
      | with_reducible apply ih
      | (with_reducible apply fileSteps_loadStop_bind env hs
         simp only [Bool.false_eq_true, if_false])
      | with_reducible exact fileSteps_of_stays _ _ (steps_pauseLoop env HT _)
      | with_reducible exact fileSteps_of_stays _ _ (steps_isDestReady env HT)
      | with_reducible exact fileSteps_of_stays _ _ (stays_wait env _ _ _)
      | with_reducible exact fileSteps_of_stays _ _ (steps_copyOneFile env opt (stays_traceOnly _) _ _ _)
      | with_reducible exact fileSteps_of_stays _ _ (steps_verifyFile env opt HT _)
      | with_reducible exact fileSteps_finished _ _ _
      | with_reducible apply fileSteps_bind
      | with_reducible apply fileSteps_ite
      | with_reducible intro _
      | exact fileSteps_of_stays _ _ (steps_pure HN _)
      | split
      | dsimp only

/-- Without a stop request an iteration of the per-file loop that emits `fileStarted` emits one
`fileFinished` for the same file after it, and `versionCreated` only between the two. -/
theorem fileSteps_processFile (hs : env.stopAt = none) (fuel : Nat) (rel : String)
    (bytesDone : Nat) (allOk : Bool) :
    FileSteps none (fun _ => none) (processFile env opt fuel rel bytesDone allOk) := by
  have HT : TapeBlind (Stays (some rel)) := (stays_traceOnly _).toTapeBlind
  have HN : TapeBlind (Stays none) := (stays_traceOnly _).toTapeBlind
  unfold processFile
  repeat' first
    | with_reducible exact fileSteps_copyRetryLoop env opt hs _ _ _ _ _
    | (with_reducible apply fileSteps_loadStop_bind env hs
       simp only [Bool.false_eq_true, if_false])
    | (with_reducible apply returns_loadStop_bind env hs
       simp only [Bool.false_eq_true, if_false])
    | with_reducible exact fileSteps_started _ _
    | with_reducible exact fileSteps_finished _ _ _
    | with_reducible exact fileSteps_of_stays _ _ (steps_pauseLoop env HN _)
    | with_reducible exact fileSteps_of_stays _ _ (steps_readFs HN _)
    | with_reducible exact fileSteps_of_stays _ _ (steps_readFs HT _)
    | with_reducible exact fileSteps_of_stays _ _ (steps_isDestReady env HT)
    | with_reducible exact fileSteps_of_stays _ _ (stays_wait env _ _ _)
    | with_reducible exact fileSteps_of_stays _ _ (stays_maybeStash env opt _)
    | with_reducible exact fileSteps_of_stays _ _ (steps_identicalCheck env HT _ _)
    | with_reducible exact fileSteps_of_stays _ _ (stays_progressTick env _ _)
    | with_reducible apply fileSteps_bind_of (fun (x : Option Bool) => x ≠ none)
    | with_reducible apply fileSteps_bind
    | with_reducible apply fileSteps_ite
    | with_reducible apply returns_bind
    | with_reducible apply returns_ite
    | with_reducible intro _
    | exact returns_pure _ _ (Option.some_ne_none _)
    | exact fileSteps_of_stays _ _ (steps_pure HN _)
    | exact fileSteps_of_stays _ _ (steps_pure HT _)
    | contradiction
    | split
    | dsimp only

theorem fileSteps_fileLoop (hs : env.stopAt = none) (fuel : Nat) :
    ∀ (l : List String) (bytesDone : Nat) (allOk : Bool),
      FileSteps none (fun _ => none) (fileLoop env opt fuel l bytesDone allOk) := by
  have HN : TapeBlind (Stays none) := (stays_traceOnly _).toTapeBlind
  intro l
  induction l with
  | nil =>
    intro bytesDone allOk
    unfold fileLoop
    exact fileSteps_of_stays _ _ (steps_pure HN _)
  | cons x t ih =>
    intro bytesDone allOk
    unfold fileLoop
    repeat' first
      | with_reducible apply ih
      | with_reducible exact fileSteps_processFile env opt hs _ _ _ _
      | with_reducible apply fileSteps_bind
      | with_reducible intro _
      | exact fileSteps_of_stays _ _ (steps_pure HN _)
      | split
      | dsimp only

/-- Without a stop request `run` opens and closes the iteration of one file after the other, and
emits no `versionCreated` outside an iteration. -/
theorem fileSteps_run (hs : env.stopAt = none) (fuel : Nat) :
    FileSteps none (fun _ => none) (run env opt fuel) := by
  have HN : TapeBlind (Stays none) := (stays_traceOnly _).toTapeBlind
  have hd : ∀ rel p q, Steps (Stays none) (emit (Event.deletedStashed rel p q)) :=
    fun _ _ _ => stays_emit _ _ rfl
  have hdel : ∀ fuel srcSet, Steps (Stays none) (handleDeletions env opt fuel srcSet) :=
    steps_handleDeletions_of env opt (stays_traceOnly _) (stays_wait env _) hd
  have hsweep : ∀ fuel, Steps (Stays none) (sweepRetention env opt fuel) :=
    steps_sweepRetention_of env opt (stays_traceOnly _) (stays_wait env _)
  unfold run
  repeat' first
    | with_reducible exact fileSteps_fileLoop env opt hs _ _ _ _
    | (with_reducible apply fileSteps_loadStop_bind env hs
       simp only [Bool.false_eq_true, if_false, Bool.not_false, if_true])
    | with_reducible exact fileSteps_of_stays _ _ (steps_storageInfo env HN)
    | with_reducible exact fileSteps_of_stays _ _ (steps_setExpectedDevice HN _)
    | with_reducible exact fileSteps_of_stays _ _ (steps_readFs HN _)
    | with_reducible exact fileSteps_of_stays _ _ (steps_setTotalBytes HN _)
    | with_reducible exact fileSteps_of_stays _ _ (stays_wait env _ _ _)
    | with_reducible exact fileSteps_of_stays _ _ (hdel _ _)
    | with_reducible exact fileSteps_of_stays _ _ (hsweep _)
    | with_reducible apply fileSteps_bind
    | with_reducible apply fileSteps_ite
    | with_reducible intro _
    | exact fileSteps_of_stays _ _ (stays_emit _ _ rfl)
    | exact fileSteps_of_stays _ _ (steps_pure HN _)
    | split
    | dsimp only

end

/-! What an accepted list of signals looks like. -/

theorem fileStep_quiet (cur next : Option String) (e : Event) (h : fileStep cur e = some next)
    (hq : isStartOrFinish e = false) : next = cur := by
  cases e <;> cases cur <;> simp [fileStep, isStartOrFinish] at h hq ⊢ <;>
    first | exact h.symm | exact h.2.symm

/-- The `fileStarted` and `fileFinished` of an accepted list that ends between two iterations
are the pairs of the files, after the `fileFinished` of the open iteration if there is one. -/
theorem fileTrace_pairs : ∀ (evs : List Event) (cur : Option String),
    fileTrace cur evs = some none →
    match cur with
    | none => ∃ files : List (String × Nat × Bool × String),
        evs.filter isStartOrFinish = files.flatMap filePair
    | some rel => ∃ (ok : Bool) (err : String) (files : List (String × Nat × Bool × String)),
        evs.filter isStartOrFinish = Event.fileFinished rel ok err :: files.flatMap filePair := by
  intro evs
  induction evs with
  | nil =>
    intro cur h
    cases cur with
    | none => exact ⟨[], rfl⟩
    | some rel => cases h
  | cons e t ih =>
    intro cur h
    simp only [fileTrace] at h
    cases hstep : fileStep cur e with
    | none => rw [hstep] at h; cases h
    | some next =>
      rw [hstep] at h
      have hrec := ih next h
      cases hq : isStartOrFinish e with
      | false =>
        have : next = cur := fileStep_quiet cur next e hstep hq
        subst this
        rw [List.filter_cons_of_neg (by simp [hq])]
        exact hrec
      | true =>
        rw [List.filter_cons_of_pos hq]
        cases e with
        | fileStarted rel size =>
          cases cur with
          | some r => cases hstep
          | none =>
            have : next = some rel := by
              simp only [fileStep, Option.some.injEq] at hstep
              exact hstep.symm
            subst this
            obtain ⟨ok, err, files, hf⟩ := hrec
            refine ⟨(rel, size, ok, err) :: files, ?_⟩
            rw [hf]
            rfl
        | fileFinished rel ok err =>
          cases cur with
          | none => cases hstep
          | some r =>
            simp only [fileStep] at hstep
            by_cases hr : rel = r
            · rw [if_pos hr] at hstep
              have : next = none := by
                simp only [Option.some.injEq] at hstep
                exact hstep.symm
              subst this
              obtain ⟨files, hf⟩ := hrec
              exact ⟨ok, err, files, by rw [hf, hr]⟩
            · rw [if_neg hr] at hstep
              cases hstep
        | progressUpdated a b => cases hq
        | finished a b => cases hq
        | versionCreated a b c => cases hq
        | deletedStashed a b c => cases hq
        | deviceOffline a => cases hq
        | deviceOnline => cases hq

/-- An accepted list that leaves the iteration of `rel` open either started in it and holds no
`fileStarted` and no `fileFinished`, or holds the `fileStarted` of `rel` as the last of them. -/
theorem fileTrace_startedBefore (rel : String) : ∀ (evs : List Event) (cur : Option String),
    fileTrace cur evs = some (some rel) →
    (cur = some rel ∧ ∀ e ∈ evs, isStartOrFinish e = false) ∨ StartedBefore rel evs := by
  intro evs
  induction evs with
  | nil =>
    intro cur h
    simp only [fileTrace, Option.some.injEq] at h
    exact Or.inl ⟨h, fun _ he => by cases he⟩
  | cons e t ih =>
    intro cur h
    simp only [fileTrace] at h
    cases hstep : fileStep cur e with
    | none => rw [hstep] at h; cases h
    | some next =>
      rw [hstep] at h
      rcases ih next h with ⟨hn, hq⟩ | ⟨front, size, mid, ht, hmid⟩
      · cases hse : isStartOrFinish e with
        | false =>
          have : next = cur := fileStep_quiet cur next e hstep hse
          left
          refine ⟨by rw [← this, hn], ?_⟩
          intro x hx
          rcases List.mem_cons.mp hx with hx | hx
          · rw [hx]; exact hse
          · exact hq x hx
        | true =>
          right
          cases e with
          | fileStarted r size =>
            cases cur with
            | some r0 => cases hstep
            | none =>
              simp only [fileStep, Option.some.injEq] at hstep
              rw [← hstep] at hn
              simp only [Option.some.injEq] at hn
              exact ⟨[], size, t, by rw [hn]; rfl, hq⟩
          | fileFinished r ok err =>
            cases cur with
            | none => cases hstep
            | some r0 =>
              simp only [fileStep] at hstep
              by_cases hr : r = r0
              · rw [if_pos hr] at hstep
                simp only [Option.some.injEq] at hstep
                rw [← hstep] at hn
                cases hn
              · rw [if_neg hr] at hstep
                cases hstep
          | progressUpdated a b => cases hse
          | finished a b => cases hse
          | versionCreated a b c => cases hse
          | deletedStashed a b c => cases hse
          | deviceOffline a => cases hse
          | deviceOnline => cases hse
      · right
        exact ⟨e :: front, size, mid, by rw [ht]; rfl, hmid⟩

/-- An accepted list that starts in the iteration of `rel` and ends between two iterations holds
the `fileFinished` of `rel` as the first of its `fileStarted` and `fileFinished`. -/
theorem fileTrace_finishedAfter (rel : String) : ∀ (evs : List Event),
    fileTrace (some rel) evs = some none → FinishedAfter rel evs := by
  intro evs
  induction evs with
  | nil => intro h; cases h
  | cons e t ih =>
    intro h
    simp only [fileTrace] at h
    cases hstep : fileStep (some rel) e with
    | none => rw [hstep] at h; cases h
    | some next =>
      rw [hstep] at h
      cases hse : isStartOrFinish e with
      | false =>
        have : next = some rel := fileStep_quiet _ next e hstep hse
        rw [this] at h
        obtain ⟨mid, ok, err, rest, ht, hmid⟩ := ih h
        refine ⟨e :: mid, ok, err, rest, by rw [ht]; rfl, ?_⟩
        intro x hx
        rcases List.mem_cons.mp hx with hx | hx
        · rw [hx]; exact hse
        · exact hmid x hx
      | true =>
        cases e with
        | fileStarted r size => cases hstep
        | fileFinished r ok err =>
          simp only [fileStep] at hstep
          by_cases hr : r = rel
          · exact ⟨[], ok, err, t, by rw [hr]; rfl, fun _ hx => by cases hx⟩
          · rw [if_neg hr] at hstep
            cases hstep
        | progressUpdated a b => cases hse
        | finished a b => cases hse
        | versionCreated a b c => cases hse
        | deletedStashed a b c => cases hse
        | deviceOffline a => cases hse
        | deviceOnline => cases hse

/-- A `versionCreated` of an accepted list comes in an open iteration, for the cleaned path of
its file. -/
theorem fileTrace_versionCreated (before after : List Event) (v p q : String)
    (h : fileTrace none (before ++ Event.versionCreated v p q :: after) = some none) :
    ∃ rel, v = cleanRel rel ∧ StartedBefore rel before ∧ FinishedAfter rel after := by
  rw [fileTrace_append] at h
  cases hb : fileTrace none before with
  | none => rw [hb] at h; cases h
  | some cur =>
    rw [hb] at h
    simp only [Option.some_bind, fileTrace] at h
    cases cur with
    | none => cases h
    | some rel =>
      simp only [fileStep] at h
      by_cases hv : v = cleanRel rel
      · rw [if_pos hv] at h
        refine ⟨rel, hv, ?_, fileTrace_finishedAfter rel after h⟩
        rcases fileTrace_startedBefore rel before none hb with ⟨hc, _⟩ | hsb
        · cases hc
        · exact hsb
      · rw [if_neg hv] at h
        cases h

section
variable (env : Env) (opt : Options)

/-- C29: when nobody cancels, the signals a `run` that returns has emitted are such that the
`fileStarted` and `fileFinished` among them are, in this order, the pairs `fileStarted(rel, size)`,
`fileFinished(rel, ok, err)` of a list of files: each `fileStarted` is followed by one
`fileFinished` of the same file before the next `fileStarted`, and no `fileFinished` comes without
its `fileStarted`; and every `versionCreated` lies between the two signals of a file, with no
other `fileStarted` or `fileFinished` in between, and carries the cleaned path of this file. -/
theorem file_signals_come_in_pairs (hs : env.stopAt = none) (fuel : Nat) (w w1 : World)
    (h : run env opt fuel w = some ((), w1)) :
    ∃ evs, w1.events = w.events ++ evs ∧ fileTrace none evs = some none ∧
      (∃ files : List (String × Nat × Bool × String),
        evs.filter isStartOrFinish = files.flatMap filePair) ∧
      (∀ before v p q after, evs = before ++ Event.versionCreated v p q :: after →
        ∃ rel, v = cleanRel rel ∧ StartedBefore rel before ∧ FinishedAfter rel after) := by
  obtain ⟨evs, he, hk⟩ := fileSteps_run env opt hs fuel w () w1 h
  refine ⟨evs, he, hk, fileTrace_pairs evs none hk, ?_⟩
  intro before v p q after hsplit
  rw [hsplit] at hk
  exact fileTrace_versionCreated before after v p q hk

end

/-- C29, witness: the run of the scenario with one changed file, which emits `fileStarted`,
`versionCreated` and `fileFinished` for it. -/
theorem file_signals_come_in_pairs_witness :
    Demo.env.stopAt = none ∧
      ∃ w1, run Demo.env Demo.opt 5 (Demo.world Demo.filesChanged) = some ((), w1) ∧
        ∃ evs, w1.events = (Demo.world Demo.filesChanged).events ++ evs ∧
          fileTrace none evs = some none ∧
          (∃ files : List (String × Nat × Bool × String),
            evs.filter isStartOrFinish = files.flatMap filePair) ∧
          (∀ before v p q after, evs = before ++ Event.versionCreated v p q :: after →
            ∃ rel, v = cleanRel rel ∧ StartedBefore rel before ∧ FinishedAfter rel after) := by
  have hs : (run Demo.env Demo.opt 5 (Demo.world Demo.filesChanged)).isSome = true := by decide!
  obtain ⟨⟨u, w1⟩, h⟩ := Option.isSome_iff_exists.mp hs
  exact ⟨rfl, w1, h,
    file_signals_come_in_pairs Demo.env Demo.opt rfl 5 (Demo.world Demo.filesChanged) w1 h⟩

/-! ### Every file gets its iteration -/

section
variable (env : Env) (opt : Options)
set_option linter.unusedTactic false
set_option linter.unreachableTactic false
set_option linter.unusedVariables false

/-- Without a stop request the per-file loop calls `processFile` for every file of its list. -/
theorem fileLoop_iterates (hs : env.stopAt = none) (fuel : Nat) :
    ∀ (l : List String) (bytesDone : Nat) (allOk : Bool) (w : World) (r : Nat × Bool)
      (w1 : World), fileLoop env opt fuel l bytesDone allOk w = some (r, w1) →
      Iterates env opt fuel l bytesDone allOk w r.1 r.2 w1 := by
  intro l
  induction l with
  | nil =>
    intro bytesDone allOk w r w1 h
    unfold fileLoop at h
    cases h
    exact ⟨rfl, rfl, rfl⟩
  | cons rel more ih =>
    intro bytesDone allOk w r w1 h
    unfold fileLoop at h
    obtain ⟨x, wm, hp, h⟩ := bind_inv h
    have hnext := processFile_next env opt hs fuel rel bytesDone allOk w x wm hp
    obtain ⟨step, bd, ok⟩ := x
    dsimp only at hnext
    subst hnext
    dsimp only at h
    exact ⟨bd, ok, wm, hp, ih bd ok wm r w1 h⟩

/-- Without a stop request a call of `processFile` for a file that is there emits `fileStarted`
for it as its first signal, and a `fileFinished` for it after that; for a file that is not there
it emits nothing. -/
theorem processFile_starts_and_finishes (hs : env.stopAt = none) (fuel : Nat) (rel : String)
    (bytesDone : Nat) (allOk : Bool) (wa : World) (r : Step × Nat × Bool) (wb : World)
    (h : processFile env opt fuel rel bytesDone allOk wa = some (r, wb)) :
    (wa.fs.get (srcAbsPath env opt rel) = none → wb.events = wa.events) ∧
    (∀ fi, wa.fs.get (srcAbsPath env opt rel) = some fi →
      ∃ evs, wb.events = wa.events ++ Event.fileStarted rel fi.content.length :: evs ∧
        FinishedAfter rel evs) := by
  have HT : TapeBlind (Stays (some rel)) := (stays_traceOnly _).toTapeBlind
  have HN : TapeBlind (Stays none) := (stays_traceOnly _).toTapeBlind
  unfold processFile at h
  rw [bind_apply, loadStop_none env hs] at h
  dsimp only at h
  simp only [Bool.false_eq_true, if_false] at h
  obtain ⟨u, wp, hp, h⟩ := bind_inv h
  have hfs := steps_pauseLoop env sameFs_tapeBlind fuel _ _ _ hp
  have hev := (steps_pauseLoop env sameTrace_tapeBlind fuel _ _ _ hp).1
  dsimp only at hfs hev
  rw [bind_apply, readFs_apply] at h
  dsimp only at h
  rw [hfs] at h
  constructor
  · intro hnone
    rw [hnone] at h
    cases h
    exact hev
  · intro fi hsome
    rw [hsome] at h
    dsimp only at h
    rw [bind_apply, emit_apply] at h
    dsimp only at h
    have key : ∀ (m : M (Step × Nat × Bool)) (w0 : World),
        FileSteps (some rel) (fun _ => none) m → m w0 = some (r, wb) →
        w0.events = wa.events ++ [Event.fileStarted rel fi.content.length] →
        ∃ evs, wb.events = wa.events ++ Event.fileStarted rel fi.content.length :: evs ∧
          FinishedAfter rel evs := by
      intro m w0 hm h0 h1
      obtain ⟨evs, he, hk⟩ := hm w0 r wb h0
      refine ⟨evs, ?_, fileTrace_finishedAfter rel evs hk⟩
      rw [he, h1, List.append_assoc]
      rfl
    refine key _ _ ?_ h (by dsimp only; rw [hev])
    repeat' first
      | with_reducible exact fileSteps_copyRetryLoop env opt hs _ _ _ _ _
      | (with_reducible apply fileSteps_loadStop_bind env hs
         simp only [Bool.false_eq_true, if_false])
      | (with_reducible apply returns_loadStop_bind env hs
         simp only [Bool.false_eq_true, if_false])
      | with_reducible exact fileSteps_finished _ _ _
      | with_reducible exact fileSteps_of_stays _ _ (steps_readFs HT _)
      | with_reducible exact fileSteps_of_stays _ _ (steps_isDestReady env HT)
      | with_reducible exact fileSteps_of_stays _ _ (stays_wait env _ _ _)
      | with_reducible exact fileSteps_of_stays _ _ (stays_maybeStash env opt _)
      | with_reducible exact fileSteps_of_stays _ _ (steps_identicalCheck env HT _ _)
      | with_reducible exact fileSteps_of_stays _ _ (stays_progressTick env _ _)
      | with_reducible apply fileSteps_bind_of (fun (x : Option Bool) => x ≠ none)
      | with_reducible apply fileSteps_bind
      | with_reducible apply fileSteps_ite
      | with_reducible apply returns_bind
      | with_reducible apply returns_ite
      | with_reducible intro _
      | exact returns_pure _ _ (Option.some_ne_none _)
      | exact fileSteps_of_stays _ _ (steps_pure HN _)
      | exact fileSteps_of_stays _ _ (steps_pure HT _)
      | contradiction
      | split
      | dsimp only

/-- Without a stop request a `run` that returns has gone through its start and its scan, then
through one call of `processFile` for each file of the source set, each in the world the one
before left, and then through its end: the world of each phase is the one the phase before
left. -/
theorem run_iterates (hs : env.stopAt = none) (fuel : Nat) (w w1 : World)
    (h : run env opt fuel w = some ((), w1)) :
    ∃ w0 srcSet total wa bytesDone allOk wb,
      runStart env fuel w = some (false, w0) ∧
      runScan env opt w0 = some ((srcSet, total), wa) ∧
      srcSet = srcSetOf env opt w0.fs ∧
      Iterates env opt fuel srcSet 0 true wa bytesDone allOk wb ∧
      runEnd env opt fuel srcSet total allOk wb = some ((), w1) := by
  unfold run at h
  rw [bind_apply, storageInfo_apply] at h
  dsimp only at h
  rw [bind_apply, setExpectedDevice_apply] at h
  dsimp only at h
  obtain ⟨u, wz, hwait, h⟩ := bind_inv h
  rw [bind_apply, loadStop_none env hs] at h
  dsimp only at h
  simp only [Bool.false_eq_true, if_false] at h
  rw [bind_apply, readFs_apply] at h
  dsimp only at h
  rw [bind_apply, readFs_apply] at h
  dsimp only at h
  rw [bind_apply, setTotalBytes_apply] at h
  dsimp only at h
  rw [bind_apply, emit_apply] at h
  dsimp only at h
  obtain ⟨r, wb, hloop, h⟩ := bind_inv h
  have hit := fileLoop_iterates env opt hs fuel _ _ _ _ r wb hloop
  obtain ⟨bd, allOk⟩ := r
  dsimp only at h hit
  refine ⟨{ wz with stopN := wz.stopN + 1 }, srcSetOf env opt wz.fs,
    ((srcSetOf env opt wz.fs).map (srcSize env opt wz.fs)).sum, _, bd, allOk, wb, ?_, ?_, rfl,
    hit, h⟩
  · unfold runStart
    rw [bind_apply, storageInfo_apply]
    dsimp only
    rw [bind_apply, setExpectedDevice_apply]
    dsimp only
    rw [bind_apply, hwait]
    dsimp only
    rw [loadStop_none env hs]
  · rfl

/-- C14: when nobody cancels, a `run` that returns has emitted exactly one `finished(ok, summary)`,
as its last signal, and `ok` is true if and only if no `fileFinished(rel, false, err)` was emitted
before it.  And a failure does not stop the loop: between its start and scan and its end, each
in the world the phase before left, the run calls `processFile` for every file of the source
set, one after the other, each call in the world the one before left and whatever the calls
before it left in the flag `allOk`; no call leaves the loop, and each call for a file that is
there emits, from `fileStarted` as its first signal to a `fileFinished`, the signals of this
file. -/
theorem finished_ok_iff_no_file_failed (hs : env.stopAt = none) (fuel : Nat) (w w1 : World)
    (h : run env opt fuel w = some ((), w1)) :
    (∃ evs ok, w1.events = w.events ++ evs ++
          [Event.finished ok (if ok = true then "完成" else "部分失败")] ∧
        (∀ e ∈ evs, isFinished e = false) ∧
        (ok = true ↔ ∀ rel err, Event.fileFinished rel false err ∉ evs)) ∧
      (∃ w0 srcSet total wa bytesDone allOk wb,
        runStart env fuel w = some (false, w0) ∧
        runScan env opt w0 = some ((srcSet, total), wa) ∧
        srcSet = srcSetOf env opt w0.fs ∧
        Iterates env opt fuel srcSet 0 true wa bytesDone allOk wb ∧
        runEnd env opt fuel srcSet total allOk wb = some ((), w1)) ∧
      (∀ rel bytesDone allOk wa r wb,
        processFile env opt fuel rel bytesDone allOk wa = some (r, wb) →
        r.1 = Step.next ∧
        (wa.fs.get (srcAbsPath env opt rel) = none → wb.events = wa.events) ∧
        (∀ fi, wa.fs.get (srcAbsPath env opt rel) = some fi →
          ∃ evs, wb.events = wa.events ++ Event.fileStarted rel fi.content.length :: evs ∧
            FinishedAfter rel evs)) := by
  refine ⟨?_, run_iterates env opt hs fuel w w1 h, ?_⟩
  · obtain ⟨evs, ok, hev, hn, hok⟩ := run_trace env opt hs fuel w w1 h
    refine ⟨evs, ok, hev, ?_, ?_⟩
    · intro e he
      have := List.any_eq_false.mp hn e he
      simpa using this
    · rw [← hasFailure_false_iff, hok]
      cases hasFailure evs <;> simp
  · intro rel bytesDone allOk wa r wb hp
    exact ⟨processFile_next env opt hs fuel rel bytesDone allOk wa r wb hp,
      processFile_starts_and_finishes env opt hs fuel rel bytesDone allOk wa r wb hp⟩

end

/-- C14, witness: the run of the scenario with two files whose version steps fail: the second
file gets its iteration after the first has failed, and the run ends with
`finished(false, "部分失败")`. -/
theorem finished_ok_iff_no_file_failed_witness :
    Demo.env.stopAt = none ∧
      Demo.eventsOf (run Demo.env Demo.opt 5 (Demo.world Demo.filesTwo)) =
        some [Event.progressUpdated 0 2, Event.fileStarted "a.txt" 1,
          Event.fileFinished "a.txt" false "版本归档失败", Event.fileStarted "b.txt" 1,
          Event.fileFinished "b.txt" false "版本归档失败", Event.progressUpdated 2 2,
          Event.finished false "部分失败"] ∧
      ∃ w1, run Demo.env Demo.opt 5 (Demo.world Demo.filesTwo) = some ((), w1) ∧
        (∃ evs ok, w1.events = (Demo.world Demo.filesTwo).events ++ evs ++
            [Event.finished ok (if ok = true then "完成" else "部分失败")] ∧
          (∀ e ∈ evs, isFinished e = false) ∧
          (ok = true ↔ ∀ rel err, Event.fileFinished rel false err ∉ evs)) ∧
        (∃ w0 srcSet total wa bytesDone allOk wb,
          runStart Demo.env 5 (Demo.world Demo.filesTwo) = some (false, w0) ∧
          runScan Demo.env Demo.opt w0 = some ((srcSet, total), wa) ∧
          srcSet = srcSetOf Demo.env Demo.opt w0.fs ∧
          Iterates Demo.env Demo.opt 5 srcSet 0 true wa bytesDone allOk wb ∧
          runEnd Demo.env Demo.opt 5 srcSet total allOk wb = some ((), w1)) := by
  have hs : (run Demo.env Demo.opt 5 (Demo.world Demo.filesTwo)).isSome = true := by decide!
  obtain ⟨⟨u, w1⟩, h⟩ := Option.isSome_iff_exists.mp hs
  have hc := finished_ok_iff_no_file_failed Demo.env Demo.opt rfl 5 (Demo.world Demo.filesTwo) w1 h
  exact ⟨rfl, by decide!, w1, h, hc.1, hc.2.1⟩

/-! ### What the deletion pass moves -/

section
variable (env : Env) (opt : Options)

/-- C8 as amended: with keep-deleted disabled `handleDeletions` does nothing.  With keep-deleted
enabled, the device ready and no stop request it returns, and the calls of `moveFileRobust` it
made are, in the order of the listing and one for each, the regular files below `dst/ns` that are
visible (no component below `dst/ns` starts with a dot), whose path holds neither
`/.plugbackup_meta/` nor `\.plugbackup_meta\`, and whose relative path is not in `srcSet`, each
with the target `deletedFilePath rel ts`.  It emits `deletedStashed rel target (target ++ ".json")`
exactly for the calls that returned true.  A call that returned true and stays apart from the other
calls has moved the file: the target holds at the end the bytes the file had at the start, and
the file is gone when its removal is let through.  Every path that is no source, target or
sidecar of a call holds at the end what it held at the start; so does in particular a file whose
relative path is in `srcSet`, unless its path is the target or the sidecar of a call. -/
theorem handleDeletions_tombstones (fuel : Nat) (srcSet : List String) (w : World) :
    (opt.keepDeletedInVault = false → handleDeletions env opt fuel srcSet w = some ((), w)) ∧
    (opt.keepDeletedInVault = true → env.stopAt = none → AlwaysReady env w.expectedDevice →
      ∃ w1 moved, handleDeletions env opt fuel srcSet w = some ((), w1) ∧
        w1.moveLog = w.moveLog ++ moved ∧
        moved.map (fun e => e.1) =
          tombstoneCandidates env opt srcSet (w.fs.filesUnder (nsSubRoot env opt)) ∧
        (moved.map (fun e => e.1)).Nodup ∧
        (∀ p, p ∈ moved.map (fun e => e.1) ↔
          VisibleBelow w.fs (nsSubRoot env opt) p ∧ inMetaTree p = false ∧
            srcSet.contains (deletionRel env opt p) = false) ∧
        (∀ e ∈ moved, ∃ t, e.2.1 = deletedFilePath env opt (deletionRel env opt e.1) (env.fmtTs t)) ∧
        w1.events = w.events ++ moved.filterMap (stashSignal env opt) ∧
        (∀ pre e post, moved = pre ++ e :: post → e.2.2 = true →
          (∀ f ∈ pre ++ post, Apart e f) → MovedTo env w.fs w1.fs e) ∧
        (∀ q, (∀ e ∈ moved, q ≠ e.1 ∧ q ≠ e.2.1 ∧ q ≠ e.2.1 ++ ".json") →
          w1.fs.get q = w.fs.get q) ∧
        (∀ q, srcSet.contains (deletionRel env opt q) = true →
          (∀ e ∈ moved, q ≠ e.2.1 ∧ q ≠ e.2.1 ++ ".json") → w1.fs.get q = w.fs.get q)) := by
  constructor
  · intro hk
    unfold handleDeletions
    simp only [hk, Bool.not_false, if_true, pure_apply]
  · intro hk hs hready
    unfold handleDeletions
    have hr := readyOrWait_ready env fuel "处理删除项" w hready
    simp only [hk, Bool.not_true, Bool.false_eq_true, if_false, bind_apply, hr, readFs_apply,
      ite_apply_M, pure_apply]
    have hiff : ∀ p, p ∈ tombstoneCandidates env opt srcSet (w.fs.filesUnder (nsSubRoot env opt)) ↔
        VisibleBelow w.fs (nsSubRoot env opt) p ∧ inMetaTree p = false ∧
          srcSet.contains (deletionRel env opt p) = false := by
      intro p
      unfold tombstoneCandidates
      rw [List.mem_filter, FS.mem_filesUnder, Bool.and_eq_true, Bool.not_eq_true', Bool.not_eq_true']
    have hnd : (tombstoneCandidates env opt srcSet (w.fs.filesUnder (nsSubRoot env opt))).Nodup :=
      List.Nodup.filter _ (List.nodup_dedup _)
    by_cases hd : w.fs.dirExists (nsSubRoot env opt) = true
    · obtain ⟨w1, moved, hrun, _, hlog, hmap, htgt, hev, hfr, hmv⟩ :=
        handleDeletionsLoop_spec env opt hs fuel srcSet (w.fs.filesUnder (nsSubRoot env opt))
          { w with devN := w.devN + 1, gateLog := w.gateLog ++ [(env.dev w.devN, true)] } hready
      dsimp only at hrun hlog hmap htgt hev hfr hmv
      refine ⟨w1, moved, ?_, hlog, hmap, hmap ▸ hnd, ?_, htgt, hev, ?_, hfr, ?_⟩
      · simp only [hd, Bool.not_true, Bool.false_eq_true, if_false]; exact hrun
      · intro p
        rw [hmap]
        exact hiff p
      · intro pre e post hsplit het hap
        refine hmv pre e post hsplit het (fun f hf => ⟨?_, hap f hf⟩)
        have hn : (moved.map (fun e => e.1)).Nodup := hmap ▸ hnd
        rw [hsplit, List.map_append, List.map_cons] at hn
        have hn2 := (List.nodup_cons.mp (List.nodup_middle.mp hn)).1
        intro heq
        apply hn2
        rw [← List.map_append, heq]
        exact List.mem_map_of_mem _ hf
      · intro q hq hne
        refine hfr q (fun e he => ⟨?_, (hne e he).1, (hne e he).2⟩)
        intro heq
        have hmem : e.1 ∈ tombstoneCandidates env opt srcSet (w.fs.filesUnder (nsSubRoot env opt)) := by
          rw [← hmap]; exact List.mem_map_of_mem _ he
        have hc := (List.mem_filter.mp hmem).2
        rw [← heq, hq] at hc
        simp at hc
    · simp only [Bool.not_eq_true] at hd
      have hnil : tombstoneCandidates env opt srcSet (w.fs.filesUnder (nsSubRoot env opt)) = [] := by
        rw [filesUnder_nil_of_no_dir _ _ hd]; rfl
      refine ⟨{ w with devN := w.devN + 1, gateLog := w.gateLog ++ [(env.dev w.devN, true)] }, [],
        ?_, ?_, ?_, List.nodup_nil, ?_, fun _ h => (by cases h), ?_, ?_, fun _ _ => rfl,
        fun _ _ _ => rfl⟩
      · simp only [hd, Bool.not_false, if_true]
      · simp
      · rw [hnil]; rfl
      · intro p
        rw [← hiff p, hnil]
        rfl
      · simp
      · intro pre e post h
        exact absurd (List.append_eq_nil.mp h.symm).2 (List.cons_ne_nil e post)

end

/-- The deletion pass of the scenario: the subtree holds two files that are gone from the source,
a hidden file, a file with the backslash form of the metadata directory in its name and a file
that is still in the source; the two first are moved, by calls that stay apart. -/
theorem handleDeletions_tombstones_witness :
    Demo.opt.keepDeletedInVault = true ∧ Demo.env.stopAt = none ∧
      AlwaysReady Demo.env (Demo.world Demo.filesNsGone).expectedDevice ∧
      tombstoneCandidates Demo.env Demo.opt ["keep.txt"]
        ((Demo.world Demo.filesNsGone).fs.filesUnder (nsSubRoot Demo.env Demo.opt)) =
          ["/dst/ns/gone.txt", "/dst/ns/sub/old.txt"] ∧
      Demo.movesOf (handleDeletions Demo.env Demo.opt 5 ["keep.txt"] (Demo.world Demo.filesNsGone)) =
        some [("/dst/ns/gone.txt", "/dst/.plugbackup_meta/deleted/ns/gone.txt.d20250101-000000", true),
          ("/dst/ns/sub/old.txt", "/dst/.plugbackup_meta/deleted/ns/sub/old.txt.d20250101-000000",
            true)] ∧
      Apart ("/dst/ns/gone.txt", "/dst/.plugbackup_meta/deleted/ns/gone.txt.d20250101-000000", true)
        ("/dst/ns/sub/old.txt", "/dst/.plugbackup_meta/deleted/ns/sub/old.txt.d20250101-000000",
          true) ∧
      ∃ w1 moved, handleDeletions Demo.env Demo.opt 5 ["keep.txt"] (Demo.world Demo.filesNsGone) =
          some ((), w1) ∧
        w1.moveLog = (Demo.world Demo.filesNsGone).moveLog ++ moved ∧
        moved.map (fun e => e.1) = tombstoneCandidates Demo.env Demo.opt ["keep.txt"]
          ((Demo.world Demo.filesNsGone).fs.filesUnder (nsSubRoot Demo.env Demo.opt)) ∧
        (moved.map (fun e => e.1)).Nodup ∧
        (∀ p, p ∈ moved.map (fun e => e.1) ↔
          VisibleBelow (Demo.world Demo.filesNsGone).fs (nsSubRoot Demo.env Demo.opt) p ∧
            inMetaTree p = false ∧
            List.contains ["keep.txt"] (deletionRel Demo.env Demo.opt p) = false) ∧
        (∀ e ∈ moved, ∃ t, e.2.1 =
          deletedFilePath Demo.env Demo.opt (deletionRel Demo.env Demo.opt e.1) (Demo.env.fmtTs t)) ∧
        w1.events = (Demo.world Demo.filesNsGone).events ++
          moved.filterMap (stashSignal Demo.env Demo.opt) ∧
        (∀ pre e post, moved = pre ++ e :: post → e.2.2 = true →
          (∀ f ∈ pre ++ post, Apart e f) →
          MovedTo Demo.env (Demo.world Demo.filesNsGone).fs w1.fs e) ∧
        (∀ q, (∀ e ∈ moved, q ≠ e.1 ∧ q ≠ e.2.1 ∧ q ≠ e.2.1 ++ ".json") →
          w1.fs.get q = (Demo.world Demo.filesNsGone).fs.get q) ∧
        (∀ q, List.contains ["keep.txt"] (deletionRel Demo.env Demo.opt q) = true →
          (∀ e ∈ moved, q ≠ e.2.1 ∧ q ≠ e.2.1 ++ ".json") →
          w1.fs.get q = (Demo.world Demo.filesNsGone).fs.get q) :=
  ⟨rfl, rfl, fun _ => rfl, by decide!, by decide!,
    ⟨by decide, by decide, by decide, by decide, by decide⟩,
    (handleDeletions_tombstones Demo.env Demo.opt 5 ["keep.txt"] (Demo.world Demo.filesNsGone)).2
      rfl rfl (fun _ => rfl)⟩

/-! ### The claims at concrete inputs -/

/-- C1, the code at the failing input: one new file, and the stop request is first seen at the top
of its iteration.  Nothing is copied and the run ends with `finished(true, "完成")` (done), not with
`finished(false, "已取消")` (cancelled). -/
theorem run_cancelled_in_loop_reports_done :
    Demo.eventsOf (run Demo.envCancel Demo.opt 5 (Demo.world Demo.filesNew)) =
        some [Event.progressUpdated 0 1, Event.progressUpdated 1 1, Event.finished true "完成"] ∧
      Demo.filesOf (run Demo.envCancel Demo.opt 5 (Demo.world Demo.filesNew)) =
        some [("/src/a.txt", [7])] := by
  decide!

/-- C2, the code at the failing input: keep-versions is on, the payload differs from the source, and
the volume is away during the version step and again during its retry.  The file is copied all the
same: the old bytes `[1, 2, 3]` are overwritten, no `versionCreated` is emitted and no version file
exists.  The same happens when the volume is away at line 229 of the version step only and back at
line 365: the step is not even retried. -/
theorem run_flap_twice_overwrites_without_version :
    Demo.eventsOf (run Demo.envFlapTwice Demo.opt 5 (Demo.world Demo.filesChanged)) =
        some [Event.progressUpdated 0 2, Event.fileStarted "a.txt" 2,
              Event.deviceOffline "版本化", Event.deviceOnline,
              Event.fileFinished "a.txt" true "",
              Event.progressUpdated 2 2, Event.finished true "完成"] ∧
      Demo.filesOf (run Demo.envFlapTwice Demo.opt 5 (Demo.world Demo.filesChanged)) =
        some [("/dst/ns/a.txt", [9, 9]), ("/src/a.txt", [9, 9])] ∧
      Demo.eventsOf (run Demo.envFlapOnce Demo.opt 5 (Demo.world Demo.filesChanged)) =
        some [Event.progressUpdated 0 2, Event.fileStarted "a.txt" 2,
              Event.fileFinished "a.txt" true "",
              Event.progressUpdated 2 2, Event.finished true "完成"] ∧
      Demo.filesOf (run Demo.envFlapOnce Demo.opt 5 (Demo.world Demo.filesChanged)) =
        some [("/dst/ns/a.txt", [9, 9]), ("/src/a.txt", [9, 9])] := by
  decide!

/-- C3, the code at the failing input: keep-versions is on and the payload is identical to the
source (same size, same modification time, same non-empty digest).  The run reports the file as
failed with "版本归档失败" (version archive failed), does not advance `bytesDone` for it and ends
with `finished(false, "部分失败")`. -/
theorem run_identical_file_reported_failed :
    Demo.eventsOf (run Demo.env Demo.opt 5 (Demo.world Demo.filesSame)) =
      some [Event.progressUpdated 0 3, Event.fileStarted "a.txt" 3,
            Event.fileFinished "a.txt" false "版本归档失败",
            Event.progressUpdated 3 3, Event.finished false "部分失败"] := by
  decide!

/-- C5, the code at the failing input: the destination holds `[1, 2, 3]`, the copy streams the
whole source into the `.part` file and the final rename fails.  `copyOneFile` returns false and
the destination path holds nothing: its prior contents are lost. -/
theorem copyOneFile_rename_failure_loses_payload :
    Demo.resultOf (copyOneFile Demo.envRenameFails Demo.opt 5 "a.txt" 0 (Demo.world Demo.filesChanged)) =
        some (false, 2) ∧
      Demo.bytesAt (copyOneFile Demo.envRenameFails Demo.opt 5 "a.txt" 0 (Demo.world Demo.filesChanged))
        "/dst/ns/a.txt" = some none ∧
      Demo.filesOf (copyOneFile Demo.envRenameFails Demo.opt 5 "a.txt" 0 (Demo.world Demo.filesChanged)) =
        some [("/src/a.txt", [9, 9])] := by
  decide!

/-- C6, the code at the failing input: the source holds four bytes, the first read delivers two and
the second reports an error.  `copyOneFile` returns true, the destination holds the two bytes read
so far, and the run reports the file with `fileFinished(rel, true, "")`. -/
theorem copyOneFile_read_error_reported_ok :
    Demo.resultOf (copyOneFile Demo.envReadError Demo.opt 5 "a.txt" 0 (Demo.world Demo.filesFour)) =
        some (true, 2) ∧
      Demo.bytesAt (copyOneFile Demo.envReadError Demo.opt 5 "a.txt" 0 (Demo.world Demo.filesFour))
        "/dst/ns/a.txt" = some (some [7, 8]) ∧
      Demo.eventsOf (run Demo.envReadError Demo.opt 5 (Demo.world Demo.filesFour)) =
        some [Event.progressUpdated 0 4, Event.fileStarted "a.txt" 4,
              Event.fileFinished "a.txt" true "",
              Event.progressUpdated 4 4, Event.finished true "完成"] := by
  decide!

/-- C7, the code at the failing input: the source holds `a.txt` and `b.txt`, both backed up, and the
worker is started with the whitelist `a.txt` (as the retry of failed files does).  The run moves
the payload of `b.txt` into the deleted vault although `/src/b.txt` is still there. -/
theorem run_whitelist_tombstones_present_file :
    Demo.eventsOf (run Demo.env Demo.optWhitelist 5 (Demo.world Demo.filesTwo)) =
        some [Event.progressUpdated 0 1, Event.fileStarted "a.txt" 1,
              Event.fileFinished "a.txt" true "",
              Event.deletedStashed "b.txt" "/dst/.plugbackup_meta/deleted/ns/b.txt.d20250101-000000"
                "/dst/.plugbackup_meta/deleted/ns/b.txt.d20250101-000000.json",
              Event.progressUpdated 1 1, Event.finished true "完成"] ∧
      Demo.bytesAt (run Demo.env Demo.optWhitelist 5 (Demo.world Demo.filesTwo)) "/src/b.txt" =
        some (some [2]) ∧
      Demo.bytesAt (run Demo.env Demo.optWhitelist 5 (Demo.world Demo.filesTwo)) "/dst/ns/b.txt" =
        some none := by
  decide!

/-- C8, counterexample: keep-deleted is on, the device is ready, nobody cancels.  The file
`x/.plugbackup_meta/y` below `dst/ns/` is not a member of `srcSet`, yet `handleDeletions` does not
move it: only `gone.txt` is moved.  The iterator, built without `QDir::Hidden`, does not enter
the directory `.plugbackup_meta`, whose name starts with a dot, and the guard of the loop would
skip the file if it did. -/
theorem handleDeletions_keeps_file_below_meta_component :
    cleanRel (relativeFilePath (nsSubRoot Demo.env Demo.opt) "/dst/ns/x/.plugbackup_meta/y") ∉
        ["keep.txt"] ∧
      Demo.movesOf (handleDeletions Demo.env Demo.opt 5 ["keep.txt"] (Demo.world Demo.filesNsMeta)) =
        some [("/dst/ns/gone.txt", "/dst/.plugbackup_meta/deleted/ns/gone.txt.d20250101-000000", true)] ∧
      Demo.bytesAt (handleDeletions Demo.env Demo.opt 5 ["keep.txt"] (Demo.world Demo.filesNsMeta))
        "/dst/ns/x/.plugbackup_meta/y" = some (some [1]) := by
  decide!

/-- C9, counterexample: the sidecar cannot be opened for writing.  The version step still emits
`versionCreated` with the sidecar path, and no file exists at that path. -/
theorem versionCreated_without_sidecar :
    Demo.eventsOf (maybeStashExistingVersion Demo.envSidecarFails Demo.opt "a.txt"
        (Demo.world Demo.filesChanged)) =
        some [Event.versionCreated "a.txt" "/dst/.plugbackup_meta/versions/ns/a.txt.v20250101-000000"
                "/dst/.plugbackup_meta/versions/ns/a.txt.v20250101-000000.json"] ∧
      Demo.bytesAt (maybeStashExistingVersion Demo.envSidecarFails Demo.opt "a.txt"
        (Demo.world Demo.filesChanged))
        "/dst/.plugbackup_meta/versions/ns/a.txt.v20250101-000000.json" = some none := by
  decide!

/-- C10, the code at the failing input: no volume is there when `run` starts, then the volume
`A` appears and passes the gate, then the volume `B` takes its place.  The first readiness does
not define the fingerprint, which stays empty to the end, and the gate admits `B`: the file is
copied while `B` is mounted. -/
theorem run_started_offline_admits_other_device :
    Demo.fingerprintOf (run Demo.envSwapped Demo.opt 5 (Demo.world Demo.filesNew)) = some "" ∧
      Demo.gateOf (run Demo.envSwapped Demo.opt 5 (Demo.world Demo.filesNew)) =
        some [("", false), ("A", true), ("A", true), ("A", true), ("B", true), ("B", true),
              ("B", true), ("B", true), ("B", true), ("B", true), ("B", true), ("B", true),
              ("B", true), ("B", true), ("B", true), ("B", true)] ∧
      Demo.eventsOf (run Demo.envSwapped Demo.opt 5 (Demo.world Demo.filesNew)) =
        some [Event.deviceOffline "启动", Event.deviceOnline, Event.progressUpdated 0 1,
              Event.fileStarted "a.txt" 1, Event.fileFinished "a.txt" true "",
              Event.progressUpdated 1 1, Event.finished true "完成"] := by
  decide!

/-- C12, the code at the failing input: a file of four bytes is read two bytes at a time, and the
volume is away just before the second chunk is written.  `copyOneFile` returns false with two
bytes already added to `bytesDone`, the copy is retried from the start and adds four more: the
run emits `progressUpdated(6, 4)`, with `bytesDone` above the total, although the destination
then holds exactly the four bytes of the source. -/
theorem run_retry_counts_bytes_twice :
    Demo.eventsOf (run Demo.envFlapMidCopy Demo.opt 5 (Demo.world Demo.filesFour)) =
        some [Event.progressUpdated 0 4, Event.fileStarted "a.txt" 4,
              Event.deviceOffline "复制重试", Event.deviceOnline,
              Event.fileFinished "a.txt" true "",
              Event.progressUpdated 6 4, Event.progressUpdated 4 4, Event.finished true "完成"] ∧
      Demo.filesOf (run Demo.envFlapMidCopy Demo.opt 5 (Demo.world Demo.filesFour)) =
        some [("/dst/ns/a.txt", [7, 8, 9, 10]), ("/src/a.txt", [7, 8, 9, 10])] := by
  decide!

/-- C13, the code at the failing input: verification is on, the file of four bytes is copied, and
the volume is away at the first check of `verifyFile`.  The run waits and copies the file again,
so `bytesDone` reaches 8; the first arguments of the `progressUpdated` signals are 0, 8, 4: the
final `progressUpdated(total, total)` goes down. -/
theorem run_progress_goes_down_after_retry :
    (Demo.eventsOf (run Demo.envFlapAtVerify Demo.optVerify 5 (Demo.world Demo.filesFour))).map
        Demo.progressOf = some [0, 8, 4] ∧
      Demo.eventsOf (run Demo.envFlapAtVerify Demo.optVerify 5 (Demo.world Demo.filesFour)) =
        some [Event.progressUpdated 0 4, Event.fileStarted "a.txt" 4,
              Event.deviceOffline "校验重试", Event.deviceOnline,
              Event.fileFinished "a.txt" true "",
              Event.progressUpdated 8 4, Event.progressUpdated 4 4, Event.finished true "完成"] := by
  decide!

/-- C19, the code at the failing input: the source directory is `/data/my.photos` and there is no
override.  `nsPrefix` returns `my_01234567`: the directory name is cut at its last `.`, where the
full last path component is `my.photos`. -/
theorem nsPrefix_cuts_dotted_directory_name :
    fileName Demo.optDotted.srcDir = "my.photos" ∧
      absolutePath Demo.env.cwd Demo.optDotted.srcDir = "/data/my.photos" ∧
      shortHash Demo.env "/data/my.photos" = "01234567" ∧
      nsPrefix Demo.env Demo.optDotted = "my_01234567" := by
  decide!

/-- C15, counterexample: the destination holds a `.part` file left behind earlier, every removal
and rename would succeed, and the volume is not ready when `copyOneFile` is called.  The call
returns false at its first check and the `.part` file is still there. -/
theorem copyOneFile_early_return_keeps_stale_part :
    (∀ n p, Demo.envAway.ioOk n (IoOp.remove p) = true) ∧
      dstAbsPath Demo.envAway Demo.opt "a.txt" ++ ".part" = "/dst/ns/a.txt.part" ∧
      Demo.resultOf (copyOneFile Demo.envAway Demo.opt 5 "a.txt" 0
        (Demo.world Demo.filesStalePart)) = some (false, 0) ∧
      Demo.bytesAt (copyOneFile Demo.envAway Demo.opt 5 "a.txt" 0 (Demo.world Demo.filesStalePart))
        "/dst/ns/a.txt.part" = some (some [5]) :=
  ⟨fun _ _ => rfl, by decide!⟩

/-- C20: with the namespace override `/x` the paths of `a.txt` are not below the destination
`/dst`: `dstAbsPath` is `/x/a.txt`, not `/dst//x/a.txt`, and the version and the tombstone go to
`/x` as well. -/
theorem vault_paths_leave_destination_with_absolute_namespace :
    absolutePath Demo.env.cwd Demo.optNsAbsolute.dstDir = "/dst" ∧
    nsPrefix Demo.env Demo.optNsAbsolute = "/x" ∧
    cleanRel "a.txt" = "a.txt" ∧
    dstAbsPath Demo.env Demo.optNsAbsolute "a.txt" = "/x/a.txt" ∧
    dstAbsPath Demo.env Demo.optNsAbsolute "a.txt" ≠
      absolutePath Demo.env.cwd Demo.optNsAbsolute.dstDir ++ "/"
        ++ nsPrefix Demo.env Demo.optNsAbsolute ++ "/" ++ "a.txt" ∧
    versionFilePath Demo.env Demo.optNsAbsolute "a.txt" "20250101-000000" =
      "/x/a.txt.v20250101-000000" ∧
    deletedFilePath Demo.env Demo.optNsAbsolute "a.txt" "20250101-000000" =
      "/x/a.txt.d20250101-000000" := by
  decide!

/-- C18: workers on the same destination with the distinct namespaces `ns` and `other` (and
`ns/other`) write the same path: the absolute whitelist entry `/etc/x` is written at `/etc/x` by
both; the version of `../other/a.txt` under `ns` is the version of `a.txt` under `other`; and
`other/a.txt` under `ns` is `a.txt` under `ns/other`. -/
theorem namespaces_share_written_paths :
    absolutePath Demo.env.cwd Demo.opt.dstDir = absolutePath Demo.env.cwd Demo.optOther.dstDir ∧
    nsPrefix Demo.env Demo.opt = "ns" ∧ nsPrefix Demo.env Demo.optOther = "other" ∧
    nsPrefix Demo.env Demo.optNested = "ns/other" ∧
    cleanRel "/etc/x" = "/etc/x" ∧
    dstAbsPath Demo.env Demo.opt "/etc/x" = "/etc/x" ∧
    dstAbsPath Demo.env Demo.optOther "/etc/x" = "/etc/x" ∧
    cleanRel "../other/a.txt" = "../other/a.txt" ∧
    versionFilePath Demo.env Demo.opt "../other/a.txt" "20250101-000000" =
      "/dst/.plugbackup_meta/versions/other/a.txt.v20250101-000000" ∧
    versionFilePath Demo.env Demo.optOther "a.txt" "20250101-000000" =
      "/dst/.plugbackup_meta/versions/other/a.txt.v20250101-000000" ∧
    dstAbsPath Demo.env Demo.opt "other/a.txt" = "/dst/ns/other/a.txt" ∧
    dstAbsPath Demo.env Demo.optNested "a.txt" = "/dst/ns/other/a.txt" := by
  decide!

/-- The sweep of C17 at a concrete vault, swept on 2025-01-11 with seven days of retention: the
version and the tombstone of 2025-01-01 go with their sidecars; the version of 2025-01-10 and its
sidecar, the file whose timestamp is no date and the file without marker stay.  With zero days
nothing goes. -/
theorem sweepRetention_on_demo_vault :
    Demo.filesOf (sweepRetention Demo.envSweep Demo.opt 5 (Demo.world Demo.filesVault)) =
      some [("/dst/.plugbackup_meta/versions/ns/a.txt.v20250110-000000", [3]),
        ("/dst/.plugbackup_meta/versions/ns/a.txt.v20250110-000000.json", [4]),
        ("/dst/.plugbackup_meta/versions/ns/sub/b.txt.v20251340-000000", [5]),
        ("/dst/.plugbackup_meta/versions/ns/readme", [6]), ("/dst/ns/a.txt", [9])] ∧
    Demo.filesOf (sweepRetention Demo.envSweep { Demo.opt with retentionDays := 0 } 5
        (Demo.world Demo.filesVault)) =
      Demo.filesOf (some ((), Demo.world Demo.filesVault)) := by
  decide!

/-- C21, counterexample: a directory stands at the sidecar path of the payload `/dst/x.v1`, and
every primitive the environment is asked for succeeds.  `writeMetaJson` returns
`/dst/x.v1.json` without writing anything, and `readOrigAbsFromMeta` on that path fails. -/
theorem writeMetaJson_returns_path_of_unwritten_sidecar :
    Demo.resultOf (writeMetaJson Demo.env Demo.opt "/dst/x.v1" "a.txt" "version"
        "20250101-000000" (Demo.world Demo.filesSidecarDir)) = some "/dst/x.v1.json" ∧
      Demo.filesOf (writeMetaJson Demo.env Demo.opt "/dst/x.v1" "a.txt" "version"
        "20250101-000000" (Demo.world Demo.filesSidecarDir)) =
        some [("/dst/x.v1", [1]), ("/dst/x.v1.json/inner", [2])] ∧
      Demo.resultOf
        ((do let m ← writeMetaJson Demo.env Demo.opt "/dst/x.v1" "a.txt" "version"
                "20250101-000000"
             readOrigAbsFromMeta Demo.env m) (Demo.world Demo.filesSidecarDir)) = some none := by
  decide!

/-- C22, counterexample: verification is on with three retries, the volume is ready, the
payload holds the bytes of the source, and the payload cannot be opened when `verifyFile` first
hashes it.  `verifyFile` returns false without a single sleep, although hashing both files right
afterwards gives equal digests. -/
theorem verifyFile_gives_up_on_unreadable_destination :
    Demo.optVerify.maxRetries = 3 ∧
    Demo.resultOf (verifyFile Demo.envSecondOpenFails Demo.optVerify "a.txt"
      (Demo.world Demo.filesCopied)) = some false ∧
    Demo.sleepsOf (verifyFile Demo.envSecondOpenFails Demo.optVerify "a.txt"
      (Demo.world Demo.filesCopied)) = some [] ∧
    Demo.resultOf
      ((do let _ ← verifyFile Demo.envSecondOpenFails Demo.optVerify "a.txt"
           let a ← fileHashSha256 Demo.envSecondOpenFails "/src/a.txt"
           let b ← fileHashSha256 Demo.envSecondOpenFails "/dst/ns/a.txt"
           pure (a, b)) (Demo.world Demo.filesCopied)) = some ([32, 7], [32, 7]) := by
  decide!

/-- C25, the code at the failing input: the limit is 10 bytes per second, so the budget of a
window of 100 ms is one byte, and the source of four bytes is read in one chunk.  The copy reads
the timer once, that is it resets the window once, before the first write, sleeps the 100 ms of a
window and then writes the four bytes: four bytes go out in a window whose budget is one.
Without a limit the copy reads no timer and does not sleep. -/
theorem copyOneFile_window_exceeds_budget :
    (Demo.optSlow.speedLimitBps * 100) / 1000 = 1 ∧
    Demo.resultOf (copyOneFile Demo.env Demo.optSlow 5 "a.txt" 0 (Demo.world Demo.filesFour)) =
      some (true, 4) ∧
    Demo.timerReadsOf (copyOneFile Demo.env Demo.optSlow 5 "a.txt" 0
      (Demo.world Demo.filesFour)) = some 1 ∧
    Demo.sleepsOf (copyOneFile Demo.env Demo.optSlow 5 "a.txt" 0 (Demo.world Demo.filesFour)) =
      some [100] ∧
    Demo.filesOf (copyOneFile Demo.env Demo.optSlow 5 "a.txt" 0 (Demo.world Demo.filesFour)) =
      some [("/dst/ns/a.txt", [7, 8, 9, 10]), ("/src/a.txt", [7, 8, 9, 10])] ∧
    Demo.timerReadsOf (copyOneFile Demo.env Demo.opt 5 "a.txt" 0 (Demo.world Demo.filesFour)) =
      some 0 ∧
    Demo.sleepsOf (copyOneFile Demo.env Demo.opt 5 "a.txt" 0 (Demo.world Demo.filesFour)) =
      some [] := by
  decide!

/-- C26, counterexample: two samples 5 ms apart, 1000 bytes apart, in the arithmetic of
`double`.  `avgBytesPerSec` returns 0; the formula with `max(0.01, ·)` gives 100000. -/
theorem avgBytesPerSec_zero_within_ten_ms :
    SpeedAverager.avgBytesPerSec Demo.roundDouble
      { windowMs := 5000, points := [Point.mk 0 0, Point.mk 5 1000] } = 0 ∧
    clampedAverage Demo.roundDouble (Point.mk 0 0) (Point.mk 5 1000) = 100000 := by
  decide!

/-- The value of `avgBytesPerSec` is the one of the arithmetic of `double`, not of the exact one:
for the samples (0 ms, 0 bytes) and (11 ms, 11 bytes) it is the `double` right above 1000, that
is 1000.0000000000001, since 11 / 1000.0 is rounded down; and byte counts above 2^53 are rounded
before they are subtracted. -/
theorem avgBytesPerSec_in_doubles :
    SpeedAverager.avgBytesPerSec Demo.roundDouble
      { windowMs := 5000, points := [Point.mk 0 0, Point.mk 11 11] } = 1000 + 1 / 2 ^ 43 ∧
    Demo.roundDouble (11 / 1000) < 11 / 1000 ∧
    (1 : ℚ) / 100 < Demo.roundDouble (1 / 100) ∧
    SpeedAverager.avgBytesPerSec Demo.roundDouble
      { windowMs := 5000,
        points := [Point.mk 0 9007199254740992, Point.mk 1000 9007199254740993] } = 0 := by
  decide!

/-- C27, counterexample: the checked source `/data/photos` lies inside the destination `/data`,
which is writable.  `onValidate` reports no error and enables the start button. -/
theorem onValidate_accepts_source_inside_destination :
    isSubPath '/' "/" (cleanPath "/data") (cleanPath "/data/photos") = true ∧
    onValidate '/' "/" (fun _ => true) [SourceItem.mk "/data/photos" true] "/data" =
      ("", true) := by
  decide

/-- Two more inputs that `onValidate` accepts: the destination `/dst` with the root directory as
the checked source (the prefix the test looks for is `//`), and, with the separator of Windows,
the destination `/src/backup` inside the checked source `/src` (the prefix is `/src\`, and
`absolutePath()` separates with `/`). -/
theorem onValidate_accepts_destination_inside_source :
    onValidate '/' "/" (fun _ => true) [SourceItem.mk "/" true] "/dst" = ("", true) ∧
    onValidate '\\' "/" (fun _ => true) [SourceItem.mk "/src" true] "/src/backup" =
      ("", true) ∧
    (onValidate '/' "/" (fun _ => true) [SourceItem.mk "/src" true] "/src/backup").2 =
      false := by
  decide

/-- C30, counterexample: with `hi = 80` (so `lo = 70`) and the samples 90, 75, 90, the third tick
calls `pauseAllTasks` although the sample right before it, 75, is below `hi`. -/
theorem onSmartTick_pauses_after_middle_sample :
    smartLo 80 = 70 ∧
    smartCallAt 80 [90] 75 = SmartCall.nothing ∧
    (smartAfter 80 [90, 75]).busyCount = 1 ∧
    smartCallAt 80 [90, 75] 90 = SmartCall.pauseAll ∧
    (smartAfter 80 [90, 75, 90]).smartPaused = true ∧
    ¬ ((80 : ℚ) ≤ 75) := by
  refine ⟨by decide, by decide, by decide, by decide, by decide, by norm_num⟩

/-- The signals of the run with one changed file: `versionCreated` lies between the `fileStarted`
and the `fileFinished` of the file. -/
theorem run_changed_file_signals :
    Demo.eventsOf (run Demo.env Demo.opt 5 (Demo.world Demo.filesChanged)) =
      some [Event.progressUpdated 0 2, Event.fileStarted "a.txt" 2,
        Event.versionCreated "a.txt" "/dst/.plugbackup_meta/versions/ns/a.txt.v20250101-000000"
          "/dst/.plugbackup_meta/versions/ns/a.txt.v20250101-000000.json",
        Event.fileFinished "a.txt" true "", Event.progressUpdated 2 2,
        Event.finished true "完成"] := by
  decide!

/-- C24, the code at the failing input: the source holds the byte 7 and the payload the byte 5,
both can be opened, and every read fails.  `fileHashSha256` takes the failed read for the end of
the file and returns the digest of no bytes, which is not the empty digest: the two files are
unreadable, yet the fast-equal check, the identical-skip check and the verification all answer
true, and a run without versions reports the file as done and leaves the payload as it was. -/
theorem read_failure_declared_identical :
    Demo.resultOf (fileHashSha256 Demo.env "/src/a.txt" (Demo.world Demo.filesDiffer)) =
      some [32, 7] ∧
    Demo.resultOf (fileHashSha256 Demo.env "/dst/ns/a.txt" (Demo.world Demo.filesDiffer)) =
      some [32, 5] ∧
    Demo.resultOf (fileHashSha256 Demo.envReadsFail "/src/a.txt" (Demo.world Demo.filesDiffer)) =
      some [32] ∧
    Demo.resultOf (fileHashSha256 Demo.envReadsFail "/dst/ns/a.txt"
      (Demo.world Demo.filesDiffer)) = some [32] ∧
    Demo.resultOf (fastEqual Demo.envReadsFail "/src/a.txt" "/dst/ns/a.txt"
      (Demo.world Demo.filesDiffer)) = some true ∧
    Demo.resultOf (identicalCheck Demo.envReadsFail "/src/a.txt" "/dst/ns/a.txt"
      (Demo.world Demo.filesDiffer)) = some true ∧
    Demo.resultOf (verifyFile Demo.envReadsFail Demo.optVerify "a.txt"
      (Demo.world Demo.filesDiffer)) = some true ∧
    Demo.eventsOf (run Demo.envReadsFail Demo.optPlain 5 (Demo.world Demo.filesDiffer)) =
      some [Event.progressUpdated 0 1, Event.fileStarted "a.txt" 1,
        Event.fileFinished "a.txt" true "", Event.progressUpdated 1 1,
        Event.finished true "完成"] ∧
    Demo.filesOf (run Demo.envReadsFail Demo.optPlain 5 (Demo.world Demo.filesDiffer)) =
      some [("/src/a.txt", [7]), ("/dst/ns/a.txt", [5])] := by
  decide!

/-- C17, counterexample: a vault swept on 2025-01-11 with seven days of retention.  The version
`.profile.v20250101-000000` and the tombstone `.config/app.ini.d20250101-000000` are expired
payloads, yet they and the sidecar of the first stay: the iterator of the sweep, built without
`QDir::Hidden`, yields no file whose name starts with a dot and enters no such directory.  The
version `a.txt.v20250101-000000` of the same day goes.  Such a version is one the worker makes
itself: a run with the whitelist `.profile` archives the old payload of that file under this
name. -/
theorem sweepRetention_keeps_hidden_expired :
    expired Demo.envSweep (1736553600000 - 7 * 86400000) ".v"
        "/dst/.plugbackup_meta/versions/ns/.profile.v20250101-000000" = true ∧
      expired Demo.envSweep (1736553600000 - 7 * 86400000) ".d"
        "/dst/.plugbackup_meta/deleted/ns/.config/app.ini.d20250101-000000" = true ∧
      Demo.filesOf (sweepRetention Demo.envSweep Demo.opt 5 (Demo.world Demo.filesVaultHidden)) =
        some [("/dst/.plugbackup_meta/versions/ns/.profile.v20250101-000000", [1]),
          ("/dst/.plugbackup_meta/versions/ns/.profile.v20250101-000000.json", [2]),
          ("/dst/.plugbackup_meta/deleted/ns/.config/app.ini.d20250101-000000", [3])] ∧
      Demo.bytesAt (run Demo.env { Demo.opt with filesWhitelist := [".profile"] } 5
          (Demo.world Demo.filesHiddenChanged))
        "/dst/.plugbackup_meta/versions/ns/.profile.v20250101-000000" = some (some [1, 2, 3]) := by
  decide!

/-- The deletion pass of C8 at a concrete subtree: `gone.txt` and `sub/old.txt`, not in `srcSet`,
are moved to `deletedFilePath`, where their bytes are found afterwards next to a sidecar, and
`deletedStashed` is emitted for each; `keep.txt`, in `srcSet`, stays; the hidden `.profile` and
the file with `\.plugbackup_meta\` in its name, neither in `srcSet`, stay as well.  With
keep-deleted off nothing moves. -/
theorem handleDeletions_on_demo_subtree :
    (Demo.filesOf (handleDeletions Demo.env Demo.opt 5 ["keep.txt"]
        (Demo.world Demo.filesNsGone))).map
        (fun l => l.filter (fun e => !endsWithCI e.1 ".json")) =
      some [("/dst/.plugbackup_meta/deleted/ns/sub/old.txt.d20250101-000000", [6]),
        ("/dst/.plugbackup_meta/deleted/ns/gone.txt.d20250101-000000", [2]),
        ("/dst/ns/.profile", [4]), ("/dst/ns/x\\.plugbackup_meta\\z", [5]),
        ("/dst/ns/keep.txt", [3])] ∧
      (Demo.filesOf (handleDeletions Demo.env Demo.opt 5 ["keep.txt"]
        (Demo.world Demo.filesNsGone))).map
        (fun l => (l.filter (fun e => endsWithCI e.1 ".json")).map (fun e => e.1)) =
      some ["/dst/.plugbackup_meta/deleted/ns/sub/old.txt.d20250101-000000.json",
        "/dst/.plugbackup_meta/deleted/ns/gone.txt.d20250101-000000.json"] ∧
      Demo.eventsOf (handleDeletions Demo.env Demo.opt 5 ["keep.txt"]
        (Demo.world Demo.filesNsGone)) =
      some [Event.deletedStashed "gone.txt"
          "/dst/.plugbackup_meta/deleted/ns/gone.txt.d20250101-000000"
          "/dst/.plugbackup_meta/deleted/ns/gone.txt.d20250101-000000.json",
        Event.deletedStashed "sub/old.txt"
          "/dst/.plugbackup_meta/deleted/ns/sub/old.txt.d20250101-000000"
          "/dst/.plugbackup_meta/deleted/ns/sub/old.txt.d20250101-000000.json"] ∧
      Demo.filesOf (handleDeletions Demo.env { Demo.opt with keepDeletedInVault := false } 5
        ["keep.txt"] (Demo.world Demo.filesNsGone)) =
      Demo.filesOf (some ((), Demo.world Demo.filesNsGone)) := by
  decide!

/-- C16, the code at the failing input: the source holds `a.txt` and `b.txt`, both backed up
unchanged, and the worker is started with the whitelist `a.txt` and keep-deleted on.  The payload
of `b.txt` exists and has the size, the modification time and the non-empty SHA-256 of its
source file, yet the run moves it away, into the deleted vault, with keep-versions off and on. -/
theorem run_whitelist_moves_identical_payload :
    IdenticalAt Demo.env (Demo.world Demo.filesTwo).fs (srcAbsPath Demo.env Demo.optWhitelist "b.txt")
        (dstAbsPath Demo.env Demo.optWhitelist "b.txt") ∧
      dstAbsPath Demo.env Demo.optWhitelist "b.txt" = "/dst/ns/b.txt" ∧
      Demo.movesOf (run Demo.env Demo.optWhitelist 5 (Demo.world Demo.filesTwo)) =
        some [("/dst/ns/b.txt", "/dst/.plugbackup_meta/deleted/ns/b.txt.d20250101-000000", true)] ∧
      Demo.movesOf (run Demo.env { Demo.optWhitelist with keepVersionsOnChange := true } 5
          (Demo.world Demo.filesTwo)) =
        some [("/dst/ns/b.txt", "/dst/.plugbackup_meta/deleted/ns/b.txt.d20250101-000000", true)] ∧
      Demo.bytesAt (run Demo.env { Demo.optWhitelist with keepVersionsOnChange := true } 5
          (Demo.world Demo.filesTwo)) "/dst/ns/b.txt" = some none ∧
      Demo.bytesAt (run Demo.env { Demo.optWhitelist with keepVersionsOnChange := true } 5
          (Demo.world Demo.filesTwo)) "/dst/.plugbackup_meta/deleted/ns/b.txt.d20250101-000000" =
        some (some [2]) :=
  ⟨⟨{ content := [2], mtime := 5 }, { content := [2], mtime := 5 },
      by decide!, by decide!, rfl, by decide, rfl, by decide⟩,
    by decide!, by decide!, by decide!, by decide!, by decide!⟩

end PlugBackup
